import Mathlib

/-! # libdj: out-of-order block fetch and reassembly

A shallow embedding of `heap.c` and of the scan / stripe / reassembly code of
`src/dj.c`, followed by theorems about them.

Conventions of the embedding.

* Pointers to heap-allocated records are modelled by the records themselves
  (linked lists become `List`) or, where identity matters (`inode_cb_info`,
  `stripe`), by an index into a table of the program state.
* `int`, `uint64_t`, `blk64_t`, `e2_blkcnt_t` values are `Nat` / `Int`; the
  places of `next_stripe` where the C arithmetic wraps are written with an
  explicit reduction modulo `2 ^ 64`, and the conversion of `len/blocksize+1`
  to the `int` parameter of `heap_create` with one modulo `2 ^ 32`. The
  products of `scan_block` are products of natural numbers, which the 64-bit
  products of the source equal while they are below `2 ^ 64`.
* Loops that the C code writes as `while` are structural recursions on a list
  or on a fuel argument; for each fuel argument the amount passed by the
  wrapper is enough for the loop to run to its own exit.
-/

namespace Dj

/-! ## heap.c -/

/-- The `struct heap_elem`: a key and the stored pointer. -/
structure heap_elem (α : Type) where
  key : Nat
  value : α
deriving DecidableEq

/-- The `struct heap`: capacity, number of stored elements, element array. -/
structure heap (α : Type) where
  max_size : Nat
  current_size : Nat
  elems : List (heap_elem α)
deriving DecidableEq

instance heap_elem_inhabited {α : Type} [Inhabited α] : Inhabited (heap_elem α) :=
  ⟨⟨0, default⟩⟩

section HeapOps

variable {α : Type} [Inhabited α]

/-- The function `heap_create`: an array of `size` cells (their initial content is never read
before it is written). -/
def heap_create (size : Nat) : heap α :=
  { max_size := size, current_size := 0, elems := List.replicate size default }

/-- The function `heap_size`. -/
def heap_size (h : heap α) : Nat := h.current_size

/-- The function `swap_heap_elems`, on the cells at two indices of the array. -/
def swap_heap_elems (elems : List (heap_elem α)) (first second : Nat) :
    List (heap_elem α) :=
  let tmp_elem := elems.getD first default
  (elems.set first (elems.getD second default)).set second tmp_elem

/-- The loop of `heapify_up`; the parent cell is the one at `index/2`, as in the source. -/
def heapify_up_loop : Nat → List (heap_elem α) → Nat → List (heap_elem α)
  | 0, elems, _ => elems
  | fuel + 1, elems, index =>
    if index > 0 then
      if (elems.getD index default).key < (elems.getD (index / 2) default).key then
        heapify_up_loop fuel (swap_heap_elems elems index (index / 2)) (index / 2)
      else elems
    else elems

/-- The function `heapify_up`. The index halves at every iteration, so `index` iterations
are enough. -/
def heapify_up (h : heap α) (index : Nat) : heap α :=
  { h with elems := heapify_up_loop index h.elems index }

/-- The choice of `swap_index` in one iteration of `heapify_down` (0 means no swap). -/
def heapify_down_swap_index (current_size : Nat) (elems : List (heap_elem α))
    (index : Nat) : Nat :=
  let current_elem := elems.getD index default
  let first_child_index := 2 * index + 1
  let second_child_index := 2 * (index + 1)
  let first_smaller : Bool := decide (first_child_index < current_size) &&
    decide ((elems.getD first_child_index default).key < current_elem.key)
  let second_smaller : Bool := decide (second_child_index < current_size) &&
    decide ((elems.getD second_child_index default).key < current_elem.key)
  if first_smaller && second_smaller then
    (if (elems.getD first_child_index default).key
        < (elems.getD second_child_index default).key
      then first_child_index else second_child_index)
  else if first_smaller then first_child_index
  else if second_smaller then second_child_index
  else 0

/-- The loop of `heapify_down`. -/
def heapify_down_loop : Nat → Nat → List (heap_elem α) → Nat → List (heap_elem α)
  | 0, _, elems, _ => elems
  | fuel + 1, current_size, elems, index =>
    if index < current_size then
      let swap_index := heapify_down_swap_index current_size elems index
      if swap_index > 0 then
        heapify_down_loop fuel current_size (swap_heap_elems elems index swap_index)
          swap_index
      else elems
    else elems

/-- The function `heapify_down`. The index grows at every iteration and stays below
`current_size`, so `current_size` iterations are enough. -/
def heapify_down (h : heap α) (index : Nat) : heap α :=
  { h with elems := heapify_down_loop h.current_size h.current_size h.elems index }

/-- The function `heap_insert`; `none` is the `exit(1)` of a full heap. -/
def heap_insert (h : heap α) (key : Nat) (value : α) : Option (heap α) :=
  if h.current_size = h.max_size then none
  else
    let index := h.current_size
    some (heapify_up
      { h with current_size := h.current_size + 1,
               elems := h.elems.set index ⟨key, value⟩ } index)

/-- The function `heap_min`. -/
def heap_min (h : heap α) : α := (h.elems.getD 0 default).value

/-- The function `heap_delmin`: the old minimum and the heap after the removal. -/
def heap_delmin (h : heap α) : α × heap α :=
  let old_min := (h.elems.getD 0 default).value
  let last_index := h.current_size - 1
  let h1 : heap α :=
    { h with current_size := last_index,
             elems := h.elems.set 0 (h.elems.getD last_index default) }
  (old_min, heapify_down h1 0)

/-- The check of `verify_heap`: every stored key is smaller than the keys of the cells at
`2i+1` and `2i+2`, when those are stored. -/
def verify_heap (h : heap α) : Bool :=
  (List.range h.current_size).all fun i =>
    let current_elem := h.elems.getD i default
    let first_child_index := 2 * i + 1
    let second_child_index := 2 * (i + 1)
    let first_greater : Bool := !decide (first_child_index < h.current_size) ||
      decide ((h.elems.getD first_child_index default).key > current_elem.key)
    let second_greater : Bool := !decide (second_child_index < h.current_size) ||
      decide ((h.elems.getD second_child_index default).key > current_elem.key)
    first_greater && second_greater

/-- The stored pairs, in array order. -/
def heap_contents (h : heap α) : List (heap_elem α) := h.elems.take h.current_size

/-- A heap whose array has `max_size` cells, of which at most `max_size` are in use. -/
def heap_wf (h : heap α) : Prop :=
  h.elems.length = h.max_size ∧ h.current_size ≤ h.max_size

end HeapOps

/-- A client's call of the heap interface. -/
inductive heap_call where
  | insert (key : Nat) (value : Nat)
  | delmin
deriving DecidableEq

/-- Runs a sequence of client calls; `none` when `heap_insert` exits. -/
def run_heap_calls : List heap_call → heap Nat → Option (heap Nat)
  | [], h => some h
  | heap_call.insert k v :: rest, h =>
    match heap_insert h k v with
    | none => none
    | some h1 => run_heap_calls rest h1
  | heap_call.delmin :: rest, h => run_heap_calls rest (heap_delmin h).2

/-- Eight inserts of distinct keys (value `100 + key`) and three `heap_delmin` calls, each on
a non-empty heap of capacity 7. -/
def heap_calls_example : List heap_call :=
  [.insert 1 101, .insert 3 103, .insert 2 102, .insert 7 107, .insert 5 105, .delmin,
   .insert 4 104, .insert 8 108, .insert 6 106, .delmin, .delmin]

/-! ## dj.c: records -/

/-- The `struct stripe_pointer`: the stripe (`none` is `NULL`), the start of the block
inside the stripe buffer, and the block's byte length. -/
structure stripe_pointer where
  stripe : Option Nat
  pos : Nat
  len : Nat
deriving DecidableEq

/-- The `struct block_list`, one record of a linked list (the `next` link is the list).
`inode_info` is the pointer to the owning `inode_cb_info`, as an index. -/
structure block_list where
  inode_info : Nat
  physical_block : Nat
  logical_block : Nat
  num_blocks : Nat
  stripe_ptr : stripe_pointer
deriving DecidableEq

instance block_list_inhabited : Inhabited block_list :=
  ⟨⟨0, 0, 0, 0, ⟨none, 0, 0⟩⟩⟩

/-- The `struct inode_cb_info` (the path, which is only handed on to the callback, is left
out). `freed` records that `free(inode_info)` has run. -/
structure inode_cb_info where
  inode : Nat
  len : Nat
  blocks_scanned : Nat
  blocks_read : Nat
  references : Int
  block_cache : Option (heap block_list)
  freed : Bool
deriving DecidableEq

/-- The `struct stripe`; `data` is the buffer, `freed` records that the stripe was freed. -/
structure stripe where
  consecutive_blocks : Nat
  consecutive_len : Nat
  references : Int
  data : List Nat
  freed : Bool
deriving DecidableEq

/-- The `struct inode_list`, one entry: inode number, declared length, and the list
`blocks_start .. blocks_end` of its records. -/
structure inode_list where
  index : Nat
  len : Nat
  blocks : List block_list
deriving DecidableEq

/-- One invocation of the client callback: `cb(inode, path, pos, file_len, data, data_len,
&inode_info->cb_private)`. The last argument identifies the `inode_cb_info`. -/
structure cb_call where
  inode : Nat
  pos : Nat
  file_len : Nat
  data : List Nat
  data_len : Nat
  cb_private : Nat
deriving DecidableEq

/-- Whether the process is still running, has called `exit`, or has dereferenced a null or
freed pointer. -/
inductive run_status where
  | running
  | exited
  | invalid_access
deriving DecidableEq

/-- The program state of `iterate_dir`: the allocated `inode_cb_info` and `stripe` records,
`open_inodes_count`, the callback invocations made so far, and the successive values taken
by `open_inodes_count`. -/
structure dj_state where
  infos : List inode_cb_info
  stripes : List stripe
  open_inodes_count : Int
  calls : List cb_call
  status : run_status
  open_inodes_hist : List Int
deriving DecidableEq

/-- The part of `ext2_filsys` the code uses: the block size, and for `ext2fs_block_iterate3`
the callbacks `(physical block, logical block)` it makes for an inode number. -/
structure ext2_filsys where
  blocksize : Nat
  block_iterate : Nat → List (Nat × Nat)

/-- The state at the start of `iterate_dir`. -/
def dj_state.init : dj_state :=
  { infos := [], stripes := [], open_inodes_count := 0, calls := [],
    status := run_status.running, open_inodes_hist := [] }

/-! ## dj.c: block scan -/

/-- The `struct scan_blocks_info` during the scan of one inode: the `inode_cb_info` (with its
index `info_id`) and the block list of the `inode_list` entry. -/
structure scan_blocks_info where
  info_id : Nat
  inode_info : inode_cb_info
  blocks : List block_list
deriving DecidableEq

/-- The end of `scan_block` (lines 80-86): `num_blocks++` and the byte length of the record,
clipped to the end of the file. -/
def scan_block_extend (block_size len : Nat) (list : block_list) : block_list :=
  let num_blocks := list.num_blocks + 1
  let logical_pos := list.logical_block * block_size
  let remaining_len := len - logical_pos
  let simple_len := num_blocks * block_size
  { list with
    num_blocks := num_blocks,
    stripe_ptr := { list.stripe_ptr with
      len := if simple_len > remaining_len then remaining_len else simple_len } }

/-- The function `scan_block`, with the recursion depth as fuel. The products
`logical_block * block_size` and `num_blocks * block_size` are products of natural numbers;
the source computes them in `uint64_t`, with the same result while they are below `2 ^ 64`. -/
def scan_block_rec : Nat → Nat → Nat → Nat → scan_blocks_info → scan_blocks_info
  | 0, _, _, _, si => si
  | fuel + 1, block_size, physical_block, logical_block, si =>
    if logical_block * block_size ≥ si.inode_info.len ∨ si.inode_info.len = 0 then si
    else
      let extends_end : Bool := match si.blocks.getLast? with
        | some blocks_end =>
          decide (blocks_end.physical_block + blocks_end.num_blocks = physical_block)
        | none => false
      if extends_end then
        let list := si.blocks.getLast?.getD default
        { si with
          inode_info := { si.inode_info with
            blocks_scanned := si.inode_info.blocks_scanned + 1 },
          blocks := si.blocks.dropLast
            ++ [scan_block_extend block_size si.inode_info.len list] }
      else
        let list : block_list :=
          { inode_info := si.info_id, physical_block := physical_block,
            logical_block := logical_block, num_blocks := 0,
            stripe_ptr := ⟨none, 0, 0⟩ }
        let si1 : scan_blocks_info :=
          { si with inode_info := { si.inode_info with
              references := si.inode_info.references + 1 } }
        let si2 := (List.range' si1.inode_info.blocks_scanned
            (logical_block - si1.inode_info.blocks_scanned)).foldl
          (fun acc i => scan_block_rec fuel block_size 0 i acc) si1
        { si2 with
          inode_info := { si2.inode_info with
            blocks_scanned := si2.inode_info.blocks_scanned + 1 },
          blocks := si2.blocks
            ++ [scan_block_extend block_size si2.inode_info.len list] }

/-- The function `scan_block`. A nested call has a smaller logical block, so a depth of
`logical_block + 1` is never exhausted. -/
def scan_block (block_size physical_block logical_block : Nat)
    (si : scan_blocks_info) : scan_blocks_info :=
  scan_block_rec (logical_block + 1) block_size physical_block logical_block si

/-- The scan of one `inode_list` entry (lines 114-131): a fresh `inode_cb_info`, stored at
index `info_id`, and `scan_block` for every callback of `ext2fs_block_iterate3`. -/
def scan_inode (fs : ext2_filsys) (entry : inode_list) (info_id : Nat) : scan_blocks_info :=
  (fs.block_iterate entry.index).foldl
    (fun acc cb => scan_block fs.blocksize cb.1 cb.2 acc)
    { info_id := info_id,
      inode_info := { inode := entry.index, len := entry.len, blocks_scanned := 0,
                      blocks_read := 0, references := 0, block_cache := none, freed := false },
      blocks := entry.blocks }

/-- The body of the loop of `scan_blocks` for one `inode_list` entry: the scan, then the
callback for a file without records, whose `inode_cb_info` is freed (lines 133-141). -/
def scan_blocks_inode (fs : ext2_filsys) (entry : inode_list) (s : dj_state) :
    inode_list × dj_state :=
  let scanned := scan_inode fs entry s.infos.length
  if scanned.inode_info.references = 0 then
    ({ entry with blocks := scanned.blocks },
     { s with
       infos := s.infos ++ [{ scanned.inode_info with freed := true }],
       calls := s.calls ++ [{ inode := scanned.inode_info.inode, pos := 0, file_len := 0,
                              data := [], data_len := 0, cb_private := s.infos.length }] })
  else
    ({ entry with blocks := scanned.blocks },
     { s with infos := s.infos ++ [scanned.inode_info] })

/-- The function `scan_blocks`: the loop over the inode list. -/
def scan_blocks (fs : ext2_filsys) : List inode_list → dj_state → List inode_list × dj_state
  | [], s => ([], s)
  | entry :: rest, s =>
    let r := scan_blocks_inode fs entry s
    let rs := scan_blocks fs rest r.2
    (r.1 :: rs.1, rs.2)

/-! ## dj.c: stripes -/

/-- Conversion of a 64-bit result to `e2_blkcnt_t` (signed, two's complement). -/
def to_s64 (x : Int) : Int :=
  (x + 9223372036854775808) % 18446744073709551616 - 9223372036854775808

/-- Reduction of an arithmetic result to an unsigned 64-bit value. -/
def to_u64 (x : Int) : Nat := (x % 18446744073709551616).toNat

/-- The freshly allocated (`ecalloc`) stripe of `next_stripe`. -/
def stripe.empty : stripe :=
  { consecutive_blocks := 0, consecutive_len := 0, references := 0, data := [],
    freed := false }

/-- The `physical_block_diff` of `next_stripe`: 0 for the first record, otherwise the
distance from the end of the previous record, as a signed 64-bit value. -/
def physical_block_diff (prev_fwd_block : Option block_list) (fwd : block_list) : Int :=
  match prev_fwd_block with
  | none => 0
  | some prev =>
    to_s64 ((fwd.physical_block : Int) - ((prev.physical_block : Int) + prev.num_blocks))

/-- What `next_stripe` writes into an absorbed record (lines 278-284): the stripe, and the
start of the block relative to the first block of the stripe. -/
def absorb (block_size sid head_physical : Nat) (fwd : block_list) : block_list :=
  { fwd with stripe_ptr :=
      { stripe := some sid,
        pos := to_u64 (((fwd.physical_block : Int) - head_physical) * block_size),
        len := fwd.stripe_ptr.len } }

/-- What `next_stripe` adds to the stripe for an absorbed record (lines 276-287). -/
def stripe.absorb (st : stripe) (block_size : Nat) (diff : Int) (fwd : block_list) : stripe :=
  { st with
    consecutive_blocks := st.consecutive_blocks + fwd.num_blocks,
    references := st.references + 1,
    consecutive_len :=
      to_u64 ((to_u64 ((st.consecutive_len : Int) + fwd.num_blocks * block_size) : Int)
        + diff * block_size) }

/-- The loop of `next_stripe`: `head_physical` is `block_list->physical_block`, `sid` the new
stripe. Returns the stripe, the records absorbed into it (their `stripe_ptr` set), and the
rest of the list, starting at the record on which the loop stopped. -/
def next_stripe_loop (block_size : Nat) (coalesce_distance : Int) (sid : Nat)
    (head_physical : Nat) :
    Option block_list → List block_list → stripe →
      stripe × List block_list × List block_list
  | _, [], st => (st, [], [])
  | prev_fwd_block, fwd :: rest, st =>
    let diff := physical_block_diff prev_fwd_block fwd
    if diff > coalesce_distance then (st, [], fwd :: rest)
    else
      let fwd1 := absorb block_size sid head_physical fwd
      let r := next_stripe_loop block_size coalesce_distance sid head_physical
        (some fwd1) rest (st.absorb block_size diff fwd)
      (r.1, fwd1 :: r.2.1, r.2.2)

/-- The function `next_stripe`: the stripe, the absorbed records and the rest of the list
(the list the C code leaves is the absorbed records followed by the rest). The check of
`max_inode_blocks` is commented out in the source, so the argument is not used. -/
def next_stripe (block_size : Nat) (coalesce_distance : Int) (_max_inode_blocks : Int)
    (sid : Nat) (list : List block_list) : stripe × List block_list × List block_list :=
  match list with
  | [] => (stripe.empty, [], [])
  | head :: _ =>
    next_stripe_loop block_size coalesce_distance sid head.physical_block none list
      stripe.empty

/-- The call `pread(fd, buf, len, offset)` on the device: `dev` gives the byte of the device
at an offset (the device is taken to be long enough, so the read is never short). -/
def pread (dev : Nat → Nat) (len offset : Nat) : List Nat :=
  (List.range len).map (fun k => dev (offset + k))

/-- The function `read_stripe_data`. The sum `consecutive_len + 511` and the product
`physical_block * block_size` are computed in 64 bits. -/
def read_stripe_data (dev : Nat → Nat) (block_size physical_block : Nat) (direct : Bool)
    (st : stripe) : stripe :=
  if physical_block ≠ 0 then
    let physical_read_len :=
      if direct then (to_u64 ((st.consecutive_len : Int) + 511) / 512) * 512
      else st.consecutive_len
    { st with data := (pread dev physical_read_len
        (to_u64 ((physical_block : Int) * (block_size : Int)))) }
  else
    { st with data := List.replicate st.consecutive_len 0 }

/-! ## dj.c: reassembly -/

/-- Marks the state as stopped. -/
def dj_state.stop (s : dj_state) (why : run_status) : dj_state := { s with status := why }

/-- The second half of an iteration of `flush_inode_blocks` (lines 164-188), for the block
`heap_min` returned: the callback, `blocks_read`, the release of the stripe and of the
inode. `cache` is the heap before `heap_delmin`, `st` the stripe at index `sid`. The
result is the new state and whether the loop goes on. -/
def flush_deliver (block_size id : Nat) (s : dj_state) (inode_info : inode_cb_info)
    (cache : heap block_list) (sid : Nat) (st : stripe) : dj_state × Bool :=
  let next_block := heap_min cache
  let cache1 := (heap_delmin cache).2
  let logical_pos := next_block.logical_block * block_size
  let call : cb_call :=
    { inode := inode_info.inode, pos := logical_pos, file_len := inode_info.len,
      data := ((st.data.drop next_block.stripe_ptr.pos).take next_block.stripe_ptr.len),
      data_len := next_block.stripe_ptr.len, cb_private := id }
  let st1 : stripe :=
    if st.references - 1 = 0 then
      { st with references := st.references - 1, data := [], freed := true }
    else { st with references := st.references - 1 }
  let info1 : inode_cb_info :=
    { inode_info with
      block_cache := some cache1,
      blocks_read := inode_info.blocks_read + next_block.num_blocks,
      references := inode_info.references - 1 }
  if info1.references = 0 then
    ({ s with
       infos := (s.infos.set id { info1 with block_cache := none, freed := true }),
       stripes := s.stripes.set sid st1,
       calls := s.calls ++ [call],
       open_inodes_count := s.open_inodes_count - 1,
       open_inodes_hist := (s.open_inodes_hist ++ [s.open_inodes_count - 1]) }, false)
  else
    ({ s with
       infos := s.infos.set id info1,
       stripes := s.stripes.set sid st1,
       calls := s.calls ++ [call] }, true)

/-- One iteration of the loop of `flush_inode_blocks` for the `inode_cb_info` at index `id`:
the new state, and whether the loop goes on (`false` for the loop condition failing, for
both `break`s, and for a stop of the process). -/
def flush_iteration (block_size id : Nat) (s : dj_state) : dj_state × Bool :=
  match s.infos[id]? with
  | none => (s.stop run_status.invalid_access, false)
  | some inode_info =>
    if inode_info.freed then (s.stop run_status.invalid_access, false)
    else
      match inode_info.block_cache with
      | none => (s.stop run_status.invalid_access, false)
      | some cache =>
        if heap_size cache > 0 then
          if (heap_min cache).logical_block = inode_info.blocks_read then
            if inode_info.references ≤ 0 then
              (({ s with infos := (s.infos.set id
                  { inode_info with block_cache := some (heap_delmin cache).2 }) }
                  : dj_state).stop run_status.exited, false)
            else
              match (heap_min cache).stripe_ptr.stripe with
              | none => (s.stop run_status.invalid_access, false)
              | some sid =>
                match s.stripes[sid]? with
                | none => (s.stop run_status.invalid_access, false)
                | some st =>
                  if st.freed then (s.stop run_status.invalid_access, false)
                  else flush_deliver block_size id s inode_info cache sid st
          else (s, false)
        else (s, false)

/-- The loop of `flush_inode_blocks`. -/
def flush_loop : Nat → Nat → Nat → dj_state → dj_state
  | 0, _, _, s => s
  | fuel + 1, block_size, id, s =>
    let r := flush_iteration block_size id s
    if r.2 then flush_loop fuel block_size id r.1 else r.1

/-- The function `flush_inode_blocks`. Every iteration that does not leave the loop removes
one element of the heap, so `heap_size` iterations are enough. -/
def flush_inode_blocks (block_size id : Nat) (s : dj_state) : dj_state :=
  match s.infos[id]? with
  | none => s.stop run_status.invalid_access
  | some inode_info =>
    match inode_info.block_cache with
    | none => s.stop run_status.invalid_access
    | some cache => flush_loop (heap_size cache) block_size id s

/-- Conversion of an integer value to `int` (32 bits, two's complement). -/
def to_s32 (x : Int) : Int := (x + 2147483648) % 4294967296 - 2147483648

/-- The argument of `heap_create` in `heapify_stripe` (line 336): `len/blocksize+1` is
computed in 64 bits and converted to the parameter `int size`. -/
def heap_create_size (len block_size : Nat) : Int :=
  to_s32 (to_u64 ((len / block_size + 1 : Nat) : Int))

/-- One iteration of the loop of `heapify_stripe` for the record `b`: the heap is created
when missing, `b` is inserted with its logical block as key, and the heap is flushed. The
capacity of a new heap is the `int` that `heap_create` receives: with a negative `size` the
`malloc` of `heap_create` is asked for more than `2 ^ 64 - 2 ^ 35` bytes and returns NULL,
and `heap_insert` writes through `elems`; with `size` 0 `heap_insert` finds the heap full. -/
def heapify_block (fs : ext2_filsys) (b : block_list) (s : dj_state) : dj_state :=
  match s.infos[b.inode_info]? with
  | none => s.stop run_status.invalid_access
  | some inode_info =>
    if inode_info.freed then s.stop run_status.invalid_access
    else if inode_info.block_cache.isNone = true
        ∧ heap_create_size inode_info.len fs.blocksize < 0 then
      s.stop run_status.invalid_access
    else
      let cache : heap block_list := match inode_info.block_cache with
        | none => heap_create (heap_create_size inode_info.len fs.blocksize).toNat
        | some cache => cache
      match heap_insert cache b.logical_block b with
      | none => s.stop run_status.exited
      | some cache1 =>
        flush_inode_blocks fs.blocksize b.inode_info
          { s with infos := (s.infos.set b.inode_info
              { inode_info with block_cache := some cache1 }) }

/-- The loop of `heapify_stripe`: returns the record at which the walk stopped (with the
rest of the list) and the state. -/
def heapify_stripe_loop (fs : ext2_filsys) (consecutive_blocks : Nat) :
    Nat → List block_list → dj_state → List block_list × dj_state
  | read_blocks, [], s =>
    if read_blocks < consecutive_blocks then ([], s.stop run_status.invalid_access)
    else ([], s)
  | read_blocks, b :: rest, s =>
    if read_blocks < consecutive_blocks then
      let s1 := heapify_block fs b s
      if s1.status = run_status.running then
        heapify_stripe_loop fs consecutive_blocks (read_blocks + b.num_blocks) rest s1
      else (rest, s1)
    else (b :: rest, s)

/-- The function `heapify_stripe`, for the stripe at index `sid`. -/
def heapify_stripe (fs : ext2_filsys) (list : List block_list) (sid : Nat)
    (_max_inode_blocks : Int) (s : dj_state) : List block_list × dj_state :=
  match s.stripes[sid]? with
  | none => (list, s.stop run_status.invalid_access)
  | some st =>
    if st.freed then (list, s.stop run_status.invalid_access)
    else heapify_stripe_loop fs st.consecutive_blocks 0 list s

/-! ## dj.c: the read loop of iterate_dir -/

/-- Modelled from the spec: `block_list_sort`, generated by the macro `SORT_FUNC` of
`listsort.h`, which is not among the sources; the spec has "Stable-sort `scheduled` by
`physical_block` ascending". -/
def block_list_sort (l : List block_list) : List block_list :=
  l.insertionSort (fun p q => p.physical_block ≤ q.physical_block)

/-- Modelled from the spec: `inode_list_sort`, generated by the macro `SORT_FUNC` of
`listsort.h`, which is not among the sources; the spec has "the list is sorted by inode
number before scanning". -/
def inode_list_sort (l : List inode_list) : List inode_list :=
  l.insertionSort (fun p q => p.index ≤ q.index)

/-- The parameters of `iterate_dir` that the read loop uses, and the device content. -/
structure dj_params where
  max_inodes : Int
  max_blocks : Int
  coalesce_distance : Int
  direct : Bool
  dev : Nat → Nat

/-- The admit loop (lines 404-428): while inodes remain and `open_inodes_count` is below
`max_inodes`, the records of the next inode are appended to the global list. -/
def admit_loop (max_inodes : Int) :
    List inode_list → List block_list → dj_state →
      List inode_list × List block_list × dj_state
  | [], block_list_start, s => ([], block_list_start, s)
  | entry :: rest, block_list_start, s =>
    if s.open_inodes_count < max_inodes then
      if entry.blocks ≠ [] then
        admit_loop max_inodes rest (block_list_start ++ entry.blocks)
          { s with open_inodes_count := s.open_inodes_count + 1,
                   open_inodes_hist := s.open_inodes_hist ++ [s.open_inodes_count + 1] }
      else admit_loop max_inodes rest block_list_start s
    else (entry :: rest, block_list_start, s)

/-- The `max_inode_blocks` of line 437 (C integer division). -/
def max_inode_blocks (max_blocks open_inodes_count : Int) : Int :=
  if open_inodes_count > 0 then
    Int.tdiv (max_blocks + open_inodes_count - 1) open_inodes_count
  else max_blocks

/-- The first part of an iteration of the drain loop (lines 446-457): `next_stripe` on the
list `head :: rest`, then `read_stripe_data` for a stripe with blocks, `free(stripe)` for one
without. Returns the stripe, the absorbed records and the rest of the list. -/
def drain_stripe (fs : ext2_filsys) (p : dj_params) (mib : Int) (sid : Nat)
    (head : block_list) (rest : List block_list) :
    stripe × List block_list × List block_list :=
  let r := next_stripe fs.blocksize p.coalesce_distance mib sid (head :: rest)
  if r.1.consecutive_blocks > 0 then
    (read_stripe_data p.dev fs.blocksize head.physical_block p.direct r.1, r.2)
  else ({ r.1 with freed := true }, r.2)

/-- The last part of an iteration of the drain loop (lines 465-475): when `consecutive_len`
is 0 and a record is left, that record is moved to the end of the residual list. Returns the
read position and the residual list. -/
def drain_requeue (consecutive_len : Nat) (list residual : List block_list) :
    List block_list × List block_list :=
  match list with
  | [] => ([], residual)
  | b :: old_next =>
    if consecutive_len = 0 then (old_next, residual ++ [b]) else (b :: old_next, residual)

/-- The drain loop (lines 442-476): `list` is the read position, `residual` the list
re-queued through `prev_next_ptr`. Returns the new `block_list_start` and the state. -/
def drain_loop (fs : ext2_filsys) (p : dj_params) (mib : Int) :
    Nat → List block_list → List block_list → dj_state → List block_list × dj_state
  | 0, _, residual, s => (residual, s)
  | _ + 1, [], residual, s => (residual, s)
  | fuel + 1, head :: rest, residual, s =>
    let sid := s.stripes.length
    let d := drain_stripe fs p mib sid head rest
    let s1 : dj_state := { s with stripes := s.stripes ++ [d.1] }
    if d.1.freed then (residual, s1.stop run_status.invalid_access)
    else
      let h := heapify_stripe fs (d.2.1 ++ d.2.2) sid mib s1
      if h.2.status = run_status.running then
        let q := drain_requeue d.1.consecutive_len h.1 residual
        drain_loop fs p mib fuel q.1 q.2 h.2
      else (residual, h.2)

/-- Where the outer loop of `iterate_dir` stands: `finished` when the loop condition
`inode_list != NULL` was found false, with the remaining inode list, the list
`block_list_start` and the state. -/
structure read_loop_result where
  finished : Bool
  inode_list : List inode_list
  block_list_start : List block_list
  state : dj_state
deriving DecidableEq

/-- The outer loop of `iterate_dir` (lines 398-479), run for at most `fuel` iterations (the
loop need not terminate). -/
def read_loop (fs : ext2_filsys) (p : dj_params) :
    Nat → List inode_list → List block_list → dj_state → read_loop_result
  | 0, inode_list, block_list_start, s =>
    { finished := decide (inode_list = []), inode_list := inode_list,
      block_list_start := block_list_start, state := s }
  | fuel + 1, inode_list, block_list_start, s =>
    if inode_list = [] then
      { finished := true, inode_list := inode_list,
        block_list_start := block_list_start, state := s }
    else
      let a := admit_loop p.max_inodes inode_list block_list_start s
      let sorted := block_list_sort a.2.1
      let mib := max_inode_blocks p.max_blocks a.2.2.open_inodes_count
      let d := drain_loop fs p mib sorted.length sorted [] a.2.2
      if d.2.status = run_status.running then read_loop fs p fuel a.1 d.1 d.2
      else { finished := false, inode_list := a.1, block_list_start := d.1, state := d.2 }

/-- The function `iterate_dir` from the inode list returned by `get_inode_list` on (its
entries have no records yet): sort by inode number, block scan, read loop. -/
def iterate_dir (fs : ext2_filsys) (p : dj_params) (fuel : Nat)
    (inodes : List inode_list) : read_loop_result :=
  let scanned := scan_blocks fs (inode_list_sort inodes) dj_state.init
  read_loop fs p fuel scanned.1 [] scanned.2

/-- A record as `scan_block` leaves it for a file of `len` bytes: at least one block, a start
inside the file, and the byte length clipped to the end of the file. -/
def block_wf (block_size len : Nat) (b : block_list) : Prop :=
  0 < b.num_blocks ∧ b.logical_block * block_size < len ∧
    b.stripe_ptr.len = min (b.num_blocks * block_size) (len - b.logical_block * block_size)

/-- The callback invocations made for the `inode_cb_info` at index `id`. -/
def calls_of (id : Nat) (calls : List cb_call) : List cb_call :=
  calls.filter (fun c => decide (c.cb_private = id))

/-- The byte position after the last invocation (0 when there is none). -/
def chain_end (cs : List cb_call) : Nat :=
  match cs.getLast? with
  | none => 0
  | some c => c.pos + c.data_len

/-- The invocations `cs` made so far for a file of `len` bytes of which `blocks_read` blocks
have been delivered. -/
structure chain_inv (block_size len blocks_read : Nat) (cs : List cb_call) : Prop where
  pos_len : ∀ c ∈ cs, 0 < c.data_len
  adjacent : cs.Chain' (fun a b => b.pos = a.pos + a.data_len)
  increasing : cs.Chain' (fun a b => a.pos < b.pos)
  first : ∀ c, cs.head? = some c → c.pos = 0
  last : chain_end cs = min (blocks_read * block_size) len

/-- The invariant of the reassembly of the file at index `id`, for the invocations made
after the first `k`. -/
def inode_inv (k block_size len id : Nat) (s : dj_state) : Prop :=
  ∃ info, s.infos[id]? = some info ∧ info.len = len ∧ k ≤ s.calls.length ∧
    (∀ cache, info.block_cache = some cache →
      heap_wf cache ∧ ∀ e ∈ heap_contents cache, block_wf block_size len e.value) ∧
    chain_inv block_size len info.blocks_read (calls_of id (s.calls.drop k))

/-- What holds of the `scan_blocks_info` during the scan of the file at index `id`. -/
def scan_inv (bs len id : Nat) (si : scan_blocks_info) : Prop :=
  si.inode_info.len = len ∧ si.info_id = id ∧
    ∀ b ∈ si.blocks, block_wf bs len b ∧ b.inode_info = id

/-- The fields of the `inode_cb_info` that `scan_block` does not touch. -/
def scan_frame (info : inode_cb_info) (si : scan_blocks_info) : Prop :=
  si.inode_info.inode = info.inode ∧ si.inode_info.len = info.len ∧
    si.inode_info.blocks_read = info.blocks_read ∧
    si.inode_info.block_cache = info.block_cache ∧ si.inode_info.freed = info.freed

/-- A file of three one-byte blocks, stored at the physical blocks 50, 30, 40. -/
def three_block_fs : ext2_filsys :=
  { blocksize := 1, block_iterate := fun _ => [(50, 0), (30, 1), (40, 2)] }

/-- The state after the scan of that file, with one stripe of three bytes allocated. -/
def three_block_state : dj_state :=
  { (scan_blocks_inode three_block_fs ⟨12, 3, []⟩ dj_state.init).2 with
    stripes := [{ consecutive_blocks := 3, consecutive_len := 3, references := 3,
                  data := [7, 8, 9], freed := false }] }

/-- The three records of that file in the order of their physical blocks. -/
def three_block_order : List block_list :=
  [⟨0, 30, 1, 1, ⟨some 0, 0, 1⟩⟩, ⟨0, 40, 2, 1, ⟨some 0, 1, 1⟩⟩, ⟨0, 50, 0, 1, ⟨some 0, 2, 1⟩⟩]

/-- The device content used in the examples: the byte at offset `k` is `k + 1`. -/
def example_dev : Nat → Nat := fun k => k + 1

/-- A fully allocated file of ten one-byte blocks; logical block `i` is stored at the
physical block 50, 100, 30, 40, 70, 80, 20, 60, 90, 10 for `i = 0, .., 9`, so that the
physical order reads the logical blocks 9, 6, 2, 3, 0, 7, 4, 5, 8, 1. -/
def ten_block_fs : ext2_filsys :=
  { blocksize := 1,
    block_iterate := fun _ =>
      [(50, 0), (100, 1), (30, 2), (40, 3), (70, 4), (80, 5), (20, 6), (60, 7), (90, 8),
       (10, 9)] }

/-- The default parameters of `cmd_line.c`: 100 inodes, 128000 blocks, distance 1. -/
def default_params : dj_params :=
  { max_inodes := 100, max_blocks := 128000, coalesce_distance := 1, direct := false,
    dev := example_dev }

/-- What the callback saw and what is left: whether the loop reached its exit, the
`(pos, data_len)` of the invocations, whether the process is still running, and per
`inode_cb_info` its `references`, its `blocks_read` and the size of its heap. -/
structure run_summary where
  finished : Bool
  calls : List (Nat × Nat)
  running : Bool
  references : List Int
  blocks_read : List Nat
  heap_sizes : List (Option Nat)
deriving DecidableEq

/-- The summary of a run of the read loop. -/
def read_loop_result.summary (r : read_loop_result) : run_summary :=
  { finished := r.finished,
    calls := r.state.calls.map (fun c => (c.pos, c.data_len)),
    running := decide (r.state.status = run_status.running),
    references := r.state.infos.map (fun i => i.references),
    blocks_read := r.state.infos.map (fun i => i.blocks_read),
    heap_sizes := r.state.infos.map (fun i => i.block_cache.map heap_size) }

/-- A file of two one-byte blocks of which only logical block 0 is allocated (at physical
block 100): a hole at the end of the file. -/
def trailing_hole_fs : ext2_filsys :=
  { blocksize := 1, block_iterate := fun _ => [(100, 0)] }

/-- A sparse file of two blocks of two bytes: logical block 0 is a hole, logical block 1 is
stored at physical block 3. -/
def hole_then_data_fs : ext2_filsys :=
  { blocksize := 2, block_iterate := fun _ => [(3, 1)] }

/-- The offsets and contents delivered. -/
def delivered (r : read_loop_result) : List (Nat × List Nat) :=
  r.state.calls.map (fun c => (c.pos, c.data))

/-- The `inode_cb_info` at index `id` is `io` and the invocations made for it are `cs`. -/
def other_untouched (id : Nat) (io : Option inode_cb_info) (cs : List cb_call)
    (s : dj_state) : Prop :=
  s.infos[id]? = io ∧ calls_of id s.calls = cs

/-- Two files: inode 5 with three blocks of one byte, and inode 12 of length 0, for which
the library nevertheless reports a block. -/
def empty_file_fs : ext2_filsys :=
  { blocksize := 1,
    block_iterate := fun ino => if ino = 5 then [(100, 0), (101, 1), (102, 2)] else [(7, 0)] }

/-- The number of blocks held in the heap of an `inode_cb_info`. -/
def heap_blocks (info : inode_cb_info) : Nat :=
  match info.block_cache with
  | none => 0
  | some cache => ((heap_contents cache).map (fun e => e.value.num_blocks)).sum

/-- The number of blocks queued for delivery: the sum of `num_blocks` over the records of
the scheduled list and of the per-inode heaps. -/
def queued_blocks (scheduled : List block_list) (s : dj_state) : Nat :=
  (scheduled.map (fun b => b.num_blocks)).sum + (s.infos.map heap_blocks).sum

/-- A file of two one-byte blocks stored at the physical blocks 10 and 20. -/
def two_block_fs : ext2_filsys :=
  { blocksize := 1, block_iterate := fun _ => [(10, 0), (20, 1)] }

/-- The parameters of the example: `max_blocks = 1`. -/
def one_block_budget : dj_params :=
  { max_inodes := 100, max_blocks := 1, coalesce_distance := 1, direct := false,
    dev := example_dev }

/-- Whether the `inode_cb_info` at index `i` exists and has not been freed. -/
def info_unfreed (infos : List inode_cb_info) (i : Nat) : Bool :=
  match infos[i]? with
  | some info => !info.freed
  | none => false

/-- The number of `inode_cb_info` records that are not freed among those with index below
`k`. -/
def opened (infos : List inode_cb_info) (k : Nat) : Nat :=
  ((List.range k).filter (info_unfreed infos)).length

/-- The invariant of `open_inodes_count` when the first `k` entries of the inode list have
been admitted: the counter is the number of admitted files not yet freed, it and all its
former values are between 0 and `max`, and the records of the files not yet admitted are
freed or not as `ref` says. -/
structure count_inv (max : Int) (k : Nat) (ref : List Bool) (s : dj_state) : Prop where
  count : s.open_inodes_count = opened s.infos k
  le_max : s.open_inodes_count ≤ max
  hist : ∀ v ∈ s.open_inodes_hist, 0 ≤ v ∧ v ≤ max
  rest : ∀ i, k ≤ i → info_unfreed s.infos i = ref.getD i false

/-- The entries of the inode list not yet admitted, the first of them being entry `k`: an
entry has records exactly when `ref` says so, and its records point to the
`inode_cb_info` with the entry's index. -/
def pending_inv (k : Nat) (ref : List Bool) (il : List inode_list) : Prop :=
  ∀ j e, il[j]? = some e →
    ref.getD (k + j) false = decide (e.blocks ≠ []) ∧ ∀ b ∈ e.blocks, b.inode_info = k + j

/-- Two neighbours of the scheduled list, sorted by physical block with disjoint ranges: the
first ends before the second starts, or both are hole records (physical block 0, one
block). -/
def phys_ordered (a b : block_list) : Prop :=
  a.physical_block + a.num_blocks ≤ b.physical_block ∨
    (a.physical_block = 0 ∧ a.num_blocks = 1 ∧ b.physical_block = 0 ∧ b.num_blocks = 1)

/-- A record with at least one block, a byte length of at most `num_blocks * block_size`,
and a physical end below `2 ^ 63` bytes. -/
def block_in_range (block_size : Nat) (b : block_list) : Prop :=
  0 < b.num_blocks ∧ b.stripe_ptr.len ≤ b.num_blocks * block_size ∧
    (b.physical_block + b.num_blocks) * block_size < 9223372036854775808

instance phys_ordered_decidable (a b : block_list) : Decidable (phys_ordered a b) :=
  inferInstanceAs (Decidable (_ ∨ _))

instance block_in_range_decidable (block_size : Nat) (b : block_list) :
    Decidable (block_in_range block_size b) :=
  inferInstanceAs (Decidable (_ ∧ _))

/-- Three records of one block each at the physical blocks 1000, 1001 and 2000 (scenario S6
of the spec), owned by three files of 4096, 4096 and 10 bytes. -/
def three_files_list : List block_list :=
  [⟨0, 1000, 0, 1, ⟨none, 0, 4096⟩⟩, ⟨1, 1001, 0, 1, ⟨none, 0, 4096⟩⟩,
   ⟨2, 2000, 0, 1, ⟨none, 0, 10⟩⟩]

/-- The gap between two records, `next.physical_block - (prev.physical_block +
prev.num_blocks)`, as an integer. -/
def block_gap (prev next : block_list) : Int :=
  (next.physical_block : Int) - ((prev.physical_block : Int) + prev.num_blocks)

/-- The length of the longest prefix of the list in which every adjacent pair has a gap of
at most `coalesce_distance`. -/
def run_length (coalesce_distance : Int) : List block_list → Nat
  | [] => 0
  | [_] => 1
  | a :: b :: rest =>
    if block_gap a b ≤ coalesce_distance then 1 + run_length coalesce_distance (b :: rest)
    else 1

/-- The number of adjacent pairs of the list with a gap above `coalesce_distance`. -/
def gaps_over (coalesce_distance : Int) : List block_list → Nat
  | [] => 0
  | [_] => 0
  | a :: b :: rest =>
    (if block_gap a b > coalesce_distance then 1 else 0)
      + gaps_over coalesce_distance (b :: rest)

/-- The records held in the heap of an `inode_cb_info`. -/
def heap_records (info : inode_cb_info) : List block_list :=
  match info.block_cache with
  | none => []
  | some cache => (heap_contents cache).map (fun e => e.value)

/-- The number of records of the list that belong to the `inode_cb_info` at index `i`. -/
def count_inode (i : Nat) (pending : List block_list) : Nat :=
  pending.countP (fun b => decide (b.inode_info = i))

/-- The number of records of the list that point into the stripe at index `sid`. -/
def count_stripe (sid : Nat) (pending : List block_list) : Nat :=
  pending.countP (fun b => decide (b.stripe_ptr.stripe = some sid))

/-- The number of records in the heaps that point into the stripe at index `sid`. -/
def held (sid : Nat) (infos : List inode_cb_info) : Nat :=
  (infos.map (fun info => count_stripe sid (heap_records info))).sum

/-- The reference count of the `inode_cb_info` at index `i`, for the list `pending` of the
records not yet inserted into a heap: `references` counts the records in the heap and the
pending ones; a freed record has none left; an open one has at least one and at most
`len / block_size + 1`, the capacity its heap is created with, which is below `2 ^ 31` and so
is the `int` that `heap_create` receives. -/
structure info_ok (block_size : Nat) (pending : List block_list) (i : Nat)
    (info : inode_cb_info) : Prop where
  refs : info.references = ((heap_records info).length : Int) + count_inode i pending
  freed_refs : info.freed = true → info.references = 0 ∧ info.block_cache = none
  open_refs : info.freed = false →
    0 < info.references ∧ info.references ≤ ((info.len / block_size + 1 : Nat) : Int)
  cache_wf : ∀ cache, info.block_cache = some cache →
    heap_wf cache ∧ cache.max_size = info.len / block_size + 1
  ptrs : ∀ b ∈ heap_records info, ∃ sid, b.stripe_ptr.stripe = some sid
  cap : info.len / block_size + 1 < 2147483648

/-- The reference count of the stripe at index `sid`: `references` counts the records in the
heaps and the pending records that point into it; a freed stripe has none left. -/
structure stripe_ok (pending : List block_list) (infos : List inode_cb_info) (sid : Nat)
    (st : stripe) : Prop where
  refs : st.references = ((held sid infos : Nat) : Int) + count_stripe sid pending
  freed_refs : st.freed = true → st.references = 0

/-- The invariant of the read phase, for the list `pending` of the records not yet inserted
into a heap: the process is running, all reference counts are exact, and every pointer of a
pending or queued record is valid. -/
structure safe (block_size : Nat) (pending : List block_list) (s : dj_state) : Prop where
  running : s.status = run_status.running
  info_all : ∀ (i : Nat) (info : inode_cb_info), s.infos[i]? = some info →
    info_ok block_size pending i info
  stripe_all : ∀ (sid : Nat) (st : stripe), s.stripes[sid]? = some st →
    stripe_ok pending s.infos sid st
  pending_inode : ∀ b ∈ pending, b.inode_info < s.infos.length
  pending_stripe : ∀ b ∈ pending, ∀ sid, b.stripe_ptr.stripe = some sid → sid < s.stripes.length
  heap_stripe : ∀ (i : Nat) (info : inode_cb_info), s.infos[i]? = some info →
    ∀ b ∈ heap_records info, ∀ sid, b.stripe_ptr.stripe = some sid → sid < s.stripes.length

/-- A record not yet absorbed into a stripe: no stripe pointer, at least one block. -/
def unabsorbed (b : block_list) : Prop := b.stripe_ptr.stripe = none ∧ 0 < b.num_blocks

/-- The callbacks of `ext2fs_block_iterate3` for the inode come in strictly increasing order
of the logical block. -/
def callbacks_increasing (fs : ext2_filsys) (ino : Nat) : Prop :=
  ((fs.block_iterate ino).map (fun cb => cb.2)).Pairwise (fun x y => x < y)

/-- The progress of the scan of one inode before the callback for logical block `m`:
`blocks_scanned` is at most `m` and at most `len / block_size + 1`, and there are at most
`blocks_scanned` records. -/
def scan_bound (block_size m : Nat) (si : scan_blocks_info) : Prop :=
  si.inode_info.blocks_scanned ≤ m ∧ si.blocks.length ≤ si.inode_info.blocks_scanned ∧
    si.inode_info.blocks_scanned ≤ si.inode_info.len / block_size + 1

/-- The records of the entries of an inode list, in the order of the list. -/
def pending_blocks : List inode_list → List block_list
  | [] => []
  | e :: rest => e.blocks ++ pending_blocks rest

instance callbacks_increasing_decidable (fs : ext2_filsys) (ino : Nat) :
    Decidable (callbacks_increasing fs ino) :=
  inferInstanceAs (Decidable (List.Pairwise _ _))

instance unabsorbed_decidable (b : block_list) : Decidable (unabsorbed b) :=
  inferInstanceAs (Decidable (_ ∧ _))

/-- Three files of one block each (scenario S6 of the spec): the inodes 11, 12 and 13, of
4096, 4096 and 10 bytes, stored at the physical blocks 1000, 1001 and 2000 of a file system
with blocks of 4096 bytes. -/
def three_files_fs : ext2_filsys :=
  { blocksize := 4096,
    block_iterate := fun ino =>
      if ino = 11 then [(1000, 0)] else if ino = 12 then [(1001, 0)] else [(2000, 0)] }

/-- The inode list of the three files, as `get_inode_list` returns it. -/
def three_files_inodes : List inode_list := [⟨11, 4096, []⟩, ⟨12, 4096, []⟩, ⟨13, 10, []⟩]

/-- The state in which the drain loop starts for the three files: after the block scan and
the admission of the three files. -/
def three_files_state : dj_state :=
  (admit_loop 100 (scan_blocks three_files_fs three_files_inodes dj_state.init).1 []
    (scan_blocks three_files_fs three_files_inodes dj_state.init).2).2.2

/-- The `scan_blocks_info` with which `scan_blocks` starts the scan of an inode of `len`
bytes: a fresh `inode_cb_info` and an empty block list. -/
def scan_start (inode len info_id : Nat) : scan_blocks_info :=
  { info_id := info_id,
    inode_info := { inode := inode, len := len, blocks_scanned := 0, blocks_read := 0,
                    references := 0, block_cache := none, freed := false },
    blocks := [] }

/-- A sequence of calls of `scan_block`, given by their `(physical block, logical block)`. -/
def scan_block_calls (block_size : Nat) (calls : List (Nat × Nat))
    (si : scan_blocks_info) : scan_blocks_info :=
  calls.foldl (fun acc cb => scan_block block_size cb.1 cb.2 acc) si

/-- Every physical block that `ext2fs_block_iterate3` reports for the inode ends below
`2 ^ 63` bytes. -/
def callbacks_in_range (fs : ext2_filsys) (ino : Nat) : Prop :=
  ∀ cb ∈ fs.block_iterate ino, (cb.1 + 1) * fs.blocksize < 9223372036854775808

instance callbacks_in_range_decidable (fs : ext2_filsys) (ino : Nat) :
    Decidable (callbacks_in_range fs ino) :=
  inferInstanceAs (Decidable (∀ cb ∈ fs.block_iterate ino, _))

/-- Three records of one block of one byte at the physical blocks 10, 8 and 9, in this
order: a list that is not sorted by physical block. -/
def unsorted_list : List block_list :=
  [⟨0, 10, 0, 1, ⟨none, 0, 1⟩⟩, ⟨0, 8, 1, 1, ⟨none, 0, 1⟩⟩, ⟨0, 9, 2, 1, ⟨none, 0, 1⟩⟩]

/-- Two files: inode 12 is the ten-block file of `ten_block_fs`, inode 13 has one block of
one byte at physical block 200. -/
def stalled_fs : ext2_filsys :=
  { blocksize := 1,
    block_iterate := fun ino =>
      if ino = 12 then
        [(50, 0), (100, 1), (30, 2), (40, 3), (70, 4), (80, 5), (20, 6), (60, 7), (90, 8),
         (10, 9)]
      else [(200, 0)] }

/-- The parameters of the example: one open inode at a time. -/
def one_inode_params : dj_params :=
  { max_inodes := 1, max_blocks := 128000, coalesce_distance := 1, direct := false,
    dev := example_dev }

/-- Seven inserts of distinct keys (value `100 + key`) into a heap of capacity 7. -/
def heap_inserts_example : List heap_call :=
  [.insert 1 101, .insert 2 102, .insert 5 105, .insert 3 103, .insert 6 106, .insert 7 107,
   .insert 4 104]

/-- The key at index `i` is strictly smaller than the keys of its children at `2i+1` and
`2i+2`, when those are among the `n` stored elements. -/
def ordered_at {α : Type} [Inhabited α] (n : Nat) (l : List (heap_elem α)) (i : Nat) : Prop :=
  (2 * i + 1 < n → (l.getD i default).key < (l.getD (2 * i + 1) default).key) ∧
  (2 * (i + 1) < n → (l.getD i default).key < (l.getD (2 * (i + 1)) default).key)

/-- The heap property that `verify_heap` checks, for the first `n` cells of the array. -/
def heap_ordered {α : Type} [Inhabited α] (n : Nat) (l : List (heap_elem α)) : Prop :=
  ∀ i, ordered_at n l i

/-- The keys of the first `n` cells are pairwise distinct. -/
def keys_distinct {α : Type} [Inhabited α] (n : Nat) (l : List (heap_elem α)) : Prop :=
  ∀ i j, i < n → j < n → (l.getD i default).key = (l.getD j default).key → i = j

/-- The state of `heapify_down` at `index`: the heap property holds at every other index, and
the parent of `index` is smaller than the children of `index`. -/
def down_inv {α : Type} [Inhabited α] (n : Nat) (l : List (heap_elem α)) (index : Nat) : Prop :=
  (∀ i, i ≠ index → ordered_at n l i) ∧
  (∀ i c, (index = 2 * i + 1 ∨ index = 2 * (i + 1)) →
    (c = 2 * index + 1 ∨ c = 2 * (index + 1)) → c < n →
    (l.getD i default).key < (l.getD c default).key)

/-- A heap of capacity 4 with the keys 1, 5, 2, 6 (value `100 + key`), which passes
`verify_heap`. -/
def ordered_heap_example : heap Nat :=
  { max_size := 4, current_size := 4,
    elems := [⟨1, 101⟩, ⟨5, 105⟩, ⟨2, 102⟩, ⟨6, 106⟩] }

/-- The records of the list are adjacent in the file, from the logical block `start` on: the
first has `logical_block = start`, and each next one starts `num_blocks` after the one before
it. -/
def logical_chain : Nat → List block_list → Prop
  | _, [] => True
  | start, b :: rest => b.logical_block = start ∧ logical_chain (start + b.num_blocks) rest

instance logical_chain_decidable :
    (start : Nat) → (l : List block_list) → Decidable (logical_chain start l)
  | _, [] => isTrue trivial
  | start, b :: rest =>
    match Nat.decEq b.logical_block start, logical_chain_decidable (start + b.num_blocks) rest with
    | isTrue h1, isTrue h2 => isTrue ⟨h1, h2⟩
    | isFalse h1, _ => isFalse (fun h => h1 h.1)
    | _, isFalse h2 => isFalse (fun h => h2 h.2)

/-- What holds of the block list during the scan of an inode: the records are adjacent from
logical block 0 on, `blocks_scanned` is the sum of their `num_blocks`, and every record has
at least one block. -/
def scan_chain (si : scan_blocks_info) : Prop :=
  logical_chain 0 si.blocks ∧
  si.inode_info.blocks_scanned = (si.blocks.map (fun b => b.num_blocks)).sum ∧
  ∀ b ∈ si.blocks, 0 < b.num_blocks

/-- Two records cover the same part of the file: same logical start, same number of blocks,
same byte length. The stripe fields, which `next_stripe` sets later, are not compared. -/
def same_extent (a b : block_list) : Prop :=
  a.logical_block = b.logical_block ∧ a.num_blocks = b.num_blocks ∧
    a.stripe_ptr.len = b.stripe_ptr.len

instance same_extent_decidable (a b : block_list) : Decidable (same_extent a b) :=
  inferInstanceAs (Decidable (a.logical_block = b.logical_block ∧
    a.num_blocks = b.num_blocks ∧ a.stripe_ptr.len = b.stripe_ptr.len))

/-- The invariant of the reassembly of the file at index `id` whose records, in list order,
are `L`: the first `k` records have been delivered, in list order, by the invocations made
after the first `k0`, and `blocks_read` is the number of their blocks. -/
def order_inv (k0 bs : Nat) (L : List block_list) (id : Nat) (s : dj_state) : Prop :=
  ∃ info k, s.infos[id]? = some info ∧ k0 ≤ s.calls.length ∧ k ≤ L.length ∧
    info.blocks_read = ((L.take k).map (fun b => b.num_blocks)).sum ∧
    (∀ cache, info.block_cache = some cache →
      heap_wf cache ∧ ∀ e ∈ heap_contents cache, ∃ b0 ∈ L, same_extent e.value b0) ∧
    (calls_of id (s.calls.drop k0)).map (fun c => (c.pos, c.data_len))
      = (L.take k).map (fun b => (b.logical_block * bs, b.stripe_ptr.len))

/-- Every record of the list `R` finds its inode ready for it: the records of one inode
appear in `R` in logical order, the first of them at the inode's `blocks_read`, each next
one where the one before it ends. -/
def immediate_ready (s : dj_state) (R : List block_list) : Prop :=
  ∀ b ∈ R, ∃ info, s.infos[b.inode_info]? = some info ∧
    logical_chain info.blocks_read (R.filter (fun x => decide (x.inode_info = b.inode_info)))

/-- No heap of an `inode_cb_info` with an index in `ids` holds a record. -/
def all_empty (s : dj_state) (ids : List Nat) : Prop :=
  ∀ i ∈ ids, ∀ info ∈ s.infos[i]?, heap_records info = []

/-- The inode of the record `b` has not been touched by the read loop: it has delivered no
block and its heap holds no record. -/
def fresh_inode (s : dj_state) (b : block_list) : Prop :=
  ∀ info ∈ s.infos[b.inode_info]?, info.blocks_read = 0 ∧ heap_records info = []

instance fresh_inode_decidable (s : dj_state) (b : block_list) :
    Decidable (fresh_inode s b) :=
  inferInstanceAs (Decidable
    (∀ info ∈ s.infos[b.inode_info]?, info.blocks_read = 0 ∧ heap_records info = []))

/-- No two entries of the inode list have records of the same `inode_cb_info`. -/
def separate_inodes (il : List inode_list) : Prop :=
  il.Pairwise (fun e1 e2 => ∀ b1 ∈ e1.blocks, ∀ b2 ∈ e2.blocks, b1.inode_info ≠ b2.inode_info)

/-- Two files of two blocks each whose blocks alternate on the device (the layout
`[f1b0, f2b0, f1b1, f2b1]`): the inodes 11 and 12, of 8192 bytes each, stored at the
physical blocks 1000, 1002 and 1001, 1003 of a file system with blocks of 4096 bytes. -/
def interleaved_fs : ext2_filsys :=
  { blocksize := 4096,
    block_iterate := fun ino =>
      if ino = 11 then [(1000, 0), (1002, 1)] else [(1001, 0), (1003, 1)] }

/-- The inode list of the two files, as `get_inode_list` returns it. -/
def interleaved_inodes : List inode_list := [⟨11, 8192, []⟩, ⟨12, 8192, []⟩]

/-- The state in which the drain loop starts for the two files: after the block scan and the
admission of both files. -/
def interleaved_state : dj_state :=
  (admit_loop 100 (scan_blocks interleaved_fs interleaved_inodes dj_state.init).1 []
    (scan_blocks interleaved_fs interleaved_inodes dj_state.init).2).2.2

/-- The four records of the two files in the order of their physical blocks. -/
def interleaved_list : List block_list :=
  [⟨0, 1000, 0, 1, ⟨none, 0, 4096⟩⟩, ⟨1, 1001, 0, 1, ⟨none, 0, 4096⟩⟩,
   ⟨0, 1002, 1, 1, ⟨none, 0, 4096⟩⟩, ⟨1, 1003, 1, 1, ⟨none, 0, 4096⟩⟩]

/-- The invocations made for the `inode_cb_info` at index `i` after the first `k0`, and its
`references`, add up to `c`. -/
def refs_calls_inv (k0 i : Nat) (c : Int) (s : dj_state) : Prop :=
  k0 ≤ s.calls.length ∧ ∃ info, s.infos[i]? = some info ∧
    info.references + ((calls_of i (s.calls.drop k0)).length : Int) = c

/-- A file of `2 ^ 44 - 1` bytes on a file system with blocks of 4096 bytes, for which the
library reports one block: `len / blocksize + 1` is `2 ^ 32`. -/
def huge_file_fs : ext2_filsys :=
  { blocksize := 4096, block_iterate := fun _ => [(100, 0)] }

/-- The state in which the drain loop starts for the second time when the two files are read
with one open inode at a time: after the first iteration of the read loop, which delivered
the two blocks of inode 11, and the admission of inode 12. -/
def interleaved_second_state : dj_state :=
  (admit_loop 1 (iterate_dir interleaved_fs one_inode_params 1 interleaved_inodes).inode_list
    (iterate_dir interleaved_fs one_inode_params 1 interleaved_inodes).block_list_start
    (iterate_dir interleaved_fs one_inode_params 1 interleaved_inodes).state).2.2

/-- The scheduled list of that second drain loop: the two records of inode 12. -/
def interleaved_second_list : List block_list :=
  [⟨1, 1001, 0, 1, ⟨none, 0, 4096⟩⟩, ⟨1, 1003, 1, 1, ⟨none, 0, 4096⟩⟩]

/-! ## Theorems -/

/-! ### The heap keeps its elements -/

section HeapLemmas
variable {α : Type} [Inhabited α]

theorem set_perm_cons (t : List (heap_elem α)) (j : Nat) (a : heap_elem α) (hj : j < t.length) :
    (t.getD j default :: t.set j a).Perm (a :: t) := by
  induction t generalizing j with
  | nil => simp at hj
  | cons b u ih =>
    cases j with
    | zero => simpa using List.Perm.swap a b u
    | succ k =>
      have hk : k < u.length := by simpa using hj
      have h1 := ih k hk
      simp only [List.getD_cons_succ, List.set_cons_succ]
      exact (List.Perm.swap b (u.getD k default) (u.set k a)).trans
        ((h1.cons b).trans (List.Perm.swap a b u))

theorem swap_heap_elems_length (l : List (heap_elem α)) (i j : Nat) :
    (swap_heap_elems l i j).length = l.length := by
  simp [swap_heap_elems]

theorem swap_heap_elems_perm (l : List (heap_elem α)) (i j : Nat)
    (hi : i < l.length) (hj : j < l.length) : (swap_heap_elems l i j).Perm l := by
  induction l generalizing i j with
  | nil => simp at hi
  | cons a t ih =>
    cases i with
    | zero =>
      cases j with
      | zero => simp [swap_heap_elems]
      | succ k =>
        have hk : k < t.length := by simpa using hj
        simpa [swap_heap_elems] using set_perm_cons t k a hk
    | succ m =>
      have hm : m < t.length := by simpa using hi
      cases j with
      | zero =>
        have := set_perm_cons t m a hm
        simp only [swap_heap_elems, List.getD_cons_succ, List.getD_cons_zero, List.set_cons_succ,
          List.set_cons_zero]
        exact this
      | succ k =>
        have hk : k < t.length := by simpa using hj
        have := ih m k hm hk
        simp only [swap_heap_elems, List.getD_cons_succ, List.set_cons_succ] at this ⊢
        exact this.cons a

theorem swap_heap_elems_take (l : List (heap_elem α)) (i j n : Nat) (hi : i < n) (hj : j < n) :
    (swap_heap_elems l i j).take n = swap_heap_elems (l.take n) i j := by
  simp only [swap_heap_elems, List.set_take, List.getD_eq_getElem?_getD]
  rw [List.getElem?_take_of_lt hi, List.getElem?_take_of_lt hj]

theorem swap_heap_elems_take_perm (l : List (heap_elem α)) (i j n : Nat) (hi : i < n)
    (hj : j < n) (hn : n ≤ l.length) : ((swap_heap_elems l i j).take n).Perm (l.take n) := by
  rw [swap_heap_elems_take l i j n hi hj]
  apply swap_heap_elems_perm
  · simp; omega
  · simp; omega


theorem heapify_up_loop_length (fuel : Nat) (l : List (heap_elem α)) (index : Nat) :
    (heapify_up_loop fuel l index).length = l.length := by
  induction fuel generalizing l index with
  | zero => rfl
  | succ f ih =>
    simp only [heapify_up_loop]
    split_ifs
    · rw [ih, swap_heap_elems_length]
    · rfl
    · rfl

theorem heapify_up_loop_take_perm (fuel : Nat) (l : List (heap_elem α)) (index n : Nat)
    (hi : index < n) (hn : n ≤ l.length) :
    ((heapify_up_loop fuel l index).take n).Perm (l.take n) := by
  induction fuel generalizing l index with
  | zero => exact List.Perm.refl _
  | succ f ih =>
    simp only [heapify_up_loop]
    split_ifs
    · have h2 : index / 2 < n := lt_of_le_of_lt (Nat.div_le_self _ _) hi
      exact (ih _ _ h2 (by rw [swap_heap_elems_length]; exact hn)).trans
        (swap_heap_elems_take_perm l index (index / 2) n hi h2 hn)
    · exact List.Perm.refl _
    · exact List.Perm.refl _

theorem heapify_down_swap_index_lt (n : Nat) (l : List (heap_elem α)) (index : Nat)
    (h : 0 < heapify_down_swap_index n l index) : heapify_down_swap_index n l index < n := by
  unfold heapify_down_swap_index at h ⊢
  simp only [Bool.and_eq_true, decide_eq_true_eq] at h ⊢
  split_ifs at h ⊢ <;> omega

theorem heapify_down_loop_length (fuel n : Nat) (l : List (heap_elem α)) (index : Nat) :
    (heapify_down_loop fuel n l index).length = l.length := by
  induction fuel generalizing l index with
  | zero => rfl
  | succ f ih =>
    simp only [heapify_down_loop]
    split_ifs
    · rw [ih, swap_heap_elems_length]
    · rfl
    · rfl

theorem heapify_down_loop_take_perm (fuel n : Nat) (l : List (heap_elem α)) (index : Nat)
    (hn : n ≤ l.length) :
    ((heapify_down_loop fuel n l index).take n).Perm (l.take n) := by
  induction fuel generalizing l index with
  | zero => exact List.Perm.refl _
  | succ f ih =>
    simp only [heapify_down_loop]
    split_ifs with h1 h2
    · have h3 := heapify_down_swap_index_lt n l index h2
      exact (ih _ _ (by rw [swap_heap_elems_length]; exact hn)).trans
        (swap_heap_elems_take_perm l index _ n h1 h3 hn)
    · exact List.Perm.refl _
    · exact List.Perm.refl _

theorem heap_create_wf (size : Nat) : heap_wf (heap_create size : heap α) := by
  simp [heap_wf, heap_create]

theorem take_succ_set {β : Type} (l : List β) (n : Nat) (x : β)
    (h : n < l.length) : (l.set n x).take (n + 1) = l.take n ++ [x] := by
  rw [List.take_succ, List.set_take, List.set_eq_of_length_le (by simp)]
  simp [h]

theorem heap_insert_some (h h1 : heap α) (key : Nat) (value : α) (hw : heap_wf h)
    (hi : heap_insert h key value = some h1) :
    heap_wf h1 ∧ h1.max_size = h.max_size ∧ h1.current_size = h.current_size + 1
      ∧ (heap_contents h1).Perm (⟨key, value⟩ :: heap_contents h) := by
  obtain ⟨hl, hc⟩ := hw
  unfold heap_insert at hi
  split_ifs at hi with hfull
  simp only [Option.some.injEq] at hi
  subst hi
  have hlt : h.current_size < h.elems.length := by omega
  refine ⟨⟨?_, ?_⟩, rfl, rfl, ?_⟩
  · simp [heapify_up, heapify_up_loop_length, hl]
  · simp [heapify_up]; omega
  · simp only [heap_contents, heapify_up]
    refine (heapify_up_loop_take_perm _ _ _ _ (Nat.lt_succ_self _) (by simp; omega)).trans ?_
    rw [take_succ_set _ _ _ hlt]
    exact List.perm_append_singleton _ _


theorem heap_min_mem (h : heap α) (hw : heap_wf h) (hpos : 0 < h.current_size) :
    h.elems.getD 0 default ∈ heap_contents h ∧ heap_min h = (h.elems.getD 0 default).value := by
  obtain ⟨hl, hc⟩ := hw
  refine ⟨?_, rfl⟩
  unfold heap_contents
  cases hel : h.elems with
  | nil => rw [hel] at hl; simp at hl; omega
  | cons a t =>
    obtain ⟨m, hm⟩ : ∃ m, h.current_size = m + 1 := ⟨h.current_size - 1, by omega⟩
    simp [hm]

theorem heap_delmin_spec (h : heap α) (hw : heap_wf h) (hpos : 0 < h.current_size) :
    heap_wf (heap_delmin h).2 ∧ (heap_delmin h).2.max_size = h.max_size
      ∧ (heap_delmin h).2.current_size + 1 = h.current_size
      ∧ (heap_delmin h).1 = heap_min h
      ∧ (heap_contents h).Perm (h.elems.getD 0 default :: heap_contents (heap_delmin h).2) := by
  obtain ⟨hl, hc⟩ := hw
  refine ⟨⟨?_, ?_⟩, rfl, ?_, rfl, ?_⟩
  · simp [heap_delmin, heapify_down, heapify_down_loop_length, hl]
  · simp [heap_delmin, heapify_down]; omega
  · simp [heap_delmin, heapify_down]; omega
  · simp only [heap_contents, heap_delmin, heapify_down]
    have hp := heapify_down_loop_take_perm (h.current_size - 1) (h.current_size - 1)
      (h.elems.set 0 (h.elems.getD (h.current_size - 1) default)) 0 (by simp; omega)
    refine List.Perm.trans ?_ (hp.symm.cons _)
    obtain ⟨m, hm⟩ : ∃ m, h.current_size = m + 1 := ⟨h.current_size - 1, by omega⟩
    rw [hm]
    simp only [Nat.add_sub_cancel]
    cases hel : h.elems with
    | nil => rw [hel] at hl; simp at hl; omega
    | cons a t =>
      cases m with
      | zero => simp
      | succ k =>
        have hk : k < t.length := by rw [hel] at hl; simp at hl; omega
        simp only [List.getD_cons_zero, List.getD_cons_succ, List.set_cons_zero,
          List.take_succ_cons]
        rw [List.take_succ]
        simp only [List.getD_eq_getElem?_getD, List.getElem?_eq_getElem hk, Option.toList,
          Option.getD_some]
        exact (List.perm_append_singleton _ _).cons a

end HeapLemmas


/-- C1: after the calls of `heap_calls_example` the heap stores the keys 5, 4, 7, 6, 8 and
`heap_min` returns 105, the value stored with key 5, although key 4 (value 104) is
stored. -/
theorem heap_min_not_smallest_key :
    (run_heap_calls heap_calls_example (heap_create 7)).map
        (fun h => (heap_contents h, heap_min h, (heap_delmin h).1))
      = some ([⟨5, 105⟩, ⟨4, 104⟩, ⟨7, 107⟩, ⟨6, 106⟩, ⟨8, 108⟩], 105, 105) := by
  decide

theorem chain_inv_nil (bs len : Nat) : chain_inv bs len 0 [] := by
  refine ⟨by simp, List.chain'_nil, List.chain'_nil, by simp, by simp [chain_end]⟩

theorem chain_inv_append (bs len br : Nat) (cs : List cb_call) (b : block_list) (c : cb_call)
    (hbs : 0 < bs) (h : chain_inv bs len br cs) (hb : block_wf bs len b)
    (hl : b.logical_block = br) (hpos : c.pos = b.logical_block * bs)
    (hlen : c.data_len = b.stripe_ptr.len) :
    chain_inv bs len (br + b.num_blocks) (cs ++ [c]) := by
  obtain ⟨hn, hlt, hsl⟩ := hb
  subst hl
  have hnb : 0 < b.num_blocks * bs := Nat.mul_pos hn hbs
  have hclen : 0 < c.data_len := by rw [hlen, hsl]; omega
  have hend : chain_end cs = c.pos := by rw [h.last, hpos]; omega
  have hlast : ∀ x ∈ cs.getLast?, x.pos + x.data_len = c.pos := by
    intro x hx
    have : cs.getLast? = some x := hx
    simpa [chain_end, this] using hend
  refine ⟨?_, ?_, ?_, ?_, ?_⟩
  · intro x hx
    rcases List.mem_append.1 hx with hx | hx
    · exact h.pos_len x hx
    · simp at hx; subst hx; exact hclen
  · refine List.Chain'.append h.adjacent (List.chain'_singleton c) ?_
    intro x hx y hy
    simp at hy; subst hy
    exact (hlast x hx).symm
  · refine List.Chain'.append h.increasing (List.chain'_singleton c) ?_
    intro x hx y hy
    simp at hy; subst hy
    have h1 := hlast x hx
    have h2 : 0 < x.data_len := h.pos_len x (List.mem_of_mem_getLast? hx)
    omega
  · intro x hx
    cases hcs : cs with
    | nil =>
      rw [hcs] at hx; simp at hx; subst hx
      rw [← hend, hcs]; simp [chain_end]
    | cons a t =>
      rw [hcs] at hx; simp at hx; subst hx
      exact h.first a (by rw [hcs]; rfl)
  · simp only [chain_end, List.getLast?_concat]
    rw [hpos, hlen, hsl, Nat.add_mul]
    omega

theorem inode_inv_stop (k bs len id : Nat) (s : dj_state) (w : run_status)
    (h : inode_inv k bs len id s) : inode_inv k bs len id (s.stop w) := h

theorem inode_inv_frame (k bs len id : Nat) (s s1 : dj_state)
    (h : inode_inv k bs len id s) (hi : s1.infos[id]? = s.infos[id]?)
    (hc : ∃ extra, s1.calls = s.calls ++ extra ∧ ∀ c ∈ extra, c.cb_private ≠ id) :
    inode_inv k bs len id s1 := by
  obtain ⟨info, h1, h2, h3, h4, h5⟩ := h
  obtain ⟨extra, he, hne⟩ := hc
  refine ⟨info, by rw [hi, h1], h2, by rw [he]; simp; omega, h4, ?_⟩
  have : calls_of id (s1.calls.drop k) = calls_of id (s.calls.drop k) := by
    rw [he, List.drop_append_of_le_length h3]
    simp only [calls_of, List.filter_append]
    have : extra.filter (fun c => decide (c.cb_private = id)) = [] := by
      simp only [List.filter_eq_nil_iff, decide_eq_true_eq]
      exact hne
    rw [this, List.append_nil]
  rw [this]; exact h5

theorem flush_iteration_cases (bs id : Nat) (s : dj_state) :
    (∃ w, flush_iteration bs id s = (s.stop w, false)) ∨
    flush_iteration bs id s = (s, false) ∨
    (∃ info cache, s.infos[id]? = some info ∧ info.block_cache = some cache ∧
      0 < cache.current_size ∧
      flush_iteration bs id s =
        (({ s with infos := (s.infos.set id
            { info with block_cache := some (heap_delmin cache).2 }) } : dj_state).stop
          run_status.exited, false)) ∨
    (∃ info cache sid st, s.infos[id]? = some info ∧ info.freed = false ∧
      info.block_cache = some cache ∧ 0 < cache.current_size ∧
      (heap_min cache).logical_block = info.blocks_read ∧ 0 < info.references ∧
      (heap_min cache).stripe_ptr.stripe = some sid ∧ s.stripes[sid]? = some st ∧
      st.freed = false ∧
      flush_iteration bs id s = flush_deliver bs id s info cache sid st) := by
  unfold flush_iteration
  cases h1 : s.infos[id]? with
  | none => exact Or.inl ⟨_, rfl⟩
  | some info =>
    dsimp only
    by_cases hf : info.freed = true
    · rw [if_pos hf]; exact Or.inl ⟨_, rfl⟩
    rw [if_neg hf]
    cases h2 : info.block_cache with
    | none => exact Or.inl ⟨_, rfl⟩
    | some cache =>
      dsimp only
      by_cases h3 : heap_size cache > 0
      swap
      · rw [if_neg h3]; exact Or.inr (Or.inl rfl)
      rw [if_pos h3]
      by_cases h4 : (heap_min cache).logical_block = info.blocks_read
      swap
      · rw [if_neg h4]; exact Or.inr (Or.inl rfl)
      rw [if_pos h4]
      by_cases h5 : info.references ≤ 0
      · rw [if_pos h5]; exact Or.inr (Or.inr (Or.inl ⟨info, cache, rfl, h2, h3, rfl⟩))
      rw [if_neg h5]
      cases h6 : (heap_min cache).stripe_ptr.stripe with
      | none => exact Or.inl ⟨_, rfl⟩
      | some sid =>
        dsimp only
        cases h7 : s.stripes[sid]? with
        | none => exact Or.inl ⟨_, rfl⟩
        | some st =>
          dsimp only
          by_cases h8 : st.freed = true
          · rw [if_pos h8]; exact Or.inl ⟨_, rfl⟩
          rw [if_neg h8]
          refine Or.inr (Or.inr (Or.inr ⟨info, cache, sid, st, rfl, ?_, h2, h3, h4, ?_, h6, h7, ?_,
            rfl⟩))
          · simpa using hf
          · omega
          · simpa using h8

theorem calls_of_drop_append_self (k id : Nat) (calls : List cb_call) (c : cb_call)
    (hk : k ≤ calls.length) (hc : c.cb_private = id) :
    calls_of id ((calls ++ [c]).drop k) = calls_of id (calls.drop k) ++ [c] := by
  rw [List.drop_append_of_le_length hk]
  simp [calls_of, List.filter_append, hc]

theorem getElem?_set_self_of_some {β : Type} (l : List β) (i : Nat) (x y : β)
    (h : l[i]? = some x) : (l.set i y)[i]? = some y := by
  have hi : i < l.length := by
    by_contra hcon
    rw [List.getElem?_eq_none (by omega)] at h
    cases h
  exact List.getElem?_set_self hi

theorem flush_deliver_inode_inv (k bs len id id1 : Nat) (hbs : 0 < bs) (s : dj_state)
    (info : inode_cb_info) (cache : heap block_list) (sid : Nat) (st : stripe)
    (h : inode_inv k bs len id s) (h1 : s.infos[id1]? = some info)
    (h2 : info.block_cache = some cache) (h3 : 0 < cache.current_size)
    (h4 : (heap_min cache).logical_block = info.blocks_read) :
    inode_inv k bs len id (flush_deliver bs id1 s info cache sid st).1 := by
  by_cases hid : id1 = id
  · subst hid
    obtain ⟨info0, g1, g2, g3, g4, g5⟩ := h
    rw [h1] at g1
    cases g1
    obtain ⟨hw, hall⟩ := g4 cache h2
    have hmin := heap_min_mem cache hw h3
    have hdel := heap_delmin_spec cache hw h3
    have hnext : block_wf bs len (heap_min cache) := by
      rw [hmin.2]; exact hall _ hmin.1
    have hchain := chain_inv_append bs len info.blocks_read _ (heap_min cache)
      { inode := info.inode, pos := (heap_min cache).logical_block * bs, file_len := info.len,
        data := ((st.data.drop (heap_min cache).stripe_ptr.pos).take
          (heap_min cache).stripe_ptr.len),
        data_len := (heap_min cache).stripe_ptr.len, cb_private := id1 }
      hbs g5 hnext h4 rfl rfl
    rw [← calls_of_drop_append_self k id1 s.calls _ g3 rfl] at hchain
    unfold flush_deliver
    dsimp only
    by_cases hz : info.references - 1 = 0
    · rw [if_pos hz]
      refine ⟨_, getElem?_set_self_of_some _ _ _ _ h1, g2, ?_, ?_, hchain⟩
      · simp; omega
      · intro c hc; cases hc
    · rw [if_neg hz]
      refine ⟨_, getElem?_set_self_of_some _ _ _ _ h1, g2, ?_, ?_, hchain⟩
      · simp; omega
      · intro c hc
        simp only [Option.some.injEq] at hc
        subst hc
        refine ⟨hdel.1, ?_⟩
        intro e he
        exact hall e (hdel.2.2.2.2.symm.subset (List.mem_cons_of_mem _ he))
  · unfold flush_deliver
    dsimp only
    by_cases hz : info.references - 1 = 0
    · rw [if_pos hz]
      refine inode_inv_frame k bs len id s _ h ?_ ⟨_, rfl, ?_⟩
      · exact List.getElem?_set_ne hid
      · intro c hc; simp at hc; subst hc; exact hid
    · rw [if_neg hz]
      refine inode_inv_frame k bs len id s _ h ?_ ⟨_, rfl, ?_⟩
      · exact List.getElem?_set_ne hid
      · intro c hc; simp at hc; subst hc; exact hid

theorem flush_iteration_inode_inv (k bs len id id1 : Nat) (hbs : 0 < bs) (s : dj_state)
    (h : inode_inv k bs len id s) : inode_inv k bs len id (flush_iteration bs id1 s).1 := by
  rcases flush_iteration_cases bs id1 s with ⟨w, hw⟩ | hs | ⟨info, cache, h1, h2, h3, he⟩ |
    ⟨info, cache, sid, st, h1, _, h2, h3, h4, _, _, _, _, he⟩
  · rw [hw]; exact h
  · rw [hs]; exact h
  · rw [he]
    by_cases hid : id1 = id
    · subst hid
      obtain ⟨info0, g1, g2, g3, g4, g5⟩ := h
      rw [h1] at g1
      cases g1
      obtain ⟨hw, hall⟩ := g4 cache h2
      have hdel := heap_delmin_spec cache hw h3
      refine ⟨_, getElem?_set_self_of_some _ _ _ _ h1, g2, g3, ?_, g5⟩
      intro c hc
      simp only [Option.some.injEq] at hc
      subst hc
      exact ⟨hdel.1, fun e he =>
        hall e (hdel.2.2.2.2.symm.subset (List.mem_cons_of_mem _ he))⟩
    · exact inode_inv_frame k bs len id s _ h (List.getElem?_set_ne hid) ⟨[], by simp [dj_state.stop], by simp⟩
  · rw [he]; exact flush_deliver_inode_inv k bs len id id1 hbs s info cache sid st h h1 h2 h3 h4

theorem flush_loop_inode_inv (k bs len id id1 : Nat) (hbs : 0 < bs) (fuel : Nat)
    (s : dj_state) (h : inode_inv k bs len id s) :
    inode_inv k bs len id (flush_loop fuel bs id1 s) := by
  induction fuel generalizing s with
  | zero => exact h
  | succ f ih =>
    simp only [flush_loop]
    have h1 := flush_iteration_inode_inv k bs len id id1 hbs s h
    split_ifs
    · exact ih _ h1
    · exact h1

theorem flush_inode_blocks_inode_inv (k bs len id id1 : Nat) (hbs : 0 < bs)
    (s : dj_state) (h : inode_inv k bs len id s) :
    inode_inv k bs len id (flush_inode_blocks bs id1 s) := by
  unfold flush_inode_blocks
  split
  · exact h
  · split
    · exact h
    · exact flush_loop_inode_inv k bs len id id1 hbs _ s h

theorem heapify_block_inode_inv (k len id : Nat) (fs : ext2_filsys) (hbs : 0 < fs.blocksize)
    (b : block_list) (s : dj_state) (hb : b.inode_info = id → block_wf fs.blocksize len b)
    (h : inode_inv k fs.blocksize len id s) :
    inode_inv k fs.blocksize len id (heapify_block fs b s) := by
  unfold heapify_block
  cases h1 : s.infos[b.inode_info]? with
  | none => exact h
  | some info =>
    dsimp only
    by_cases hf : info.freed = true
    · rw [if_pos hf]; exact h
    rw [if_neg hf]
    by_cases hneg : info.block_cache.isNone = true
        ∧ heap_create_size info.len fs.blocksize < 0
    · rw [if_pos hneg]; exact h
    rw [if_neg hneg]
    cases h2 : heap_insert (match info.block_cache with
        | none => heap_create (heap_create_size info.len fs.blocksize).toNat
        | some cache => cache) b.logical_block b with
    | none => exact h
    | some cache1 =>
      dsimp only
      apply flush_inode_blocks_inode_inv k _ len id _ hbs
      by_cases hid : b.inode_info = id
      · obtain ⟨info0, g1, g2, g3, g4, g5⟩ := h
        rw [← hid, h1] at g1
        cases g1
        have hwf : heap_wf (match info.block_cache with
            | none => heap_create (heap_create_size info.len fs.blocksize).toNat
            | some cache => cache) ∧ ∀ e ∈ heap_contents (match info.block_cache with
            | none => heap_create (heap_create_size info.len fs.blocksize).toNat
            | some cache => cache), block_wf fs.blocksize len e.value := by
          cases hc : info.block_cache with
          | none => exact ⟨heap_create_wf _, by simp [heap_contents, heap_create]⟩
          | some c => exact g4 c hc
        have hins := heap_insert_some _ _ _ _ hwf.1 h2
        refine ⟨{ info with block_cache := some cache1 }, ?_, g2, g3, ?_, g5⟩
        · rw [← hid]; exact getElem?_set_self_of_some _ _ _ _ h1
        · intro c hc
          simp only [Option.some.injEq] at hc
          subst hc
          refine ⟨hins.1, ?_⟩
          intro e he
          rcases List.mem_cons.1 (hins.2.2.2.subset he) with he1 | he1
          · subst he1; exact hb hid
          · exact hwf.2 e he1
      · exact inode_inv_frame k _ len id s _ h (List.getElem?_set_ne hid) ⟨[], by simp, by simp⟩

theorem heapify_stripe_loop_inode_inv (k len id : Nat) (fs : ext2_filsys)
    (hbs : 0 < fs.blocksize) (cb : Nat) (l : List block_list)
    (hl : ∀ b ∈ l, b.inode_info = id → block_wf fs.blocksize len b) (rb : Nat) (s : dj_state)
    (h : inode_inv k fs.blocksize len id s) :
    inode_inv k fs.blocksize len id (heapify_stripe_loop fs cb rb l s).2 := by
  induction l generalizing rb s with
  | nil =>
    simp only [heapify_stripe_loop]
    split_ifs
    · exact h
    · exact h
  | cons b rest ih =>
    simp only [heapify_stripe_loop]
    have h1 := heapify_block_inode_inv k len id fs hbs b s (hl b (List.mem_cons_self _ _)) h
    split_ifs
    · exact ih (fun x hx => hl x (List.mem_cons_of_mem _ hx)) _ _ h1
    · exact h1
    · exact h

theorem scan_block_extend_wf (bs len : Nat) (b : block_list)
    (h : b.logical_block * bs < len) : block_wf bs len (scan_block_extend bs len b) := by
  unfold scan_block_extend block_wf
  dsimp only
  refine ⟨Nat.succ_pos _, h, ?_⟩
  split_ifs <;> omega

theorem scan_block_extend_inode_info (bs len : Nat) (b : block_list) :
    (scan_block_extend bs len b).inode_info = b.inode_info := rfl

theorem foldl_preserves {β γ : Type} (P : β → Prop) (f : β → γ → β) (l : List γ)
    (hf : ∀ acc x, P acc → P (f acc x)) (init : β) (h : P init) : P (l.foldl f init) := by
  induction l generalizing init with
  | nil => exact h
  | cons x t ih => exact ih _ (hf _ _ h)

theorem scan_block_rec_inv (bs len id : Nat) (fuel phys logical : Nat)
    (si : scan_blocks_info) (h : scan_inv bs len id si) :
    scan_inv bs len id (scan_block_rec fuel bs phys logical si) := by
  induction fuel generalizing phys logical si with
  | zero => exact h
  | succ f ih =>
    simp only [scan_block_rec]
    by_cases h1 : logical * bs ≥ si.inode_info.len ∨ si.inode_info.len = 0
    · rw [if_pos h1]; exact h
    rw [if_neg h1]
    obtain ⟨hlen, hid, hall⟩ := h
    have hlt : logical * bs < len := by rw [← hlen]; omega
    split_ifs with h2
    · -- the last record is extended
      cases hlast : si.blocks.getLast? with
      | none => rw [hlast] at h2; simp at h2
      | some last =>
        have hmem : last ∈ si.blocks := List.mem_of_mem_getLast? hlast
        refine ⟨hlen, hid, ?_⟩
        intro b hb
        rcases List.mem_append.1 hb with hb | hb
        · exact hall b (List.dropLast_subset _ hb)
        · simp only [List.mem_singleton] at hb
          subst hb
          simp only [Option.getD_some]
          rw [hlen]
          exact ⟨scan_block_extend_wf bs len last (hall last hmem).1.2.1, (hall last hmem).2⟩
    · -- a new record, after the records of the holes before it
      have h3 := foldl_preserves (scan_inv bs len id)
        (fun acc i => scan_block_rec f bs 0 i acc)
        (List.range' si.inode_info.blocks_scanned (logical - si.inode_info.blocks_scanned))
        (fun acc i hacc => ih 0 i acc hacc)
        { si with inode_info := { si.inode_info with
            references := si.inode_info.references + 1 } }
        ⟨hlen, hid, hall⟩
      obtain ⟨glen, gid, gall⟩ := h3
      refine ⟨glen, gid, ?_⟩
      intro b hb
      rcases List.mem_append.1 hb with hb | hb
      · exact gall b hb
      · simp only [List.mem_singleton] at hb
        subst hb
        rw [glen]
        exact ⟨scan_block_extend_wf bs len _ hlt, hid⟩

theorem scan_inode_inv (fs : ext2_filsys) (entry : inode_list) (id : Nat)
    (hentry : entry.blocks = []) :
    scan_inv fs.blocksize entry.len id (scan_inode fs entry id) :=
  foldl_preserves (scan_inv fs.blocksize entry.len id)
    (fun acc (cb : Nat × Nat) => scan_block fs.blocksize cb.1 cb.2 acc)
    (fs.block_iterate entry.index)
    (fun acc cb hacc => scan_block_rec_inv _ _ _ _ _ _ acc hacc) _
    ⟨rfl, rfl, by rw [hentry]; simp⟩

theorem scan_blocks_inode_blocks (fs : ext2_filsys) (entry : inode_list) (s : dj_state) :
    (scan_blocks_inode fs entry s).1.blocks = (scan_inode fs entry s.infos.length).blocks := by
  unfold scan_blocks_inode
  dsimp only
  split_ifs <;> rfl

theorem scan_blocks_inode_blocks_wf (fs : ext2_filsys) (entry : inode_list) (s : dj_state)
    (hentry : entry.blocks = []) :
    ∀ b ∈ (scan_blocks_inode fs entry s).1.blocks,
      block_wf fs.blocksize entry.len b ∧ b.inode_info = s.infos.length := by
  rw [scan_blocks_inode_blocks]
  exact (scan_inode_inv fs entry s.infos.length hentry).2.2

theorem scan_block_rec_frame (info : inode_cb_info) (bs fuel phys logical : Nat)
    (si : scan_blocks_info) (h : scan_frame info si) :
    scan_frame info (scan_block_rec fuel bs phys logical si) := by
  induction fuel generalizing phys logical si with
  | zero => exact h
  | succ f ih =>
    simp only [scan_block_rec]
    split_ifs
    · exact h
    · exact h
    · exact foldl_preserves (scan_frame info) (fun acc i => scan_block_rec f bs 0 i acc) _
        (fun acc i hacc => ih 0 i acc hacc) _ h

theorem scan_inode_frame (fs : ext2_filsys) (entry : inode_list) (id : Nat) :
    scan_frame { inode := entry.index, len := entry.len, blocks_scanned := 0,
                 blocks_read := 0, references := 0, block_cache := none, freed := false }
      (scan_inode fs entry id) :=
  foldl_preserves _
    (fun acc (cb : Nat × Nat) => scan_block fs.blocksize cb.1 cb.2 acc)
    (fs.block_iterate entry.index)
    (fun acc _ hacc => scan_block_rec_frame _ _ _ _ _ acc hacc) _
    ⟨rfl, rfl, rfl, rfl, rfl⟩

theorem scan_blocks_inode_info (fs : ext2_filsys) (entry : inode_list) (s : dj_state) :
    ∃ info, (scan_blocks_inode fs entry s).2.infos[s.infos.length]? = some info ∧
      info.len = entry.len ∧ info.blocks_read = 0 ∧ info.block_cache = none := by
  obtain ⟨_, h2, h3, h4, _⟩ := scan_inode_frame fs entry s.infos.length
  unfold scan_blocks_inode
  dsimp only
  split_ifs
  · exact ⟨_, List.getElem?_concat_length _ _, h2, h3, h4⟩
  · exact ⟨_, List.getElem?_concat_length _ _, h2, h3, h4⟩

/-- C2: the records of a file are those `scan_block` attached (`entry` scanned in state
`s0`), and `heapify_stripe` inserts records in any order `order` (records of other files
among them), starting in any state `s1` in which the file's `inode_cb_info` is as the scan
left it. Then the callback invocations that `flush_inode_blocks` makes for the file start at
offset 0, have strictly increasing offsets, and each offset is the previous offset plus the
previous `data_len`. -/
theorem flush_offsets_contiguous (fs : ext2_filsys) (entry : inode_list) (s0 s1 : dj_state)
    (order : List block_list) (consecutive_blocks : Nat)
    (hbs : 0 < fs.blocksize) (hentry : entry.blocks = [])
    (hinfo : s1.infos[s0.infos.length]?
      = (scan_blocks_inode fs entry s0).2.infos[s0.infos.length]?)
    (horder : ∀ b ∈ order, b.inode_info = s0.infos.length →
      ∃ b0 ∈ (scan_blocks_inode fs entry s0).1.blocks,
        b.logical_block = b0.logical_block ∧ b.num_blocks = b0.num_blocks ∧
          b.stripe_ptr.len = b0.stripe_ptr.len) :
    (∀ c, (calls_of s0.infos.length
        ((heapify_stripe_loop fs consecutive_blocks 0 order s1).2.calls.drop
          s1.calls.length)).head? = some c → c.pos = 0) ∧
    ((calls_of s0.infos.length
        ((heapify_stripe_loop fs consecutive_blocks 0 order s1).2.calls.drop
          s1.calls.length)).map cb_call.pos).Pairwise (· < ·) ∧
    (calls_of s0.infos.length
        ((heapify_stripe_loop fs consecutive_blocks 0 order s1).2.calls.drop
          s1.calls.length)).Chain' (fun a b => b.pos = a.pos + a.data_len) := by
  obtain ⟨info, hi1, hi2, hi3, hi4⟩ := scan_blocks_inode_info fs entry s0
  have hwf := scan_blocks_inode_blocks_wf fs entry s0 hentry
  have hinit : inode_inv s1.calls.length fs.blocksize entry.len s0.infos.length s1 := by
    refine ⟨info, by rw [hinfo, hi1], hi2, le_refl _, ?_, ?_⟩
    · intro c hc; rw [hi4] at hc; cases hc
    · rw [hi3, List.drop_length]; exact chain_inv_nil _ _
  have hl : ∀ b ∈ order, b.inode_info = s0.infos.length →
      block_wf fs.blocksize entry.len b := by
    intro b hb hid
    obtain ⟨b0, hb0, e1, e2, e3⟩ := horder b hb hid
    have := (hwf b0 hb0).1
    unfold block_wf at this ⊢
    rw [e1, e2, e3]; exact this
  obtain ⟨_, _, _, _, _, hchain⟩ := heapify_stripe_loop_inode_inv s1.calls.length entry.len
    s0.infos.length fs hbs consecutive_blocks order hl 0 s1 hinit
  refine ⟨hchain.first, ?_, hchain.adjacent⟩
  rw [List.pairwise_map]
  have : IsTrans cb_call (fun a b => a.pos < b.pos) := ⟨fun a b c h1 h2 => lt_trans h1 h2⟩
  exact List.chain'_iff_pairwise.1 hchain.increasing

theorem flush_offsets_contiguous_witness :
    ((heapify_stripe_loop three_block_fs 3 0 three_block_order three_block_state).2.calls.map
        (fun c => (c.pos, c.data_len)) = [(0, 1), (1, 1), (2, 1)]) ∧
    ((∀ c, (calls_of 0
        ((heapify_stripe_loop three_block_fs 3 0 three_block_order
          three_block_state).2.calls.drop 0)).head? = some c → c.pos = 0) ∧
    ((calls_of 0
        ((heapify_stripe_loop three_block_fs 3 0 three_block_order
          three_block_state).2.calls.drop 0)).map cb_call.pos).Pairwise (· < ·) ∧
    (calls_of 0
        ((heapify_stripe_loop three_block_fs 3 0 three_block_order
          three_block_state).2.calls.drop 0)).Chain' (fun a b => b.pos = a.pos + a.data_len)) :=
  ⟨by decide,
   flush_offsets_contiguous three_block_fs ⟨12, 3, []⟩ dj_state.init three_block_state
    three_block_order 3 (by decide) rfl (by decide) (by decide)⟩

/-- C3: for the ten-block file of `ten_block_fs` the read loop runs to its exit after four
invocations (offsets 0 to 3): six records are still in the inode's heap, `references` is 6,
and the `data_len` values sum to 4, not to the file length 10. -/
theorem read_loop_leaves_records_in_heap :
    (iterate_dir ten_block_fs default_params 1 [⟨12, 10, []⟩]).summary
      = { finished := true, calls := [(0, 1), (1, 1), (2, 1), (3, 1)], running := true,
          references := [6], blocks_read := [4], heap_sizes := [some 6] } := by
  decide

/-- C5: for a file of length 2 with block size 1 and the single data block 0, `scan_block`
attaches one record, for the logical block 0 with byte length 1; logical block 1 is in no
record and the byte lengths sum to 1, not 2. -/
theorem scan_block_skips_trailing_hole :
    (scan_blocks_inode trailing_hole_fs ⟨12, 2, []⟩ dj_state.init).1.blocks
      = [⟨0, 100, 0, 1, ⟨none, 0, 1⟩⟩] := by
  decide

/-- C6: for the file of `hole_then_data_fs` (device bytes 7, 8 at physical block 3), with
`coalesce_distance = 2` the data block is delivered as zeros, with `coalesce_distance = 0`
as the device bytes. -/
theorem coalesce_distance_changes_delivered_bytes :
    delivered (iterate_dir hole_then_data_fs
        { max_inodes := 100, max_blocks := 128000, coalesce_distance := 2, direct := false,
          dev := example_dev } 1 [⟨12, 4, []⟩])
      = [(0, [0, 0]), (2, [0, 0])] ∧
    delivered (iterate_dir hole_then_data_fs
        { max_inodes := 100, max_blocks := 128000, coalesce_distance := 0, direct := false,
          dev := example_dev } 1 [⟨12, 4, []⟩])
      = [(0, [0, 0]), (2, [7, 8])] := by
  decide

/-! ### Properties kept by the loops of the read phase -/

theorem next_stripe_loop_records (Q : block_list → Prop) (bs : Nat) (cd : Int) (sid hp : Nat)
    (hQ : ∀ b pos, Q b → Q { b with stripe_ptr := ⟨some sid, pos, b.stripe_ptr.len⟩ })
    (l : List block_list) (prev : Option block_list) (st : stripe) (h : ∀ b ∈ l, Q b) :
    (∀ b ∈ (next_stripe_loop bs cd sid hp prev l st).2.1, Q b) ∧
    (∀ b ∈ (next_stripe_loop bs cd sid hp prev l st).2.2, Q b) := by
  induction l generalizing prev st with
  | nil => simp [next_stripe_loop]
  | cons fwd rest ih =>
    simp only [next_stripe_loop]
    split_ifs
    · exact ⟨by simp, h⟩
    · have h1 := ih (some (absorb bs sid hp fwd)) (st.absorb bs (physical_block_diff prev fwd) fwd)
        (fun b hb => h b (List.mem_cons_of_mem _ hb))
      refine ⟨?_, h1.2⟩
      intro b hb
      rcases List.mem_cons.1 hb with hb | hb
      · subst hb; exact hQ fwd _ (h fwd (List.mem_cons_self _ _))
      · exact h1.1 b hb

theorem next_stripe_records (Q : block_list → Prop) (bs : Nat) (cd mib : Int) (sid : Nat)
    (hQ : ∀ b pos, Q b → Q { b with stripe_ptr := ⟨some sid, pos, b.stripe_ptr.len⟩ })
    (l : List block_list) (h : ∀ b ∈ l, Q b) :
    ∀ b ∈ (next_stripe bs cd mib sid l).2.1 ++ (next_stripe bs cd mib sid l).2.2, Q b := by
  intro b hb
  unfold next_stripe at hb
  cases l with
  | nil => simp at hb
  | cons head rest =>
    dsimp only at hb
    have := next_stripe_loop_records Q bs cd sid head.physical_block hQ (head :: rest) none
      stripe.empty h
    rcases List.mem_append.1 hb with hb | hb
    · exact this.1 b hb
    · exact this.2 b hb

theorem heapify_stripe_loop_preserves (P : dj_state → Prop) (Q : block_list → Prop)
    (fs : ext2_filsys) (hstop : ∀ s w, P s → P (s.stop w))
    (hheapify : ∀ b s, Q b → P s → P (heapify_block fs b s))
    (cb : Nat) (l : List block_list) (rb : Nat) (s : dj_state)
    (hl : ∀ b ∈ l, Q b) (h : P s) :
    P (heapify_stripe_loop fs cb rb l s).2 ∧ ∀ b ∈ (heapify_stripe_loop fs cb rb l s).1, Q b := by
  induction l generalizing rb s with
  | nil =>
    simp only [heapify_stripe_loop]
    split_ifs
    · exact ⟨hstop _ _ h, by simp⟩
    · exact ⟨h, by simp⟩
  | cons b rest ih =>
    simp only [heapify_stripe_loop]
    have h1 := hheapify b s (hl b (List.mem_cons_self _ _)) h
    have hrest : ∀ x ∈ rest, Q x := fun x hx => hl x (List.mem_cons_of_mem _ hx)
    split_ifs
    · exact ih _ _ hrest h1
    · exact ⟨h1, hrest⟩
    · exact ⟨h, hl⟩

theorem heapify_stripe_preserves (P : dj_state → Prop) (Q : block_list → Prop)
    (fs : ext2_filsys) (hstop : ∀ s w, P s → P (s.stop w))
    (hheapify : ∀ b s, Q b → P s → P (heapify_block fs b s))
    (l : List block_list) (sid : Nat) (mib : Int) (s : dj_state)
    (hl : ∀ b ∈ l, Q b) (h : P s) :
    P (heapify_stripe fs l sid mib s).2 ∧ ∀ b ∈ (heapify_stripe fs l sid mib s).1, Q b := by
  unfold heapify_stripe
  split
  · exact ⟨hstop _ _ h, hl⟩
  · split_ifs
    · exact ⟨hstop _ _ h, hl⟩
    · exact heapify_stripe_loop_preserves P Q fs hstop hheapify _ l 0 s hl h

theorem drain_stripe_records (Q : block_list → Prop) (fs : ext2_filsys) (p : dj_params)
    (mib : Int) (sid : Nat)
    (hQ : ∀ b pos, Q b → Q { b with stripe_ptr := ⟨some sid, pos, b.stripe_ptr.len⟩ })
    (head : block_list) (rest : List block_list) (h : ∀ b ∈ head :: rest, Q b) :
    ∀ b ∈ (drain_stripe fs p mib sid head rest).2.1 ++ (drain_stripe fs p mib sid head rest).2.2,
      Q b := by
  have hn := next_stripe_records Q fs.blocksize p.coalesce_distance mib sid hQ (head :: rest) h
  unfold drain_stripe
  dsimp only
  split_ifs <;> exact hn

theorem drain_requeue_records (Q : block_list → Prop) (n : Nat) (l residual : List block_list)
    (hl : ∀ b ∈ l, Q b) (hres : ∀ b ∈ residual, Q b) :
    (∀ b ∈ (drain_requeue n l residual).1, Q b) ∧
      (∀ b ∈ (drain_requeue n l residual).2, Q b) := by
  unfold drain_requeue
  cases l with
  | nil => exact ⟨by simp, hres⟩
  | cons b old_next =>
    dsimp only
    split_ifs
    · refine ⟨fun x hx => hl x (List.mem_cons_of_mem _ hx), ?_⟩
      intro x hx
      rcases List.mem_append.1 hx with hx | hx
      · exact hres x hx
      · simp at hx; subst hx; exact hl _ (List.mem_cons_self _ _)
    · exact ⟨hl, hres⟩

theorem drain_loop_preserves (P : dj_state → Prop) (Q : block_list → Prop)
    (fs : ext2_filsys) (p : dj_params) (mib : Int)
    (hstop : ∀ s w, P s → P (s.stop w))
    (hstripe : ∀ s st, P s → P { s with stripes := s.stripes ++ [st] })
    (hheapify : ∀ b s, Q b → P s → P (heapify_block fs b s))
    (hQ : ∀ b sid pos, Q b → Q { b with stripe_ptr := ⟨some sid, pos, b.stripe_ptr.len⟩ })
    (fuel : Nat) (l residual : List block_list) (s : dj_state)
    (hl : ∀ b ∈ l, Q b) (hres : ∀ b ∈ residual, Q b) (h : P s) :
    P (drain_loop fs p mib fuel l residual s).2 ∧
      ∀ b ∈ (drain_loop fs p mib fuel l residual s).1, Q b := by
  induction fuel generalizing l residual s with
  | zero => exact ⟨h, hres⟩
  | succ f ih =>
    cases l with
    | nil => exact ⟨h, hres⟩
    | cons head rest =>
      simp only [drain_loop]
      have hn := drain_stripe_records Q fs p mib s.stripes.length (hQ · s.stripes.length)
        head rest hl
      have hh := heapify_stripe_preserves P Q fs hstop hheapify _ s.stripes.length mib _ hn
        (hstripe s (drain_stripe fs p mib s.stripes.length head rest).1 h)
      split_ifs with hfreed hrun
      · exact ⟨hstop _ _ (hstripe _ _ h), hres⟩
      · have hq := drain_requeue_records Q
          (drain_stripe fs p mib s.stripes.length head rest).1.consecutive_len _ residual
          hh.2 hres
        exact ih _ _ _ hq.1 hq.2 hh.1
      · exact ⟨hh.1, hres⟩

theorem block_list_sort_mem (l : List block_list) (b : block_list) :
    b ∈ block_list_sort l ↔ b ∈ l :=
  (List.perm_insertionSort _ l).mem_iff

theorem admit_loop_preserves (P : dj_state → Prop) (Q : block_list → Prop) (max_inodes : Int)
    (hadm : ∀ s : dj_state, P s →
      P { s with open_inodes_count := s.open_inodes_count + 1,
                 open_inodes_hist := s.open_inodes_hist ++ [s.open_inodes_count + 1] })
    (il : List inode_list) (bls : List block_list) (s : dj_state)
    (hil : ∀ e ∈ il, ∀ b ∈ e.blocks, Q b) (hbls : ∀ b ∈ bls, Q b) (h : P s) :
    (∀ e ∈ (admit_loop max_inodes il bls s).1, ∀ b ∈ e.blocks, Q b) ∧
    (∀ b ∈ (admit_loop max_inodes il bls s).2.1, Q b) ∧
    P (admit_loop max_inodes il bls s).2.2 := by
  induction il generalizing bls s with
  | nil => exact ⟨hil, hbls, h⟩
  | cons e rest ih =>
    simp only [admit_loop]
    have hrest : ∀ x ∈ rest, ∀ b ∈ x.blocks, Q b := fun x hx => hil x (List.mem_cons_of_mem _ hx)
    split_ifs
    · refine ih _ _ hrest ?_ (hadm s h)
      intro b hb
      rcases List.mem_append.1 hb with hb | hb
      · exact hbls b hb
      · exact hil e (List.mem_cons_self _ _) b hb
    · exact ih _ _ hrest hbls h
    · exact ⟨hil, hbls, h⟩

theorem read_loop_preserves (P : dj_state → Prop) (Q : block_list → Prop)
    (fs : ext2_filsys) (p : dj_params)
    (hstop : ∀ s w, P s → P (s.stop w))
    (hstripe : ∀ s st, P s → P { s with stripes := s.stripes ++ [st] })
    (hadm : ∀ s : dj_state, P s →
      P { s with open_inodes_count := s.open_inodes_count + 1,
                 open_inodes_hist := s.open_inodes_hist ++ [s.open_inodes_count + 1] })
    (hheapify : ∀ b s, Q b → P s → P (heapify_block fs b s))
    (hQ : ∀ b sid pos, Q b → Q { b with stripe_ptr := ⟨some sid, pos, b.stripe_ptr.len⟩ })
    (fuel : Nat) (il : List inode_list) (bls : List block_list) (s : dj_state)
    (hil : ∀ e ∈ il, ∀ b ∈ e.blocks, Q b) (hbls : ∀ b ∈ bls, Q b) (h : P s) :
    P (read_loop fs p fuel il bls s).state := by
  induction fuel generalizing il bls s with
  | zero => exact h
  | succ f ih =>
    simp only [read_loop]
    have ha := admit_loop_preserves P Q p.max_inodes hadm il bls s hil hbls h
    have hd := drain_loop_preserves P Q fs p
      (max_inode_blocks p.max_blocks (admit_loop p.max_inodes il bls s).2.2.open_inodes_count)
      hstop hstripe hheapify hQ (block_list_sort (admit_loop p.max_inodes il bls s).2.1).length
      (block_list_sort (admit_loop p.max_inodes il bls s).2.1) [] _
      (fun b hb => ha.2.1 b ((block_list_sort_mem _ b).1 hb)) (by simp) ha.2.2
    split_ifs
    · exact h
    · exact ih _ _ _ ha.1 hd.2 hd.1
    · exact hd.1

/-! ### Files without records -/

theorem scan_block_rec_len_zero (fuel bs phys logical : Nat) (si : scan_blocks_info)
    (h : si.inode_info.len = 0) : scan_block_rec fuel bs phys logical si = si := by
  cases fuel with
  | zero => rfl
  | succ f => simp [scan_block_rec, h]

theorem scan_inode_len_zero (fs : ext2_filsys) (e : inode_list) (id : Nat) (h : e.len = 0) :
    scan_inode fs e id =
      { info_id := id,
        inode_info := { inode := e.index, len := e.len, blocks_scanned := 0,
                        blocks_read := 0, references := 0, block_cache := none,
                        freed := false },
        blocks := e.blocks } := by
  unfold scan_inode
  apply foldl_preserves (fun acc => acc = _)
  · intro acc cb hacc
    subst hacc
    exact scan_block_rec_len_zero _ _ _ _ _ h
  · rfl

theorem scan_blocks_inode_len_zero (fs : ext2_filsys) (e : inode_list) (s : dj_state)
    (h : e.len = 0) :
    scan_blocks_inode fs e s =
      (e, { s with
            infos := s.infos ++ [{ inode := e.index, len := e.len, blocks_scanned := 0,
                                   blocks_read := 0, references := 0, block_cache := none,
                                   freed := true }],
            calls := s.calls ++ [{ inode := e.index, pos := 0, file_len := 0, data := [],
                                   data_len := 0, cb_private := s.infos.length }] }) := by
  unfold scan_blocks_inode
  rw [scan_inode_len_zero fs e _ h]
  rfl

theorem scan_blocks_inode_state (fs : ext2_filsys) (e : inode_list) (s : dj_state)
    (he : e.blocks = []) :
    ∃ info extra, (scan_blocks_inode fs e s).2
        = { s with infos := s.infos ++ [info], calls := s.calls ++ extra } ∧
      (∀ c ∈ extra, c.cb_private = s.infos.length) ∧
      (∀ b ∈ (scan_blocks_inode fs e s).1.blocks, b.inode_info = s.infos.length) := by
  have hb := scan_blocks_inode_blocks_wf fs e s he
  by_cases h : (scan_inode fs e s.infos.length).inode_info.references = 0
  · refine ⟨{ (scan_inode fs e s.infos.length).inode_info with freed := true },
      [{ inode := (scan_inode fs e s.infos.length).inode_info.inode, pos := 0, file_len := 0,
         data := [], data_len := 0, cb_private := s.infos.length }], ?_, ?_,
      fun b h => (hb b h).2⟩
    · unfold scan_blocks_inode
      dsimp only
      rw [if_pos h]
    · intro c hc
      simp only [List.mem_singleton] at hc
      subst hc
      rfl
  · refine ⟨(scan_inode fs e s.infos.length).inode_info, [], ?_, by simp,
      fun b h => (hb b h).2⟩
    unfold scan_blocks_inode
    dsimp only
    rw [if_neg h]
    simp

theorem scan_blocks_range (fs : ext2_filsys) (l : List inode_list) (s : dj_state)
    (hl : ∀ e ∈ l, e.blocks = []) :
    ∃ news extra, (scan_blocks fs l s).2
        = { s with infos := s.infos ++ news, calls := s.calls ++ extra } ∧
      news.length = l.length ∧ (scan_blocks fs l s).1.length = l.length ∧
      (∀ c ∈ extra, s.infos.length ≤ c.cb_private ∧ c.cb_private < s.infos.length + l.length) ∧
      (∀ e ∈ (scan_blocks fs l s).1, ∀ b ∈ e.blocks,
        s.infos.length ≤ b.inode_info ∧ b.inode_info < s.infos.length + l.length) := by
  induction l generalizing s with
  | nil => exact ⟨[], [], by simp [scan_blocks], rfl, rfl, by simp, by simp [scan_blocks]⟩
  | cons e rest ih =>
    obtain ⟨info, extra1, h1, h2, h3⟩ :=
      scan_blocks_inode_state fs e s (hl e (List.mem_cons_self _ _))
    obtain ⟨news, extra2, g1, g2, g2b, g3, g4⟩ :=
      ih (scan_blocks_inode fs e s).2 (fun x hx => hl x (List.mem_cons_of_mem _ hx))
    have hlen : (scan_blocks_inode fs e s).2.infos.length = s.infos.length + 1 := by
      rw [h1]; simp
    refine ⟨info :: news, extra1 ++ extra2, ?_, by simp [g2], by simp [scan_blocks, g2b], ?_, ?_⟩
    · simp only [scan_blocks]
      rw [g1, h1]
      simp
    · intro c hc
      rcases List.mem_append.1 hc with hc | hc
      · have := h2 c hc
        simp only [List.length_cons]; omega
      · have := g3 c hc
        rw [hlen] at this
        simp only [List.length_cons]; omega
    · intro x hx b hb
      simp only [scan_blocks, List.mem_cons] at hx
      rcases hx with hx | hx
      · subst hx
        have := h3 b hb
        simp only [List.length_cons]; omega
      · have := g4 x hx b hb
        rw [hlen] at this
        simp only [List.length_cons]; omega

theorem scan_blocks_append (fs : ext2_filsys) (l1 l2 : List inode_list) (s : dj_state) :
    scan_blocks fs (l1 ++ l2) s =
      ((scan_blocks fs l1 s).1 ++ (scan_blocks fs l2 (scan_blocks fs l1 s).2).1,
       (scan_blocks fs l2 (scan_blocks fs l1 s).2).2) := by
  induction l1 generalizing s with
  | nil => simp [scan_blocks]
  | cons e rest ih => simp [scan_blocks, ih]

theorem calls_of_append_other (id : Nat) (calls : List cb_call) (c : cb_call)
    (h : c.cb_private ≠ id) : calls_of id (calls ++ [c]) = calls_of id calls := by
  simp [calls_of, List.filter_append, h]

theorem flush_deliver_untouched (id id1 : Nat) (io : Option inode_cb_info)
    (cs : List cb_call) (bs : Nat) (s : dj_state) (info : inode_cb_info)
    (cache : heap block_list) (sid : Nat) (st : stripe) (hid : id1 ≠ id)
    (h : other_untouched id io cs s) :
    other_untouched id io cs (flush_deliver bs id1 s info cache sid st).1 := by
  obtain ⟨h1, h2⟩ := h
  unfold flush_deliver
  dsimp only
  by_cases hz : info.references - 1 = 0
  · rw [if_pos hz]
    exact ⟨by rw [← h1]; exact List.getElem?_set_ne hid,
      by rw [← h2]; exact calls_of_append_other id _ _ hid⟩
  · rw [if_neg hz]
    exact ⟨by rw [← h1]; exact List.getElem?_set_ne hid,
      by rw [← h2]; exact calls_of_append_other id _ _ hid⟩

theorem flush_iteration_untouched (id id1 : Nat) (io : Option inode_cb_info)
    (cs : List cb_call) (bs : Nat) (s : dj_state) (hid : id1 ≠ id)
    (h : other_untouched id io cs s) :
    other_untouched id io cs (flush_iteration bs id1 s).1 := by
  rcases flush_iteration_cases bs id1 s with ⟨w, hw⟩ | hs | ⟨info, cache, _, _, _, he⟩ |
    ⟨info, cache, sid, st, _, _, _, _, _, _, _, _, _, he⟩
  · rw [hw]; exact h
  · rw [hs]; exact h
  · rw [he]
    exact ⟨by rw [← h.1]; exact List.getElem?_set_ne hid, h.2⟩
  · rw [he]; exact flush_deliver_untouched id id1 io cs bs s info cache sid st hid h

theorem flush_loop_untouched (id id1 : Nat) (io : Option inode_cb_info)
    (cs : List cb_call) (bs fuel : Nat) (s : dj_state) (hid : id1 ≠ id)
    (h : other_untouched id io cs s) :
    other_untouched id io cs (flush_loop fuel bs id1 s) := by
  induction fuel generalizing s with
  | zero => exact h
  | succ f ih =>
    simp only [flush_loop]
    have h1 := flush_iteration_untouched id id1 io cs bs s hid h
    split_ifs
    · exact ih _ h1
    · exact h1

theorem flush_inode_blocks_untouched (id id1 : Nat) (io : Option inode_cb_info)
    (cs : List cb_call) (bs : Nat) (s : dj_state) (hid : id1 ≠ id)
    (h : other_untouched id io cs s) :
    other_untouched id io cs (flush_inode_blocks bs id1 s) := by
  unfold flush_inode_blocks
  split
  · exact h
  · split
    · exact h
    · exact flush_loop_untouched id id1 io cs bs _ s hid h

theorem heapify_block_untouched (id : Nat) (io : Option inode_cb_info) (cs : List cb_call)
    (fs : ext2_filsys) (b : block_list) (s : dj_state) (hid : b.inode_info ≠ id)
    (h : other_untouched id io cs s) : other_untouched id io cs (heapify_block fs b s) := by
  unfold heapify_block
  cases h1 : s.infos[b.inode_info]? with
  | none => exact h
  | some info =>
    dsimp only
    by_cases hf : info.freed = true
    · rw [if_pos hf]; exact h
    rw [if_neg hf]
    by_cases hneg : info.block_cache.isNone = true
        ∧ heap_create_size info.len fs.blocksize < 0
    · rw [if_pos hneg]; exact h
    rw [if_neg hneg]
    cases h2 : heap_insert (match info.block_cache with
        | none => heap_create (heap_create_size info.len fs.blocksize).toNat
        | some cache => cache) b.logical_block b with
    | none => exact h
    | some cache1 =>
      dsimp only
      apply flush_inode_blocks_untouched id _ io cs _ _ hid
      exact ⟨by rw [← h.1]; exact List.getElem?_set_ne hid, h.2⟩

theorem inode_list_sort_mem (l : List inode_list) (e : inode_list) :
    e ∈ inode_list_sort l ↔ e ∈ l :=
  (List.perm_insertionSort _ l).mem_iff

/-- C4: a file of declared length 0, at position `before.length` of the inode list sorted
for the scan. Whatever callbacks the library makes, the scan leaves the entry without
records and its `inode_cb_info` with `references = 0`, and makes exactly one callback for
it, with `pos = 0`, `file_len = 0`, `data_len = 0`; after any number of iterations of the
read loop that callback is still the only one for the file. -/
theorem empty_file_single_callback (fs : ext2_filsys) (p : dj_params) (fuel : Nat)
    (inodes before after : List inode_list) (e : inode_list)
    (hblocks : ∀ x ∈ inodes, x.blocks = [])
    (hsort : inode_list_sort inodes = before ++ e :: after) (hlen : e.len = 0) :
    (∃ e1, (scan_blocks fs (inode_list_sort inodes) dj_state.init).1[before.length]? = some e1
      ∧ e1.blocks = []) ∧
    (∃ info, (scan_blocks fs (inode_list_sort inodes) dj_state.init).2.infos[before.length]?
        = some info ∧ info.references = 0) ∧
    calls_of before.length (scan_blocks fs (inode_list_sort inodes) dj_state.init).2.calls
      = [{ inode := e.index, pos := 0, file_len := 0, data := [], data_len := 0,
           cb_private := before.length }] ∧
    calls_of before.length (iterate_dir fs p fuel inodes).state.calls
      = [{ inode := e.index, pos := 0, file_len := 0, data := [], data_len := 0,
           cb_private := before.length }] := by
  have hall : ∀ x ∈ before ++ e :: after, x.blocks = [] := by
    intro x hx
    rw [← hsort] at hx
    exact hblocks x ((inode_list_sort_mem _ _).1 hx)
  have he : e.blocks = [] := hall e (by simp)
  obtain ⟨news1, extra1, b1, b2, b3, b4, b5⟩ := scan_blocks_range fs before dj_state.init
    (fun x hx => hall x (List.mem_append_left _ hx))
  have hlen1 : (scan_blocks fs before dj_state.init).2.infos.length = before.length := by
    rw [b1]; simp [dj_state.init, b2]
  have hmid := scan_blocks_inode_len_zero fs e (scan_blocks fs before dj_state.init).2 hlen
  obtain ⟨news2, extra2, a1, a2, a3, a4, a5⟩ := scan_blocks_range fs after
    (scan_blocks_inode fs e (scan_blocks fs before dj_state.init).2).2
    (fun x hx => hall x (List.mem_append_right _ (List.mem_cons_of_mem _ hx)))
  have hlen2 : (scan_blocks_inode fs e (scan_blocks fs before dj_state.init).2).2.infos.length
      = before.length + 1 := by
    rw [hmid]; simp [hlen1]
  have hscan : scan_blocks fs (before ++ e :: after) dj_state.init =
      ((scan_blocks fs before dj_state.init).1 ++ e ::
        (scan_blocks fs after
          (scan_blocks_inode fs e (scan_blocks fs before dj_state.init).2).2).1,
       (scan_blocks fs after
          (scan_blocks_inode fs e (scan_blocks fs before dj_state.init).2).2).2) := by
    rw [scan_blocks_append]
    simp only [scan_blocks]
    rw [hmid]
  have hinfo : (scan_blocks fs (before ++ e :: after) dj_state.init).2.infos[before.length]?
      = some { inode := e.index, len := e.len, blocks_scanned := 0, blocks_read := 0,
               references := 0, block_cache := none, freed := true } := by
    rw [hscan]
    dsimp only
    rw [a1, hmid]
    dsimp only
    rw [List.append_assoc, List.getElem?_append_right (by omega), hlen1]
    simp
  have hcalls : calls_of before.length
      (scan_blocks fs (before ++ e :: after) dj_state.init).2.calls
      = [{ inode := e.index, pos := 0, file_len := 0, data := [], data_len := 0,
           cb_private := before.length }] := by
    rw [hscan]
    dsimp only
    rw [a1, hmid]
    dsimp only
    rw [hlen1, b1]
    have e1 : calls_of before.length extra1 = [] := by
      simp only [calls_of, List.filter_eq_nil_iff, decide_eq_true_eq]
      intro c hc
      have := b4 c hc
      simp [dj_state.init] at this
      omega
    have e2 : calls_of before.length extra2 = [] := by
      simp only [calls_of, List.filter_eq_nil_iff, decide_eq_true_eq]
      intro c hc
      have := a4 c hc
      rw [hlen2] at this
      omega
    simp only [calls_of, List.filter_append] at e1 e2 ⊢
    simp [dj_state.init, e1, e2]
  have hrec : ∀ x ∈ (scan_blocks fs (before ++ e :: after) dj_state.init).1,
      ∀ b ∈ x.blocks, b.inode_info ≠ before.length := by
    rw [hscan]
    intro x hx b hb
    rcases List.mem_append.1 hx with hx | hx
    · have := b5 x hx b hb
      simp [dj_state.init] at this
      omega
    · rcases List.mem_cons.1 hx with hx | hx
      · subst hx; rw [he] at hb; cases hb
      · have := a5 x hx b hb
        rw [hlen2] at this
        omega
  rw [hsort]
  refine ⟨⟨e, ?_, he⟩, ⟨_, hinfo, rfl⟩, hcalls, ?_⟩
  · rw [hscan]
    dsimp only
    rw [List.getElem?_append_right (by omega), b3]
    simp
  · unfold iterate_dir
    dsimp only
    rw [hsort]
    exact (read_loop_preserves (other_untouched before.length _ _)
      (fun b => b.inode_info ≠ before.length) fs p
      (fun s w h => h) (fun s st h => h) (fun s h => h)
      (fun b s hb h => heapify_block_untouched _ _ _ fs b s hb h)
      (fun b sid pos h => h) fuel _ [] _ hrec (by simp) ⟨hinfo, hcalls⟩).2

theorem empty_file_single_callback_witness :
    calls_of 1 (iterate_dir empty_file_fs default_params 3
        [⟨12, 0, []⟩, ⟨5, 3, []⟩]).state.calls
      = [{ inode := 12, pos := 0, file_len := 0, data := [], data_len := 0,
           cb_private := 1 }] :=
  (empty_file_single_callback empty_file_fs default_params 3 [⟨12, 0, []⟩, ⟨5, 3, []⟩]
    [⟨5, 3, []⟩] [] ⟨12, 0, []⟩ (by decide) (by decide) rfl).2.2.2

/-! ### max_blocks -/

theorem next_stripe_max_inode_blocks (bs : Nat) (cd m1 m2 : Int) (sid : Nat)
    (l : List block_list) : next_stripe bs cd m1 sid l = next_stripe bs cd m2 sid l := rfl

theorem heapify_stripe_max_inode_blocks (fs : ext2_filsys) (l : List block_list) (sid : Nat)
    (m1 m2 : Int) (s : dj_state) : heapify_stripe fs l sid m1 s = heapify_stripe fs l sid m2 s :=
  rfl

theorem drain_stripe_max_blocks (fs : ext2_filsys) (p : dj_params) (mb m1 m2 : Int)
    (sid : Nat) (head : block_list) (rest : List block_list) :
    drain_stripe fs { p with max_blocks := mb } m1 sid head rest
      = drain_stripe fs p m2 sid head rest := rfl

theorem drain_loop_max_blocks (fs : ext2_filsys) (p : dj_params) (mb m1 m2 : Int)
    (fuel : Nat) (l residual : List block_list) (s : dj_state) :
    drain_loop fs { p with max_blocks := mb } m1 fuel l residual s
      = drain_loop fs p m2 fuel l residual s := by
  induction fuel generalizing l residual s with
  | zero => rfl
  | succ f ih =>
    cases l with
    | nil => rfl
    | cons head rest =>
      simp only [drain_loop]
      rw [drain_stripe_max_blocks fs p mb m1 m2, heapify_stripe_max_inode_blocks fs _ _ m1 m2]
      split_ifs
      · rfl
      · exact ih _ _ _
      · rfl

/-- C7 (as amended): the read loop does not depend on `max_blocks`: for every value `mb` of
`max_blocks`, every number of iterations and every starting point, the outer loop of
`iterate_dir` reaches the same result (inode list, scheduled list, state with all callback
invocations) as with the given parameters. -/
theorem read_loop_ignores_max_blocks (fs : ext2_filsys) (p : dj_params) (mb : Int)
    (fuel : Nat) (il : List inode_list) (bls : List block_list) (s : dj_state) :
    read_loop fs { p with max_blocks := mb } fuel il bls s = read_loop fs p fuel il bls s := by
  induction fuel generalizing il bls s with
  | zero => rfl
  | succ f ih =>
    simp only [read_loop]
    rw [drain_loop_max_blocks fs p mb _
      (max_inode_blocks p.max_blocks (admit_loop p.max_inodes il bls s).2.2.open_inodes_count)]
    split_ifs
    · rfl
    · exact ih _ _ _
    · rfl

/-- C7: with `max_blocks = 1`, after the admit loop of the first iteration of the read loop
the scheduled list holds the two blocks of the file of `two_block_fs`, so the number of
queued blocks (2) is not at most `max_blocks`. -/
theorem queued_blocks_exceed_max_blocks :
    ¬ ((queued_blocks
        (admit_loop one_block_budget.max_inodes
          (scan_blocks two_block_fs [⟨12, 2, []⟩] dj_state.init).1 []
          (scan_blocks two_block_fs [⟨12, 2, []⟩] dj_state.init).2).2.1
        (admit_loop one_block_budget.max_inodes
          (scan_blocks two_block_fs [⟨12, 2, []⟩] dj_state.init).1 []
          (scan_blocks two_block_fs [⟨12, 2, []⟩] dj_state.init).2).2.2 : Int)
      ≤ one_block_budget.max_blocks) := by
  decide

/-! ### The number of open inodes -/

theorem filter_range_flip (p q : Nat → Bool) (n j : Nat) (hj : j < n)
    (hpq : ∀ i, i ≠ j → p i = q i) (hp : p j = true) (hq : q j = false) :
    ((List.range n).filter q).length + 1 = ((List.range n).filter p).length := by
  induction n with
  | zero => omega
  | succ m ih =>
    rw [List.range_succ, List.filter_append, List.filter_append, List.length_append,
      List.length_append]
    by_cases hjm : j = m
    · subst hjm
      have : (List.range j).filter q = (List.range j).filter p := by
        apply List.filter_congr
        intro x hx
        have := List.mem_range.1 hx
        exact (hpq x (by omega)).symm
      rw [this]
      simp [hp, hq]
    · have h1 := ih (by omega)
      have h2 : p m = q m := hpq m (fun h => hjm h.symm)
      simp only [List.filter_cons, List.filter_nil, h2]
      split_ifs <;> simp <;> omega

theorem filter_range_same (p q : Nat → Bool) (n : Nat) (hpq : ∀ i, i < n → p i = q i) :
    ((List.range n).filter q).length = ((List.range n).filter p).length := by
  have : (List.range n).filter q = (List.range n).filter p := by
    apply List.filter_congr
    intro x hx
    exact (hpq x (List.mem_range.1 hx)).symm
  rw [this]

theorem info_unfreed_set_same (infos : List inode_cb_info) (id : Nat)
    (info x : inode_cb_info) (h : infos[id]? = some info) (hx : x.freed = info.freed) (i : Nat) :
    info_unfreed (infos.set id x) i = info_unfreed infos i := by
  unfold info_unfreed
  by_cases hi : id = i
  · subst hi
    rw [getElem?_set_self_of_some _ _ _ _ h, h]
    simp [hx]
  · rw [List.getElem?_set_ne hi]

theorem info_unfreed_set_ne (infos : List inode_cb_info) (id : Nat) (x : inode_cb_info)
    (i : Nat) (hi : id ≠ i) : info_unfreed (infos.set id x) i = info_unfreed infos i := by
  unfold info_unfreed
  rw [List.getElem?_set_ne hi]

theorem opened_set_same (infos : List inode_cb_info) (id : Nat)
    (info x : inode_cb_info) (h : infos[id]? = some info) (hx : x.freed = info.freed) (k : Nat) :
    opened (infos.set id x) k = opened infos k :=
  filter_range_same _ _ k (fun i _ => (info_unfreed_set_same infos id info x h hx i).symm)

theorem opened_set_freed (infos : List inode_cb_info) (id : Nat)
    (info x : inode_cb_info) (h : infos[id]? = some info) (hf : info.freed = false)
    (hx : x.freed = true) (k : Nat) (hk : id < k) :
    opened (infos.set id x) k + 1 = opened infos k := by
  apply filter_range_flip _ _ k id hk
  · intro i hi
    exact (info_unfreed_set_ne infos id x i (fun h => hi h.symm)).symm
  · simp [info_unfreed, h, hf]
  · simp [info_unfreed, getElem?_set_self_of_some _ _ _ _ h, hx]

theorem count_inv_set_same (max : Int) (k : Nat) (ref : List Bool) (s : dj_state)
    (id : Nat) (info x : inode_cb_info) (h : count_inv max k ref s)
    (hi : s.infos[id]? = some info) (hx : x.freed = info.freed) :
    count_inv max k ref { s with infos := s.infos.set id x } :=
  ⟨by rw [opened_set_same _ _ _ _ hi hx]; exact h.count, h.le_max, h.hist,
   fun i hk => by rw [info_unfreed_set_same _ _ _ _ hi hx]; exact h.rest i hk⟩

theorem flush_deliver_count_inv (max : Int) (k : Nat) (ref : List Bool) (bs id1 : Nat)
    (s : dj_state) (info : inode_cb_info) (cache : heap block_list) (sid : Nat) (st : stripe)
    (hid : id1 < k) (h1 : s.infos[id1]? = some info) (hf : info.freed = false)
    (h : count_inv max k ref s) :
    count_inv max k ref (flush_deliver bs id1 s info cache sid st).1 := by
  unfold flush_deliver
  dsimp only
  by_cases hz : info.references - 1 = 0
  · rw [if_pos hz]
    have ho := opened_set_freed s.infos id1 info
      { inode := info.inode, len := info.len, blocks_scanned := info.blocks_scanned,
        blocks_read := info.blocks_read + (heap_min cache).num_blocks,
        references := info.references - 1, block_cache := none, freed := true }
      h1 hf rfl k hid
    have hc := h.count
    have hm := h.le_max
    refine ⟨?_, ?_, ?_, ?_⟩
    · show s.open_inodes_count - 1 = ((opened (s.infos.set id1 _) k : ℕ) : ℤ)
      omega
    · show s.open_inodes_count - 1 ≤ max
      omega
    · intro v hv
      rcases List.mem_append.1 hv with hv | hv
      · exact h.hist v hv
      · simp only [List.mem_singleton] at hv
        subst hv
        omega
    · intro i hk
      show info_unfreed (s.infos.set id1 _) i = _
      rw [info_unfreed_set_ne _ _ _ _ (by omega)]
      exact h.rest i hk
  · rw [if_neg hz]
    refine ⟨?_, h.le_max, h.hist, ?_⟩
    · show s.open_inodes_count = ((opened (s.infos.set id1 _) k : ℕ) : ℤ)
      rw [opened_set_same _ _ _ _ h1 (by rfl)]; exact h.count
    · intro i hk
      show info_unfreed (s.infos.set id1 _) i = _
      rw [info_unfreed_set_same _ _ _ _ h1 (by rfl)]; exact h.rest i hk

theorem flush_iteration_count_inv (max : Int) (k : Nat) (ref : List Bool) (bs id1 : Nat)
    (s : dj_state) (hid : id1 < k) (h : count_inv max k ref s) :
    count_inv max k ref (flush_iteration bs id1 s).1 := by
  rcases flush_iteration_cases bs id1 s with ⟨w, hw⟩ | hs | ⟨info, cache, h1, _, _, he⟩ |
    ⟨info, cache, sid, st, h1, hf, _, _, _, _, _, _, _, he⟩
  · rw [hw]; exact ⟨h.count, h.le_max, h.hist, h.rest⟩
  · rw [hs]; exact h
  · rw [he]
    have := count_inv_set_same max k ref s id1 info
      { info with block_cache := some (heap_delmin cache).2 } h h1 rfl
    exact ⟨this.count, this.le_max, this.hist, this.rest⟩
  · rw [he]; exact flush_deliver_count_inv max k ref bs id1 s info cache sid st hid h1 hf h

theorem flush_loop_count_inv (max : Int) (k : Nat) (ref : List Bool) (bs id1 fuel : Nat)
    (s : dj_state) (hid : id1 < k) (h : count_inv max k ref s) :
    count_inv max k ref (flush_loop fuel bs id1 s) := by
  induction fuel generalizing s with
  | zero => exact h
  | succ f ih =>
    simp only [flush_loop]
    have h1 := flush_iteration_count_inv max k ref bs id1 s hid h
    split_ifs
    · exact ih _ h1
    · exact h1

theorem count_inv_stop (max : Int) (k : Nat) (ref : List Bool) (s : dj_state)
    (w : run_status) (h : count_inv max k ref s) : count_inv max k ref (s.stop w) :=
  ⟨h.count, h.le_max, h.hist, h.rest⟩

theorem flush_inode_blocks_count_inv (max : Int) (k : Nat) (ref : List Bool) (bs id1 : Nat)
    (s : dj_state) (hid : id1 < k) (h : count_inv max k ref s) :
    count_inv max k ref (flush_inode_blocks bs id1 s) := by
  unfold flush_inode_blocks
  split
  · exact count_inv_stop _ _ _ _ _ h
  · split
    · exact count_inv_stop _ _ _ _ _ h
    · exact flush_loop_count_inv max k ref bs id1 _ s hid h

theorem heapify_block_count_inv (max : Int) (k : Nat) (ref : List Bool) (fs : ext2_filsys)
    (b : block_list) (s : dj_state) (hid : b.inode_info < k) (h : count_inv max k ref s) :
    count_inv max k ref (heapify_block fs b s) := by
  unfold heapify_block
  cases h1 : s.infos[b.inode_info]? with
  | none => exact count_inv_stop _ _ _ _ _ h
  | some info =>
    dsimp only
    by_cases hf : info.freed = true
    · rw [if_pos hf]; exact count_inv_stop _ _ _ _ _ h
    rw [if_neg hf]
    by_cases hneg : info.block_cache.isNone = true
        ∧ heap_create_size info.len fs.blocksize < 0
    · rw [if_pos hneg]; exact count_inv_stop _ _ _ _ _ h
    rw [if_neg hneg]
    cases h2 : heap_insert (match info.block_cache with
        | none => heap_create (heap_create_size info.len fs.blocksize).toNat
        | some cache => cache) b.logical_block b with
    | none => exact count_inv_stop _ _ _ _ _ h
    | some cache1 =>
      dsimp only
      apply flush_inode_blocks_count_inv max k ref _ _ _ hid
      exact count_inv_set_same max k ref s b.inode_info info _ h h1 rfl

theorem pending_inv_tail (k : Nat) (ref : List Bool) (e : inode_list) (rest : List inode_list)
    (h : pending_inv k ref (e :: rest)) : pending_inv (k + 1) ref rest := by
  intro j x hx
  have := h (j + 1) x (by simpa using hx)
  rw [show k + 1 + j = k + (j + 1) by omega]
  exact this

theorem opened_succ (infos : List inode_cb_info) (k : Nat) :
    opened infos (k + 1) = opened infos k + (if info_unfreed infos k then 1 else 0) := by
  unfold opened
  rw [List.range_succ, List.filter_append, List.length_append]
  by_cases h : info_unfreed infos k = true
  · simp [h]
  · simp [h]

theorem admit_loop_count_inv (max : Int) (ref : List Bool) (il : List inode_list) (k : Nat)
    (bls : List block_list) (s : dj_state) (hil : pending_inv k ref il)
    (hbls : ∀ b ∈ bls, b.inode_info < k) (h : count_inv max k ref s) :
    ∃ k1, pending_inv k1 ref (admit_loop max il bls s).1 ∧
      (∀ b ∈ (admit_loop max il bls s).2.1, b.inode_info < k1) ∧
      count_inv max k1 ref (admit_loop max il bls s).2.2 := by
  induction il generalizing k bls s with
  | nil => exact ⟨k, hil, hbls, h⟩
  | cons e rest ih =>
    simp only [admit_loop]
    have he := hil 0 e (by simp)
    simp only [Nat.add_zero] at he
    have hu : info_unfreed s.infos k = decide (e.blocks ≠ []) := by
      rw [h.rest k (le_refl _)]; exact he.1
    have hrest := pending_inv_tail k ref e rest hil
    by_cases hlt : s.open_inodes_count < max
    · rw [if_pos hlt]
      by_cases hb : e.blocks ≠ []
      · rw [if_pos hb]
        have hu1 : info_unfreed s.infos k = true := by rw [hu]; simpa using hb
        refine ih (k + 1) _ _ hrest ?_ ?_
        · intro b hb1
          rcases List.mem_append.1 hb1 with hb1 | hb1
          · have := hbls b hb1; omega
          · have := he.2 b hb1; omega
        · have hc := h.count
          refine ⟨?_, ?_, ?_, fun i hi => h.rest i (by omega)⟩
          · show s.open_inodes_count + 1 = opened s.infos (k + 1)
            rw [opened_succ, hu1]; simp; omega
          · show s.open_inodes_count + 1 ≤ max
            omega
          · intro v hv
            rcases List.mem_append.1 hv with hv | hv
            · exact h.hist v hv
            · simp only [List.mem_singleton] at hv
              subst hv
              omega
      · rw [if_neg hb]
        have hu1 : info_unfreed s.infos k = false := by rw [hu]; simpa using hb
        refine ih (k + 1) _ _ hrest (fun b hb1 => by have := hbls b hb1; omega) ?_
        refine ⟨?_, h.le_max, h.hist, fun i hi => h.rest i (by omega)⟩
        rw [opened_succ, hu1]; simpa using h.count
    · rw [if_neg hlt]
      exact ⟨k, hil, hbls, h⟩

theorem read_loop_count_inv (fs : ext2_filsys) (p : dj_params) (ref : List Bool) (fuel : Nat)
    (il : List inode_list) (k : Nat) (bls : List block_list) (s : dj_state)
    (hil : pending_inv k ref il) (hbls : ∀ b ∈ bls, b.inode_info < k)
    (h : count_inv p.max_inodes k ref s) :
    ∃ k1, count_inv p.max_inodes k1 ref (read_loop fs p fuel il bls s).state := by
  induction fuel generalizing il k bls s with
  | zero => exact ⟨k, h⟩
  | succ f ih =>
    simp only [read_loop]
    obtain ⟨k1, a1, a2, a3⟩ := admit_loop_count_inv p.max_inodes ref il k bls s hil hbls h
    have hd := drain_loop_preserves (count_inv p.max_inodes k1 ref)
      (fun b => b.inode_info < k1) fs p
      (max_inode_blocks p.max_blocks (admit_loop p.max_inodes il bls s).2.2.open_inodes_count)
      (fun s w h => count_inv_stop _ _ _ s w h)
      (fun s st h => ⟨h.count, h.le_max, h.hist, h.rest⟩)
      (fun b s hb h => heapify_block_count_inv _ _ _ fs b s hb h)
      (fun b sid pos h => h)
      (block_list_sort (admit_loop p.max_inodes il bls s).2.1).length
      (block_list_sort (admit_loop p.max_inodes il bls s).2.1) [] _
      (fun b hb => a2 b ((block_list_sort_mem _ b).1 hb)) (by simp) a3
    split_ifs
    · exact ⟨k, h⟩
    · exact ih _ k1 _ _ a1 hd.2 hd.1
    · exact ⟨k1, hd.1⟩

theorem scan_block_rec_references (fuel bs phys logical : Nat) (si : scan_blocks_info)
    (d : Int) (h : si.inode_info.references = si.blocks.length + d) :
    (scan_block_rec fuel bs phys logical si).inode_info.references
      = (scan_block_rec fuel bs phys logical si).blocks.length + d := by
  induction fuel generalizing phys logical si d with
  | zero => exact h
  | succ f ih =>
    simp only [scan_block_rec]
    by_cases h1 : logical * bs ≥ si.inode_info.len ∨ si.inode_info.len = 0
    · rw [if_pos h1]; exact h
    rw [if_neg h1]
    split_ifs with h2
    · cases hlast : si.blocks.getLast? with
      | none => rw [hlast] at h2; simp at h2
      | some last =>
        have hne : si.blocks ≠ [] := by
          intro hn; rw [hn] at hlast; simp at hlast
        have hpos : 0 < si.blocks.length := List.length_pos.2 hne
        simp only [List.length_append, List.length_dropLast, List.length_singleton]
        rw [h]
        push_cast
        omega
    · have h3 := foldl_preserves
        (fun acc : scan_blocks_info => acc.inode_info.references = acc.blocks.length + (d + 1))
        (fun acc i => scan_block_rec f bs 0 i acc)
        (List.range' si.inode_info.blocks_scanned (logical - si.inode_info.blocks_scanned))
        (fun acc i hacc => ih 0 i acc (d + 1) hacc)
        { si with inode_info := { si.inode_info with
            references := si.inode_info.references + 1 } }
        (by show si.inode_info.references + 1 = _; rw [h]; ring)
      simp only [List.length_append, List.length_singleton]
      rw [h3]
      push_cast
      ring

theorem scan_inode_references (fs : ext2_filsys) (e : inode_list) (id : Nat)
    (he : e.blocks = []) :
    (scan_inode fs e id).inode_info.references = (scan_inode fs e id).blocks.length := by
  have := foldl_preserves
    (fun acc : scan_blocks_info => acc.inode_info.references = acc.blocks.length + 0)
    (fun acc (cb : Nat × Nat) => scan_block fs.blocksize cb.1 cb.2 acc)
    (fs.block_iterate e.index)
    (fun acc _ hacc => scan_block_rec_references _ _ _ _ acc 0 hacc)
    { info_id := id,
      inode_info := { inode := e.index, len := e.len, blocks_scanned := 0,
                      blocks_read := 0, references := 0, block_cache := none, freed := false },
      blocks := e.blocks }
    (by simp [he])
  simpa [scan_inode] using this

theorem scan_blocks_inode_unfreed (fs : ext2_filsys) (e : inode_list) (s : dj_state)
    (he : e.blocks = []) :
    info_unfreed (scan_blocks_inode fs e s).2.infos s.infos.length
      = decide ((scan_blocks_inode fs e s).1.blocks ≠ []) := by
  have hr := scan_inode_references fs e s.infos.length he
  have hfr := (scan_inode_frame fs e s.infos.length).2.2.2.2
  unfold scan_blocks_inode
  dsimp only
  by_cases h : (scan_inode fs e s.infos.length).inode_info.references = 0
  · rw [if_pos h]
    have : (scan_inode fs e s.infos.length).blocks = [] := by
      rw [h] at hr
      exact List.length_eq_zero.1 (by exact_mod_cast hr.symm)
    simp [info_unfreed, this]
  · rw [if_neg h]
    have : (scan_inode fs e s.infos.length).blocks ≠ [] := by
      intro hn
      rw [hn] at hr
      exact h (by simpa using hr)
    simp only [info_unfreed, List.getElem?_concat_length]
    rw [hfr]
    simp [this]

theorem info_unfreed_append (infos news : List inode_cb_info) (i : Nat)
    (hi : i < infos.length) : info_unfreed (infos ++ news) i = info_unfreed infos i := by
  unfold info_unfreed
  rw [List.getElem?_append_left hi]

theorem scan_blocks_positions (fs : ext2_filsys) (l : List inode_list) (s : dj_state)
    (hl : ∀ e ∈ l, e.blocks = []) :
    ∀ j e1, (scan_blocks fs l s).1[j]? = some e1 →
      info_unfreed (scan_blocks fs l s).2.infos (s.infos.length + j)
        = decide (e1.blocks ≠ []) ∧
      ∀ b ∈ e1.blocks, b.inode_info = s.infos.length + j := by
  induction l generalizing s with
  | nil => intro j e1 h; simp [scan_blocks] at h
  | cons e rest ih =>
    have he := hl e (List.mem_cons_self _ _)
    have hrest : ∀ x ∈ rest, x.blocks = [] := fun x hx => hl x (List.mem_cons_of_mem _ hx)
    obtain ⟨info, extra1, h1, _, h3⟩ := scan_blocks_inode_state fs e s he
    have hlen : (scan_blocks_inode fs e s).2.infos.length = s.infos.length + 1 := by
      rw [h1]; simp
    obtain ⟨news, extra2, g1, _, _, _, _⟩ :=
      scan_blocks_range fs rest (scan_blocks_inode fs e s).2 hrest
    intro j e1 hj
    simp only [scan_blocks] at hj ⊢
    cases j with
    | zero =>
      simp only [List.getElem?_cons_zero, Option.some.injEq] at hj
      subst hj
      refine ⟨?_, h3⟩
      rw [g1]
      dsimp only
      rw [Nat.add_zero, info_unfreed_append _ _ _ (by omega)]
      exact scan_blocks_inode_unfreed fs e s he
    | succ j1 =>
      simp only [List.getElem?_cons_succ] at hj
      have := ih (scan_blocks_inode fs e s).2 hrest j1 e1 hj
      rw [hlen] at this
      rw [show s.infos.length + (j1 + 1) = s.infos.length + 1 + j1 by omega]
      exact this

theorem info_unfreed_getD (infos : List inode_cb_info) (i : Nat) :
    info_unfreed infos i = (infos.map (fun x => !x.freed)).getD i false := by
  unfold info_unfreed
  rw [List.getD_eq_getElem?_getD, List.getElem?_map]
  cases infos[i]? <;> rfl

/-- C8: for `max_inodes ≥ 0` and every inode list, after any number of iterations of the
outer loop of `iterate_dir` the counter `open_inodes_count` is between 0 and `max_inodes`,
and so is every value it was assigned on the way (by the admit loop and by
`flush_inode_blocks`). -/
theorem open_inodes_count_bounds (fs : ext2_filsys) (p : dj_params) (fuel : Nat)
    (inodes : List inode_list) (hmax : 0 ≤ p.max_inodes)
    (hblocks : ∀ e ∈ inodes, e.blocks = []) :
    0 ≤ (iterate_dir fs p fuel inodes).state.open_inodes_count ∧
    (iterate_dir fs p fuel inodes).state.open_inodes_count ≤ p.max_inodes ∧
    ∀ v ∈ (iterate_dir fs p fuel inodes).state.open_inodes_hist, 0 ≤ v ∧ v ≤ p.max_inodes := by
  have hall : ∀ x ∈ inode_list_sort inodes, x.blocks = [] :=
    fun x hx => hblocks x ((inode_list_sort_mem _ _).1 hx)
  obtain ⟨news, extra, h1, _, _, _, _⟩ :=
    scan_blocks_range fs (inode_list_sort inodes) dj_state.init hall
  have hpos := scan_blocks_positions fs (inode_list_sort inodes) dj_state.init hall
  have hinit : count_inv p.max_inodes 0
      ((scan_blocks fs (inode_list_sort inodes) dj_state.init).2.infos.map (fun x => !x.freed))
      (scan_blocks fs (inode_list_sort inodes) dj_state.init).2 := by
    refine ⟨?_, ?_, ?_, fun i _ => info_unfreed_getD _ i⟩
    · rw [h1]; simp [opened, dj_state.init]
    · rw [h1]; simpa [dj_state.init] using hmax
    · rw [h1]; simp [dj_state.init]
  have hpend : pending_inv 0
      ((scan_blocks fs (inode_list_sort inodes) dj_state.init).2.infos.map (fun x => !x.freed))
      (scan_blocks fs (inode_list_sort inodes) dj_state.init).1 := by
    intro j e1 hj
    have := hpos j e1 hj
    simp only [dj_state.init, List.length_nil, Nat.zero_add] at this ⊢
    exact ⟨by rw [← info_unfreed_getD]; exact this.1, this.2⟩
  obtain ⟨k1, hk⟩ := read_loop_count_inv fs p _ fuel _ 0 [] _ hpend (by simp) hinit
  unfold iterate_dir
  dsimp only
  have hc := hk.count
  exact ⟨by omega, hk.le_max, hk.hist⟩

theorem open_inodes_count_bounds_witness :
    (iterate_dir empty_file_fs default_params 3
        [⟨12, 0, []⟩, ⟨5, 3, []⟩]).state.open_inodes_hist = [1, 0] ∧
    (0 ≤ (iterate_dir empty_file_fs default_params 3
        [⟨12, 0, []⟩, ⟨5, 3, []⟩]).state.open_inodes_count ∧
    (iterate_dir empty_file_fs default_params 3
        [⟨12, 0, []⟩, ⟨5, 3, []⟩]).state.open_inodes_count ≤ default_params.max_inodes ∧
    ∀ v ∈ (iterate_dir empty_file_fs default_params 3
        [⟨12, 0, []⟩, ⟨5, 3, []⟩]).state.open_inodes_hist,
      0 ≤ v ∧ v ≤ default_params.max_inodes) :=
  ⟨by decide,
   open_inodes_count_bounds empty_file_fs default_params 3 [⟨12, 0, []⟩, ⟨5, 3, []⟩]
    (by decide) (by decide)⟩

/-! ### next_stripe -/

theorem to_u64_natCast (n : Nat) (h : n < 18446744073709551616) : to_u64 (n : Int) = n := by
  unfold to_u64
  rw [Int.emod_eq_of_lt (by omega) (by omega)]
  simp

theorem to_s64_of_range (x : Int) (h1 : -9223372036854775808 ≤ x)
    (h2 : x < 9223372036854775808) : to_s64 x = x := by
  unfold to_s64
  rw [Int.emod_eq_of_lt (by omega) (by omega)]
  omega

theorem block_in_range_lt (bs : Nat) (hbs : 0 < bs) (b : block_list)
    (h : block_in_range bs b) : b.physical_block + b.num_blocks < 9223372036854775808 := by
  have := h.2.2
  have h2 : b.physical_block + b.num_blocks ≤ (b.physical_block + b.num_blocks) * bs :=
    Nat.le_mul_of_pos_right _ hbs
  omega

theorem physical_block_diff_eq (bs : Nat) (hbs : 0 < bs) (p fwd : block_list)
    (hp : block_in_range bs p) (hf : block_in_range bs fwd) :
    physical_block_diff (some p) fwd = block_gap p fwd := by
  have h1 := block_in_range_lt bs hbs p hp
  have h2 := block_in_range_lt bs hbs fwd hf
  unfold physical_block_diff block_gap
  dsimp only
  apply to_s64_of_range <;> omega

theorem phys_ordered_le (a b : block_list) (ha : 0 < b.num_blocks)
    (h : phys_ordered a b) :
    a.physical_block ≤ b.physical_block ∧
      a.physical_block + a.num_blocks ≤ b.physical_block + b.num_blocks := by
  rcases h with h | ⟨h1, h2, h3, h4⟩
  · omega
  · omega

theorem stripe_absorb_len (bs hp : Nat) (hbs : 0 < bs) (p fwd : block_list) (st : stripe)
    (hord : phys_ordered p fwd) (hp1 : block_in_range bs p) (hf : block_in_range bs fwd)
    (hhp : hp ≤ p.physical_block)
    (hst : st.consecutive_len = (p.physical_block + p.num_blocks - hp) * bs) :
    (st.absorb bs (physical_block_diff (some p) fwd) fwd).consecutive_len
      = (fwd.physical_block + fwd.num_blocks - hp) * bs := by
  rw [physical_block_diff_eq bs hbs p fwd hp1 hf]
  unfold stripe.absorb
  dsimp only
  rw [hst]
  have hb1 : (p.physical_block + p.num_blocks - hp) * bs
      ≤ (p.physical_block + p.num_blocks) * bs :=
    Nat.mul_le_mul_right _ (Nat.sub_le _ _)
  have hb2 : fwd.num_blocks * bs ≤ (fwd.physical_block + fwd.num_blocks) * bs :=
    Nat.mul_le_mul_right _ (Nat.le_add_left _ _)
  have hb3 : (fwd.physical_block + fwd.num_blocks - hp) * bs
      ≤ (fwd.physical_block + fwd.num_blocks) * bs :=
    Nat.mul_le_mul_right _ (Nat.sub_le _ _)
  have hr1 := hp1.2.2
  have hr2 := hf.2.2
  have e1 : (((p.physical_block + p.num_blocks - hp) * bs : Nat) : Int)
      + (fwd.num_blocks : Int) * (bs : Int)
      = (((p.physical_block + p.num_blocks - hp) * bs + fwd.num_blocks * bs : Nat) : Int) := by
    push_cast; ring
  rw [e1, to_u64_natCast _ (by omega)]
  have e2 : (((p.physical_block + p.num_blocks - hp : Nat) : Int) + fwd.num_blocks
      + block_gap p fwd) = ((fwd.physical_block + fwd.num_blocks - hp : Nat) : Int) := by
    unfold block_gap
    rcases hord with h | ⟨h1, h2, h3, h4⟩
    · omega
    · omega
  have e3 : ((((p.physical_block + p.num_blocks - hp) * bs + fwd.num_blocks * bs : Nat) : Int)
      + block_gap p fwd * (bs : Int))
      = (((fwd.physical_block + fwd.num_blocks - hp) * bs : Nat) : Int) := by
    push_cast
    rw [← e2]
    ring
  rw [e3, to_u64_natCast _ (by omega)]

theorem absorb_pos (bs sid hp : Nat) (fwd : block_list) (hf : block_in_range bs fwd)
    (hhp : hp ≤ fwd.physical_block) :
    (absorb bs sid hp fwd).stripe_ptr.pos = (fwd.physical_block - hp) * bs := by
  unfold absorb
  dsimp only
  have h1 : (((fwd.physical_block : Int) - hp) * bs)
      = (((fwd.physical_block - hp) * bs : Nat) : Int) := by
    push_cast [Nat.cast_sub hhp]; ring
  have h2 : (fwd.physical_block - hp) * bs ≤ (fwd.physical_block + fwd.num_blocks) * bs :=
    Nat.mul_le_mul_right _ (by omega)
  have := hf.2.2
  rw [h1, to_u64_natCast _ (by omega)]

theorem block_in_range_absorb (bs sid hp : Nat) (b : block_list) (h : block_in_range bs b) :
    block_in_range bs (absorb bs sid hp b) := h

theorem chain_absorb_head (bs sid hp : Nat) (fwd : block_list) (rest : List block_list)
    (h : (fwd :: rest).Chain' phys_ordered) :
    (absorb bs sid hp fwd :: rest).Chain' phys_ordered := by
  cases rest with
  | nil => exact List.chain'_singleton _
  | cons b t =>
    have h1 := List.chain'_cons.1 h
    exact List.chain'_cons.2 ⟨h1.1, h1.2⟩

theorem next_stripe_loop_layout (bs hp sid : Nat) (cd : Int) (hbs : 0 < bs)
    (l : List block_list) (p : block_list) (st : stripe)
    (hchain : (p :: l).Chain' phys_ordered) (hrange : ∀ b ∈ p :: l, block_in_range bs b)
    (hhp : hp ≤ p.physical_block)
    (hst : st.consecutive_len = (p.physical_block + p.num_blocks - hp) * bs) :
    (∀ b ∈ (next_stripe_loop bs cd sid hp (some p) l st).2.1,
      b.stripe_ptr.pos = (b.physical_block - hp) * bs ∧
      b.stripe_ptr.pos + b.stripe_ptr.len
        ≤ (next_stripe_loop bs cd sid hp (some p) l st).1.consecutive_len) ∧
    (next_stripe_loop bs cd sid hp (some p) l st).1.consecutive_len
      = (((next_stripe_loop bs cd sid hp (some p) l st).2.1.getLast?.getD p).physical_block
        + ((next_stripe_loop bs cd sid hp (some p) l st).2.1.getLast?.getD p).num_blocks - hp)
          * bs ∧
    p.physical_block + p.num_blocks
      ≤ ((next_stripe_loop bs cd sid hp (some p) l st).2.1.getLast?.getD p).physical_block
        + ((next_stripe_loop bs cd sid hp (some p) l st).2.1.getLast?.getD p).num_blocks := by
  induction l generalizing p st with
  | nil => simp [next_stripe_loop, hst]
  | cons fwd rest ih =>
    simp only [next_stripe_loop]
    by_cases hd : physical_block_diff (some p) fwd > cd
    · rw [if_pos hd]; simp [hst]
    rw [if_neg hd]
    have hpr := hrange p (List.mem_cons_self _ _)
    have hfr := hrange fwd (List.mem_cons_of_mem _ (List.mem_cons_self _ _))
    have hord : phys_ordered p fwd := (List.chain'_cons.1 hchain).1
    have hle := phys_ordered_le p fwd hfr.1 hord
    have hst1 := stripe_absorb_len bs hp hbs p fwd st hord hpr hfr hhp hst
    obtain ⟨i1, i2, i3⟩ := ih (absorb bs sid hp fwd)
      (st.absorb bs (physical_block_diff (some p) fwd) fwd)
      (chain_absorb_head bs sid hp fwd rest (List.chain'_cons.1 hchain).2)
      (fun b hb => by
        rcases List.mem_cons.1 hb with hb | hb
        · subst hb; exact block_in_range_absorb bs sid hp fwd hfr
        · exact hrange b (List.mem_cons_of_mem _ (List.mem_cons_of_mem _ hb)))
      (show hp ≤ fwd.physical_block by omega) hst1
    dsimp only
    rw [List.getLast?_cons, Option.getD_some]
    refine ⟨?_, i2, ?_⟩
    · intro b hb
      rcases List.mem_cons.1 hb with hb | hb
      · subst hb
        have hpos := absorb_pos bs sid hp fwd hfr (by omega)
        refine ⟨hpos, ?_⟩
        rw [i2, hpos]
        have hlen : (absorb bs sid hp fwd).stripe_ptr.len ≤ fwd.num_blocks * bs := hfr.2.1
        have h3 : (fwd.physical_block - hp) * bs + fwd.num_blocks * bs
            = (fwd.physical_block + fwd.num_blocks - hp) * bs := by
          rw [← Nat.add_mul]; congr 1; omega
        have h4 : (fwd.physical_block + fwd.num_blocks - hp) * bs ≤ _ :=
          Nat.mul_le_mul_right bs (Nat.sub_le_sub_right i3 hp)
        omega
      · exact i1 b hb
    · have : (absorb bs sid hp fwd).physical_block + (absorb bs sid hp fwd).num_blocks
          = fwd.physical_block + fwd.num_blocks := rfl
      omega

theorem stripe_empty_absorb_len (bs : Nat) (head : block_list)
    (h : block_in_range bs head) :
    (stripe.empty.absorb bs 0 head).consecutive_len
      = (head.physical_block + head.num_blocks - head.physical_block) * bs := by
  unfold stripe.absorb stripe.empty
  dsimp only
  have h1 : head.num_blocks * bs ≤ (head.physical_block + head.num_blocks) * bs :=
    Nat.mul_le_mul_right _ (Nat.le_add_left _ _)
  have h2 := h.2.2
  have e1 : ((0 : Nat) : Int) + (head.num_blocks : Int) * (bs : Int)
      = ((head.num_blocks * bs : Nat) : Int) := by push_cast; ring
  rw [e1, to_u64_natCast _ (by omega)]
  have e2 : ((head.num_blocks * bs : Nat) : Int) + 0 * (bs : Int)
      = ((head.num_blocks * bs : Nat) : Int) := by ring
  rw [e2, to_u64_natCast _ (by omega)]
  congr 1
  omega

/-- C10: the list `head :: rest` is sorted by physical block with disjoint ranges (hole
records being at physical block 0 with one block), its records have at least one block,
a byte length of at most `num_blocks * block_size` and end below `2 ^ 63` bytes. Then the
stripe built by `next_stripe` has `consecutive_len = (last.physical_block +
last.num_blocks - head.physical_block) * block_size` for the last absorbed record, and every
absorbed record has `stripe_ptr.pos = (physical_block - head.physical_block) * block_size`
and `stripe_ptr.pos + stripe_ptr.len ≤ consecutive_len`; for `coalesce_distance ≥ 0` the
head is absorbed. -/
theorem next_stripe_layout (bs sid : Nat) (cd mib : Int) (head : block_list)
    (rest : List block_list) (hbs : 0 < bs)
    (hchain : (head :: rest).Chain' phys_ordered)
    (hrange : ∀ b ∈ head :: rest, block_in_range bs b) :
    (∀ last, (next_stripe bs cd mib sid (head :: rest)).2.1.getLast? = some last →
      (next_stripe bs cd mib sid (head :: rest)).1.consecutive_len
        = (last.physical_block + last.num_blocks - head.physical_block) * bs) ∧
    (∀ b ∈ (next_stripe bs cd mib sid (head :: rest)).2.1,
      b.stripe_ptr.pos = (b.physical_block - head.physical_block) * bs ∧
      b.stripe_ptr.pos + b.stripe_ptr.len
        ≤ (next_stripe bs cd mib sid (head :: rest)).1.consecutive_len) ∧
    (0 ≤ cd → ∃ tail, (next_stripe bs cd mib sid (head :: rest)).2.1
      = absorb bs sid head.physical_block head :: tail) := by
  unfold next_stripe
  simp only [next_stripe_loop, physical_block_diff]
  by_cases hd : (0 : Int) > cd
  · rw [if_pos hd]
    refine ⟨by simp, by simp, fun h => by omega⟩
  rw [if_neg hd]
  have hhr := hrange head (List.mem_cons_self _ _)
  obtain ⟨i1, i2, i3⟩ := next_stripe_loop_layout bs head.physical_block sid cd hbs rest
    (absorb bs sid head.physical_block head) (stripe.empty.absorb bs 0 head)
    (chain_absorb_head bs sid head.physical_block head rest hchain)
    (fun b hb => by
      rcases List.mem_cons.1 hb with hb | hb
      · subst hb; exact block_in_range_absorb bs sid _ head hhr
      · exact hrange b (List.mem_cons_of_mem _ hb))
    (le_refl _) (stripe_empty_absorb_len bs head hhr)
  dsimp only
  refine ⟨?_, ?_, fun _ => ⟨_, rfl⟩⟩
  · intro last hlast
    rw [List.getLast?_cons] at hlast
    simp only [Option.some.injEq] at hlast
    rw [i2, hlast]
  · intro b hb
    rcases List.mem_cons.1 hb with hb | hb
    · subst hb
      have hpos := absorb_pos bs sid head.physical_block head hhr (le_refl _)
      refine ⟨hpos, ?_⟩
      rw [i2, hpos]
      have hlen : (absorb bs sid head.physical_block head).stripe_ptr.len
          ≤ head.num_blocks * bs := hhr.2.1
      have h3 : (head.physical_block - head.physical_block) * bs = 0 := by simp
      have i3a : head.physical_block + head.num_blocks ≤ _ := i3
      have h4 := Nat.mul_le_mul_right bs (Nat.le_sub_of_add_le (Nat.add_comm _ _ ▸ i3a))
      rw [h3]
      exact le_trans (by rw [Nat.zero_add]; exact hlen) h4
    · exact i1 b hb

theorem next_stripe_layout_witness :
    ((next_stripe 4096 1 128000 0 three_files_list).1.consecutive_len = 8192 ∧
     (next_stripe 4096 1 128000 0 three_files_list).2.1.map (fun b => b.stripe_ptr.pos)
       = [0, 4096]) ∧
    ((∀ last, (next_stripe 4096 1 128000 0 three_files_list).2.1.getLast? = some last →
      (next_stripe 4096 1 128000 0 three_files_list).1.consecutive_len
        = (last.physical_block + last.num_blocks - 1000) * 4096) ∧
    (∀ b ∈ (next_stripe 4096 1 128000 0 three_files_list).2.1,
      b.stripe_ptr.pos = (b.physical_block - 1000) * 4096 ∧
      b.stripe_ptr.pos + b.stripe_ptr.len
        ≤ (next_stripe 4096 1 128000 0 three_files_list).1.consecutive_len) ∧
    ((0 : Int) ≤ 1 → ∃ tail, (next_stripe 4096 1 128000 0 three_files_list).2.1
      = absorb 4096 0 1000 ⟨0, 1000, 0, 1, ⟨none, 0, 4096⟩⟩ :: tail)) :=
  ⟨by decide,
   next_stripe_layout 4096 0 1 128000 ⟨0, 1000, 0, 1, ⟨none, 0, 4096⟩⟩
    [⟨1, 1001, 0, 1, ⟨none, 0, 4096⟩⟩, ⟨2, 2000, 0, 1, ⟨none, 0, 10⟩⟩]
    (by decide)
    (List.chain'_cons.2 ⟨by decide, List.chain'_cons.2 ⟨by decide, List.chain'_singleton _⟩⟩)
    (by decide)⟩

/-! ### The stripes of the drain loop -/

theorem run_length_head (cd : Int) (a a1 : block_list) (l : List block_list)
    (hp : a1.physical_block = a.physical_block) (hn : a1.num_blocks = a.num_blocks) :
    run_length cd (a1 :: l) = run_length cd (a :: l) := by
  cases l with
  | nil => rfl
  | cons b rest => simp [run_length, block_gap, hp, hn]

theorem run_length_pos (cd : Int) (a : block_list) (l : List block_list) :
    0 < run_length cd (a :: l) := by
  cases l with
  | nil => simp [run_length]
  | cons b rest => simp only [run_length]; split_ifs <;> omega

theorem next_stripe_loop_run (bs hp sid : Nat) (cd : Int) (hbs : 0 < bs)
    (l : List block_list) (p : block_list) (st : stripe)
    (hrange : ∀ b ∈ p :: l, block_in_range bs b) :
    (next_stripe_loop bs cd sid hp (some p) l st).2.1
      = (l.take (run_length cd (p :: l) - 1)).map (absorb bs sid hp) ∧
    (next_stripe_loop bs cd sid hp (some p) l st).2.2 = l.drop (run_length cd (p :: l) - 1) ∧
    (next_stripe_loop bs cd sid hp (some p) l st).1.references
      = st.references + (run_length cd (p :: l) - 1 : Nat) ∧
    (next_stripe_loop bs cd sid hp (some p) l st).1.consecutive_blocks
      = st.consecutive_blocks
        + ((l.take (run_length cd (p :: l) - 1)).map (fun b => b.num_blocks)).sum := by
  induction l generalizing p st with
  | nil => simp [next_stripe_loop, run_length]
  | cons fwd rest ih =>
    have hpr := hrange p (List.mem_cons_self _ _)
    have hfr := hrange fwd (List.mem_cons_of_mem _ (List.mem_cons_self _ _))
    simp only [next_stripe_loop, run_length]
    rw [physical_block_diff_eq bs hbs p fwd hpr hfr]
    by_cases hd : block_gap p fwd > cd
    · rw [if_pos hd, if_neg (by omega)]
      simp
    rw [if_neg hd, if_pos (by omega)]
    obtain ⟨i1, i2, i3, i4⟩ := ih (absorb bs sid hp fwd) (st.absorb bs (block_gap p fwd) fwd)
      (fun b hb => by
        rcases List.mem_cons.1 hb with hb | hb
        · subst hb; exact block_in_range_absorb bs sid hp fwd hfr
        · exact hrange b (List.mem_cons_of_mem _ (List.mem_cons_of_mem _ hb)))
    rw [run_length_head cd fwd (absorb bs sid hp fwd) rest rfl rfl] at i1 i2 i3 i4
    have hpos := run_length_pos cd fwd rest
    obtain ⟨m, hm⟩ : ∃ m, run_length cd (fwd :: rest) = m + 1 := ⟨_, (Nat.sub_add_cancel hpos).symm⟩
    rw [hm] at i1 i2 i3 i4
    simp only [Nat.add_sub_cancel] at i1 i2 i3 i4
    dsimp only
    rw [hm, i1, i2, i3, i4]
    simp only [Nat.add_sub_cancel_left, List.take_succ_cons, List.map_cons, List.drop_succ_cons,
      List.sum_cons, stripe.absorb]
    refine ⟨trivial, trivial, ?_, ?_⟩
    · push_cast; ring
    · ring

theorem heap_contents_length {α : Type} [Inhabited α] (h : heap α) (hw : heap_wf h) :
    (heap_contents h).length = h.current_size := by
  unfold heap_contents
  rw [List.length_take]
  have := hw.1
  have := hw.2
  omega

theorem sum_map_set {β : Type} (f : β → Nat) (l : List β) (i : Nat) (x y : β)
    (h : l[i]? = some x) : ((l.set i y).map f).sum + f x = (l.map f).sum + f y := by
  induction l generalizing i with
  | nil => simp at h
  | cons a t ih =>
    cases i with
    | zero =>
      simp only [List.getElem?_cons_zero, Option.some.injEq] at h
      subst h
      simp only [List.set_cons_zero, List.map_cons, List.sum_cons]
      omega
    | succ j =>
      simp only [List.getElem?_cons_succ] at h
      have := ih j h
      simp only [List.set_cons_succ, List.map_cons, List.sum_cons]
      omega

theorem held_set (sid : Nat) (infos : List inode_cb_info) (i : Nat) (x y : inode_cb_info)
    (h : infos[i]? = some x) :
    held sid (infos.set i y) + count_stripe sid (heap_records x)
      = held sid infos + count_stripe sid (heap_records y) :=
  sum_map_set (fun info => count_stripe sid (heap_records info)) infos i x y h

theorem heap_records_insert (info : inode_cb_info) (n : Nat) (b : block_list)
    (cache1 : heap block_list)
    (hw : ∀ cache, info.block_cache = some cache → heap_wf cache)
    (h : heap_insert (match info.block_cache with
        | none => heap_create n
        | some cache => cache) b.logical_block b = some cache1) :
    (heap_records { info with block_cache := some cache1 }).Perm (b :: heap_records info) ∧
    heap_wf cache1 ∧
    cache1.max_size = (match info.block_cache with
        | none => heap_create n
        | some cache => cache).max_size := by
  have hwf : heap_wf (match info.block_cache with
        | none => heap_create n
        | some cache => cache) := by
    cases hc : info.block_cache with
    | none => exact heap_create_wf _
    | some c => exact hw c hc
  obtain ⟨h1, h2, _, h4⟩ := heap_insert_some _ _ _ _ hwf h
  refine ⟨?_, h1, h2⟩
  have h5 := h4.map (fun e => e.value)
  unfold heap_records
  cases hc : info.block_cache with
  | none =>
    rw [hc] at h5
    simpa [heap_contents, heap_create] using h5
  | some c =>
    rw [hc] at h5
    simpa using h5

theorem heap_create_size_eq (len bs : Nat) (h : len / bs + 1 < 2147483648) :
    heap_create_size len bs = ((len / bs + 1 : Nat) : Int) := by
  unfold heap_create_size to_s32 to_u64
  generalize len / bs + 1 = n at h
  have h1 : ((n : Int) % 18446744073709551616) = (n : Int) := by omega
  rw [h1, Int.toNat_ofNat]
  omega

theorem heap_create_size_not_neg (len bs : Nat) (h : len / bs + 1 < 2147483648) :
    ¬ heap_create_size len bs < 0 := by
  rw [heap_create_size_eq len bs h]
  exact Int.not_lt.2 (Int.ofNat_nonneg _)

theorem heap_records_delmin (info : inode_cb_info) (cache : heap block_list)
    (hc : info.block_cache = some cache) (hw : heap_wf cache) (hpos : 0 < cache.current_size) :
    (heap_records info).Perm
      (heap_min cache :: heap_records { info with block_cache := some (heap_delmin cache).2 }) := by
  obtain ⟨_, _, _, _, h5⟩ := heap_delmin_spec cache hw hpos
  have := h5.map (fun e => e.value)
  unfold heap_records
  rw [hc]
  simpa [heap_min] using this

theorem count_stripe_cons (sid : Nat) (b : block_list) (l : List block_list) :
    count_stripe sid (b :: l)
      = count_stripe sid l + (if b.stripe_ptr.stripe = some sid then 1 else 0) := by
  unfold count_stripe
  rw [List.countP_cons]
  simp

theorem count_inode_cons (i : Nat) (b : block_list) (l : List block_list) :
    count_inode i (b :: l) = count_inode i l + (if b.inode_info = i then 1 else 0) := by
  unfold count_inode
  rw [List.countP_cons]
  simp

theorem held_deliver (sid sid1 i : Nat) (infos : List inode_cb_info)
    (info infoX : inode_cb_info) (e : block_list) (h : infos[i]? = some info)
    (hperm : (heap_records info).Perm (e :: heap_records infoX))
    (he : e.stripe_ptr.stripe = some sid) :
    held sid1 (infos.set i infoX) + (if sid1 = sid then 1 else 0) = held sid1 infos := by
  have h1 := held_set sid1 infos i info infoX h
  have h2 : count_stripe sid1 (heap_records info)
      = count_stripe sid1 (e :: heap_records infoX) := hperm.countP_eq _
  rw [count_stripe_cons, he] at h2
  by_cases hs : sid1 = sid
  · subst hs
    simp only [if_true] at h2 ⊢
    omega
  · have : ¬ (some sid = some sid1) := fun h => hs (Option.some.inj h).symm
    simp only [this, hs, if_false] at h2 ⊢
    omega

theorem held_insert (sid sid1 i : Nat) (infos : List inode_cb_info)
    (info infoX : inode_cb_info) (b : block_list) (h : infos[i]? = some info)
    (hperm : (heap_records infoX).Perm (b :: heap_records info))
    (hb : b.stripe_ptr.stripe = some sid) :
    held sid1 (infos.set i infoX) = held sid1 infos + (if sid1 = sid then 1 else 0) := by
  have h1 := held_set sid1 infos i info infoX h
  have h2 : count_stripe sid1 (heap_records infoX)
      = count_stripe sid1 (b :: heap_records info) := hperm.countP_eq _
  rw [count_stripe_cons, hb] at h2
  by_cases hs : sid1 = sid
  · subst hs
    simp only [if_true] at h2 ⊢
    omega
  · have : ¬ (some sid = some sid1) := fun h => hs (Option.some.inj h).symm
    simp only [this, hs, if_false] at h2 ⊢
    omega

theorem getElem?_set_cases {β : Type} (l : List β) (i j : Nat) (y z : β)
    (h : (l.set i y)[j]? = some z) : (j = i ∧ z = y) ∨ (j ≠ i ∧ l[j]? = some z) := by
  by_cases hj : i = j
  · subst hj
    left
    have hlt : i < l.length := by
      by_contra hcon
      rw [List.getElem?_eq_none (by simp; omega)] at h
      cases h
    rw [List.getElem?_set_self hlt] at h
    exact ⟨rfl, (Option.some.inj h).symm⟩
  · right
    rw [List.getElem?_set_ne hj] at h
    exact ⟨fun h1 => hj h1.symm, h⟩

theorem safe_deliver (bs : Nat) (M : List block_list) (s : dj_state) (i sid : Nat)
    (info infoX : inode_cb_info) (e : block_list) (st st1 : stripe) (count1 : Int)
    (calls1 : List cb_call) (hist1 : List Int)
    (h : safe bs M s) (hi : s.infos[i]? = some info) (he : e.stripe_ptr.stripe = some sid)
    (hst : s.stripes[sid]? = some st)
    (hperm : (heap_records info).Perm (e :: heap_records infoX))
    (hX : info_ok bs M i infoX)
    (hr : st1.references = st.references - 1) (hf : st1.freed = true → st1.references = 0) :
    safe bs M { infos := s.infos.set i infoX, stripes := s.stripes.set sid st1,
                open_inodes_count := count1, calls := calls1, status := s.status,
                open_inodes_hist := hist1 } := by
  refine ⟨h.running, ?_, ?_, ?_, ?_, ?_⟩
  · intro j infoj hj
    rcases getElem?_set_cases _ _ _ _ _ hj with ⟨h1, h2⟩ | ⟨_, h2⟩
    · subst h1; subst h2; exact hX
    · exact h.info_all j infoj h2
  · intro sid1 stj hj
    have hh := held_deliver sid sid1 i s.infos info infoX e hi hperm he
    rcases getElem?_set_cases _ _ _ _ _ hj with ⟨h1, h2⟩ | ⟨h1, h2⟩
    · subst h1; rw [h2]
      have hs := (h.stripe_all sid1 st hst).refs
      simp only [if_true] at hh
      refine ⟨?_, hf⟩
      show st1.references = ((held sid1 (s.infos.set i infoX) : Nat) : Int) + _
      rw [hr, hs]
      omega
    · have hs := h.stripe_all sid1 stj h2
      simp only [h1, if_false, Nat.add_zero] at hh
      refine ⟨?_, hs.freed_refs⟩
      show stj.references = ((held sid1 (s.infos.set i infoX) : Nat) : Int) + _
      rw [hh]; exact hs.refs
  · intro b hb
    show b.inode_info < (s.infos.set i infoX).length
    rw [List.length_set]; exact h.pending_inode b hb
  · intro b hb sid1 hs
    show sid1 < (s.stripes.set sid st1).length
    rw [List.length_set]; exact h.pending_stripe b hb sid1 hs
  · intro j infoj hj b hb sid1 hs
    show sid1 < (s.stripes.set sid st1).length
    rw [List.length_set]
    rcases getElem?_set_cases _ _ _ _ _ hj with ⟨h1, h2⟩ | ⟨_, h2⟩
    · subst h1; subst h2
      exact h.heap_stripe j info hi b (hperm.symm.subset (List.mem_cons_of_mem _ hb)) sid1 hs
    · exact h.heap_stripe j infoj h2 b hb sid1 hs

theorem flush_deliver_safe (bs bs0 : Nat) (M : List block_list) (s : dj_state) (i sid : Nat)
    (info : inode_cb_info) (cache : heap block_list) (st : stripe)
    (h : safe bs M s) (hi : s.infos[i]? = some info) (hfr : info.freed = false)
    (hc : info.block_cache = some cache) (hpos : 0 < cache.current_size)
    (he : (heap_min cache).stripe_ptr.stripe = some sid) (hst : s.stripes[sid]? = some st)
    (hsf : st.freed = false) :
    safe bs M (flush_deliver bs0 i s info cache sid st).1 ∧
    ((flush_deliver bs0 i s info cache sid st).2 = true →
      ∃ info1 cache1, (flush_deliver bs0 i s info cache sid st).1.infos[i]? = some info1 ∧
        info1.freed = false ∧ info1.block_cache = some cache1) := by
  have hio := h.info_all i info hi
  obtain ⟨hw, hmax⟩ := hio.cache_wf cache hc
  have hperm := heap_records_delmin info cache hc hw hpos
  have hdel := heap_delmin_spec cache hw hpos
  have hlen := hperm.length_eq
  simp only [List.length_cons] at hlen
  have hrefs := hio.refs
  have hopen := hio.open_refs hfr
  have hst1r : (if st.references - 1 = 0 then
        ({ st with references := st.references - 1, data := [], freed := true } : stripe)
      else { st with references := st.references - 1 }).references = st.references - 1 := by
    split_ifs <;> rfl
  have hst1f : (if st.references - 1 = 0 then
        ({ st with references := st.references - 1, data := [], freed := true } : stripe)
      else { st with references := st.references - 1 }).freed = true →
      (if st.references - 1 = 0 then
        ({ st with references := st.references - 1, data := [], freed := true } : stripe)
      else { st with references := st.references - 1 }).references = 0 := by
    split_ifs with hz
    · intro _; exact hz
    · intro hf; simp [hsf] at hf
  unfold flush_deliver
  dsimp only
  by_cases hz : info.references - 1 = 0
  · rw [if_pos hz]
    have hnil : heap_records { info with block_cache := some (heap_delmin cache).2 } = [] :=
      List.length_eq_zero.1 (by omega)
    have hcount : count_inode i M = 0 := by omega
    refine ⟨?_, fun hf => by simp at hf⟩
    refine safe_deliver bs M s i sid info _ (heap_min cache) st _ _ _ _ h hi he hst
      (by rw [hnil] at hperm; exact hperm) ?_ hst1r hst1f
    refine ⟨?_, fun _ => ⟨hz, rfl⟩, fun hf => (by simp at hf), fun c hc1 => (by cases hc1),
      fun b hb => (by cases hb), hio.cap⟩
    show info.references - 1 = ((([] : List block_list).length : Nat) : Int) + _
    rw [hcount]; simpa using hz
  · rw [if_neg hz]
    refine ⟨?_, fun _ => ⟨_, _, getElem?_set_self_of_some _ _ _ _ hi, hfr, rfl⟩⟩
    refine safe_deliver bs M s i sid info _ (heap_min cache) st _ _ _ _ h hi he hst
      hperm ?_ hst1r hst1f
    refine ⟨?_, fun hf => (by rw [hfr] at hf; cases hf), fun _ => ⟨?_, ?_⟩, ?_, ?_, hio.cap⟩
    · show info.references - 1
        = (((heap_records { info with block_cache := some (heap_delmin cache).2 }).length
            : Nat) : Int) + _
      omega
    · show 0 < info.references - 1
      omega
    · show info.references - 1 ≤ ((info.len / bs + 1 : Nat) : Int)
      have := hopen.2
      omega
    · intro c hc1
      simp only [Option.some.injEq] at hc1
      subst hc1
      exact ⟨hdel.1, by rw [hdel.2.1]; exact hmax⟩
    · intro b hb
      exact hio.ptrs b (hperm.symm.subset (List.mem_cons_of_mem _ hb))

theorem sum_map_ge {β : Type} (f : β → Nat) (l : List β) (i : Nat) (x : β)
    (h : l[i]? = some x) : f x ≤ (l.map f).sum := by
  induction l generalizing i with
  | nil => simp at h
  | cons a t ih =>
    cases i with
    | zero =>
      simp only [List.getElem?_cons_zero, Option.some.injEq] at h
      subst h
      simp
    | succ j =>
      simp only [List.getElem?_cons_succ] at h
      have := ih j h
      simp only [List.map_cons, List.sum_cons]
      omega

theorem held_pos (sid i : Nat) (infos : List inode_cb_info) (info : inode_cb_info)
    (e : block_list) (h : infos[i]? = some info) (he : e ∈ heap_records info)
    (hs : e.stripe_ptr.stripe = some sid) : 0 < held sid infos := by
  have h1 : 0 < count_stripe sid (heap_records info) := by
    unfold count_stripe
    rw [List.countP_pos_iff]
    exact ⟨e, he, by simpa using hs⟩
  have h2 : count_stripe sid (heap_records info) ≤ held sid infos :=
    sum_map_ge (fun info => count_stripe sid (heap_records info)) infos i info h
  omega

theorem heap_min_mem_records (info : inode_cb_info) (cache : heap block_list)
    (hc : info.block_cache = some cache) (hw : heap_wf cache) (hpos : 0 < cache.current_size) :
    heap_min cache ∈ heap_records info := by
  have := heap_min_mem cache hw hpos
  unfold heap_records
  rw [hc]
  dsimp only
  rw [this.2]
  exact List.mem_map_of_mem _ this.1

theorem heap_records_length (info : inode_cb_info) (cache : heap block_list)
    (hc : info.block_cache = some cache) (hw : heap_wf cache) :
    (heap_records info).length = cache.current_size := by
  unfold heap_records
  rw [hc]
  simp [heap_contents_length cache hw]

theorem flush_iteration_safe (bs bs0 : Nat) (M : List block_list) (s : dj_state) (i : Nat)
    (info : inode_cb_info) (cache : heap block_list)
    (h : safe bs M s) (hi : s.infos[i]? = some info) (hfr : info.freed = false)
    (hc : info.block_cache = some cache) :
    safe bs M (flush_iteration bs0 i s).1 ∧
    ((flush_iteration bs0 i s).2 = true →
      ∃ info1 cache1, (flush_iteration bs0 i s).1.infos[i]? = some info1 ∧
        info1.freed = false ∧ info1.block_cache = some cache1) := by
  have hio := h.info_all i info hi
  obtain ⟨hw, hmax⟩ := hio.cache_wf cache hc
  unfold flush_iteration
  rw [hi]
  dsimp only
  rw [if_neg (by simp [hfr]), hc]
  dsimp only
  by_cases h3 : heap_size cache > 0
  swap
  · rw [if_neg h3]; exact ⟨h, fun hf => by simp at hf⟩
  rw [if_pos h3]
  by_cases h4 : (heap_min cache).logical_block = info.blocks_read
  swap
  · rw [if_neg h4]; exact ⟨h, fun hf => by simp at hf⟩
  rw [if_pos h4]
  have hpos : 0 < cache.current_size := h3
  have hlen := heap_records_length info cache hc hw
  have hrefs := hio.refs
  rw [if_neg (by omega)]
  have hmem := heap_min_mem_records info cache hc hw hpos
  obtain ⟨sid, hsid⟩ := hio.ptrs _ hmem
  rw [hsid]
  dsimp only
  have hlt := h.heap_stripe i info hi _ hmem sid hsid
  rw [List.getElem?_eq_getElem hlt]
  dsimp only
  have hst : s.stripes[sid]? = some s.stripes[sid] := List.getElem?_eq_getElem hlt
  have hso := h.stripe_all sid _ hst
  have hheld := held_pos sid i s.infos info _ hi hmem hsid
  have hsf : (s.stripes[sid]).freed = false := by
    by_contra hcon
    have := hso.freed_refs (by simpa using hcon)
    have := hso.refs
    omega
  rw [if_neg (by simp [hsf])]
  exact flush_deliver_safe bs bs0 M s i sid info cache _ h hi hfr hc hpos hsid hst hsf

theorem flush_loop_safe (bs bs0 : Nat) (M : List block_list) (i fuel : Nat) (s : dj_state)
    (info : inode_cb_info) (cache : heap block_list)
    (h : safe bs M s) (hi : s.infos[i]? = some info) (hfr : info.freed = false)
    (hc : info.block_cache = some cache) :
    safe bs M (flush_loop fuel bs0 i s) := by
  induction fuel generalizing s info cache with
  | zero => exact h
  | succ f ih =>
    simp only [flush_loop]
    obtain ⟨h1, h2⟩ := flush_iteration_safe bs bs0 M s i info cache h hi hfr hc
    by_cases hcont : (flush_iteration bs0 i s).2 = true
    · rw [if_pos hcont]
      obtain ⟨info1, cache1, g1, g2, g3⟩ := h2 hcont
      exact ih _ info1 cache1 h1 g1 g2 g3
    · rw [if_neg hcont]; exact h1

theorem safe_insert (bs : Nat) (M : List block_list) (s : dj_state) (b : block_list)
    (sid : Nat) (info infoX : inode_cb_info)
    (h : safe bs (b :: M) s) (hi : s.infos[b.inode_info]? = some info)
    (hb : b.stripe_ptr.stripe = some sid)
    (hperm : (heap_records infoX).Perm (b :: heap_records info))
    (hX : info_ok bs M b.inode_info infoX) :
    safe bs M { s with infos := s.infos.set b.inode_info infoX } := by
  refine ⟨h.running, ?_, ?_, ?_, ?_, ?_⟩
  · intro j infoj hj
    rcases getElem?_set_cases _ _ _ _ _ hj with ⟨h1, h2⟩ | ⟨h1, h2⟩
    · subst h1; subst h2; exact hX
    · have ho := h.info_all j infoj h2
      refine ⟨?_, ho.freed_refs, ho.open_refs, ho.cache_wf, ho.ptrs, ho.cap⟩
      have := ho.refs
      rw [count_inode_cons, if_neg (fun hc => h1 hc.symm)] at this
      simpa using this
  · intro sid1 st hst
    have hs := h.stripe_all sid1 st hst
    have hh := held_insert sid sid1 b.inode_info s.infos info infoX b hi hperm hb
    refine ⟨?_, hs.freed_refs⟩
    show st.references = ((held sid1 (s.infos.set b.inode_info infoX) : Nat) : Int) + _
    have hr := hs.refs
    rw [count_stripe_cons, hb] at hr
    rw [hh, hr]
    by_cases hs1 : sid1 = sid
    · subst hs1; simp; omega
    · have : ¬ (some sid = some sid1) := fun h => hs1 (Option.some.inj h).symm
      simp [hs1, this]
  · intro x hx
    show x.inode_info < (s.infos.set b.inode_info infoX).length
    rw [List.length_set]; exact h.pending_inode x (List.mem_cons_of_mem _ hx)
  · intro x hx sid1 hs
    exact h.pending_stripe x (List.mem_cons_of_mem _ hx) sid1 hs
  · intro j infoj hj x hx sid1 hs
    rcases getElem?_set_cases _ _ _ _ _ hj with ⟨h1, h2⟩ | ⟨_, h2⟩
    · subst h1; subst h2
      rcases List.mem_cons.1 (hperm.subset hx) with hx1 | hx1
      · subst hx1; exact h.pending_stripe x (List.mem_cons_self _ _) sid1 hs
      · exact h.heap_stripe _ info hi x hx1 sid1 hs
    · exact h.heap_stripe j infoj h2 x hx sid1 hs

theorem heapify_block_safe (fs : ext2_filsys) (b : block_list) (M : List block_list)
    (s : dj_state) (sid : Nat) (h : safe fs.blocksize (b :: M) s)
    (hb : b.stripe_ptr.stripe = some sid) :
    safe fs.blocksize M (heapify_block fs b s) := by
  have hlt := h.pending_inode b (List.mem_cons_self _ _)
  have hi : s.infos[b.inode_info]? = some s.infos[b.inode_info] := List.getElem?_eq_getElem hlt
  generalize s.infos[b.inode_info] = info at hi
  have hio := h.info_all _ info hi
  have hrefs := hio.refs
  rw [count_inode_cons, if_pos rfl] at hrefs
  have hfr : info.freed = false := by
    by_contra hcon
    have := (hio.freed_refs (by simpa using hcon)).1
    omega
  have hopen := hio.open_refs hfr
  have hsz := heap_create_size_eq info.len fs.blocksize hio.cap
  unfold heapify_block
  rw [hi]
  dsimp only
  rw [if_neg (by simp [hfr]), if_neg (fun hh => heap_create_size_not_neg _ _ hio.cap hh.2), hsz, Int.toNat_ofNat]
  cases h2 : heap_insert (match info.block_cache with
      | none => heap_create (info.len / fs.blocksize + 1)
      | some cache => cache) b.logical_block b with
  | none =>
    exfalso
    unfold heap_insert at h2
    split_ifs at h2 with hfull
    cases hc : info.block_cache with
    | none =>
      rw [hc] at hfull
      simp [heap_create] at hfull
    | some c =>
      rw [hc] at hfull
      dsimp only at hfull
      obtain ⟨hw, hmax⟩ := hio.cache_wf c hc
      have hlen := heap_records_length info c hc hw
      omega
  | some cache1 =>
    dsimp only
    obtain ⟨hperm, hw1, hmax1⟩ := heap_records_insert info _ b cache1
      (fun c hc => (hio.cache_wf c hc).1) h2
    have hmax : cache1.max_size = info.len / fs.blocksize + 1 := by
      rw [hmax1]
      cases hc : info.block_cache with
      | none => rfl
      | some c => exact (hio.cache_wf c hc).2
    have hlen := hperm.length_eq
    simp only [List.length_cons] at hlen
    have hs1 : safe fs.blocksize M
        { s with infos := s.infos.set b.inode_info { info with block_cache := some cache1 } } := by
      refine safe_insert fs.blocksize M s b sid info _ h hi hb hperm ?_
      refine ⟨?_, fun hf => (by rw [hfr] at hf; cases hf), fun _ => hopen, ?_, ?_, hio.cap⟩
      · show info.references = _
        omega
      · intro c hc
        simp only [Option.some.injEq] at hc
        subst hc
        exact ⟨hw1, hmax⟩
      · intro x hx
        rcases List.mem_cons.1 (hperm.subset hx) with hx1 | hx1
        · subst hx1; exact ⟨sid, hb⟩
        · exact hio.ptrs x hx1
    unfold flush_inode_blocks
    have hget := getElem?_set_self_of_some s.infos b.inode_info info
      { info with block_cache := some cache1 } hi
    dsimp only
    rw [hget]
    dsimp only
    exact flush_loop_safe fs.blocksize fs.blocksize M b.inode_info _ _ _ cache1 hs1 hget hfr rfl

theorem heapify_stripe_loop_safe (fs : ext2_filsys) (sid : Nat) (A R X : List block_list)
    (rb cb : Nat) (s : dj_state)
    (hA : ∀ b ∈ A, b.stripe_ptr.stripe = some sid ∧ 0 < b.num_blocks)
    (hcb : rb + (A.map (fun b => b.num_blocks)).sum = cb)
    (h : safe fs.blocksize (A ++ (R ++ X)) s) :
    (heapify_stripe_loop fs cb rb (A ++ R) s).1 = R ∧
      safe fs.blocksize (R ++ X) (heapify_stripe_loop fs cb rb (A ++ R) s).2 := by
  induction A generalizing rb s with
  | nil =>
    simp only [List.map_nil, List.sum_nil, Nat.add_zero] at hcb
    simp only [List.nil_append] at h ⊢
    cases R with
    | nil => simp only [heapify_stripe_loop]; rw [if_neg (by omega)]; exact ⟨rfl, h⟩
    | cons b rest => simp only [heapify_stripe_loop]; rw [if_neg (by omega)]; exact ⟨rfl, h⟩
  | cons a A1 ih =>
    have ha := hA a (List.mem_cons_self _ _)
    simp only [List.map_cons, List.sum_cons] at hcb
    simp only [List.cons_append, heapify_stripe_loop]
    rw [if_pos (by omega)]
    have h1 := heapify_block_safe fs a (A1 ++ (R ++ X)) s sid h ha.1
    rw [if_pos h1.running]
    exact ih (rb + a.num_blocks) _ (fun b hb => hA b (List.mem_cons_of_mem _ hb)) (by omega) h1

theorem safe_perm (bs : Nat) (M M1 : List block_list) (s : dj_state) (hp : M.Perm M1)
    (h : safe bs M s) : safe bs M1 s := by
  refine ⟨h.running, ?_, ?_, fun b hb => h.pending_inode b (hp.symm.subset hb),
    fun b hb => h.pending_stripe b (hp.symm.subset hb), h.heap_stripe⟩
  · intro i info hi
    have ho := h.info_all i info hi
    refine ⟨?_, ho.freed_refs, ho.open_refs, ho.cache_wf, ho.ptrs, ho.cap⟩
    have : count_inode i M1 = count_inode i M := (hp.countP_eq _).symm
    rw [this]; exact ho.refs
  · intro sid st hst
    have hs := h.stripe_all sid st hst
    refine ⟨?_, hs.freed_refs⟩
    have : count_stripe sid M1 = count_stripe sid M := (hp.countP_eq _).symm
    rw [this]; exact hs.refs

theorem next_stripe_loop_shape (bs hp sid : Nat) (cd : Int) (l : List block_list)
    (prev : Option block_list) (st : stripe) :
    ∃ k, k ≤ l.length ∧
      (next_stripe_loop bs cd sid hp prev l st).2.1 = (l.take k).map (absorb bs sid hp) ∧
      (next_stripe_loop bs cd sid hp prev l st).2.2 = l.drop k ∧
      (next_stripe_loop bs cd sid hp prev l st).1.references = st.references + (k : Nat) ∧
      (next_stripe_loop bs cd sid hp prev l st).1.consecutive_blocks
        = st.consecutive_blocks + ((l.take k).map (fun b => b.num_blocks)).sum ∧
      (next_stripe_loop bs cd sid hp prev l st).1.freed = st.freed := by
  induction l generalizing prev st with
  | nil => exact ⟨0, by simp [next_stripe_loop]⟩
  | cons fwd rest ih =>
    simp only [next_stripe_loop]
    by_cases hd : physical_block_diff prev fwd > cd
    · rw [if_pos hd]; exact ⟨0, by simp⟩
    rw [if_neg hd]
    obtain ⟨k, i0, i1, i2, i3, i4, i5⟩ := ih (some (absorb bs sid hp fwd))
      (st.absorb bs (physical_block_diff prev fwd) fwd)
    refine ⟨k + 1, by simp; omega, ?_, ?_, ?_, ?_, ?_⟩
    · simp [i1]
    · simp [i2]
    · rw [i3]; simp only [stripe.absorb]; push_cast; ring
    · rw [i4]; simp only [stripe.absorb, List.take_succ_cons, List.map_cons, List.sum_cons]; ring
    · rw [i5]; rfl

theorem next_stripe_shape (bs sid : Nat) (cd mib : Int) (head : block_list)
    (rest : List block_list) (hcd : 0 ≤ cd) :
    ∃ k, k ≤ rest.length ∧
      (next_stripe bs cd mib sid (head :: rest)).2.1
        = absorb bs sid head.physical_block head
          :: (rest.take k).map (absorb bs sid head.physical_block) ∧
      (next_stripe bs cd mib sid (head :: rest)).2.2 = rest.drop k ∧
      (next_stripe bs cd mib sid (head :: rest)).1.references = (k : Nat) + 1 ∧
      (next_stripe bs cd mib sid (head :: rest)).1.consecutive_blocks
        = head.num_blocks + ((rest.take k).map (fun b => b.num_blocks)).sum ∧
      (next_stripe bs cd mib sid (head :: rest)).1.freed = false := by
  unfold next_stripe
  simp only [next_stripe_loop, physical_block_diff]
  rw [if_neg (by omega)]
  obtain ⟨k, i0, i1, i2, i3, i4, i5⟩ := next_stripe_loop_shape bs head.physical_block sid cd rest
    (some (absorb bs sid head.physical_block head)) (stripe.empty.absorb bs 0 head)
  refine ⟨k, i0, ?_, i2, ?_, ?_, ?_⟩
  · dsimp only; rw [i1]
  · dsimp only; rw [i3]; simp [stripe.absorb, stripe.empty]; ring
  · dsimp only; rw [i4]; simp [stripe.absorb, stripe.empty]
  · dsimp only; rw [i5]; rfl

theorem count_stripe_none (sid : Nat) (M : List block_list)
    (h : ∀ b ∈ M, b.stripe_ptr.stripe = none) : count_stripe sid M = 0 := by
  unfold count_stripe
  rw [List.countP_eq_zero]
  intro b hb
  simp [h b hb]

theorem count_stripe_append (sid : Nat) (M N : List block_list) :
    count_stripe sid (M ++ N) = count_stripe sid M + count_stripe sid N := by
  unfold count_stripe
  exact List.countP_append _ _ _

theorem count_inode_append (i : Nat) (M N : List block_list) :
    count_inode i (M ++ N) = count_inode i M + count_inode i N := by
  unfold count_inode
  exact List.countP_append _ _ _

theorem count_inode_absorb (i bs sid hp : Nat) (l : List block_list) :
    count_inode i (l.map (absorb bs sid hp)) = count_inode i l := by
  unfold count_inode
  rw [List.countP_map]
  rfl

theorem count_stripe_absorb (sid1 bs sid hp : Nat) (l : List block_list) :
    count_stripe sid1 (l.map (absorb bs sid hp)) = if sid1 = sid then l.length else 0 := by
  induction l with
  | nil => simp [count_stripe]
  | cons a t ih =>
    rw [List.map_cons, count_stripe_cons, ih]
    by_cases hs : sid1 = sid
    · subst hs; simp [absorb]
    · have : ¬ (sid = sid1) := fun h => hs h.symm
      simp [absorb, hs, this]

theorem held_zero (sid : Nat) (infos : List inode_cb_info)
    (h : ∀ (i : Nat) (info : inode_cb_info), infos[i]? = some info →
      ∀ b ∈ heap_records info, b.stripe_ptr.stripe ≠ some sid) : held sid infos = 0 := by
  unfold held
  apply List.sum_eq_zero
  intro x hx
  obtain ⟨info, hinfo, rfl⟩ := List.mem_map.1 hx
  obtain ⟨i, hi⟩ := List.getElem?_of_mem hinfo
  unfold count_stripe
  rw [List.countP_eq_zero]
  intro b hb
  simpa using h i info hi b hb

theorem safe_new_stripe (bs bs0 hp : Nat) (Lp R X : List block_list) (s : dj_state)
    (st1 : stripe) (h : safe bs (Lp ++ (R ++ X)) s)
    (hun : ∀ b ∈ Lp ++ (R ++ X), b.stripe_ptr.stripe = none)
    (hr : st1.references = (Lp.length : Nat)) (hf : st1.freed = false) :
    safe bs (Lp.map (absorb bs0 s.stripes.length hp) ++ (R ++ X))
      { s with stripes := s.stripes ++ [st1] } := by
  have hRX : ∀ b ∈ R ++ X, b.stripe_ptr.stripe = none :=
    fun b hb => hun b (List.mem_append_right _ hb)
  refine ⟨h.running, ?_, ?_, ?_, ?_, ?_⟩
  · intro i info hi
    have ho := h.info_all i info hi
    refine ⟨?_, ho.freed_refs, ho.open_refs, ho.cache_wf, ho.ptrs, ho.cap⟩
    have := ho.refs
    rw [count_inode_append] at this ⊢
    rw [count_inode_absorb]; exact this
  · intro sid st hst
    show stripe_ok _ s.infos sid st
    by_cases hlt : sid < s.stripes.length
    · have hst1 : s.stripes[sid]? = some st := by
        rw [← hst]; exact (List.getElem?_append_left hlt).symm
      have hs := h.stripe_all sid st hst1
      refine ⟨?_, hs.freed_refs⟩
      have h1 := hs.refs
      rw [count_stripe_none sid _ hun] at h1
      rw [count_stripe_append, count_stripe_absorb, if_neg (by omega),
        count_stripe_none sid _ hRX]
      exact h1
    · have hlen : sid < (s.stripes ++ [st1]).length := by
        by_contra hcon
        have : (s.stripes ++ [st1])[sid]? = none := List.getElem?_eq_none (by omega)
        change (s.stripes ++ [st1])[sid]? = some st at hst
        rw [this] at hst; cases hst
      simp only [List.length_append, List.length_singleton] at hlen
      have hsid : sid = s.stripes.length := by omega
      subst hsid
      change (s.stripes ++ [st1])[s.stripes.length]? = some st at hst
      rw [List.getElem?_concat_length] at hst
      simp only [Option.some.injEq] at hst
      subst hst
      have hheld : held s.stripes.length s.infos = 0 := by
        apply held_zero
        intro i info hi b hb hcon
        have := h.heap_stripe i info hi b hb _ hcon
        omega
      refine ⟨?_, fun hc => by rw [hf] at hc; cases hc⟩
      rw [hheld, count_stripe_append, count_stripe_absorb, if_pos rfl,
        count_stripe_none _ _ hRX, hr]
      simp
  · intro b hb
    show b.inode_info < s.infos.length
    rcases List.mem_append.1 hb with hb | hb
    · obtain ⟨b0, hb0, rfl⟩ := List.mem_map.1 hb
      exact h.pending_inode b0 (List.mem_append_left _ hb0)
    · exact h.pending_inode b (List.mem_append_right _ hb)
  · intro b hb sid hs
    show sid < (s.stripes ++ [st1]).length
    simp only [List.length_append, List.length_singleton]
    rcases List.mem_append.1 hb with hb | hb
    · obtain ⟨b0, hb0, rfl⟩ := List.mem_map.1 hb
      simp only [absorb, Option.some.injEq] at hs
      omega
    · rw [hRX b hb] at hs; cases hs
  · intro i info hi b hb sid hs
    show sid < (s.stripes ++ [st1]).length
    have := h.heap_stripe i info hi b hb sid hs
    simp only [List.length_append, List.length_singleton]
    omega

theorem read_stripe_data_fields (dev : Nat → Nat) (bs pb : Nat) (direct : Bool) (st : stripe) :
    (read_stripe_data dev bs pb direct st).references = st.references ∧
    (read_stripe_data dev bs pb direct st).consecutive_blocks = st.consecutive_blocks ∧
    (read_stripe_data dev bs pb direct st).consecutive_len = st.consecutive_len ∧
    (read_stripe_data dev bs pb direct st).freed = st.freed := by
  unfold read_stripe_data
  split_ifs <;> exact ⟨rfl, rfl, rfl, rfl⟩

theorem drain_stripe_shape (fs : ext2_filsys) (p : dj_params) (mib : Int) (sid : Nat)
    (head : block_list) (rest : List block_list) (hcd : 0 ≤ p.coalesce_distance)
    (hn : 0 < head.num_blocks) :
    ∃ k, k ≤ rest.length ∧ (drain_stripe fs p mib sid head rest).2.1
        = (head :: rest.take k).map (absorb fs.blocksize sid head.physical_block) ∧
      (drain_stripe fs p mib sid head rest).2.2 = rest.drop k ∧
      (drain_stripe fs p mib sid head rest).1.references = ((head :: rest.take k).length : Nat) ∧
      (drain_stripe fs p mib sid head rest).1.consecutive_blocks
        = (((head :: rest.take k).map (absorb fs.blocksize sid head.physical_block)).map
            (fun b => b.num_blocks)).sum ∧
      (drain_stripe fs p mib sid head rest).1.freed = false ∧
      (drain_stripe fs p mib sid head rest).1.consecutive_len
        = (next_stripe fs.blocksize p.coalesce_distance mib sid (head :: rest)).1.consecutive_len
      := by
  obtain ⟨k, i0, i1, i2, i3, i4, i5⟩ :=
    next_stripe_shape fs.blocksize sid p.coalesce_distance mib head rest hcd
  have hf := read_stripe_data_fields p.dev fs.blocksize head.physical_block p.direct
    (next_stripe fs.blocksize p.coalesce_distance mib sid (head :: rest)).1
  have hsum : (((head :: rest.take k).map (absorb fs.blocksize sid head.physical_block)).map
      (fun b => b.num_blocks)).sum
      = head.num_blocks + ((rest.take k).map (fun b => b.num_blocks)).sum := by
    simp [absorb, Function.comp_def]
  unfold drain_stripe
  dsimp only
  rw [if_pos (by rw [i4]; omega)]
  refine ⟨k, i0, ?_, i2, ?_, ?_, ?_, hf.2.2.1⟩
  · dsimp only; rw [i1]; rfl
  · dsimp only; rw [hf.1, i3]; simp [Nat.min_eq_left i0]
  · dsimp only; rw [hf.2.1, i4, hsum]
  · dsimp only; rw [hf.2.2.2, i5]

theorem drain_requeue_perm (n : Nat) (R residual : List block_list) :
    ((drain_requeue n R residual).1 ++ (drain_requeue n R residual).2).Perm (R ++ residual) ∧
      (drain_requeue n R residual).1.length ≤ R.length := by
  unfold drain_requeue
  cases R with
  | nil => exact ⟨List.Perm.refl _, le_refl _⟩
  | cons b old_next =>
    dsimp only
    split_ifs
    · refine ⟨?_, by simp⟩
      dsimp only
      rw [← List.append_assoc]
      exact List.perm_append_singleton b (old_next ++ residual)
    · exact ⟨List.Perm.refl _, le_refl _⟩

theorem flush_iteration_stripes_length (bs i : Nat) (s : dj_state) :
    (flush_iteration bs i s).1.stripes.length = s.stripes.length := by
  rcases flush_iteration_cases bs i s with ⟨w, hw⟩ | hs | ⟨info, cache, _, _, _, he⟩ |
    ⟨info, cache, sid, st, _, _, _, _, _, _, _, _, _, he⟩
  · rw [hw]; rfl
  · rw [hs]
  · rw [he]; rfl
  · rw [he]
    unfold flush_deliver
    dsimp only
    split_ifs <;> simp

theorem flush_loop_stripes_length (bs i fuel : Nat) (s : dj_state) :
    (flush_loop fuel bs i s).stripes.length = s.stripes.length := by
  induction fuel generalizing s with
  | zero => rfl
  | succ f ih =>
    simp only [flush_loop]
    split_ifs
    · rw [ih, flush_iteration_stripes_length]
    · exact flush_iteration_stripes_length bs i s

theorem heapify_block_stripes_length (fs : ext2_filsys) (b : block_list) (s : dj_state) :
    (heapify_block fs b s).stripes.length = s.stripes.length := by
  unfold heapify_block
  cases h1 : s.infos[b.inode_info]? with
  | none => rfl
  | some info =>
    dsimp only
    by_cases hf : info.freed = true
    · rw [if_pos hf]; rfl
    rw [if_neg hf]
    by_cases hneg : info.block_cache.isNone = true
        ∧ heap_create_size info.len fs.blocksize < 0
    · rw [if_pos hneg]; rfl
    rw [if_neg hneg]
    cases h2 : heap_insert (match info.block_cache with
        | none => heap_create (heap_create_size info.len fs.blocksize).toNat
        | some cache => cache) b.logical_block b with
    | none => rfl
    | some cache1 =>
      dsimp only
      unfold flush_inode_blocks
      split
      · rfl
      · split
        · rfl
        · rw [flush_loop_stripes_length]

theorem heapify_stripe_loop_stripes_length (fs : ext2_filsys) (cb rb : Nat)
    (l : List block_list) (s : dj_state) :
    (heapify_stripe_loop fs cb rb l s).2.stripes.length = s.stripes.length :=
  (heapify_stripe_loop_preserves (fun x => x.stripes.length = s.stripes.length)
    (fun _ => True) fs (fun _ _ h => h)
    (fun b x _ h => (heapify_block_stripes_length fs b x).trans h)
    cb l rb s (fun _ _ => trivial) rfl).1

theorem drain_iteration_safe (fs : ext2_filsys) (p : dj_params) (mib : Int)
    (hcd : 0 ≤ p.coalesce_distance) (head : block_list) (rest Y : List block_list)
    (s : dj_state) (h : safe fs.blocksize ((head :: rest) ++ Y) s)
    (hun : ∀ b ∈ (head :: rest) ++ Y, unabsorbed b) :
    (drain_stripe fs p mib s.stripes.length head rest).1.freed = false ∧
    (heapify_stripe fs
      ((drain_stripe fs p mib s.stripes.length head rest).2.1
        ++ (drain_stripe fs p mib s.stripes.length head rest).2.2) s.stripes.length mib
      { s with stripes := s.stripes
          ++ [(drain_stripe fs p mib s.stripes.length head rest).1] }).1
      = (drain_stripe fs p mib s.stripes.length head rest).2.2 ∧
    safe fs.blocksize ((drain_stripe fs p mib s.stripes.length head rest).2.2 ++ Y)
      (heapify_stripe fs
        ((drain_stripe fs p mib s.stripes.length head rest).2.1
          ++ (drain_stripe fs p mib s.stripes.length head rest).2.2) s.stripes.length mib
        { s with stripes := s.stripes
            ++ [(drain_stripe fs p mib s.stripes.length head rest).1] }).2 ∧
    (heapify_stripe fs
      ((drain_stripe fs p mib s.stripes.length head rest).2.1
        ++ (drain_stripe fs p mib s.stripes.length head rest).2.2) s.stripes.length mib
      { s with stripes := s.stripes
          ++ [(drain_stripe fs p mib s.stripes.length head rest).1] }).2.stripes.length
      = s.stripes.length + 1 := by
  have hhead := hun head (by simp)
  obtain ⟨k, i0, i1, i2, i3, i4, i5, _⟩ :=
    drain_stripe_shape fs p mib s.stripes.length head rest hcd hhead.2
  have hsplit : (head :: rest.take k) ++ (rest.drop k ++ Y) = (head :: rest) ++ Y := by
    simp [← List.append_assoc, List.take_append_drop]
  have hs1 := safe_new_stripe fs.blocksize fs.blocksize head.physical_block
    (head :: rest.take k) (rest.drop k) Y s
    (drain_stripe fs p mib s.stripes.length head rest).1
    (by rw [hsplit]; exact h)
    (by rw [hsplit]; exact fun b hb => (hun b hb).1) i3 i5
  have hA : ∀ b ∈ (head :: rest.take k).map (absorb fs.blocksize s.stripes.length
      head.physical_block), b.stripe_ptr.stripe = some s.stripes.length ∧ 0 < b.num_blocks := by
    intro b hb
    obtain ⟨b0, hb0, rfl⟩ := List.mem_map.1 hb
    refine ⟨rfl, ?_⟩
    have : b0 ∈ (head :: rest) ++ Y := by
      rw [← hsplit]; exact List.mem_append_left _ hb0
    exact (hun b0 this).2
  have hloop := heapify_stripe_loop_safe fs s.stripes.length
    ((head :: rest.take k).map (absorb fs.blocksize s.stripes.length head.physical_block))
    (rest.drop k) Y 0
    (drain_stripe fs p mib s.stripes.length head rest).1.consecutive_blocks
    { s with stripes := s.stripes ++ [(drain_stripe fs p mib s.stripes.length head rest).1] }
    hA (by rw [i4]; simp) hs1
  have hlen := heapify_stripe_loop_stripes_length fs
    (drain_stripe fs p mib s.stripes.length head rest).1.consecutive_blocks 0
    ((head :: rest.take k).map (absorb fs.blocksize s.stripes.length head.physical_block)
      ++ rest.drop k)
    { s with stripes := s.stripes ++ [(drain_stripe fs p mib s.stripes.length head rest).1] }
  have hh : heapify_stripe fs
      ((drain_stripe fs p mib s.stripes.length head rest).2.1
        ++ (drain_stripe fs p mib s.stripes.length head rest).2.2) s.stripes.length mib
      { s with stripes := s.stripes
          ++ [(drain_stripe fs p mib s.stripes.length head rest).1] }
      = heapify_stripe_loop fs
          (drain_stripe fs p mib s.stripes.length head rest).1.consecutive_blocks 0
          ((head :: rest.take k).map (absorb fs.blocksize s.stripes.length head.physical_block)
            ++ rest.drop k)
          { s with stripes := s.stripes
              ++ [(drain_stripe fs p mib s.stripes.length head rest).1] } := by
    unfold heapify_stripe
    dsimp only
    rw [List.getElem?_concat_length]
    dsimp only
    rw [if_neg (by simp [i5]), i1, i2]
  rw [hh, i2]
  refine ⟨i5, hloop.1, hloop.2, ?_⟩
  rw [hlen]
  simp

theorem drain_loop_safe (fs : ext2_filsys) (p : dj_params) (mib : Int)
    (hcd : 0 ≤ p.coalesce_distance) (fuel : Nat) (L residual X : List block_list)
    (s : dj_state) (hfuel : L.length ≤ fuel)
    (h : safe fs.blocksize (L ++ (residual ++ X)) s)
    (hun : ∀ b ∈ L ++ (residual ++ X), unabsorbed b) :
    safe fs.blocksize ((drain_loop fs p mib fuel L residual s).1 ++ X)
      (drain_loop fs p mib fuel L residual s).2 ∧
    ∀ b ∈ (drain_loop fs p mib fuel L residual s).1 ++ X, unabsorbed b := by
  induction fuel generalizing L residual s with
  | zero =>
    have : L = [] := List.length_eq_zero.1 (by omega)
    subst this
    exact ⟨h, hun⟩
  | succ f ih =>
    cases L with
    | nil => exact ⟨h, hun⟩
    | cons head rest =>
      obtain ⟨i1, i2, i3, _⟩ := drain_iteration_safe fs p mib hcd head rest (residual ++ X) s h hun
      obtain ⟨k, k0, _, k2, _⟩ := drain_stripe_shape fs p mib s.stripes.length head rest hcd
        (hun head (by simp)).2
      simp only [drain_loop]
      rw [if_neg (by simp [i1]), if_pos i3.running, i2]
      have hq := drain_requeue_perm
        (drain_stripe fs p mib s.stripes.length head rest).1.consecutive_len
        (drain_stripe fs p mib s.stripes.length head rest).2.2 residual
      have hperm : ((drain_stripe fs p mib s.stripes.length head rest).2.2
          ++ (residual ++ X)).Perm
          ((drain_requeue (drain_stripe fs p mib s.stripes.length head rest).1.consecutive_len
              (drain_stripe fs p mib s.stripes.length head rest).2.2 residual).1
            ++ ((drain_requeue
              (drain_stripe fs p mib s.stripes.length head rest).1.consecutive_len
              (drain_stripe fs p mib s.stripes.length head rest).2.2 residual).2 ++ X)) := by
        rw [← List.append_assoc, ← List.append_assoc]
        exact hq.1.symm.append_right X
      refine ih _ _ _ ?_ (safe_perm _ _ _ _ hperm i3) ?_
      · have hq2 := hq.2
        have hlen : (drain_stripe fs p mib s.stripes.length head rest).2.2.length
            ≤ rest.length := by
          rw [k2, List.length_drop]
          omega
        simp only [List.length_cons] at hfuel
        omega
      · intro b hb
        have hb1 := hperm.symm.subset hb
        rw [k2] at hb1
        apply hun
        rcases List.mem_append.1 hb1 with hb2 | hb2
        · exact List.mem_append_left _ (List.mem_cons_of_mem _ (List.mem_of_mem_drop hb2))
        · exact List.mem_append_right _ hb2

theorem next_stripe_run (bs sid : Nat) (cd mib : Int) (head : block_list)
    (rest : List block_list) (hbs : 0 < bs) (hcd : 0 ≤ cd)
    (hrange : ∀ b ∈ head :: rest, block_in_range bs b) :
    (next_stripe bs cd mib sid (head :: rest)).2.1
      = ((head :: rest).take (run_length cd (head :: rest))).map
          (absorb bs sid head.physical_block) ∧
    (next_stripe bs cd mib sid (head :: rest)).2.2
      = (head :: rest).drop (run_length cd (head :: rest)) ∧
    (next_stripe bs cd mib sid (head :: rest)).1.references
      = run_length cd (head :: rest) ∧
    (next_stripe bs cd mib sid (head :: rest)).1.consecutive_blocks
      = (((head :: rest).take (run_length cd (head :: rest))).map
          (fun b => b.num_blocks)).sum := by
  have hpos := run_length_pos cd head rest
  obtain ⟨n, hn⟩ : ∃ n, run_length cd (head :: rest) = n + 1 := ⟨_, (Nat.succ_pred_eq_of_pos hpos).symm⟩
  have hhead : run_length cd (absorb bs sid head.physical_block head :: rest) = n + 1 := by
    rw [run_length_head cd head (absorb bs sid head.physical_block head) rest rfl rfl, hn]
  have hr : ∀ b ∈ absorb bs sid head.physical_block head :: rest, block_in_range bs b := by
    intro b hb
    rcases List.mem_cons.1 hb with hb1 | hb1
    · rw [hb1]
      exact block_in_range_absorb bs sid _ head (hrange head (List.mem_cons_self _ _))
    · exact hrange b (List.mem_cons_of_mem _ hb1)
  obtain ⟨i1, i2, i3, i4⟩ := next_stripe_loop_run bs head.physical_block sid cd hbs rest
    (absorb bs sid head.physical_block head) (stripe.empty.absorb bs 0 head) hr
  rw [hhead] at i1 i2 i3 i4
  simp only [Nat.add_sub_cancel] at i1 i2 i3 i4
  unfold next_stripe
  simp only [next_stripe_loop, physical_block_diff]
  rw [if_neg (by omega), hn]
  refine ⟨?_, ?_, ?_, ?_⟩
  · dsimp only; rw [i1]; rfl
  · dsimp only; rw [i2]; rfl
  · dsimp only; rw [i3]; simp [stripe.absorb, stripe.empty]; ring
  · dsimp only; rw [i4]; simp [stripe.absorb, stripe.empty]

theorem next_stripe_len_pos (bs sid : Nat) (cd mib : Int) (head : block_list)
    (rest : List block_list) (hbs : 0 < bs) (hcd : 0 ≤ cd)
    (hchain : (head :: rest).Chain' phys_ordered)
    (hrange : ∀ b ∈ head :: rest, block_in_range bs b) :
    0 < (next_stripe bs cd mib sid (head :: rest)).1.consecutive_len := by
  have hhr := hrange head (List.mem_cons_self _ _)
  have hr : ∀ b ∈ absorb bs sid head.physical_block head :: rest, block_in_range bs b := by
    intro b hb
    rcases List.mem_cons.1 hb with hb1 | hb1
    · rw [hb1]
      exact block_in_range_absorb bs sid _ head hhr
    · exact hrange b (List.mem_cons_of_mem _ hb1)
  obtain ⟨_, i2, i3⟩ := next_stripe_loop_layout bs head.physical_block sid cd hbs rest
    (absorb bs sid head.physical_block head) (stripe.empty.absorb bs 0 head)
    (chain_absorb_head bs sid head.physical_block head rest hchain) hr (le_refl _)
    (stripe_empty_absorb_len bs head hhr)
  unfold next_stripe
  simp only [next_stripe_loop, physical_block_diff]
  rw [if_neg (by omega)]
  dsimp only
  rw [i2]
  have h1 : (absorb bs sid head.physical_block head).physical_block = head.physical_block := rfl
  have h2 : (absorb bs sid head.physical_block head).num_blocks = head.num_blocks := rfl
  rw [h1, h2] at i3
  have h3 := hhr.1
  exact Nat.mul_pos (by omega) hbs

theorem gaps_over_drop (cd : Int) (a : block_list) (l : List block_list) :
    gaps_over cd (a :: l)
      = (match (a :: l).drop (run_length cd (a :: l)) with
        | [] => 0
        | b :: r => 1 + gaps_over cd (b :: r)) := by
  induction l generalizing a with
  | nil => simp [run_length, gaps_over]
  | cons b rest ih =>
    simp only [run_length, gaps_over]
    by_cases hg : block_gap a b ≤ cd
    · rw [if_pos hg, if_neg (by omega), Nat.add_comm 1 (run_length cd (b :: rest)),
        List.drop_succ_cons, Nat.zero_add]
      exact ih b
    · rw [if_neg hg, if_pos (by omega)]
      rfl

theorem drain_stripe_snd (fs : ext2_filsys) (p : dj_params) (mib : Int) (sid : Nat)
    (head : block_list) (rest : List block_list) :
    (drain_stripe fs p mib sid head rest).2
      = (next_stripe fs.blocksize p.coalesce_distance mib sid (head :: rest)).2 := by
  unfold drain_stripe
  dsimp only
  split_ifs <;> rfl

theorem drain_requeue_pos (n : Nat) (hn : 0 < n) (R residual : List block_list) :
    drain_requeue n R residual = (R, residual) := by
  cases R with
  | nil => rfl
  | cons b t => simp only [drain_requeue]; rw [if_neg (by omega)]

theorem drain_loop_nil (fs : ext2_filsys) (p : dj_params) (mib : Int) (fuel : Nat)
    (residual : List block_list) (s : dj_state) :
    drain_loop fs p mib fuel [] residual s = (residual, s) := by
  cases fuel <;> rfl

theorem drain_loop_step (fs : ext2_filsys) (p : dj_params) (mib : Int) (fuel : Nat)
    (head : block_list) (rest X : List block_list) (s : dj_state)
    (hbs : 0 < fs.blocksize) (hcd : 0 ≤ p.coalesce_distance)
    (hchain : (head :: rest).Chain' phys_ordered)
    (hrange : ∀ b ∈ head :: rest, block_in_range fs.blocksize b)
    (h : safe fs.blocksize ((head :: rest) ++ X) s)
    (hun : ∀ b ∈ (head :: rest) ++ X, unabsorbed b) :
    drain_loop fs p mib (fuel + 1) (head :: rest) [] s
      = drain_loop fs p mib fuel
          ((head :: rest).drop (run_length p.coalesce_distance (head :: rest))) []
          (heapify_stripe fs
            ((drain_stripe fs p mib s.stripes.length head rest).2.1
              ++ (drain_stripe fs p mib s.stripes.length head rest).2.2) s.stripes.length mib
            { s with stripes := s.stripes
                ++ [(drain_stripe fs p mib s.stripes.length head rest).1] }).2 := by
  obtain ⟨i1, i2, i3, _⟩ := drain_iteration_safe fs p mib hcd head rest X s h hun
  obtain ⟨_, _, _, _, _, _, _, k6⟩ := drain_stripe_shape fs p mib s.stripes.length head rest hcd
    (hun head (by simp)).2
  have hpos := next_stripe_len_pos fs.blocksize s.stripes.length p.coalesce_distance mib
    head rest hbs hcd hchain hrange
  rw [← k6] at hpos
  have hd : (drain_stripe fs p mib s.stripes.length head rest).2.2
      = (head :: rest).drop (run_length p.coalesce_distance (head :: rest)) := by
    rw [drain_stripe_snd]
    exact (next_stripe_run fs.blocksize s.stripes.length p.coalesce_distance mib head rest
      hbs hcd hrange).2.1
  simp only [drain_loop]
  rw [if_neg (by simp [i1]), if_pos i3.running, i2, drain_requeue_pos _ hpos, hd]

theorem drain_loop_stripes (fs : ext2_filsys) (p : dj_params) (mib : Int)
    (hbs : 0 < fs.blocksize) (hcd : 0 ≤ p.coalesce_distance) (fuel : Nat)
    (head : block_list) (rest X : List block_list) (s : dj_state)
    (hfuel : (head :: rest).length ≤ fuel)
    (hchain : (head :: rest).Chain' phys_ordered)
    (hrange : ∀ b ∈ head :: rest, block_in_range fs.blocksize b)
    (h : safe fs.blocksize ((head :: rest) ++ X) s)
    (hun : ∀ b ∈ (head :: rest) ++ X, unabsorbed b) :
    (drain_loop fs p mib fuel (head :: rest) [] s).1 = [] ∧
    (drain_loop fs p mib fuel (head :: rest) [] s).2.status = run_status.running ∧
    (drain_loop fs p mib fuel (head :: rest) [] s).2.stripes.length
      = s.stripes.length + 1 + gaps_over p.coalesce_distance (head :: rest) := by
  induction fuel generalizing head rest s with
  | zero => simp at hfuel
  | succ f ih =>
    obtain ⟨_, i2, i3, i4⟩ := drain_iteration_safe fs p mib hcd head rest X s h hun
    have hd : (drain_stripe fs p mib s.stripes.length head rest).2.2
        = (head :: rest).drop (run_length p.coalesce_distance (head :: rest)) := by
      rw [drain_stripe_snd]
      exact (next_stripe_run fs.blocksize s.stripes.length p.coalesce_distance mib head rest
        hbs hcd hrange).2.1
    rw [drain_loop_step fs p mib f head rest X s hbs hcd hchain hrange h hun]
    have hg := gaps_over_drop p.coalesce_distance head rest
    have hpos := run_length_pos p.coalesce_distance head rest
    generalize (heapify_stripe fs
      ((drain_stripe fs p mib s.stripes.length head rest).2.1
        ++ (drain_stripe fs p mib s.stripes.length head rest).2.2) s.stripes.length mib
      { s with stripes := s.stripes
          ++ [(drain_stripe fs p mib s.stripes.length head rest).1] }).2 = S at i3 i4 ⊢
    rw [hd] at i3
    cases hR : (head :: rest).drop (run_length p.coalesce_distance (head :: rest)) with
    | nil =>
      rw [hR] at hg
      rw [drain_loop_nil, hg]
      exact ⟨rfl, i3.running, i4⟩
    | cons b r =>
      rw [hR] at hg i3
      have hsub : ∀ x ∈ b :: r, x ∈ head :: rest := by
        intro x hx
        rw [← hR] at hx
        exact List.mem_of_mem_drop hx
      have hlen : (b :: r).length ≤ f := by
        rw [← hR, List.length_drop]
        omega
      have hch : (b :: r).Chain' phys_ordered := by
        rw [← hR]
        exact hchain.drop _
      obtain ⟨j1, j2, j3⟩ := ih b r _ hlen hch (fun x hx => hrange x (hsub x hx)) i3
        (fun x hx => hun x (by
          rcases List.mem_append.1 hx with hx1 | hx1
          · exact List.mem_append_left _ (hsub x hx1)
          · exact List.mem_append_right _ hx1))
      refine ⟨j1, j2, ?_⟩
      have hg1 : gaps_over p.coalesce_distance (head :: rest)
          = 1 + gaps_over p.coalesce_distance (b :: r) := hg
      rw [j3, i4, hg1]
      omega

theorem foldl_range'_inv {β : Type} (P : Nat → β → Prop) (f : β → Nat → β)
    (hf : ∀ j acc, P j acc → P (j + 1) (f acc j)) (n start : Nat) (init : β)
    (h : P start init) : P (start + n) ((List.range' start n).foldl f init) := by
  induction n generalizing start init with
  | zero => exact h
  | succ k ih =>
    rw [List.range'_succ, List.foldl_cons]
    have := ih (start + 1) (f init start) (hf _ _ h)
    rw [show start + (k + 1) = start + 1 + k by omega]
    exact this

theorem scan_bound_mono (bs m m1 : Nat) (si : scan_blocks_info) (hm : m ≤ m1)
    (h : scan_bound bs m si) : scan_bound bs m1 si :=
  ⟨le_trans h.1 hm, h.2.1, h.2.2⟩

theorem scan_block_rec_bound (bs : Nat) (hbs : 0 < bs) (fuel phys logical : Nat)
    (si : scan_blocks_info) (h : scan_bound bs logical si) :
    scan_bound bs (logical + 1) (scan_block_rec fuel bs phys logical si) := by
  induction fuel generalizing phys logical si with
  | zero => exact scan_bound_mono bs _ _ si (Nat.le_succ _) h
  | succ f ih =>
    simp only [scan_block_rec]
    by_cases h1 : logical * bs ≥ si.inode_info.len ∨ si.inode_info.len = 0
    · rw [if_pos h1]; exact scan_bound_mono bs _ _ si (Nat.le_succ _) h
    rw [if_neg h1]
    have hlt : logical * bs < si.inode_info.len := by omega
    have hdiv : logical ≤ si.inode_info.len / bs :=
      (Nat.le_div_iff_mul_le hbs).2 (le_of_lt hlt)
    obtain ⟨b1, b2, b3⟩ := h
    split_ifs with h2
    · cases hlast : si.blocks.getLast? with
      | none => rw [hlast] at h2; simp at h2
      | some last =>
        have hne : si.blocks ≠ [] := by
          intro hn; rw [hn] at hlast; simp at hlast
        have hpos : 0 < si.blocks.length := List.length_pos.2 hne
        refine ⟨?_, ?_, ?_⟩
        · show si.inode_info.blocks_scanned + 1 ≤ logical + 1
          omega
        · show (si.blocks.dropLast ++ [_]).length ≤ si.inode_info.blocks_scanned + 1
          simp only [List.length_append, List.length_dropLast, List.length_singleton]
          omega
        · show si.inode_info.blocks_scanned + 1 ≤ si.inode_info.len / bs + 1
          omega
    · have h3 := foldl_range'_inv
        (fun j (acc : scan_blocks_info) => scan_bound bs j acc ∧ scan_frame si.inode_info acc)
        (fun acc i => scan_block_rec f bs 0 i acc)
        (fun j acc hacc => ⟨ih 0 j acc hacc.1, scan_block_rec_frame _ _ _ _ _ acc hacc.2⟩)
        (logical - si.inode_info.blocks_scanned) si.inode_info.blocks_scanned
        { si with inode_info := { si.inode_info with
            references := si.inode_info.references + 1 } }
        ⟨⟨le_refl _, b2, b3⟩, rfl, rfl, rfl, rfl, rfl⟩
      rw [show si.inode_info.blocks_scanned + (logical - si.inode_info.blocks_scanned)
        = logical by omega] at h3
      generalize (List.range' si.inode_info.blocks_scanned
        (logical - si.inode_info.blocks_scanned)).foldl
          (fun acc i => scan_block_rec f bs 0 i acc)
          { si with inode_info := { si.inode_info with
              references := si.inode_info.references + 1 } } = si2 at h3 ⊢
      obtain ⟨⟨c1, c2, c3⟩, c4⟩ := h3
      have hlen : si2.inode_info.len = si.inode_info.len := c4.2.1
      refine ⟨?_, ?_, ?_⟩
      · show si2.inode_info.blocks_scanned + 1 ≤ logical + 1
        omega
      · show (si2.blocks ++ [_]).length ≤ si2.inode_info.blocks_scanned + 1
        simp only [List.length_append, List.length_singleton]
        omega
      · show si2.inode_info.blocks_scanned + 1 ≤ si2.inode_info.len / bs + 1
        rw [hlen]
        omega

theorem scan_callbacks_bound (bs : Nat) (hbs : 0 < bs) (cbs : List (Nat × Nat))
    (hinc : (cbs.map (fun cb => cb.2)).Pairwise (fun x y => x < y)) (m : Nat)
    (hm : ∀ cb ∈ cbs, m ≤ cb.2) (si : scan_blocks_info) (h : scan_bound bs m si) :
    ∃ m1, scan_bound bs m1 (cbs.foldl (fun acc cb => scan_block bs cb.1 cb.2 acc) si) := by
  induction cbs generalizing m si with
  | nil => exact ⟨m, h⟩
  | cons cb rest ih =>
    rw [List.map_cons, List.pairwise_cons] at hinc
    rw [List.foldl_cons]
    refine ih hinc.2 (cb.2 + 1) ?_ _
      (scan_block_rec_bound bs hbs _ cb.1 cb.2 si
        (scan_bound_mono bs _ _ si (hm cb (List.mem_cons_self _ _)) h))
    intro cb1 hcb1
    exact hinc.1 cb1.2 (List.mem_map_of_mem _ hcb1)

theorem scan_inode_bound (fs : ext2_filsys) (hbs : 0 < fs.blocksize) (e : inode_list)
    (id : Nat) (he : e.blocks = []) (hinc : callbacks_increasing fs e.index) :
    (scan_inode fs e id).blocks.length ≤ e.len / fs.blocksize + 1 := by
  obtain ⟨m1, h1, h2, h3⟩ := scan_callbacks_bound fs.blocksize hbs (fs.block_iterate e.index)
    hinc 0 (fun _ _ => Nat.zero_le _)
    { info_id := id,
      inode_info := { inode := e.index, len := e.len, blocks_scanned := 0,
                      blocks_read := 0, references := 0, block_cache := none, freed := false },
      blocks := e.blocks }
    ⟨le_refl _, by simp [he], Nat.zero_le _⟩
  have hlen := (scan_inode_frame fs e id).2.1
  unfold scan_inode at hlen ⊢
  dsimp only at hlen
  rw [hlen] at h3
  omega

theorem scan_block_rec_stripe_none (fuel bs phys logical : Nat) (si : scan_blocks_info)
    (h : ∀ b ∈ si.blocks, b.stripe_ptr.stripe = none) :
    ∀ b ∈ (scan_block_rec fuel bs phys logical si).blocks, b.stripe_ptr.stripe = none := by
  induction fuel generalizing phys logical si with
  | zero => exact h
  | succ f ih =>
    simp only [scan_block_rec]
    by_cases h1 : logical * bs ≥ si.inode_info.len ∨ si.inode_info.len = 0
    · rw [if_pos h1]; exact h
    rw [if_neg h1]
    split_ifs with h2
    · cases hlast : si.blocks.getLast? with
      | none => rw [hlast] at h2; simp at h2
      | some last =>
        have hmem : last ∈ si.blocks := List.mem_of_mem_getLast? hlast
        intro b hb
        rcases List.mem_append.1 hb with hb | hb
        · exact h b (List.dropLast_subset _ hb)
        · simp only [List.mem_singleton] at hb
          subst hb
          simp only [Option.getD_some]
          exact h last hmem
    · have h3 := foldl_preserves
        (fun acc : scan_blocks_info => ∀ b ∈ acc.blocks, b.stripe_ptr.stripe = none)
        (fun acc i => scan_block_rec f bs 0 i acc)
        (List.range' si.inode_info.blocks_scanned (logical - si.inode_info.blocks_scanned))
        (fun acc i hacc => ih 0 i acc hacc)
        { si with inode_info := { si.inode_info with
            references := si.inode_info.references + 1 } } h
      intro b hb
      rcases List.mem_append.1 hb with hb | hb
      · exact h3 b hb
      · simp only [List.mem_singleton] at hb
        subst hb
        rfl

theorem scan_inode_unabsorbed (fs : ext2_filsys) (e : inode_list) (id : Nat)
    (he : e.blocks = []) : ∀ b ∈ (scan_inode fs e id).blocks, unabsorbed b := by
  have h1 := foldl_preserves
    (fun acc : scan_blocks_info => ∀ b ∈ acc.blocks, b.stripe_ptr.stripe = none)
    (fun acc (cb : Nat × Nat) => scan_block fs.blocksize cb.1 cb.2 acc)
    (fs.block_iterate e.index)
    (fun acc _ hacc => scan_block_rec_stripe_none _ _ _ _ acc hacc)
    { info_id := id,
      inode_info := { inode := e.index, len := e.len, blocks_scanned := 0,
                      blocks_read := 0, references := 0, block_cache := none, freed := false },
      blocks := e.blocks }
    (by simp [he])
  have h2 := (scan_inode_inv fs e id he).2.2
  intro b hb
  exact ⟨h1 b hb, (h2 b hb).1.1⟩

theorem count_inode_eq_zero (i : Nat) (M : List block_list)
    (h : ∀ b ∈ M, b.inode_info ≠ i) : count_inode i M = 0 := by
  unfold count_inode
  rw [List.countP_eq_zero]
  intro b hb
  simp [h b hb]

theorem count_inode_eq_length (i : Nat) (M : List block_list)
    (h : ∀ b ∈ M, b.inode_info = i) : count_inode i M = M.length := by
  unfold count_inode
  rw [List.countP_eq_length]
  intro b hb
  simp [h b hb]

theorem held_concat (sid : Nat) (infos : List inode_cb_info) (info : inode_cb_info)
    (h : info.block_cache = none) : held sid (infos ++ [info]) = held sid infos := by
  unfold held
  simp [heap_records, h, count_stripe]

theorem scan_blocks_inode_shape (fs : ext2_filsys) (hbs : 0 < fs.blocksize) (e : inode_list)
    (s : dj_state) (he : e.blocks = []) (hinc : callbacks_increasing fs e.index) :
    ∃ info extra, (scan_blocks_inode fs e s).2
        = { s with infos := s.infos ++ [info], calls := s.calls ++ extra } ∧
      info.references = ((scan_blocks_inode fs e s).1.blocks.length : Nat) ∧
      info.block_cache = none ∧
      (info.freed = true → (scan_blocks_inode fs e s).1.blocks = []) ∧
      (info.freed = false → (scan_blocks_inode fs e s).1.blocks ≠ []) ∧
      (scan_blocks_inode fs e s).1.blocks.length ≤ info.len / fs.blocksize + 1 ∧
      info.len = e.len ∧
      (∀ b ∈ (scan_blocks_inode fs e s).1.blocks,
        b.inode_info = s.infos.length ∧ unabsorbed b) := by
  have hr := scan_inode_references fs e s.infos.length he
  obtain ⟨_, f2, _, f4, f5⟩ := scan_inode_frame fs e s.infos.length
  have hb := scan_inode_bound fs hbs e s.infos.length he hinc
  have hu := scan_inode_unabsorbed fs e s.infos.length he
  have hi := (scan_inode_inv fs e s.infos.length he).2.2
  rw [scan_blocks_inode_blocks]
  by_cases h : (scan_inode fs e s.infos.length).inode_info.references = 0
  · have hnil : (scan_inode fs e s.infos.length).blocks = [] := by
      rw [h] at hr
      exact List.length_eq_zero.1 (by exact_mod_cast hr.symm)
    refine ⟨{ (scan_inode fs e s.infos.length).inode_info with freed := true },
      [{ inode := (scan_inode fs e s.infos.length).inode_info.inode, pos := 0, file_len := 0,
         data := [], data_len := 0, cb_private := s.infos.length }], ?_, hr, f4,
      fun _ => hnil, fun hf => by simp at hf, ?_, f2, fun b hb1 => ⟨(hi b hb1).2, hu b hb1⟩⟩
    · unfold scan_blocks_inode
      dsimp only
      rw [if_pos h]
    · show _ ≤ (scan_inode fs e s.infos.length).inode_info.len / fs.blocksize + 1
      rw [f2]; exact hb
  · have hne : (scan_inode fs e s.infos.length).blocks ≠ [] := by
      intro hn
      rw [hn] at hr
      exact h (by simpa using hr)
    refine ⟨(scan_inode fs e s.infos.length).inode_info, [], ?_, hr, f4,
      fun hf => by rw [f5] at hf; simp at hf, fun _ => hne, ?_, f2,
      fun b hb1 => ⟨(hi b hb1).2, hu b hb1⟩⟩
    · unfold scan_blocks_inode
      dsimp only
      rw [if_neg h]
      simp
    · rw [f2]; exact hb

theorem scan_blocks_inode_safe (fs : ext2_filsys) (hbs : 0 < fs.blocksize) (e : inode_list)
    (M : List block_list) (s : dj_state) (he : e.blocks = [])
    (hinc : callbacks_increasing fs e.index) (hcap : e.len / fs.blocksize + 1 < 2147483648)
    (h : safe fs.blocksize M s) :
    safe fs.blocksize (M ++ (scan_blocks_inode fs e s).1.blocks) (scan_blocks_inode fs e s).2 := by
  obtain ⟨info, extra, g1, g2, g3, g4, g5, g6, glen, g7⟩ :=
    scan_blocks_inode_shape fs hbs e s he hinc
  rw [g1]
  generalize (scan_blocks_inode fs e s).1.blocks = N at g2 g4 g5 g6 g7
  have hNs : ∀ b ∈ N, b.stripe_ptr.stripe = none := fun b hb => (g7 b hb).2.1
  have hrec : heap_records info = [] := by simp [heap_records, g3]
  refine ⟨h.running, ?_, ?_, ?_, ?_, ?_⟩
  · intro i x hi
    dsimp only at hi
    by_cases hlt : i < s.infos.length
    · rw [List.getElem?_append_left hlt] at hi
      have ho := h.info_all i x hi
      refine ⟨?_, ho.freed_refs, ho.open_refs, ho.cache_wf, ho.ptrs, ho.cap⟩
      rw [count_inode_append, count_inode_eq_zero i N (fun b hb => by
        rw [(g7 b hb).1]; omega), Nat.add_zero]
      exact ho.refs
    · have hi1 : i = s.infos.length := by
        have := (List.getElem?_eq_some_iff.1 hi).1
        simp only [List.length_append, List.length_singleton] at this
        omega
      subst hi1
      rw [List.getElem?_concat_length] at hi
      have hx : info = x := Option.some.inj hi
      subst hx
      refine ⟨?_, ?_, ?_, ?_, ?_, by rw [glen]; exact hcap⟩
      · rw [hrec, count_inode_append, count_inode_eq_zero _ M (fun b hb => by
          have := h.pending_inode b hb; omega),
          count_inode_eq_length _ N (fun b hb => (g7 b hb).1), g2]
        simp
      · intro hf
        rw [g2, g4 hf]
        exact ⟨rfl, g3⟩
      · intro hf
        have hpos : 0 < N.length := List.length_pos.2 (g5 hf)
        rw [g2]
        exact ⟨by exact_mod_cast hpos, by exact_mod_cast g6⟩
      · intro cache hc
        rw [g3] at hc
        simp at hc
      · rw [hrec]; simp
  · intro sid st hst
    have ho := h.stripe_all sid st hst
    refine ⟨?_, ho.freed_refs⟩
    dsimp only
    rw [held_concat sid s.infos info g3, count_stripe_append, count_stripe_none sid N hNs,
      Nat.add_zero]
    exact ho.refs
  · intro b hb
    dsimp only
    rw [List.length_append, List.length_singleton]
    rcases List.mem_append.1 hb with hb1 | hb1
    · have := h.pending_inode b hb1; omega
    · rw [(g7 b hb1).1]; omega
  · intro b hb sid hsid
    rcases List.mem_append.1 hb with hb1 | hb1
    · exact h.pending_stripe b hb1 sid hsid
    · rw [hNs b hb1] at hsid
      simp at hsid
  · intro i x hi
    dsimp only at hi
    by_cases hlt : i < s.infos.length
    · rw [List.getElem?_append_left hlt] at hi
      exact h.heap_stripe i x hi
    · have hi1 : i = s.infos.length := by
        have := (List.getElem?_eq_some_iff.1 hi).1
        simp only [List.length_append, List.length_singleton] at this
        omega
      subst hi1
      rw [List.getElem?_concat_length] at hi
      have hx : info = x := Option.some.inj hi
      subst hx
      rw [hrec]; simp

theorem scan_blocks_safe (fs : ext2_filsys) (hbs : 0 < fs.blocksize) (l : List inode_list)
    (hl : ∀ e ∈ l, e.blocks = []) (hinc : ∀ e ∈ l, callbacks_increasing fs e.index)
    (hcap : ∀ e ∈ l, e.len / fs.blocksize + 1 < 2147483648)
    (M : List block_list) (s : dj_state) (h : safe fs.blocksize M s) :
    safe fs.blocksize (M ++ pending_blocks (scan_blocks fs l s).1) (scan_blocks fs l s).2 ∧
    ∀ b ∈ pending_blocks (scan_blocks fs l s).1, unabsorbed b := by
  induction l generalizing M s with
  | nil =>
    simp only [scan_blocks, pending_blocks, List.append_nil]
    exact ⟨h, by simp⟩
  | cons e rest ih =>
    have he := hl e (List.mem_cons_self _ _)
    have hie := hinc e (List.mem_cons_self _ _)
    have h1 := scan_blocks_inode_safe fs hbs e M s he hie (hcap e (List.mem_cons_self _ _)) h
    obtain ⟨_, _, _, _, _, _, _, _, _, g7⟩ := scan_blocks_inode_shape fs hbs e s he hie
    obtain ⟨i1, i2⟩ := ih (fun x hx => hl x (List.mem_cons_of_mem _ hx))
      (fun x hx => hinc x (List.mem_cons_of_mem _ hx))
      (fun x hx => hcap x (List.mem_cons_of_mem _ hx)) _ _ h1
    simp only [scan_blocks, pending_blocks]
    refine ⟨?_, ?_⟩
    · rw [← List.append_assoc]
      exact i1
    · intro b hb
      rcases List.mem_append.1 hb with hb1 | hb1
      · exact (g7 b hb1).2
      · exact i2 b hb1

theorem safe_init (bs : Nat) : safe bs [] dj_state.init := by
  refine ⟨rfl, ?_, ?_, ?_, ?_, ?_⟩ <;> simp [dj_state.init]

theorem safe_counters (bs : Nat) (M : List block_list) (s : dj_state) (c : Int)
    (hist : List Int) (h : safe bs M s) :
    safe bs M { s with open_inodes_count := c, open_inodes_hist := hist } :=
  ⟨h.running, h.info_all, h.stripe_all, h.pending_inode, h.pending_stripe, h.heap_stripe⟩

theorem admit_loop_safe (bs : Nat) (max : Int) (il : List inode_list) (bls : List block_list)
    (s : dj_state) (h : safe bs (bls ++ pending_blocks il) s) :
    (admit_loop max il bls s).2.1 ++ pending_blocks (admit_loop max il bls s).1
      = bls ++ pending_blocks il ∧
    safe bs (bls ++ pending_blocks il) (admit_loop max il bls s).2.2 := by
  induction il generalizing bls s with
  | nil => exact ⟨rfl, h⟩
  | cons e rest ih =>
    simp only [admit_loop]
    by_cases h1 : s.open_inodes_count < max
    · rw [if_pos h1]
      by_cases h2 : e.blocks ≠ []
      · rw [if_pos h2]
        have h3 : safe bs ((bls ++ e.blocks) ++ pending_blocks rest)
            { s with open_inodes_count := s.open_inodes_count + 1,
                     open_inodes_hist := s.open_inodes_hist ++ [s.open_inodes_count + 1] } := by
          rw [List.append_assoc]
          exact safe_counters bs _ s _ _ h
        obtain ⟨i1, i2⟩ := ih (bls ++ e.blocks) _ h3
        rw [List.append_assoc] at i1 i2
        exact ⟨i1, i2⟩
      · rw [if_neg h2]
        have h4 : e.blocks = [] := by simpa using h2
        have h5 : pending_blocks (e :: rest) = pending_blocks rest := by
          simp [pending_blocks, h4]
        rw [h5] at h ⊢
        exact ih bls s h
    · rw [if_neg h1]
      exact ⟨rfl, h⟩

theorem block_list_sort_perm (l : List block_list) : (block_list_sort l).Perm l :=
  List.perm_insertionSort _ l

theorem read_loop_safe (fs : ext2_filsys) (p : dj_params) (hcd : 0 ≤ p.coalesce_distance)
    (fuel : Nat) (il : List inode_list) (bls : List block_list) (s : dj_state)
    (h : safe fs.blocksize (bls ++ pending_blocks il) s)
    (hun : ∀ b ∈ bls ++ pending_blocks il, unabsorbed b) :
    safe fs.blocksize
      ((read_loop fs p fuel il bls s).block_list_start
        ++ pending_blocks (read_loop fs p fuel il bls s).inode_list)
      (read_loop fs p fuel il bls s).state := by
  induction fuel generalizing il bls s with
  | zero => exact h
  | succ f ih =>
    simp only [read_loop]
    by_cases h1 : il = []
    · rw [if_pos h1]; exact h
    rw [if_neg h1]
    obtain ⟨a1, a2⟩ := admit_loop_safe fs.blocksize p.max_inodes il bls s h
    rw [← a1] at a2 hun
    have hperm : ((admit_loop p.max_inodes il bls s).2.1
        ++ pending_blocks (admit_loop p.max_inodes il bls s).1).Perm
        (block_list_sort (admit_loop p.max_inodes il bls s).2.1
          ++ ([] ++ pending_blocks (admit_loop p.max_inodes il bls s).1)) := by
      rw [List.nil_append]
      exact (block_list_sort_perm _).symm.append_right _
    obtain ⟨d1, d2⟩ := drain_loop_safe fs p
      (max_inode_blocks p.max_blocks (admit_loop p.max_inodes il bls s).2.2.open_inodes_count)
      hcd (block_list_sort (admit_loop p.max_inodes il bls s).2.1).length
      (block_list_sort (admit_loop p.max_inodes il bls s).2.1) []
      (pending_blocks (admit_loop p.max_inodes il bls s).1)
      (admit_loop p.max_inodes il bls s).2.2 (le_refl _)
      (safe_perm _ _ _ _ hperm a2)
      (fun b hb => hun b (hperm.symm.subset hb))
    rw [if_pos d1.running]
    exact ih _ _ _ d1 d2

theorem iterate_dir_safe (fs : ext2_filsys) (p : dj_params) (hbs : 0 < fs.blocksize)
    (hcd : 0 ≤ p.coalesce_distance) (fuel : Nat) (inodes : List inode_list)
    (hl : ∀ e ∈ inodes, e.blocks = [])
    (hinc : ∀ e ∈ inodes, callbacks_increasing fs e.index)
    (hcap : ∀ e ∈ inodes, e.len / fs.blocksize + 1 < 2147483648) :
    safe fs.blocksize
      ((iterate_dir fs p fuel inodes).block_list_start
        ++ pending_blocks (iterate_dir fs p fuel inodes).inode_list)
      (iterate_dir fs p fuel inodes).state := by
  obtain ⟨h1, h2⟩ := scan_blocks_safe fs hbs (inode_list_sort inodes)
    (fun e he => hl e ((inode_list_sort_mem inodes e).1 he))
    (fun e he => hinc e ((inode_list_sort_mem inodes e).1 he))
    (fun e he => hcap e ((inode_list_sort_mem inodes e).1 he)) [] dj_state.init
    (safe_init fs.blocksize)
  unfold iterate_dir
  exact read_loop_safe fs p hcd fuel _ [] _ h1 h2

/-- C9: for `coalesce_distance ≥ 0` and a scheduled list `head :: rest` sorted by physical
block with disjoint ranges (`phys_ordered` between neighbours; every record with at least one
block and ending below `2 ^ 63` bytes), in a state whose reference counts are exact (`safe`,
which holds at every call of the drain loop), `next_stripe` absorbs exactly the longest prefix
in which every adjacent pair has a gap of at most `coalesce_distance` (`run_length`), with
`references` the number of absorbed records and `consecutive_blocks` the sum of their
`num_blocks`; `heapify_stripe` returns the first record not absorbed; the drain loop goes on
with that record, and ends with an empty list, the process running, and
`1 + gaps_over coalesce_distance (head :: rest)` stripes more than it started with. -/
theorem drain_loop_partitions (fs : ext2_filsys) (p : dj_params) (mib : Int) (fuel : Nat)
    (head : block_list) (rest X : List block_list) (s : dj_state)
    (hbs : 0 < fs.blocksize) (hcd : 0 ≤ p.coalesce_distance)
    (hchain : (head :: rest).Chain' phys_ordered)
    (hrange : ∀ b ∈ head :: rest, block_in_range fs.blocksize b)
    (hsafe : safe fs.blocksize ((head :: rest) ++ X) s)
    (hun : ∀ b ∈ (head :: rest) ++ X, unabsorbed b)
    (hfuel : (head :: rest).length ≤ fuel) :
    (next_stripe fs.blocksize p.coalesce_distance mib s.stripes.length (head :: rest)).2.1
      = ((head :: rest).take (run_length p.coalesce_distance (head :: rest))).map
          (absorb fs.blocksize s.stripes.length head.physical_block) ∧
    (next_stripe fs.blocksize p.coalesce_distance mib s.stripes.length (head :: rest)).2.2
      = (head :: rest).drop (run_length p.coalesce_distance (head :: rest)) ∧
    (next_stripe fs.blocksize p.coalesce_distance mib s.stripes.length
        (head :: rest)).1.references
      = run_length p.coalesce_distance (head :: rest) ∧
    (next_stripe fs.blocksize p.coalesce_distance mib s.stripes.length
        (head :: rest)).1.consecutive_blocks
      = (((head :: rest).take (run_length p.coalesce_distance (head :: rest))).map
          (fun b => b.num_blocks)).sum ∧
    (heapify_stripe fs
      ((drain_stripe fs p mib s.stripes.length head rest).2.1
        ++ (drain_stripe fs p mib s.stripes.length head rest).2.2) s.stripes.length mib
      { s with stripes := s.stripes
          ++ [(drain_stripe fs p mib s.stripes.length head rest).1] }).1
      = (head :: rest).drop (run_length p.coalesce_distance (head :: rest)) ∧
    drain_loop fs p mib fuel (head :: rest) [] s
      = drain_loop fs p mib (fuel - 1)
          ((head :: rest).drop (run_length p.coalesce_distance (head :: rest))) []
          (heapify_stripe fs
            ((drain_stripe fs p mib s.stripes.length head rest).2.1
              ++ (drain_stripe fs p mib s.stripes.length head rest).2.2) s.stripes.length mib
            { s with stripes := s.stripes
                ++ [(drain_stripe fs p mib s.stripes.length head rest).1] }).2 ∧
    (drain_loop fs p mib fuel (head :: rest) [] s).1 = [] ∧
    (drain_loop fs p mib fuel (head :: rest) [] s).2.status = run_status.running ∧
    (drain_loop fs p mib fuel (head :: rest) [] s).2.stripes.length
      = s.stripes.length + 1 + gaps_over p.coalesce_distance (head :: rest) := by
  obtain ⟨n1, n2, n3, n4⟩ := next_stripe_run fs.blocksize s.stripes.length
    p.coalesce_distance mib head rest hbs hcd hrange
  obtain ⟨_, i2, _, _⟩ := drain_iteration_safe fs p mib hcd head rest X s hsafe hun
  have hd : (drain_stripe fs p mib s.stripes.length head rest).2.2
      = (head :: rest).drop (run_length p.coalesce_distance (head :: rest)) := by
    rw [drain_stripe_snd]
    exact n2
  obtain ⟨f, hf⟩ : ∃ f, fuel = f + 1 := by
    simp only [List.length_cons] at hfuel
    exact ⟨fuel - 1, by omega⟩
  refine ⟨n1, n2, n3, n4, i2.trans hd, ?_,
    drain_loop_stripes fs p mib hbs hcd fuel head rest X s hfuel hchain hrange hsafe hun⟩
  rw [hf, Nat.add_sub_cancel]
  exact drain_loop_step fs p mib f head rest X s hbs hcd hchain hrange hsafe hun

theorem drain_loop_partitions_witness :
    ((drain_loop three_files_fs default_params 128000 3 three_files_list []
        three_files_state).2.stripes.map (fun st => st.consecutive_len) = [8192, 4096] ∧
     run_length 1 three_files_list = 2 ∧ gaps_over 1 three_files_list = 1) ∧
    ((next_stripe 4096 1 128000 0 three_files_list).2.1
      = (three_files_list.take (run_length 1 three_files_list)).map (absorb 4096 0 1000) ∧
    (next_stripe 4096 1 128000 0 three_files_list).2.2
      = three_files_list.drop (run_length 1 three_files_list) ∧
    (next_stripe 4096 1 128000 0 three_files_list).1.references
      = run_length 1 three_files_list ∧
    (next_stripe 4096 1 128000 0 three_files_list).1.consecutive_blocks
      = ((three_files_list.take (run_length 1 three_files_list)).map
          (fun b => b.num_blocks)).sum ∧
    (heapify_stripe three_files_fs
      ((drain_stripe three_files_fs default_params 128000 0 ⟨0, 1000, 0, 1, ⟨none, 0, 4096⟩⟩
          [⟨1, 1001, 0, 1, ⟨none, 0, 4096⟩⟩, ⟨2, 2000, 0, 1, ⟨none, 0, 10⟩⟩]).2.1
        ++ (drain_stripe three_files_fs default_params 128000 0
          ⟨0, 1000, 0, 1, ⟨none, 0, 4096⟩⟩
          [⟨1, 1001, 0, 1, ⟨none, 0, 4096⟩⟩, ⟨2, 2000, 0, 1, ⟨none, 0, 10⟩⟩]).2.2) 0 128000
      { three_files_state with stripes := three_files_state.stripes
          ++ [(drain_stripe three_files_fs default_params 128000 0
            ⟨0, 1000, 0, 1, ⟨none, 0, 4096⟩⟩
            [⟨1, 1001, 0, 1, ⟨none, 0, 4096⟩⟩, ⟨2, 2000, 0, 1, ⟨none, 0, 10⟩⟩]).1] }).1
      = three_files_list.drop (run_length 1 three_files_list) ∧
    drain_loop three_files_fs default_params 128000 3 three_files_list [] three_files_state
      = drain_loop three_files_fs default_params 128000 (3 - 1)
          (three_files_list.drop (run_length 1 three_files_list)) []
          (heapify_stripe three_files_fs
            ((drain_stripe three_files_fs default_params 128000 0
                ⟨0, 1000, 0, 1, ⟨none, 0, 4096⟩⟩
                [⟨1, 1001, 0, 1, ⟨none, 0, 4096⟩⟩, ⟨2, 2000, 0, 1, ⟨none, 0, 10⟩⟩]).2.1
              ++ (drain_stripe three_files_fs default_params 128000 0
                ⟨0, 1000, 0, 1, ⟨none, 0, 4096⟩⟩
                [⟨1, 1001, 0, 1, ⟨none, 0, 4096⟩⟩, ⟨2, 2000, 0, 1, ⟨none, 0, 10⟩⟩]).2.2)
            0 128000
            { three_files_state with stripes := three_files_state.stripes
                ++ [(drain_stripe three_files_fs default_params 128000 0
                  ⟨0, 1000, 0, 1, ⟨none, 0, 4096⟩⟩
                  [⟨1, 1001, 0, 1, ⟨none, 0, 4096⟩⟩, ⟨2, 2000, 0, 1, ⟨none, 0, 10⟩⟩]).1] }).2 ∧
    (drain_loop three_files_fs default_params 128000 3 three_files_list []
      three_files_state).1 = [] ∧
    (drain_loop three_files_fs default_params 128000 3 three_files_list []
      three_files_state).2.status = run_status.running ∧
    (drain_loop three_files_fs default_params 128000 3 three_files_list []
      three_files_state).2.stripes.length = 0 + 1 + gaps_over 1 three_files_list) :=
  ⟨by decide,
   drain_loop_partitions three_files_fs default_params 128000 3
    ⟨0, 1000, 0, 1, ⟨none, 0, 4096⟩⟩
    [⟨1, 1001, 0, 1, ⟨none, 0, 4096⟩⟩, ⟨2, 2000, 0, 1, ⟨none, 0, 10⟩⟩] []
    three_files_state
    (by decide) (by decide)
    (List.chain'_cons.2 ⟨by decide, List.chain'_cons.2 ⟨by decide, List.chain'_singleton _⟩⟩)
    (by decide)
    ((admit_loop_safe 4096 100
      (scan_blocks three_files_fs three_files_inodes dj_state.init).1 []
      (scan_blocks three_files_fs three_files_inodes dj_state.init).2
      (scan_blocks_safe three_files_fs (by decide) three_files_inodes (by decide) (by decide)
        (by decide) [] dj_state.init (safe_init 4096)).1).2)
    (by decide) (by decide)⟩

/-! ### The fuel of the loops is enough -/

theorem heapify_up_loop_fuel {α : Type} [Inhabited α] (f1 f2 : Nat)
    (elems : List (heap_elem α)) (index : Nat) (h1 : index ≤ f1) (h2 : index ≤ f2) :
    heapify_up_loop f1 elems index = heapify_up_loop f2 elems index := by
  induction f1 generalizing f2 elems index with
  | zero =>
    have h0 : index = 0 := by omega
    subst h0
    cases f2 <;> simp [heapify_up_loop]
  | succ f ih =>
    cases f2 with
    | zero =>
      have h0 : index = 0 := by omega
      subst h0
      simp [heapify_up_loop]
    | succ g =>
      simp only [heapify_up_loop]
      by_cases hi : index > 0
      · rw [if_pos hi, if_pos hi]
        split_ifs
        · exact ih g _ _ (by omega) (by omega)
        · rfl
      · rw [if_neg hi, if_neg hi]

theorem heapify_down_swap_index_gt {α : Type} [Inhabited α] (n : Nat)
    (l : List (heap_elem α)) (index : Nat) (h : 0 < heapify_down_swap_index n l index) :
    index < heapify_down_swap_index n l index := by
  unfold heapify_down_swap_index at h ⊢
  simp only [Bool.and_eq_true, decide_eq_true_eq] at h ⊢
  split_ifs at h ⊢ <;> omega

theorem heapify_down_loop_fuel {α : Type} [Inhabited α] (f1 f2 n : Nat)
    (elems : List (heap_elem α)) (index : Nat) (h1 : n - index ≤ f1) (h2 : n - index ≤ f2) :
    heapify_down_loop f1 n elems index = heapify_down_loop f2 n elems index := by
  induction f1 generalizing f2 elems index with
  | zero =>
    have h0 : ¬ index < n := by omega
    cases f2 <;> simp [heapify_down_loop, h0]
  | succ f ih =>
    cases f2 with
    | zero =>
      have h0 : ¬ index < n := by omega
      simp [heapify_down_loop, h0]
    | succ g =>
      simp only [heapify_down_loop]
      by_cases hi : index < n
      · rw [if_pos hi, if_pos hi]
        by_cases hs : heapify_down_swap_index n elems index > 0
        · rw [if_pos hs, if_pos hs]
          have hgt := heapify_down_swap_index_gt n elems index hs
          exact ih g _ _ (by omega) (by omega)
        · rw [if_neg hs, if_neg hs]
      · rw [if_neg hi, if_neg hi]

theorem foldl_congr_mem {β γ : Type} (f g : β → γ → β) (l : List γ)
    (h : ∀ acc, ∀ x ∈ l, f acc x = g acc x) (init : β) : l.foldl f init = l.foldl g init := by
  induction l generalizing init with
  | nil => rfl
  | cons x t ih =>
    rw [List.foldl_cons, List.foldl_cons, h init x (List.mem_cons_self _ _)]
    exact ih (fun acc y hy => h acc y (List.mem_cons_of_mem _ hy)) _

theorem scan_block_rec_fuel (f1 f2 bs phys logical : Nat) (si : scan_blocks_info)
    (h1 : logical < f1) (h2 : logical < f2) :
    scan_block_rec f1 bs phys logical si = scan_block_rec f2 bs phys logical si := by
  induction f1 generalizing f2 phys logical si with
  | zero => omega
  | succ f ih =>
    cases f2 with
    | zero => omega
    | succ g =>
      simp only [scan_block_rec]
      have hfold : ∀ init : scan_blocks_info,
          (List.range' init.inode_info.blocks_scanned
              (logical - init.inode_info.blocks_scanned)).foldl
            (fun acc i => scan_block_rec f bs 0 i acc) init
          = (List.range' init.inode_info.blocks_scanned
              (logical - init.inode_info.blocks_scanned)).foldl
            (fun acc i => scan_block_rec g bs 0 i acc) init := by
        intro init
        apply foldl_congr_mem
        intro acc i hi
        have := List.mem_range'_1.1 hi
        exact ih g 0 i acc (by omega) (by omega)
      rw [hfold]

theorem flush_iteration_empty (bs id : Nat) (s : dj_state) (info : inode_cb_info)
    (cache : heap block_list) (hi : s.infos[id]? = some info) (hf : info.freed = false)
    (hc : info.block_cache = some cache) (h0 : heap_size cache = 0) :
    flush_iteration bs id s = (s, false) := by
  unfold flush_iteration
  rw [hi]
  dsimp only
  rw [if_neg (by simp [hf]), hc]
  dsimp only
  rw [if_neg (by omega)]

theorem flush_deliver_continue (bs id : Nat) (s : dj_state) (info : inode_cb_info)
    (cache : heap block_list) (sid : Nat) (st : stripe) (hi : s.infos[id]? = some info)
    (h : (flush_deliver bs id s info cache sid st).2 = true) :
    ∃ info1, (flush_deliver bs id s info cache sid st).1.infos[id]? = some info1 ∧
      info1.freed = info.freed ∧ info1.block_cache = some (heap_delmin cache).2 := by
  have hlt : id < s.infos.length := (List.getElem?_eq_some_iff.1 hi).1
  unfold flush_deliver at h ⊢
  dsimp only at h ⊢
  by_cases hr : info.references - 1 = 0
  · rw [if_pos hr] at h
    simp at h
  · rw [if_neg hr]
    exact ⟨_, getElem?_set_self_of_some _ _ _ _ hi, rfl, rfl⟩

theorem flush_loop_fuel (f1 f2 bs id : Nat) (s : dj_state) (info : inode_cb_info)
    (cache : heap block_list) (hi : s.infos[id]? = some info) (hf : info.freed = false)
    (hc : info.block_cache = some cache) (h1 : heap_size cache ≤ f1)
    (h2 : heap_size cache ≤ f2) :
    flush_loop f1 bs id s = flush_loop f2 bs id s := by
  induction f1 generalizing f2 s info cache with
  | zero =>
    have h0 : heap_size cache = 0 := by omega
    cases f2 with
    | zero => rfl
    | succ g => simp [flush_loop, flush_iteration_empty bs id s info cache hi hf hc h0]
  | succ f ih =>
    cases f2 with
    | zero =>
      have h0 : heap_size cache = 0 := by omega
      simp [flush_loop, flush_iteration_empty bs id s info cache hi hf hc h0]
    | succ g =>
      simp only [flush_loop]
      by_cases hr : (flush_iteration bs id s).2 = true
      · rw [if_pos hr, if_pos hr]
        rcases flush_iteration_cases bs id s with ⟨w, hw⟩ | hw | ⟨_, _, _, _, _, hw⟩
          | ⟨info0, cache0, sid, st, g1, _, g3, g4, _, _, _, _, _, hw⟩
        · rw [hw] at hr; simp at hr
        · rw [hw] at hr; simp at hr
        · rw [hw] at hr; simp at hr
        · rw [hi] at g1
          have e1 : info = info0 := Option.some.inj g1
          subst e1
          rw [hc] at g3
          have e2 : cache = cache0 := Option.some.inj g3
          subst e2
          rw [hw] at hr ⊢
          obtain ⟨info1, k1, k2, k3⟩ := flush_deliver_continue bs id s info cache sid st hi hr
          have hsz : heap_size (heap_delmin cache).2 + 1 = heap_size cache := by
            simp only [heap_size, heap_delmin, heapify_down]
            omega
          exact ih g _ info1 _ k1 (k2.trans hf) k3 (by omega) (by omega)
      · rw [if_neg hr, if_neg hr]

theorem heapify_stripe_loop_length (fs : ext2_filsys) (cb rb : Nat) (l : List block_list)
    (s : dj_state) :
    (heapify_stripe_loop fs cb rb l s).1.length ≤ l.length ∧
    (rb < cb → (heapify_stripe_loop fs cb rb l s).1.length < l.length ∨
      (heapify_stripe_loop fs cb rb l s).2.status ≠ run_status.running) := by
  induction l generalizing rb s with
  | nil =>
    simp only [heapify_stripe_loop]
    refine ⟨by split_ifs <;> simp, fun h => ?_⟩
    rw [if_pos h]
    exact Or.inr (by simp [dj_state.stop])
  | cons b rest ih =>
    simp only [heapify_stripe_loop]
    by_cases h1 : rb < cb
    · rw [if_pos h1]
      by_cases h2 : (heapify_block fs b s).status = run_status.running
      · rw [if_pos h2]
        have := (ih (rb + b.num_blocks) (heapify_block fs b s)).1
        simp only [List.length_cons]
        exact ⟨by omega, fun _ => Or.inl (by omega)⟩
      · rw [if_neg h2]
        simp only [List.length_cons]
        exact ⟨by omega, fun _ => Or.inl (by omega)⟩
    · rw [if_neg h1]
      exact ⟨le_refl _, fun h => absurd h h1⟩

theorem drain_iteration_length (fs : ext2_filsys) (p : dj_params) (mib : Int)
    (head : block_list) (rest : List block_list) (s : dj_state)
    (hfr : (drain_stripe fs p mib s.stripes.length head rest).1.freed = false)
    (hrun : (heapify_stripe fs
      ((drain_stripe fs p mib s.stripes.length head rest).2.1
        ++ (drain_stripe fs p mib s.stripes.length head rest).2.2) s.stripes.length mib
      { s with stripes := s.stripes
          ++ [(drain_stripe fs p mib s.stripes.length head rest).1] }).2.status
        = run_status.running) :
    (heapify_stripe fs
      ((drain_stripe fs p mib s.stripes.length head rest).2.1
        ++ (drain_stripe fs p mib s.stripes.length head rest).2.2) s.stripes.length mib
      { s with stripes := s.stripes
          ++ [(drain_stripe fs p mib s.stripes.length head rest).1] }).1.length
      ≤ rest.length := by
  have hlen : ((drain_stripe fs p mib s.stripes.length head rest).2.1
      ++ (drain_stripe fs p mib s.stripes.length head rest).2.2).length
      = rest.length + 1 := by
    rw [drain_stripe_snd]
    unfold next_stripe
    dsimp only
    obtain ⟨k, k0, k1, k2, _⟩ := next_stripe_loop_shape fs.blocksize head.physical_block
      s.stripes.length p.coalesce_distance (head :: rest) none stripe.empty
    rw [k1, k2]
    simp only [List.length_append, List.length_map, List.length_take, List.length_drop,
      List.length_cons] at k0 ⊢
    omega
  have hcb : 0 < (drain_stripe fs p mib s.stripes.length head rest).1.consecutive_blocks := by
    unfold drain_stripe at hfr ⊢
    dsimp only at hfr ⊢
    by_cases hc : (next_stripe fs.blocksize p.coalesce_distance mib s.stripes.length
        (head :: rest)).1.consecutive_blocks > 0
    · rw [if_pos hc]
      rw [(read_stripe_data_fields p.dev fs.blocksize head.physical_block p.direct _).2.1]
      exact hc
    · rw [if_neg hc] at hfr
      simp at hfr
  revert hrun
  unfold heapify_stripe
  rw [List.getElem?_concat_length]
  dsimp only
  rw [if_neg (by simp [hfr])]
  intro hrun
  have h := heapify_stripe_loop_length fs
    (drain_stripe fs p mib s.stripes.length head rest).1.consecutive_blocks 0
    ((drain_stripe fs p mib s.stripes.length head rest).2.1
      ++ (drain_stripe fs p mib s.stripes.length head rest).2.2)
    { s with stripes := s.stripes
        ++ [(drain_stripe fs p mib s.stripes.length head rest).1] }
  rcases h.2 hcb with h3 | h3
  · omega
  · exact absurd hrun h3

theorem drain_loop_fuel (fs : ext2_filsys) (p : dj_params) (mib : Int) (f1 f2 : Nat)
    (l residual : List block_list) (s : dj_state) (h1 : l.length ≤ f1) (h2 : l.length ≤ f2) :
    drain_loop fs p mib f1 l residual s = drain_loop fs p mib f2 l residual s := by
  induction f1 generalizing f2 l residual s with
  | zero =>
    have : l = [] := List.length_eq_zero.1 (by omega)
    subst this
    rw [drain_loop_nil, drain_loop_nil]
  | succ f ih =>
    cases l with
    | nil => rw [drain_loop_nil, drain_loop_nil]
    | cons head rest =>
      cases f2 with
      | zero => simp at h2
      | succ g =>
        simp only [drain_loop]
        by_cases hfr : (drain_stripe fs p mib s.stripes.length head rest).1.freed = true
        · rw [if_pos hfr, if_pos hfr]
        rw [if_neg hfr, if_neg hfr]
        split_ifs with hrun
        · have hlen := drain_iteration_length fs p mib head rest s (by simpa using hfr) hrun
          have hq := (drain_requeue_perm
            (drain_stripe fs p mib s.stripes.length head rest).1.consecutive_len
            (heapify_stripe fs
              ((drain_stripe fs p mib s.stripes.length head rest).2.1
                ++ (drain_stripe fs p mib s.stripes.length head rest).2.2) s.stripes.length
              mib { s with stripes := s.stripes
                  ++ [(drain_stripe fs p mib s.stripes.length head rest).1] }).1 residual).2
          simp only [List.length_cons] at h1 h2
          exact ih g _ _ _ (by omega) (by omega)
        · rfl

/-! ### The counters of scan_block -/

theorem sum_dropLast_concat (l : List block_list) (last x : block_list)
    (h : l.getLast? = some last) (hx : x.num_blocks = last.num_blocks + 1) :
    ((l.dropLast ++ [x]).map (fun b => b.num_blocks)).sum
      = (l.map (fun b => b.num_blocks)).sum + 1 := by
  have hne : l ≠ [] := by
    intro hn; rw [hn] at h; simp at h
  have hl : l = l.dropLast ++ [last] := by
    have h1 := List.dropLast_append_getLast hne
    have h2 : l.getLast hne = last := by
      rw [List.getLast?_eq_getLast _ hne] at h
      exact Option.some.inj h
    rw [h2] at h1
    exact h1.symm
  conv_rhs => rw [hl]
  simp only [List.map_append, List.sum_append, List.map_cons, List.map_nil, List.sum_cons,
    List.sum_nil, hx]
  omega

theorem scan_block_rec_blocks_scanned (fuel bs phys logical : Nat) (si : scan_blocks_info)
    (h : si.inode_info.blocks_scanned = (si.blocks.map (fun b => b.num_blocks)).sum) :
    (scan_block_rec fuel bs phys logical si).inode_info.blocks_scanned
      = ((scan_block_rec fuel bs phys logical si).blocks.map (fun b => b.num_blocks)).sum := by
  induction fuel generalizing phys logical si with
  | zero => exact h
  | succ f ih =>
    simp only [scan_block_rec]
    by_cases h1 : logical * bs ≥ si.inode_info.len ∨ si.inode_info.len = 0
    · rw [if_pos h1]; exact h
    rw [if_neg h1]
    split_ifs with h2
    · cases hlast : si.blocks.getLast? with
      | none => rw [hlast] at h2; simp at h2
      | some last =>
        show si.inode_info.blocks_scanned + 1 = _
        rw [sum_dropLast_concat si.blocks last _ hlast (by simp [scan_block_extend]), h]
    · have h3 := foldl_preserves
        (fun acc : scan_blocks_info =>
          acc.inode_info.blocks_scanned = (acc.blocks.map (fun b => b.num_blocks)).sum)
        (fun acc i => scan_block_rec f bs 0 i acc)
        (List.range' si.inode_info.blocks_scanned (logical - si.inode_info.blocks_scanned))
        (fun acc i hacc => ih 0 i acc hacc)
        { si with inode_info := { si.inode_info with
            references := si.inode_info.references + 1 } } h
      simp only [List.map_append, List.sum_append, List.map_cons, List.map_nil, List.sum_cons,
        List.sum_nil]
      rw [h3]
      simp [scan_block_extend]

/-- C11: a sequence of `scan_block` calls keeps `references` equal to the number of records
of the block list plus the number `d` of records that enclosing calls have created and not
yet linked (`d = 0` outside of `scan_block`, `d > 0` inside the hole loop), and
`blocks_scanned` equal to the sum of `num_blocks` over the block list. -/
theorem scan_block_counts (bs : Nat) (calls : List (Nat × Nat)) (si : scan_blocks_info)
    (d : Int) (h1 : si.inode_info.references = si.blocks.length + d)
    (h2 : si.inode_info.blocks_scanned = (si.blocks.map (fun b => b.num_blocks)).sum) :
    (scan_block_calls bs calls si).inode_info.references
      = (scan_block_calls bs calls si).blocks.length + d ∧
    (scan_block_calls bs calls si).inode_info.blocks_scanned
      = ((scan_block_calls bs calls si).blocks.map (fun b => b.num_blocks)).sum :=
  foldl_preserves
    (fun acc : scan_blocks_info => acc.inode_info.references = acc.blocks.length + d ∧
      acc.inode_info.blocks_scanned = (acc.blocks.map (fun b => b.num_blocks)).sum)
    (fun acc (cb : Nat × Nat) => scan_block bs cb.1 cb.2 acc) calls
    (fun acc _ hacc => ⟨scan_block_rec_references _ _ _ _ acc d hacc.1,
      scan_block_rec_blocks_scanned _ _ _ _ acc hacc.2⟩) si ⟨h1, h2⟩

theorem scan_block_counts_witness :
    ((scan_block_calls 1 [(100, 0), (200, 2)] (scan_start 12 3 0)).blocks.map
        (fun b => (b.physical_block, b.logical_block, b.num_blocks))
      = [(100, 0, 1), (0, 1, 1), (200, 2, 1)]) ∧
    ((scan_block_calls 1 [(100, 0), (200, 2)] (scan_start 12 3 0)).inode_info.references
      = (scan_block_calls 1 [(100, 0), (200, 2)] (scan_start 12 3 0)).blocks.length + 0 ∧
    (scan_block_calls 1 [(100, 0), (200, 2)] (scan_start 12 3 0)).inode_info.blocks_scanned
      = ((scan_block_calls 1 [(100, 0), (200, 2)] (scan_start 12 3 0)).blocks.map
          (fun b => b.num_blocks)).sum) :=
  ⟨by decide,
   scan_block_counts 1 [(100, 0), (200, 2)] (scan_start 12 3 0) 0 (by decide) (by decide)⟩

theorem scan_inode_eq_calls (fs : ext2_filsys) (e : inode_list) (id : Nat)
    (he : e.blocks = []) :
    scan_inode fs e id
      = scan_block_calls fs.blocksize (fs.block_iterate e.index)
          (scan_start e.index e.len id) := by
  unfold scan_inode scan_block_calls scan_start
  rw [he]

theorem scan_block_calls_inv (bs len id : Nat) (calls : List (Nat × Nat))
    (si : scan_blocks_info) (h : scan_inv bs len id si) :
    scan_inv bs len id (scan_block_calls bs calls si) :=
  foldl_preserves (scan_inv bs len id)
    (fun acc (cb : Nat × Nat) => scan_block bs cb.1 cb.2 acc) calls
    (fun acc _ hacc => scan_block_rec_inv _ _ _ _ _ _ acc hacc) si h

/-- C12: after a sequence of `scan_block` calls on a file of `len` bytes, starting from a
block list whose records have the byte length `scan_block` gives them (`scan_inv`, which
holds for the empty list), every record `r` of the list, in particular the one created or
extended last, has `stripe_ptr.len = min (num_blocks * block_size) (len - logical_block *
block_size)`, and so `0 < stripe_ptr.len ≤ num_blocks * block_size` (for `block_size > 0`). -/
theorem scan_block_stripe_len (bs len id : Nat) (hbs : 0 < bs) (calls : List (Nat × Nat))
    (si : scan_blocks_info) (h : scan_inv bs len id si) :
    ∀ r ∈ (scan_block_calls bs calls si).blocks,
      r.stripe_ptr.len = min (r.num_blocks * bs) (len - r.logical_block * bs) ∧
      0 < r.stripe_ptr.len ∧ r.stripe_ptr.len ≤ r.num_blocks * bs := by
  intro r hr
  obtain ⟨⟨h1, h2, h3⟩, _⟩ := (scan_block_calls_inv bs len id calls si h).2.2 r hr
  have hpos : 0 < r.num_blocks * bs := Nat.mul_pos h1 hbs
  refine ⟨h3, ?_, ?_⟩
  · rw [h3]
    exact lt_min hpos (by omega)
  · rw [h3]
    exact min_le_left _ _

theorem scan_block_stripe_len_witness :
    ((scan_block_calls 4096 [(100, 0)] (scan_start 12 3 0)).blocks
      = [⟨0, 100, 0, 1, ⟨none, 0, 3⟩⟩]) ∧
    (∀ r ∈ (scan_block_calls 4096 [(100, 0)] (scan_start 12 3 0)).blocks,
      r.stripe_ptr.len = min (r.num_blocks * 4096) (3 - r.logical_block * 4096) ∧
      0 < r.stripe_ptr.len ∧ r.stripe_ptr.len ≤ r.num_blocks * 4096) :=
  ⟨by decide,
   scan_block_stripe_len 4096 3 0 (by decide) [(100, 0)] (scan_start 12 3 0)
    ⟨rfl, rfl, by simp [scan_start]⟩⟩

theorem to_u64_le (x : Nat) : to_u64 (x : Int) ≤ x := by
  unfold to_u64
  have h1 : ((x : Int) % 18446744073709551616) = ((x % 18446744073709551616 : Nat) : Int) := by
    omega
  rw [h1, Int.toNat_ofNat]
  exact Nat.mod_le _ _

theorem to_u64_small (x : Nat) (h : x < 18446744073709551616) : to_u64 (x : Int) = x := by
  unfold to_u64
  have h1 : ((x : Int) % 18446744073709551616) = (x : Int) := by omega
  rw [h1, Int.toNat_ofNat]

/-- C13: a call of `scan_block` for a logical block that starts at or after the end of the
file, the product `logical_block * block_size` being computed in 64 bits as in line 36,
returns the `scan_blocks_info` unchanged: the block list, `references` and `blocks_scanned`
are as before. For a product below `2 ^ 64` the 64-bit product is the product itself. (The
product of `2 ^ 52` and 4096 is 0 in 64 bits, so that such a call is not one of these for a
file of 5000 bytes.) -/
theorem scan_block_past_end (bs phys logical : Nat) (si : scan_blocks_info) :
    (to_u64 ((logical * bs : Nat) : Int) ≥ si.inode_info.len →
      scan_block bs phys logical si = si ∧
      (scan_block bs phys logical si).blocks = si.blocks ∧
      (scan_block bs phys logical si).inode_info.references = si.inode_info.references ∧
      (scan_block bs phys logical si).inode_info.blocks_scanned
        = si.inode_info.blocks_scanned) ∧
    (logical * bs < 18446744073709551616 →
      to_u64 ((logical * bs : Nat) : Int) = logical * bs ∧
      (logical * bs ≥ si.inode_info.len → scan_block bs phys logical si = si)) ∧
    to_u64 ((4503599627370496 * 4096 : Nat) : Int) = 0 := by
  have key : logical * bs ≥ si.inode_info.len → scan_block bs phys logical si = si := by
    intro h
    unfold scan_block
    simp only [scan_block_rec]
    rw [if_pos (Or.inl h)]
  refine ⟨fun h => ?_, fun hb => ⟨to_u64_small _ hb, key⟩, by decide⟩
  have h1 := key (le_trans h (to_u64_le _))
  rw [h1]
  exact ⟨rfl, rfl, rfl, rfl⟩

theorem scan_block_past_end_witness :
    (to_u64 ((1 * 4096 : Nat) : Int)
      ≥ (scan_block 4096 100 0 (scan_start 12 3 0)).inode_info.len) ∧
    scan_block 4096 101 1 (scan_block 4096 100 0 (scan_start 12 3 0))
      = scan_block 4096 100 0 (scan_start 12 3 0) :=
  ⟨by decide,
   ((scan_block_past_end 4096 101 1 (scan_block 4096 100 0 (scan_start 12 3 0))).1
    (by decide)).1⟩

/-- C14: for a file of three one-byte blocks with logical block 0 at physical block 100, a
hole at logical block 1 and logical block 2 at physical block 101: the call for logical
block 2 comes with `blocks_scanned = 1` and `2 * block_size` below the file length, but
`scan_block` extends the record of logical block 0 (101 is the block after it): no record
with physical block 0 is appended, and `blocks_scanned` is 2 afterwards, not 3. -/
theorem scan_block_extension_skips_hole :
    (scan_block 1 100 0 (scan_start 12 3 0)).inode_info.blocks_scanned = 1 ∧
    (scan_block 1 101 2 (scan_block 1 100 0 (scan_start 12 3 0))).blocks
      = [⟨0, 100, 0, 2, ⟨none, 0, 2⟩⟩] ∧
    (scan_block 1 101 2 (scan_block 1 100 0 (scan_start 12 3 0))).inode_info.blocks_scanned
      = 2 := by
  decide

/-! ### read_stripe_data -/

/-- C15: for `physical_block ≠ 0` (with `consecutive_len + 511` below `2 ^ 64` and the
offset `physical_block * block_size` below `2 ^ 63`, an `off_t`), `read_stripe_data` fills
`data` by one `pread` at offset `physical_block * block_size`; its length is
`consecutive_len` when `direct` is 0, and otherwise the smallest multiple of 512 that is at
least `consecutive_len`: a multiple of 512, at least `consecutive_len`, below
`consecutive_len + 512`, and at most every other such multiple. -/
theorem read_stripe_data_read_len (dev : Nat → Nat) (bs pb : Nat) (direct : Bool)
    (st : stripe) (hpb : pb ≠ 0) (hlen : st.consecutive_len + 511 < 18446744073709551616)
    (hoff : pb * bs < 9223372036854775808) :
    (read_stripe_data dev bs pb direct st).data
      = pread dev (read_stripe_data dev bs pb direct st).data.length (pb * bs) ∧
    (direct = false →
      (read_stripe_data dev bs pb direct st).data.length = st.consecutive_len) ∧
    (direct = true →
      512 ∣ (read_stripe_data dev bs pb direct st).data.length ∧
      st.consecutive_len ≤ (read_stripe_data dev bs pb direct st).data.length ∧
      (read_stripe_data dev bs pb direct st).data.length < st.consecutive_len + 512 ∧
      ∀ m, 512 ∣ m → st.consecutive_len ≤ m →
        (read_stripe_data dev bs pb direct st).data.length ≤ m) := by
  have e1 : to_u64 ((st.consecutive_len : Int) + 511) = st.consecutive_len + 511 := by
    have := to_u64_natCast (st.consecutive_len + 511) hlen
    rw [← this]
    push_cast
    rfl
  have e2 : to_u64 ((pb : Int) * (bs : Int)) = pb * bs := by
    have := to_u64_natCast (pb * bs) (by omega)
    rw [← this]
    push_cast
    rfl
  unfold read_stripe_data
  rw [if_pos hpb, e1, e2]
  dsimp only
  refine ⟨by simp [pread], ?_, ?_⟩
  · intro hd
    simp [pread, hd]
  · intro hd
    simp only [pread, hd, if_true, List.length_map, List.length_range]
    refine ⟨Dvd.intro_left _ rfl, by omega, by omega, ?_⟩
    rintro m ⟨t, rfl⟩ hm
    omega

theorem read_stripe_data_read_len_witness :
    ((read_stripe_data example_dev 4096 1000 true
        { consecutive_blocks := 2, consecutive_len := 4106, references := 2, data := [],
          freed := false }).data.length = 4608) ∧
    ((read_stripe_data example_dev 4096 1000 true
        { consecutive_blocks := 2, consecutive_len := 4106, references := 2, data := [],
          freed := false }).data
      = pread example_dev (read_stripe_data example_dev 4096 1000 true
          { consecutive_blocks := 2, consecutive_len := 4106, references := 2, data := [],
            freed := false }).data.length (1000 * 4096) ∧
    (true = false →
      (read_stripe_data example_dev 4096 1000 true
        { consecutive_blocks := 2, consecutive_len := 4106, references := 2, data := [],
          freed := false }).data.length = 4106) ∧
    (true = true →
      512 ∣ (read_stripe_data example_dev 4096 1000 true
        { consecutive_blocks := 2, consecutive_len := 4106, references := 2, data := [],
          freed := false }).data.length ∧
      4106 ≤ (read_stripe_data example_dev 4096 1000 true
        { consecutive_blocks := 2, consecutive_len := 4106, references := 2, data := [],
          freed := false }).data.length ∧
      (read_stripe_data example_dev 4096 1000 true
        { consecutive_blocks := 2, consecutive_len := 4106, references := 2, data := [],
          freed := false }).data.length < 4106 + 512 ∧
      ∀ m, 512 ∣ m → 4106 ≤ m →
        (read_stripe_data example_dev 4096 1000 true
          { consecutive_blocks := 2, consecutive_len := 4106, references := 2, data := [],
            freed := false }).data.length ≤ m)) :=
  ⟨by simp [read_stripe_data, pread, to_u64],
   read_stripe_data_read_len example_dev 4096 1000 true
    { consecutive_blocks := 2, consecutive_len := 4106, references := 2, data := [],
      freed := false } (by decide) (by decide) (by decide)⟩

/-! ### Released stripes -/

theorem flush_iteration_delivers (bs bs0 : Nat) (M : List block_list) (s : dj_state) (i : Nat)
    (info : inode_cb_info) (cache : heap block_list)
    (h : safe bs M s) (hi : s.infos[i]? = some info) (hfr : info.freed = false)
    (hc : info.block_cache = some cache) (h3 : 0 < heap_size cache)
    (h4 : (heap_min cache).logical_block = info.blocks_read) :
    0 < info.references ∧
    ∃ sid st, (heap_min cache).stripe_ptr.stripe = some sid ∧ s.stripes[sid]? = some st ∧
      st.freed = false ∧
      flush_iteration bs0 i s = flush_deliver bs0 i s info cache sid st := by
  have hio := h.info_all i info hi
  obtain ⟨hw, hmax⟩ := hio.cache_wf cache hc
  have hpos : 0 < cache.current_size := h3
  have hopen := (hio.open_refs hfr).1
  have hmem := heap_min_mem_records info cache hc hw hpos
  obtain ⟨sid, hsid⟩ := hio.ptrs _ hmem
  have hlt := h.heap_stripe i info hi _ hmem sid hsid
  have hst : s.stripes[sid]? = some s.stripes[sid] := List.getElem?_eq_getElem hlt
  have hso := h.stripe_all sid _ hst
  have hheld := held_pos sid i s.infos info _ hi hmem hsid
  have hsf : (s.stripes[sid]).freed = false := by
    by_contra hcon
    have := hso.freed_refs (by simpa using hcon)
    have := hso.refs
    omega
  refine ⟨hopen, sid, s.stripes[sid], hsid, hst, hsf, ?_⟩
  unfold flush_iteration
  rw [hi]
  dsimp only
  rw [if_neg (by simp [hfr]), hc]
  dsimp only
  rw [if_pos h3, if_pos h4, if_neg (by omega), hsid]
  dsimp only
  rw [hst]
  dsimp only
  rw [if_neg (by simp [hsf])]

theorem flush_deliver_info (bs i : Nat) (s : dj_state) (info : inode_cb_info)
    (cache : heap block_list) (sid : Nat) (st : stripe) (hi : s.infos[i]? = some info)
    (hfr : info.freed = false) :
    (flush_deliver bs i s info cache sid st).1.status = s.status ∧
    ∃ info1, (flush_deliver bs i s info cache sid st).1.infos[i]? = some info1 ∧
      info1.references = info.references - 1 ∧
      (info1.freed = true ↔ info1.references = 0) := by
  unfold flush_deliver
  dsimp only
  by_cases hz : info.references - 1 = 0
  · rw [if_pos hz]
    exact ⟨rfl, _, getElem?_set_self_of_some _ _ _ _ hi, rfl, by simp [hz]⟩
  · rw [if_neg hz]
    exact ⟨rfl, _, getElem?_set_self_of_some _ _ _ _ hi, rfl, by simp [hz, hfr]⟩

theorem last_reference_heap_empty (bs : Nat) (M : List block_list) (s : dj_state) (i : Nat)
    (info : inode_cb_info) (cache : heap block_list) (h : safe bs M s)
    (hi : s.infos[i]? = some info) (hc : info.block_cache = some cache)
    (hpos : 0 < heap_size cache) (hz : info.references - 1 = 0) :
    heap_contents (heap_delmin cache).2 = [] ∧ count_inode i M = 0 := by
  have hio := h.info_all i info hi
  obtain ⟨hw, _⟩ := hio.cache_wf cache hc
  have hperm := heap_records_delmin info cache hc hw hpos
  have hlen := hperm.length_eq
  simp only [List.length_cons] at hlen
  have hrefs := hio.refs
  have h0 : (heap_records { info with block_cache := some (heap_delmin cache).2 }).length
      = 0 := by omega
  refine ⟨?_, by omega⟩
  have h1 : (heap_records { info with block_cache := some (heap_delmin cache).2 })
      = (heap_contents (heap_delmin cache).2).map (fun e => e.value) := rfl
  rw [h1, List.length_map] at h0
  exact List.length_eq_zero.1 h0

/-! ### Every invocation of the read loop takes one reference -/

theorem flush_iteration_inode_step (bs id : Nat) (s : dj_state) :
    ((flush_iteration bs id s).1.calls = s.calls ∧
      ∀ info, s.infos[id]? = some info →
        ∃ info1, (flush_iteration bs id s).1.infos[id]? = some info1 ∧
          info1.references = info.references ∧ info1.freed = info.freed) ∨
    (∃ info cache, s.infos[id]? = some info ∧ info.freed = false ∧
      info.block_cache = some cache ∧ 0 < heap_size cache ∧
      (heap_min cache).logical_block = info.blocks_read ∧ 0 < info.references ∧
      ∃ c info1,
      (flush_iteration bs id s).1.calls = s.calls ++ [c] ∧ c.cb_private = id ∧
      c.pos = (heap_min cache).logical_block * bs ∧
      c.data_len = (heap_min cache).stripe_ptr.len ∧
      (flush_iteration bs id s).1.infos[id]? = some info1 ∧
      info1.references = info.references - 1 ∧
      info1.blocks_read = info.blocks_read + (heap_min cache).num_blocks ∧
      (info1.freed = true ↔ info1.references = 0)) := by
  rcases flush_iteration_cases bs id s with ⟨w, hw⟩ | hs | ⟨info, cache, h1, h2, h3, he⟩ |
    ⟨info, cache, sid, st, h1, hfr, h2, h3, h4, h5, _, _, _, he⟩
  · rw [hw]; exact Or.inl ⟨rfl, fun info hi => ⟨info, hi, rfl, rfl⟩⟩
  · rw [hs]; exact Or.inl ⟨rfl, fun info hi => ⟨info, hi, rfl, rfl⟩⟩
  · rw [he]
    refine Or.inl ⟨rfl, fun info0 hi => ?_⟩
    rw [h1] at hi
    cases hi
    exact ⟨_, getElem?_set_self_of_some _ _ _ _ h1, rfl, rfl⟩
  · rw [he]
    refine Or.inr ⟨info, cache, h1, hfr, h2, h3, h4, h5, ?_⟩
    unfold flush_deliver
    dsimp only
    by_cases hz : info.references - 1 = 0
    · rw [if_pos hz]
      exact ⟨_, _, rfl, rfl, rfl, rfl,
        getElem?_set_self_of_some _ _ _ _ h1, rfl, rfl, by simp [hz]⟩
    · rw [if_neg hz]
      exact ⟨_, _, rfl, rfl, rfl, rfl,
        getElem?_set_self_of_some _ _ _ _ h1, rfl, rfl, by simp [hz, hfr]⟩

theorem refs_calls_frame (k0 i : Nat) (c : Int) (s s1 : dj_state)
    (h : refs_calls_inv k0 i c s) (hi : s1.infos[i]? = s.infos[i]?)
    (hc : ∃ extra, s1.calls = s.calls ++ extra ∧ ∀ x ∈ extra, x.cb_private ≠ i) :
    refs_calls_inv k0 i c s1 := by
  obtain ⟨h0, info, h1, h2⟩ := h
  obtain ⟨extra, he, hne⟩ := hc
  refine ⟨by rw [he]; simp; omega, info, by rw [hi, h1], ?_⟩
  have : calls_of i (s1.calls.drop k0) = calls_of i (s.calls.drop k0) := by
    rw [he, List.drop_append_of_le_length h0]
    simp only [calls_of, List.filter_append]
    have : extra.filter (fun x => decide (x.cb_private = i)) = [] := by
      simp only [List.filter_eq_nil_iff, decide_eq_true_eq]
      exact hne
    rw [this, List.append_nil]
  rw [this]; exact h2

theorem flush_iteration_refs_calls (k0 i : Nat) (c : Int) (bs id : Nat) (s : dj_state)
    (h : refs_calls_inv k0 i c s) : refs_calls_inv k0 i c (flush_iteration bs id s).1 := by
  rcases flush_iteration_cases bs id s with ⟨w, hw⟩ | hs | ⟨info, cache, h1, h2, h3, he⟩ |
    ⟨info, cache, sid, st, h1, hfr, h2, h3, h4, h5, _, _, _, he⟩
  · rw [hw]; exact h
  · rw [hs]; exact h
  · rw [he]
    by_cases hid : id = i
    · subst hid
      obtain ⟨h0, info0, g1, g2⟩ := h
      rw [h1] at g1
      cases g1
      exact ⟨h0, _, getElem?_set_self_of_some _ _ _ _ h1, g2⟩
    · exact refs_calls_frame k0 i c s _ h (List.getElem?_set_ne hid)
        ⟨[], by simp [dj_state.stop], by simp⟩
  · rw [he]
    have key : ∀ infoX : inode_cb_info, infoX.references = info.references - 1 →
        ∀ (stripes1 : List stripe) (x : cb_call) (oc : Int) (oh : List Int),
          x.cb_private = id →
          refs_calls_inv k0 i c
            { s with infos := s.infos.set id infoX, stripes := stripes1,
                     calls := s.calls ++ [x], open_inodes_count := oc,
                     open_inodes_hist := oh } := by
      intro infoX hX stripes1 x oc oh hx
      by_cases hid : id = i
      · subst hid
        obtain ⟨h0, info0, g1, g2⟩ := h
        rw [h1] at g1
        cases g1
        refine ⟨by simp; omega, infoX, getElem?_set_self_of_some _ _ _ _ h1, ?_⟩
        show infoX.references + ((calls_of id ((s.calls ++ [x]).drop k0)).length : Int) = c
        rw [calls_of_drop_append_self k0 id s.calls x h0 hx, List.length_append, hX]
        simp only [List.length_singleton]
        push_cast
        omega
      · exact refs_calls_frame k0 i c s _ h (List.getElem?_set_ne hid)
          ⟨[x], rfl, by intro y hy; simp at hy; subst hy; rw [hx]; exact hid⟩
    unfold flush_deliver
    dsimp only
    by_cases hz : info.references - 1 = 0
    · rw [if_pos hz]
      exact key _ rfl _ _ _ _ rfl
    · rw [if_neg hz]
      exact key _ rfl _ _ _ _ rfl

theorem flush_loop_refs_calls (k0 i : Nat) (c : Int) (bs id fuel : Nat) (s : dj_state)
    (h : refs_calls_inv k0 i c s) : refs_calls_inv k0 i c (flush_loop fuel bs id s) := by
  induction fuel generalizing s with
  | zero => exact h
  | succ f ih =>
    simp only [flush_loop]
    have h1 := flush_iteration_refs_calls k0 i c bs id s h
    split_ifs
    · exact ih _ h1
    · exact h1

theorem flush_inode_blocks_refs_calls (k0 i : Nat) (c : Int) (bs id : Nat) (s : dj_state)
    (h : refs_calls_inv k0 i c s) : refs_calls_inv k0 i c (flush_inode_blocks bs id s) := by
  unfold flush_inode_blocks
  split
  · exact h
  · split
    · exact h
    · exact flush_loop_refs_calls k0 i c bs id _ s h

theorem heapify_block_refs_calls (k0 i : Nat) (c : Int) (fs : ext2_filsys) (b : block_list)
    (s : dj_state) (h : refs_calls_inv k0 i c s) :
    refs_calls_inv k0 i c (heapify_block fs b s) := by
  unfold heapify_block
  cases h1 : s.infos[b.inode_info]? with
  | none => exact h
  | some info =>
    dsimp only
    by_cases hf : info.freed = true
    · rw [if_pos hf]; exact h
    rw [if_neg hf]
    by_cases hneg : info.block_cache.isNone = true
        ∧ heap_create_size info.len fs.blocksize < 0
    · rw [if_pos hneg]; exact h
    rw [if_neg hneg]
    cases h2 : heap_insert (match info.block_cache with
        | none => heap_create (heap_create_size info.len fs.blocksize).toNat
        | some cache => cache) b.logical_block b with
    | none => exact h
    | some cache1 =>
      dsimp only
      apply flush_inode_blocks_refs_calls
      by_cases hid : b.inode_info = i
      · obtain ⟨h0, info0, g1, g2⟩ := h
        rw [← hid, h1] at g1
        cases g1
        refine ⟨h0, { info with block_cache := some cache1 }, ?_, ?_⟩
        · rw [← hid]; exact getElem?_set_self_of_some _ _ _ _ h1
        · exact g2
      · exact refs_calls_frame k0 i c s _ h (List.getElem?_set_ne hid) ⟨[], by simp, by simp⟩

theorem read_loop_refs_calls (k0 i : Nat) (c : Int) (fs : ext2_filsys) (p : dj_params)
    (fuel : Nat) (il : List inode_list) (bls : List block_list) (s : dj_state)
    (h : refs_calls_inv k0 i c s) :
    refs_calls_inv k0 i c (read_loop fs p fuel il bls s).state :=
  read_loop_preserves (refs_calls_inv k0 i c) (fun _ => True) fs p
    (fun _ _ h => h) (fun _ _ h => h) (fun _ h => h)
    (fun b s _ h => heapify_block_refs_calls k0 i c fs b s h)
    (fun _ _ _ h => h) fuel il bls s (fun _ _ _ _ => trivial) (fun _ _ => trivial) h

theorem scan_blocks_inode_cache_none (fs : ext2_filsys) (e : inode_list) (s : dj_state)
    (h : ∀ info ∈ s.infos, info.block_cache = none) :
    ∀ info ∈ (scan_blocks_inode fs e s).2.infos, info.block_cache = none := by
  obtain ⟨_, _, _, f4, _⟩ := scan_inode_frame fs e s.infos.length
  unfold scan_blocks_inode
  dsimp only
  split_ifs
  · intro info hi
    rcases List.mem_append.1 hi with hi | hi
    · exact h info hi
    · simp only [List.mem_singleton] at hi
      subst hi
      exact f4
  · intro info hi
    rcases List.mem_append.1 hi with hi | hi
    · exact h info hi
    · simp only [List.mem_singleton] at hi
      subst hi
      exact f4

theorem scan_blocks_cache_none (fs : ext2_filsys) (l : List inode_list) (s : dj_state)
    (h : ∀ info ∈ s.infos, info.block_cache = none) :
    ∀ info ∈ (scan_blocks fs l s).2.infos, info.block_cache = none := by
  induction l generalizing s with
  | nil => exact h
  | cons e rest ih =>
    simp only [scan_blocks]
    exact ih _ (scan_blocks_inode_cache_none fs e s h)

theorem iterate_dir_refs_calls (fs : ext2_filsys) (p : dj_params) (fuel : Nat)
    (inodes : List inode_list) (hbs : 0 < fs.blocksize)
    (hl : ∀ e ∈ inodes, e.blocks = [])
    (hinc : ∀ e ∈ inodes, callbacks_increasing fs e.index)
    (hcap : ∀ e ∈ inodes, e.len / fs.blocksize + 1 < 2147483648)
    (i : Nat) (info0 : inode_cb_info)
    (hi : (scan_blocks fs (inode_list_sort inodes) dj_state.init).2.infos[i]? = some info0) :
    ∃ info, (iterate_dir fs p fuel inodes).state.infos[i]? = some info ∧
      info.references
        + ((calls_of i ((iterate_dir fs p fuel inodes).state.calls.drop
            (scan_blocks fs (inode_list_sort inodes) dj_state.init).2.calls.length)).length : Int)
        = count_inode i
            (pending_blocks (scan_blocks fs (inode_list_sort inodes) dj_state.init).1) := by
  obtain ⟨h1, _⟩ := scan_blocks_safe fs hbs (inode_list_sort inodes)
    (fun e he => hl e ((inode_list_sort_mem inodes e).1 he))
    (fun e he => hinc e ((inode_list_sort_mem inodes e).1 he))
    (fun e he => hcap e ((inode_list_sort_mem inodes e).1 he)) [] dj_state.init
    (safe_init fs.blocksize)
  have hnone := scan_blocks_cache_none fs (inode_list_sort inodes) dj_state.init
    (by intro info hinfo; cases hinfo) info0 (List.getElem?_mem hi)
  have hrefs := (h1.info_all i info0 hi).refs
  have hrec : heap_records info0 = [] := by simp [heap_records, hnone]
  rw [hrec, List.nil_append] at hrefs
  have hinit : refs_calls_inv (scan_blocks fs (inode_list_sort inodes) dj_state.init).2.calls.length
      i (count_inode i (pending_blocks (scan_blocks fs (inode_list_sort inodes)
        dj_state.init).1)) (scan_blocks fs (inode_list_sort inodes) dj_state.init).2 := by
    refine ⟨le_refl _, info0, hi, ?_⟩
    rw [List.drop_length, hrefs]
    simp [calls_of]
  obtain ⟨_, info, g1, g2⟩ := read_loop_refs_calls _ i _ fs p fuel
    (scan_blocks fs (inode_list_sort inodes) dj_state.init).1 []
    (scan_blocks fs (inode_list_sort inodes) dj_state.init).2 hinit
  exact ⟨info, g1, g2⟩

/-- C16: for a file system with blocks of more than 0 bytes whose block callbacks come in
increasing logical order, files whose `len / blocksize + 1` is below `2 ^ 31` (so that the
`int` capacity of `heap_create` is that number), and `coalesce_distance ≥ 0`. After any
number of iterations of the read loop: the process is running (no exit was taken, the
`has references` one included); the `references` of every `inode_cb_info` is the number of
its records in its heap, in the scheduled list and in the inode list, and it is freed
exactly when that number is 0; and for every `inode_cb_info` that `scan_blocks` created,
`references` plus the number of invocations that the read loop has made for it is the
number of records that `scan_block` attached to the inode, so the records counted are those
not yet passed to the callback. One iteration of the loop of `flush_inode_blocks`, in any
state, either makes no invocation and leaves `references` and `freed` as they are, or makes
exactly one invocation, for the record at the top of the heap, with `references` positive
before, takes one reference and frees the `inode_cb_info` exactly when none is left. In
every state with exact reference counts (`safe`, kept by every step of the read loop),
when `flush_inode_blocks` finds the next block at the top of the heap, `references` is
positive, the iteration delivers the block and leaves the process running, and the
`inode_cb_info` is freed exactly when `references` reaches 0, with the heap empty and no
record of the inode left in the lists. -/
theorem inode_references_count_undelivered (fs : ext2_filsys) (p : dj_params) (fuel : Nat)
    (inodes : List inode_list) (hbs : 0 < fs.blocksize) (hcd : 0 ≤ p.coalesce_distance)
    (hl : ∀ e ∈ inodes, e.blocks = [])
    (hinc : ∀ e ∈ inodes, callbacks_increasing fs e.index)
    (hcap : ∀ e ∈ inodes, e.len / fs.blocksize + 1 < 2147483648) :
    (iterate_dir fs p fuel inodes).state.status = run_status.running ∧
    (∀ (i : Nat) (info : inode_cb_info),
      (iterate_dir fs p fuel inodes).state.infos[i]? = some info →
      info.references = ((heap_records info).length : Int)
        + count_inode i ((iterate_dir fs p fuel inodes).block_list_start
            ++ pending_blocks (iterate_dir fs p fuel inodes).inode_list) ∧
      (info.freed = true ↔ info.references = 0) ∧
      (info.freed = true → info.block_cache = none)) ∧
    (∀ (i : Nat) (info0 : inode_cb_info),
      (scan_blocks fs (inode_list_sort inodes) dj_state.init).2.infos[i]? = some info0 →
      ∃ info, (iterate_dir fs p fuel inodes).state.infos[i]? = some info ∧
        info.references
          + ((calls_of i ((iterate_dir fs p fuel inodes).state.calls.drop
              (scan_blocks fs (inode_list_sort inodes) dj_state.init).2.calls.length)).length
              : Int)
          = count_inode i
              (pending_blocks (scan_blocks fs (inode_list_sort inodes) dj_state.init).1)) ∧
    (∀ (s : dj_state) (id : Nat),
      ((flush_iteration fs.blocksize id s).1.calls = s.calls ∧
        ∀ info, s.infos[id]? = some info →
          ∃ info1, (flush_iteration fs.blocksize id s).1.infos[id]? = some info1 ∧
            info1.references = info.references ∧ info1.freed = info.freed) ∨
      (∃ info cache, s.infos[id]? = some info ∧ info.freed = false ∧
        info.block_cache = some cache ∧ 0 < heap_size cache ∧
        (heap_min cache).logical_block = info.blocks_read ∧ 0 < info.references ∧
        ∃ c info1,
        (flush_iteration fs.blocksize id s).1.calls = s.calls ++ [c] ∧ c.cb_private = id ∧
        c.pos = (heap_min cache).logical_block * fs.blocksize ∧
        c.data_len = (heap_min cache).stripe_ptr.len ∧
        (flush_iteration fs.blocksize id s).1.infos[id]? = some info1 ∧
        info1.references = info.references - 1 ∧
        info1.blocks_read = info.blocks_read + (heap_min cache).num_blocks ∧
        (info1.freed = true ↔ info1.references = 0))) ∧
    (∀ (M : List block_list) (s : dj_state) (id : Nat) (info : inode_cb_info)
      (cache : heap block_list), safe fs.blocksize M s → s.infos[id]? = some info →
      info.freed = false → info.block_cache = some cache → 0 < heap_size cache →
      (heap_min cache).logical_block = info.blocks_read →
      0 < info.references ∧
      (flush_iteration fs.blocksize id s).1.status = run_status.running ∧
      safe fs.blocksize M (flush_iteration fs.blocksize id s).1 ∧
      ∃ info1, (flush_iteration fs.blocksize id s).1.infos[id]? = some info1 ∧
        info1.references = info.references - 1 ∧
        (info1.freed = true ↔ info1.references = 0) ∧
        (info1.freed = true →
          heap_contents (heap_delmin cache).2 = [] ∧ count_inode id M = 0)) := by
  have hs := iterate_dir_safe fs p hbs hcd fuel inodes hl hinc hcap
  refine ⟨hs.running, ?_,
    fun i info0 hi => iterate_dir_refs_calls fs p fuel inodes hbs hl hinc hcap i info0 hi,
    fun s id => flush_iteration_inode_step fs.blocksize id s, ?_⟩
  · intro i info hi
    have hio := hs.info_all i info hi
    refine ⟨hio.refs, ⟨fun hf => (hio.freed_refs hf).1, fun hz => ?_⟩,
      fun hf => (hio.freed_refs hf).2⟩
    by_contra hcon
    have := (hio.open_refs (by simpa using hcon)).1
    omega
  · intro M s id info cache h hi hfr hc h3 h4
    obtain ⟨hpos, sid, st, _, _, _, heq⟩ :=
      flush_iteration_delivers fs.blocksize fs.blocksize M s id info cache h hi hfr hc h3 h4
    have hsafe := (flush_iteration_safe fs.blocksize fs.blocksize M s id info cache h hi hfr
      hc).1
    obtain ⟨_, info1, k1, k2, k3⟩ :=
      flush_deliver_info fs.blocksize id s info cache sid st hi hfr
    refine ⟨hpos, hsafe.running, hsafe, info1, by rw [heq]; exact k1, k2, k3, fun hf => ?_⟩
    exact last_reference_heap_empty fs.blocksize M s id info cache h hi hc h3
      (by rw [← k2]; exact k3.1 hf)

theorem inode_references_count_undelivered_witness :
    ((iterate_dir three_files_fs default_params 2 three_files_inodes).state.infos.map
        (fun info => (info.references, info.freed))
      = [(0, true), (0, true), (0, true)] ∧
     (iterate_dir three_files_fs default_params 2 three_files_inodes).state.calls.map
        (fun c => (c.cb_private, c.pos, c.data_len))
      = [(0, 0, 4096), (1, 0, 4096), (2, 0, 10)] ∧
     (pending_blocks (scan_blocks three_files_fs (inode_list_sort three_files_inodes)
        dj_state.init).1).map (fun b => b.inode_info) = [0, 1, 2]) ∧
    (iterate_dir three_files_fs default_params 2 three_files_inodes).state.status
      = run_status.running ∧
    (∀ (i : Nat) (info : inode_cb_info),
      (iterate_dir three_files_fs default_params 2 three_files_inodes).state.infos[i]?
        = some info →
      info.references = ((heap_records info).length : Int)
        + count_inode i
          ((iterate_dir three_files_fs default_params 2 three_files_inodes).block_list_start
            ++ pending_blocks
              (iterate_dir three_files_fs default_params 2 three_files_inodes).inode_list) ∧
      (info.freed = true ↔ info.references = 0) ∧
      (info.freed = true → info.block_cache = none)) ∧
    (∀ (i : Nat) (info0 : inode_cb_info),
      (scan_blocks three_files_fs (inode_list_sort three_files_inodes)
        dj_state.init).2.infos[i]? = some info0 →
      ∃ info, (iterate_dir three_files_fs default_params 2 three_files_inodes).state.infos[i]?
          = some info ∧
        info.references
          + ((calls_of i
              ((iterate_dir three_files_fs default_params 2 three_files_inodes).state.calls.drop
                (scan_blocks three_files_fs (inode_list_sort three_files_inodes)
                  dj_state.init).2.calls.length)).length : Int)
          = count_inode i
              (pending_blocks (scan_blocks three_files_fs (inode_list_sort three_files_inodes)
                dj_state.init).1)) :=
  ⟨by decide,
   (inode_references_count_undelivered three_files_fs default_params 2 three_files_inodes
    (by decide) (by decide) (by decide) (by decide) (by decide)).1,
   (inode_references_count_undelivered three_files_fs default_params 2 three_files_inodes
    (by decide) (by decide) (by decide) (by decide) (by decide)).2.1,
   (inode_references_count_undelivered three_files_fs default_params 2 three_files_inodes
    (by decide) (by decide) (by decide) (by decide) (by decide)).2.2.1⟩

/-- Where `len / block_size + 1` is below `2 ^ 31` for every file, the capacity is enough:
for a file system with blocks of more than 0 bytes whose block callbacks come in increasing
logical order, and `coalesce_distance ≥ 0`, `scan_block` attaches at most
`len / block_size + 1` records to an inode, the capacity `heapify_stripe` creates its heap
with; after any number of iterations of the read loop the process is running, and every heap
has that capacity and room for all records of its inode that are still in the lists. In every
state with exact reference counts, the `heap_insert` of `heapify_stripe` for the next record
of the list finds the heap not full. -/
theorem heap_capacity_suffices (fs : ext2_filsys) (p : dj_params) (fuel : Nat)
    (inodes : List inode_list) (hbs : 0 < fs.blocksize) (hcd : 0 ≤ p.coalesce_distance)
    (hl : ∀ e ∈ inodes, e.blocks = [])
    (hinc : ∀ e ∈ inodes, callbacks_increasing fs e.index)
    (hcap : ∀ e ∈ inodes, e.len / fs.blocksize + 1 < 2147483648) :
    (∀ e ∈ inodes, ∀ id, (scan_inode fs e id).blocks.length ≤ e.len / fs.blocksize + 1) ∧
    (iterate_dir fs p fuel inodes).state.status = run_status.running ∧
    (∀ (i : Nat) (info : inode_cb_info) (cache : heap block_list),
      (iterate_dir fs p fuel inodes).state.infos[i]? = some info →
      info.block_cache = some cache →
      cache.max_size = info.len / fs.blocksize + 1 ∧
      heap_size cache + count_inode i ((iterate_dir fs p fuel inodes).block_list_start
          ++ pending_blocks (iterate_dir fs p fuel inodes).inode_list) ≤ cache.max_size) ∧
    (∀ (M : List block_list) (s : dj_state) (b : block_list) (sid : Nat),
      safe fs.blocksize (b :: M) s → b.stripe_ptr.stripe = some sid →
      ∃ info cache1, s.infos[b.inode_info]? = some info ∧ info.freed = false ∧
        heap_insert (match info.block_cache with
          | none => heap_create (heap_create_size info.len fs.blocksize).toNat
          | some cache => cache) b.logical_block b = some cache1) := by
  have hs := iterate_dir_safe fs p hbs hcd fuel inodes hl hinc hcap
  refine ⟨fun e he id => scan_inode_bound fs hbs e id (hl e he) (hinc e he), hs.running,
    ?_, ?_⟩
  · intro i info cache hi hc
    have hio := hs.info_all i info hi
    obtain ⟨hw, hmax⟩ := hio.cache_wf cache hc
    have hlen := heap_records_length info cache hc hw
    have hfr : info.freed = false := by
      by_contra hcon
      have := (hio.freed_refs (by simpa using hcon)).2
      rw [hc] at this
      cases this
    have hopen := (hio.open_refs hfr).2
    have hrefs := hio.refs
    refine ⟨hmax, ?_⟩
    rw [hmax]
    unfold heap_size
    omega
  · intro M s b sid h hb
    have hlt := h.pending_inode b (List.mem_cons_self _ _)
    have hi : s.infos[b.inode_info]? = some s.infos[b.inode_info] :=
      List.getElem?_eq_getElem hlt
    generalize s.infos[b.inode_info] = info at hi
    have hio := h.info_all _ info hi
    have hrefs := hio.refs
    rw [count_inode_cons, if_pos rfl] at hrefs
    have hfr : info.freed = false := by
      by_contra hcon
      have := (hio.freed_refs (by simpa using hcon)).1
      omega
    have hrun := (heapify_block_safe fs b M s sid h hb).running
    have hsz := heap_create_size_eq info.len fs.blocksize hio.cap
    unfold heapify_block at hrun
    rw [hi] at hrun
    dsimp only at hrun
    rw [if_neg (by simp [hfr]), if_neg (fun hh => heap_create_size_not_neg _ _ hio.cap hh.2)] at hrun
    cases h2 : heap_insert (match info.block_cache with
        | none => heap_create (heap_create_size info.len fs.blocksize).toNat
        | some cache => cache) b.logical_block b with
    | none =>
      rw [h2] at hrun
      have hst := h.running
      simp [dj_state.stop] at hrun
    | some cache1 => exact ⟨info, cache1, hi, hfr, h2⟩

theorem heap_capacity_suffices_witness :
    ((scan_inode three_files_fs ⟨11, 4096, []⟩ 0).blocks.length = 1 ∧
      4096 / three_files_fs.blocksize + 1 = 2) ∧
    (∀ e ∈ three_files_inodes, ∀ id,
      (scan_inode three_files_fs e id).blocks.length
        ≤ e.len / three_files_fs.blocksize + 1) ∧
    (iterate_dir three_files_fs default_params 2 three_files_inodes).state.status
      = run_status.running :=
  ⟨by decide,
   (heap_capacity_suffices three_files_fs default_params 2 three_files_inodes
    (by decide) (by decide) (by decide) (by decide) (by decide)).1,
   (heap_capacity_suffices three_files_fs default_params 2 three_files_inodes
    (by decide) (by decide) (by decide) (by decide) (by decide)).2.1⟩

/-! ### Sorted lists -/

theorem stripe_absorb_len_sorted (bs hp : Nat) (hbs : 0 < bs) (p fwd : block_list)
    (st : stripe) (hp1 : block_in_range bs p) (hf : block_in_range bs fwd)
    (hhp : hp ≤ p.physical_block) (hhf : hp ≤ fwd.physical_block)
    (hst : st.consecutive_len = (p.physical_block + p.num_blocks - hp) * bs) :
    (st.absorb bs (physical_block_diff (some p) fwd) fwd).consecutive_len
      = (fwd.physical_block + fwd.num_blocks - hp) * bs := by
  rw [physical_block_diff_eq bs hbs p fwd hp1 hf]
  unfold stripe.absorb
  dsimp only
  rw [hst]
  have hb1 : (p.physical_block + p.num_blocks - hp) * bs
      ≤ (p.physical_block + p.num_blocks) * bs :=
    Nat.mul_le_mul_right _ (Nat.sub_le _ _)
  have hb2 : fwd.num_blocks * bs ≤ (fwd.physical_block + fwd.num_blocks) * bs :=
    Nat.mul_le_mul_right _ (Nat.le_add_left _ _)
  have hb3 : (fwd.physical_block + fwd.num_blocks - hp) * bs
      ≤ (fwd.physical_block + fwd.num_blocks) * bs :=
    Nat.mul_le_mul_right _ (Nat.sub_le _ _)
  have hr1 := hp1.2.2
  have hr2 := hf.2.2
  have e1 : (((p.physical_block + p.num_blocks - hp) * bs : Nat) : Int)
      + (fwd.num_blocks : Int) * (bs : Int)
      = (((p.physical_block + p.num_blocks - hp) * bs + fwd.num_blocks * bs : Nat) : Int) := by
    push_cast; ring
  rw [e1, to_u64_natCast _ (by omega)]
  have e2 : (((p.physical_block + p.num_blocks - hp : Nat) : Int) + fwd.num_blocks
      + block_gap p fwd) = ((fwd.physical_block + fwd.num_blocks - hp : Nat) : Int) := by
    unfold block_gap
    omega
  have e3 : ((((p.physical_block + p.num_blocks - hp) * bs + fwd.num_blocks * bs : Nat) : Int)
      + block_gap p fwd * (bs : Int))
      = (((fwd.physical_block + fwd.num_blocks - hp) * bs : Nat) : Int) := by
    push_cast
    rw [← e2]
    ring
  rw [e3, to_u64_natCast _ (by omega)]

theorem next_stripe_loop_len_sorted (bs hp sid : Nat) (cd : Int) (hbs : 0 < bs)
    (l : List block_list) (p : block_list) (st : stripe)
    (hrange : ∀ b ∈ p :: l, block_in_range bs b)
    (hge : ∀ b ∈ p :: l, hp ≤ b.physical_block)
    (hst : st.consecutive_len = (p.physical_block + p.num_blocks - hp) * bs) :
    ∃ ph n, hp ≤ ph ∧ 0 < n ∧
      (next_stripe_loop bs cd sid hp (some p) l st).1.consecutive_len = (ph + n - hp) * bs := by
  induction l generalizing p st with
  | nil =>
    exact ⟨p.physical_block, p.num_blocks, hge p (List.mem_cons_self _ _),
      (hrange p (List.mem_cons_self _ _)).1, by simp [next_stripe_loop, hst]⟩
  | cons fwd rest ih =>
    have hpr := hrange p (List.mem_cons_self _ _)
    have hfr := hrange fwd (List.mem_cons_of_mem _ (List.mem_cons_self _ _))
    have hpg := hge p (List.mem_cons_self _ _)
    have hfg := hge fwd (List.mem_cons_of_mem _ (List.mem_cons_self _ _))
    simp only [next_stripe_loop]
    by_cases hd : physical_block_diff (some p) fwd > cd
    · rw [if_pos hd]
      exact ⟨p.physical_block, p.num_blocks, hpg, hpr.1, hst⟩
    rw [if_neg hd]
    dsimp only
    refine ih (absorb bs sid hp fwd) _ ?_ ?_
      (stripe_absorb_len_sorted bs hp hbs p fwd st hpr hfr hpg hfg hst)
    · intro b hb
      rcases List.mem_cons.1 hb with hb1 | hb1
      · rw [hb1]; exact block_in_range_absorb bs sid hp fwd hfr
      · exact hrange b (List.mem_cons_of_mem _ (List.mem_cons_of_mem _ hb1))
    · intro b hb
      rcases List.mem_cons.1 hb with hb1 | hb1
      · rw [hb1]; exact hfg
      · exact hge b (List.mem_cons_of_mem _ (List.mem_cons_of_mem _ hb1))

theorem next_stripe_len_pos_sorted (bs sid : Nat) (cd mib : Int) (head : block_list)
    (rest : List block_list) (hbs : 0 < bs) (hcd : 0 ≤ cd)
    (hrange : ∀ b ∈ head :: rest, block_in_range bs b)
    (hge : ∀ b ∈ rest, head.physical_block ≤ b.physical_block) :
    0 < (next_stripe bs cd mib sid (head :: rest)).1.consecutive_len := by
  have hhr := hrange head (List.mem_cons_self _ _)
  obtain ⟨ph, n, h1, h2, h3⟩ := next_stripe_loop_len_sorted bs head.physical_block sid cd hbs
    rest (absorb bs sid head.physical_block head) (stripe.empty.absorb bs 0 head)
    (by
      intro b hb
      rcases List.mem_cons.1 hb with hb1 | hb1
      · rw [hb1]; exact block_in_range_absorb bs sid _ head hhr
      · exact hrange b (List.mem_cons_of_mem _ hb1))
    (by
      intro b hb
      rcases List.mem_cons.1 hb with hb1 | hb1
      · rw [hb1]; exact le_refl _
      · exact hge b hb1)
    (stripe_empty_absorb_len bs head hhr)
  unfold next_stripe
  simp only [next_stripe_loop, physical_block_diff]
  rw [if_neg (by omega)]
  dsimp only
  rw [h3]
  exact Nat.mul_pos (by omega) hbs

theorem scan_block_rec_range (fuel bs phys logical : Nat) (si : scan_blocks_info)
    (hp : (phys + 1) * bs < 9223372036854775808)
    (h : ∀ b ∈ si.blocks, (b.physical_block + b.num_blocks) * bs < 9223372036854775808) :
    ∀ b ∈ (scan_block_rec fuel bs phys logical si).blocks,
      (b.physical_block + b.num_blocks) * bs < 9223372036854775808 := by
  induction fuel generalizing phys logical si with
  | zero => exact h
  | succ f ih =>
    simp only [scan_block_rec]
    by_cases h1 : logical * bs ≥ si.inode_info.len ∨ si.inode_info.len = 0
    · rw [if_pos h1]; exact h
    rw [if_neg h1]
    have hbs : (0 + 1) * bs < 9223372036854775808 :=
      lt_of_le_of_lt (Nat.mul_le_mul_right _ (by omega)) hp
    split_ifs with h2
    · cases hlast : si.blocks.getLast? with
      | none => rw [hlast] at h2; simp at h2
      | some last =>
        rw [hlast] at h2
        simp only [decide_eq_true_eq] at h2
        intro b hb
        rcases List.mem_append.1 hb with hb | hb
        · exact h b (List.dropLast_subset _ hb)
        · simp only [List.mem_singleton] at hb
          subst hb
          simp only [Option.getD_some]
          show (last.physical_block + (last.num_blocks + 1)) * bs < _
          rw [← Nat.add_assoc, h2]
          exact hp
    · have h3 := foldl_preserves
        (fun acc : scan_blocks_info => ∀ b ∈ acc.blocks,
          (b.physical_block + b.num_blocks) * bs < 9223372036854775808)
        (fun acc i => scan_block_rec f bs 0 i acc)
        (List.range' si.inode_info.blocks_scanned (logical - si.inode_info.blocks_scanned))
        (fun acc i hacc => ih 0 i acc hbs hacc)
        { si with inode_info := { si.inode_info with
            references := si.inode_info.references + 1 } } h
      intro b hb
      rcases List.mem_append.1 hb with hb | hb
      · exact h3 b hb
      · simp only [List.mem_singleton] at hb
        subst hb
        exact hp

theorem scan_inode_in_range (fs : ext2_filsys) (e : inode_list) (id : Nat)
    (he : e.blocks = []) (hr : callbacks_in_range fs e.index) :
    ∀ b ∈ (scan_inode fs e id).blocks, block_in_range fs.blocksize b := by
  have key : ∀ (cbs : List (Nat × Nat)) (si : scan_blocks_info),
      (∀ cb ∈ cbs, (cb.1 + 1) * fs.blocksize < 9223372036854775808) →
      (∀ b ∈ si.blocks,
        (b.physical_block + b.num_blocks) * fs.blocksize < 9223372036854775808) →
      ∀ b ∈ (cbs.foldl (fun acc cb => scan_block fs.blocksize cb.1 cb.2 acc) si).blocks,
        (b.physical_block + b.num_blocks) * fs.blocksize < 9223372036854775808 := by
    intro cbs
    induction cbs with
    | nil => intro si _ h; exact h
    | cons cb rest ih =>
      intro si hc h
      rw [List.foldl_cons]
      exact ih _ (fun x hx => hc x (List.mem_cons_of_mem _ hx))
        (scan_block_rec_range _ _ _ _ si (hc cb (List.mem_cons_self _ _)) h)
  have h1 := key (fs.block_iterate e.index)
    { info_id := id,
      inode_info := { inode := e.index, len := e.len, blocks_scanned := 0,
                      blocks_read := 0, references := 0, block_cache := none, freed := false },
      blocks := e.blocks } hr (by simp [he])
  have h2 := (scan_inode_inv fs e id he).2.2
  intro b hb
  obtain ⟨⟨w1, _, w3⟩, _⟩ := h2 b hb
  refine ⟨w1, ?_, h1 b hb⟩
  rw [w3]
  exact min_le_left _ _

theorem scan_blocks_in_range (fs : ext2_filsys) (l : List inode_list) (s : dj_state)
    (hl : ∀ e ∈ l, e.blocks = []) (hr : ∀ e ∈ l, callbacks_in_range fs e.index) :
    ∀ b ∈ pending_blocks (scan_blocks fs l s).1, block_in_range fs.blocksize b := by
  induction l generalizing s with
  | nil => simp [scan_blocks, pending_blocks]
  | cons e rest ih =>
    simp only [scan_blocks, pending_blocks]
    intro b hb
    rcases List.mem_append.1 hb with hb1 | hb1
    · rw [scan_blocks_inode_blocks] at hb1
      exact scan_inode_in_range fs e _ (hl e (List.mem_cons_self _ _))
        (hr e (List.mem_cons_self _ _)) b hb1
    · exact ih _ (fun x hx => hl x (List.mem_cons_of_mem _ hx))
        (fun x hx => hr x (List.mem_cons_of_mem _ hx)) b hb1

theorem block_list_sort_sorted (l : List block_list) :
    (block_list_sort l).Pairwise (fun a b => a.physical_block ≤ b.physical_block) := by
  haveI : IsTotal block_list (fun a b => a.physical_block ≤ b.physical_block) :=
    ⟨fun a b => Nat.le_total _ _⟩
  haveI : IsTrans block_list (fun a b => a.physical_block ≤ b.physical_block) :=
    ⟨fun _ _ _ h1 h2 => Nat.le_trans h1 h2⟩
  exact List.sorted_insertionSort _ l

theorem drain_loop_no_requeue (fs : ext2_filsys) (p : dj_params) (mib : Int)
    (hbs : 0 < fs.blocksize) (hcd : 0 ≤ p.coalesce_distance) (fuel : Nat)
    (l X : List block_list) (s : dj_state) (hfuel : l.length ≤ fuel)
    (hsorted : l.Pairwise (fun a b => a.physical_block ≤ b.physical_block))
    (hrange : ∀ b ∈ l, block_in_range fs.blocksize b)
    (h : safe fs.blocksize (l ++ X) s) (hun : ∀ b ∈ l ++ X, unabsorbed b) :
    (drain_loop fs p mib fuel l [] s).1 = [] ∧
    safe fs.blocksize X (drain_loop fs p mib fuel l [] s).2 := by
  induction fuel generalizing l s with
  | zero =>
    have : l = [] := List.length_eq_zero.1 (by omega)
    subst this
    exact ⟨rfl, h⟩
  | succ f ih =>
    cases l with
    | nil => exact ⟨rfl, h⟩
    | cons head rest =>
      obtain ⟨i1, i2, i3, _⟩ := drain_iteration_safe fs p mib hcd head rest X s h hun
      obtain ⟨k, _, _, k2, _, _, _, k6⟩ := drain_stripe_shape fs p mib s.stripes.length head
        rest hcd (hun head (by simp)).2
      have hps := List.pairwise_cons.1 hsorted
      have hpos := next_stripe_len_pos_sorted fs.blocksize s.stripes.length
        p.coalesce_distance mib head rest hbs hcd hrange hps.1
      rw [← k6] at hpos
      simp only [drain_loop]
      rw [if_neg (by simp [i1]), if_pos i3.running, i2, drain_requeue_pos _ hpos]
      generalize (heapify_stripe fs
        ((drain_stripe fs p mib s.stripes.length head rest).2.1
          ++ (drain_stripe fs p mib s.stripes.length head rest).2.2) s.stripes.length mib
        { s with stripes := s.stripes
            ++ [(drain_stripe fs p mib s.stripes.length head rest).1] }).2 = S at i3 ⊢
      rw [k2] at i3 ⊢
      have hsub : ∀ x ∈ rest.drop k, x ∈ rest := fun x hx => List.mem_of_mem_drop hx
      refine ih _ S ?_ (hps.2.sublist (List.drop_sublist k rest))
        (fun x hx => hrange x (List.mem_cons_of_mem _ (hsub x hx))) i3 ?_
      · rw [List.length_drop]
        simp only [List.length_cons] at hfuel
        omega
      · intro x hx
        apply hun
        rcases List.mem_append.1 hx with hx1 | hx1
        · exact List.mem_append_left _ (List.mem_cons_of_mem _ (hsub x hx1))
        · exact List.mem_append_right _ hx1

theorem read_loop_no_requeue (fs : ext2_filsys) (p : dj_params) (hbs : 0 < fs.blocksize)
    (hcd : 0 ≤ p.coalesce_distance) (fuel : Nat) (il : List inode_list) (s : dj_state)
    (h : safe fs.blocksize (pending_blocks il) s)
    (hun : ∀ b ∈ pending_blocks il, unabsorbed b)
    (hrange : ∀ b ∈ pending_blocks il, block_in_range fs.blocksize b) :
    (read_loop fs p fuel il [] s).block_list_start = [] ∧
    (read_loop fs p fuel il [] s).state.status = run_status.running := by
  induction fuel generalizing il s with
  | zero => exact ⟨rfl, h.running⟩
  | succ f ih =>
    simp only [read_loop]
    by_cases h1 : il = []
    · rw [if_pos h1]; exact ⟨rfl, h.running⟩
    rw [if_neg h1]
    obtain ⟨a1, a2⟩ := admit_loop_safe fs.blocksize p.max_inodes il [] s
      (by rw [List.nil_append]; exact h)
    rw [List.nil_append] at a1 a2
    rw [← a1] at a2 hun hrange
    have hperm : ((admit_loop p.max_inodes il [] s).2.1
        ++ pending_blocks (admit_loop p.max_inodes il [] s).1).Perm
        (block_list_sort (admit_loop p.max_inodes il [] s).2.1
          ++ pending_blocks (admit_loop p.max_inodes il [] s).1) :=
      (block_list_sort_perm _).symm.append_right _
    obtain ⟨d1, d2⟩ := drain_loop_no_requeue fs p
      (max_inode_blocks p.max_blocks (admit_loop p.max_inodes il [] s).2.2.open_inodes_count)
      hbs hcd (block_list_sort (admit_loop p.max_inodes il [] s).2.1).length
      (block_list_sort (admit_loop p.max_inodes il [] s).2.1)
      (pending_blocks (admit_loop p.max_inodes il [] s).1)
      (admit_loop p.max_inodes il [] s).2.2 (le_refl _)
      (block_list_sort_sorted _)
      (fun b hb => hrange b (List.mem_append_left _ ((block_list_sort_mem _ b).1 hb)))
      (safe_perm _ _ _ _ hperm a2)
      (fun b hb => hun b (hperm.symm.subset hb))
    rw [if_pos d2.running, d1]
    exact ih _ _ d2 (fun b hb => hun b (List.mem_append_right _ hb))
      (fun b hb => hrange b (List.mem_append_right _ hb))

theorem iterate_dir_no_requeue (fs : ext2_filsys) (p : dj_params) (hbs : 0 < fs.blocksize)
    (hcd : 0 ≤ p.coalesce_distance) (fuel : Nat) (inodes : List inode_list)
    (hl : ∀ e ∈ inodes, e.blocks = [])
    (hinc : ∀ e ∈ inodes, callbacks_increasing fs e.index)
    (hr : ∀ e ∈ inodes, callbacks_in_range fs e.index)
    (hcap : ∀ e ∈ inodes, e.len / fs.blocksize + 1 < 2147483648) :
    (iterate_dir fs p fuel inodes).block_list_start = [] ∧
    (iterate_dir fs p fuel inodes).state.status = run_status.running := by
  have hl1 : ∀ e ∈ inode_list_sort inodes, e.blocks = [] :=
    fun e he => hl e ((inode_list_sort_mem inodes e).1 he)
  obtain ⟨h1, h2⟩ := scan_blocks_safe fs hbs (inode_list_sort inodes) hl1
    (fun e he => hinc e ((inode_list_sort_mem inodes e).1 he))
    (fun e he => hcap e ((inode_list_sort_mem inodes e).1 he)) [] dj_state.init
    (safe_init fs.blocksize)
  have h3 := scan_blocks_in_range fs (inode_list_sort inodes) dj_state.init hl1
    (fun e he => hr e ((inode_list_sort_mem inodes e).1 he))
  unfold iterate_dir
  exact read_loop_no_requeue fs p hbs hcd fuel _ _ (by simpa using h1) h2 h3

/-- C18: for a file of `2 ^ 44 - 1` bytes with blocks of 4096 bytes (one record, callbacks
in increasing logical order), `len / blocksize + 1` is `2 ^ 32` and the `int` that
`heap_create` receives is 0: the heap has capacity 0, the first `heap_insert` of
`heapify_stripe` finds `current_size == max_size` and the process exits before any
invocation. For a file of `(2 ^ 31 - 1) * 4096` bytes the `int` is `-2 ^ 31`, and the
process stops at the write through `elems`. -/
theorem heap_create_capacity_truncated :
    (callbacks_increasing huge_file_fs 12 ∧
     (scan_inode huge_file_fs ⟨12, 17592186044415, []⟩ 0).blocks.length = 1 ∧
     17592186044415 / huge_file_fs.blocksize + 1 = 4294967296 ∧
     heap_create_size 17592186044415 huge_file_fs.blocksize = 0 ∧
     (iterate_dir huge_file_fs default_params 1 [⟨12, 17592186044415, []⟩]).state.status
       = run_status.exited ∧
     (iterate_dir huge_file_fs default_params 1 [⟨12, 17592186044415, []⟩]).state.calls
       = []) ∧
    (8796093018112 / huge_file_fs.blocksize + 1 = 2147483648 ∧
     heap_create_size 8796093018112 huge_file_fs.blocksize = -2147483648 ∧
     (iterate_dir huge_file_fs default_params 1 [⟨12, 8796093018112, []⟩]).state.status
       = run_status.invalid_access ∧
     (iterate_dir huge_file_fs default_params 1 [⟨12, 8796093018112, []⟩]).state.calls
       = []) := by
  decide

/-- A list that is not sorted by physical block, which `iterate_dir` never passes on: for
`unsorted_list` and `coalesce_distance = 0`, `next_stripe` absorbs the three records (the
gaps are -3 and 0), and the additions to `consecutive_len` cancel. -/
theorem next_stripe_unsorted_len_zero :
    (next_stripe 1 0 128000 0 unsorted_list).1.consecutive_blocks = 3 ∧
    (next_stripe 1 0 128000 0 unsorted_list).1.references = 3 ∧
    (next_stripe 1 0 128000 0 unsorted_list).1.consecutive_len = 0 := by
  decide

/-- C19: for `coalesce_distance ≥ 0` and a block size above 0. `next_stripe` absorbs the head
of every non-empty list, and `consecutive_blocks` is at least the `num_blocks` of the head.
For the lists that `iterate_dir` passes on, sorted by physical block (line 431;
`block_list_sort` returns a sorted list), with records of at least one block that end below
`2 ^ 63` bytes: `consecutive_blocks ≥ 1` and `consecutive_len > 0`, the stripe of the drain
loop is not freed, and the re-queue of lines 465-475 leaves the list and the residual list
as they are. In `iterate_dir` (callbacks in increasing logical order, physical blocks ending
below `2 ^ 63` bytes, `len / blocksize + 1` below `2 ^ 31`), after any number of iterations
of the read loop the process is running (no stripe was read after its release) and nothing
was re-queued: `block_list_start` is empty. -/
theorem next_stripe_absorbs_head (fs : ext2_filsys) (p : dj_params) (fuel : Nat)
    (inodes : List inode_list) (hbs : 0 < fs.blocksize) (hcd : 0 ≤ p.coalesce_distance)
    (hl : ∀ e ∈ inodes, e.blocks = [])
    (hinc : ∀ e ∈ inodes, callbacks_increasing fs e.index)
    (hr : ∀ e ∈ inodes, callbacks_in_range fs e.index)
    (hcap : ∀ e ∈ inodes, e.len / fs.blocksize + 1 < 2147483648) :
    (∀ (sid : Nat) (mib : Int) (head : block_list) (rest : List block_list),
      (∃ tail, (next_stripe fs.blocksize p.coalesce_distance mib sid (head :: rest)).2.1
        = absorb fs.blocksize sid head.physical_block head :: tail) ∧
      head.num_blocks
        ≤ (next_stripe fs.blocksize p.coalesce_distance mib sid
            (head :: rest)).1.consecutive_blocks) ∧
    (∀ l : List block_list,
      (block_list_sort l).Pairwise (fun a b => a.physical_block ≤ b.physical_block)) ∧
    (∀ (sid : Nat) (mib : Int) (head : block_list) (rest residual : List block_list),
      (∀ b ∈ head :: rest, block_in_range fs.blocksize b) →
      (∀ b ∈ rest, head.physical_block ≤ b.physical_block) →
      1 ≤ (next_stripe fs.blocksize p.coalesce_distance mib sid
            (head :: rest)).1.consecutive_blocks ∧
      0 < (next_stripe fs.blocksize p.coalesce_distance mib sid
            (head :: rest)).1.consecutive_len ∧
      (drain_stripe fs p mib sid head rest).1.freed = false ∧
      drain_requeue (drain_stripe fs p mib sid head rest).1.consecutive_len
          (drain_stripe fs p mib sid head rest).2.2 residual
        = ((drain_stripe fs p mib sid head rest).2.2, residual)) ∧
    (iterate_dir fs p fuel inodes).state.status = run_status.running ∧
    (iterate_dir fs p fuel inodes).block_list_start = [] := by
  obtain ⟨c1, c2⟩ := iterate_dir_no_requeue fs p hbs hcd fuel inodes hl hinc hr hcap
  refine ⟨?_, block_list_sort_sorted, ?_, c2, c1⟩
  · intro sid mib head rest
    obtain ⟨k, _, k1, _, _, k4, _⟩ :=
      next_stripe_shape fs.blocksize sid p.coalesce_distance mib head rest hcd
    exact ⟨⟨_, k1⟩, by rw [k4]; exact Nat.le_add_right _ _⟩
  · intro sid mib head rest residual h1 h2
    have hn : 0 < head.num_blocks := (h1 head (List.mem_cons_self _ _)).1
    obtain ⟨k, _, k1, _, _, k4, _⟩ :=
      next_stripe_shape fs.blocksize sid p.coalesce_distance mib head rest hcd
    obtain ⟨_, _, _, _, _, _, d5, d6⟩ := drain_stripe_shape fs p mib sid head rest hcd hn
    have hpos := next_stripe_len_pos_sorted fs.blocksize sid p.coalesce_distance mib head rest
      hbs hcd h1 h2
    refine ⟨by rw [k4]; omega, hpos, d5, ?_⟩
    rw [d6]
    exact drain_requeue_pos _ hpos _ _

theorem next_stripe_absorbs_head_witness :
    ((next_stripe 4096 1 128000 0 three_files_list).1.consecutive_blocks = 2 ∧
      (next_stripe 4096 1 128000 0 three_files_list).1.consecutive_len = 8192) ∧
    (iterate_dir three_files_fs default_params 2 three_files_inodes).state.status
      = run_status.running ∧
    (iterate_dir three_files_fs default_params 2 three_files_inodes).block_list_start = [] :=
  ⟨by decide,
   (next_stripe_absorbs_head three_files_fs default_params 2 three_files_inodes
    (by decide) (by decide) (by decide) (by decide) (by decide) (by decide)).2.2.2⟩

/-! ### The end of the read loop -/

theorem admit_loop_full (max : Int) (il : List inode_list) (bls : List block_list)
    (s : dj_state) (h : ¬ s.open_inodes_count < max) :
    admit_loop max il bls s = (il, bls, s) := by
  cases il with
  | nil => rfl
  | cons e rest => simp only [admit_loop]; rw [if_neg h]

theorem read_loop_stalls (fs : ext2_filsys) (p : dj_params) (il : List inode_list)
    (s : dj_state) (hne : il ≠ []) (hfull : ¬ s.open_inodes_count < p.max_inodes)
    (hrun : s.status = run_status.running) (fuel : Nat) :
    (read_loop fs p fuel il [] s).finished = false := by
  induction fuel with
  | zero => simp [read_loop, hne]
  | succ f ih =>
    simp only [read_loop]
    rw [if_neg hne, admit_loop_full p.max_inodes il [] s hfull]
    dsimp only
    have hs : block_list_sort [] = [] := rfl
    rw [hs]
    simp only [List.length_nil, drain_loop]
    rw [if_pos hrun]
    exact ih

theorem read_loop_succ (fs : ext2_filsys) (p : dj_params) (fuel : Nat)
    (il : List inode_list) (bls : List block_list) (s : dj_state) (hne : il ≠ [])
    (hrun : (drain_loop fs p
      (max_inode_blocks p.max_blocks (admit_loop p.max_inodes il bls s).2.2.open_inodes_count)
      (block_list_sort (admit_loop p.max_inodes il bls s).2.1).length
      (block_list_sort (admit_loop p.max_inodes il bls s).2.1) []
      (admit_loop p.max_inodes il bls s).2.2).2.status = run_status.running) :
    read_loop fs p (fuel + 1) il bls s
      = read_loop fs p fuel (admit_loop p.max_inodes il bls s).1
          (drain_loop fs p
            (max_inode_blocks p.max_blocks
              (admit_loop p.max_inodes il bls s).2.2.open_inodes_count)
            (block_list_sort (admit_loop p.max_inodes il bls s).2.1).length
            (block_list_sort (admit_loop p.max_inodes il bls s).2.1) []
            (admit_loop p.max_inodes il bls s).2.2).1
          (drain_loop fs p
            (max_inode_blocks p.max_blocks
              (admit_loop p.max_inodes il bls s).2.2.open_inodes_count)
            (block_list_sort (admit_loop p.max_inodes il bls s).2.1).length
            (block_list_sort (admit_loop p.max_inodes il bls s).2.1) []
            (admit_loop p.max_inodes il bls s).2.2).2 := by
  simp only [read_loop]
  rw [if_neg hne, if_pos hrun]

/-- C20: with `max_inodes = 100` the read loop for the ten-block file of `ten_block_fs`
reaches its exit with `open_inodes_count = 1`, the file still holding 6 references; with
`max_inodes = 1` and a second file after it (`stalled_fs`), the second file is never admitted
and the outer loop does not reach its exit, for any number of iterations. -/
theorem read_loop_never_finishes :
    ((iterate_dir ten_block_fs default_params 1 [⟨12, 10, []⟩]).finished = true ∧
      (iterate_dir ten_block_fs default_params 1 [⟨12, 10, []⟩]).state.open_inodes_count
        = 1) ∧
    ∀ fuel, (iterate_dir stalled_fs one_inode_params fuel
      [⟨12, 10, []⟩, ⟨13, 1, []⟩]).finished = false := by
  refine ⟨by decide, ?_⟩
  intro fuel
  cases fuel with
  | zero => decide
  | succ f =>
    unfold iterate_dir
    dsimp only
    rw [read_loop_succ stalled_fs one_inode_params f _ _ _ (by decide) (by decide)]
    have hd : (drain_loop stalled_fs one_inode_params
        (max_inode_blocks one_inode_params.max_blocks
          (admit_loop one_inode_params.max_inodes
            (scan_blocks stalled_fs (inode_list_sort [⟨12, 10, []⟩, ⟨13, 1, []⟩])
              dj_state.init).1 []
            (scan_blocks stalled_fs (inode_list_sort [⟨12, 10, []⟩, ⟨13, 1, []⟩])
              dj_state.init).2).2.2.open_inodes_count)
        (block_list_sort (admit_loop one_inode_params.max_inodes
            (scan_blocks stalled_fs (inode_list_sort [⟨12, 10, []⟩, ⟨13, 1, []⟩])
              dj_state.init).1 []
            (scan_blocks stalled_fs (inode_list_sort [⟨12, 10, []⟩, ⟨13, 1, []⟩])
              dj_state.init).2).2.1).length
        (block_list_sort (admit_loop one_inode_params.max_inodes
            (scan_blocks stalled_fs (inode_list_sort [⟨12, 10, []⟩, ⟨13, 1, []⟩])
              dj_state.init).1 []
            (scan_blocks stalled_fs (inode_list_sort [⟨12, 10, []⟩, ⟨13, 1, []⟩])
              dj_state.init).2).2.1) []
        (admit_loop one_inode_params.max_inodes
            (scan_blocks stalled_fs (inode_list_sort [⟨12, 10, []⟩, ⟨13, 1, []⟩])
              dj_state.init).1 []
            (scan_blocks stalled_fs (inode_list_sort [⟨12, 10, []⟩, ⟨13, 1, []⟩])
              dj_state.init).2).2.2).1 = [] := by decide
    rw [hd]
    exact read_loop_stalls stalled_fs one_inode_params _ _ (by decide) (by decide) (by decide) f

/-! ### The heap interface -/

/-- C24: for a heap whose array has `max_size` cells: `heap_insert` on a heap that is not full
returns a heap (it does not exit) whose stored pairs are `(key, value)` and the pairs stored
before, with `heap_size` one larger; `heap_delmin` on a non-empty heap returns the value of
the pair at index 0, the pairs stored before are that pair and the pairs stored afterwards,
and `heap_size` is one smaller; `heap_min` returns the value at index 0 (it has no effect on
the heap). The array keeps its `max_size` cells. -/
theorem heap_keeps_elements {α : Type} [Inhabited α] (h : heap α) (hw : heap_wf h) :
    (∀ (key : Nat) (value : α), h.current_size ≠ h.max_size →
      ∃ h1, heap_insert h key value = some h1 ∧
        (heap_contents h1).Perm (⟨key, value⟩ :: heap_contents h) ∧
        heap_size h1 = heap_size h + 1 ∧ heap_wf h1) ∧
    (0 < heap_size h →
      (heap_delmin h).1 = (h.elems.getD 0 default).value ∧
      (heap_contents h).Perm (h.elems.getD 0 default :: heap_contents (heap_delmin h).2) ∧
      heap_size (heap_delmin h).2 + 1 = heap_size h ∧ heap_wf (heap_delmin h).2) ∧
    heap_min h = (h.elems.getD 0 default).value := by
  refine ⟨?_, ?_, rfl⟩
  · intro key value hfull
    have hsome : ∃ h1, heap_insert h key value = some h1 := by
      unfold heap_insert
      rw [if_neg hfull]
      exact ⟨_, rfl⟩
    obtain ⟨h1, hi⟩ := hsome
    obtain ⟨w1, _, w3, w4⟩ := heap_insert_some h h1 key value hw hi
    exact ⟨h1, hi, w4, w3, w1⟩
  · intro hpos
    obtain ⟨w1, _, w3, _, w5⟩ := heap_delmin_spec h hw hpos
    exact ⟨rfl, w5, w3, w1⟩

theorem heap_keeps_elements_witness :
    ((heap_insert (heap_create 2 : heap Nat) 5 105).map (fun h => heap_contents h)
      = some [⟨5, 105⟩]) ∧
    ((∀ (key : Nat) (value : Nat),
      (heap_create 2 : heap Nat).current_size ≠ (heap_create 2 : heap Nat).max_size →
      ∃ h1, heap_insert (heap_create 2 : heap Nat) key value = some h1 ∧
        (heap_contents h1).Perm (⟨key, value⟩ :: heap_contents (heap_create 2 : heap Nat)) ∧
        heap_size h1 = heap_size (heap_create 2 : heap Nat) + 1 ∧ heap_wf h1)) :=
  ⟨by decide, (heap_keeps_elements (heap_create 2 : heap Nat) (heap_create_wf 2)).1⟩

/-- C22: after the seven inserts of `heap_inserts_example` (distinct keys, capacity 7) the
array holds the keys 1, 2, 5, 3, 6, 7, 4: the key 4 at index 6 is below the key 5 of its
parent at index 2, and `verify_heap` fails. Before the last insert the heap (keys 1, 2, 5, 3,
6, 7) passes `verify_heap`. -/
theorem heap_insert_breaks_heap_property :
    ((run_heap_calls heap_inserts_example.dropLast (heap_create 7)).map
        (fun h => ((heap_contents h).map (fun e => e.key), verify_heap h))
      = some ([1, 2, 5, 3, 6, 7], true)) ∧
    ((run_heap_calls heap_inserts_example (heap_create 7)).map
        (fun h => ((heap_contents h).map (fun e => e.key), verify_heap h))
      = some ([1, 2, 5, 3, 6, 7, 4], false)) := by
  decide

/-! ### heapify_down restores the heap property -/

theorem verify_heap_iff {α : Type} [Inhabited α] (h : heap α) :
    verify_heap h = true ↔ heap_ordered h.current_size h.elems := by
  unfold verify_heap heap_ordered ordered_at
  simp only [List.all_eq_true, List.mem_range, Bool.and_eq_true, Bool.or_eq_true,
    Bool.not_eq_true', decide_eq_false_iff_not, decide_eq_true_eq, gt_iff_lt]
  constructor
  · intro hv i
    by_cases hi : i < h.current_size
    · have := hv i hi
      exact ⟨fun h1 => this.1.resolve_left (not_not.2 h1),
        fun h2 => this.2.resolve_left (not_not.2 h2)⟩
    · exact ⟨fun h1 => by omega, fun h2 => by omega⟩
  · intro ho i _
    have := ho i
    exact ⟨by by_cases h1 : 2 * i + 1 < h.current_size
              · exact Or.inr (this.1 h1)
              · exact Or.inl h1,
           by by_cases h2 : 2 * (i + 1) < h.current_size
              · exact Or.inr (this.2 h2)
              · exact Or.inl h2⟩

theorem swap_heap_elems_getD {α : Type} [Inhabited α] (l : List (heap_elem α))
    (i j k : Nat) (hi : i < l.length) (hj : j < l.length) :
    (swap_heap_elems l i j).getD k default
      = l.getD (if k = j then i else if k = i then j else k) default := by
  unfold swap_heap_elems
  simp only [List.getD_eq_getElem?_getD, List.getElem?_set, List.length_set]
  by_cases h1 : k = j
  · subst h1
    simp [hj]
  · by_cases h2 : k = i
    · subst h2
      simp [h1, hi, Ne.symm h1]
    · simp [h1, h2, Ne.symm h1, Ne.symm h2]

theorem heapify_down_swap_index_spec {α : Type} [Inhabited α] (n : Nat)
    (l : List (heap_elem α)) (index : Nat) :
    (heapify_down_swap_index n l index = 0 →
      (2 * index + 1 < n →
        (l.getD index default).key ≤ (l.getD (2 * index + 1) default).key) ∧
      (2 * (index + 1) < n →
        (l.getD index default).key ≤ (l.getD (2 * (index + 1)) default).key)) ∧
    (0 < heapify_down_swap_index n l index →
      (heapify_down_swap_index n l index = 2 * index + 1 ∨
        heapify_down_swap_index n l index = 2 * (index + 1)) ∧
      heapify_down_swap_index n l index < n ∧
      (l.getD (heapify_down_swap_index n l index) default).key < (l.getD index default).key ∧
      (2 * index + 1 < n →
        (l.getD (heapify_down_swap_index n l index) default).key
          ≤ (l.getD (2 * index + 1) default).key) ∧
      (2 * (index + 1) < n →
        (l.getD (heapify_down_swap_index n l index) default).key
          ≤ (l.getD (2 * (index + 1)) default).key)) := by
  unfold heapify_down_swap_index
  simp only [Bool.and_eq_true, decide_eq_true_eq]
  split_ifs with h1 h2 h3 h4
  · refine ⟨fun h0 => h0.elim, fun _ => ⟨Or.inl rfl, by omega, by omega, fun _ => le_refl _,
      fun _ => by omega⟩⟩
  · refine ⟨fun h0 => by omega, fun _ => ⟨Or.inr rfl, by omega, by omega, fun _ => by omega,
      fun _ => le_refl _⟩⟩
  · refine ⟨fun h0 => h0.elim, fun _ => ⟨Or.inl rfl, by omega, by omega, fun _ => le_refl _,
      fun hc => ?_⟩⟩
    have := fun hlt => h1 ⟨h3, hc, hlt⟩
    omega
  · refine ⟨fun h0 => by omega, fun _ => ⟨Or.inr rfl, by omega, by omega, fun hc => ?_,
      fun _ => le_refl _⟩⟩
    have := fun hlt => h3 ⟨hc, hlt⟩
    omega
  · refine ⟨fun _ => ⟨fun hc => ?_, fun hc => ?_⟩, fun hp => by omega⟩
    · have := fun hlt => h3 ⟨hc, hlt⟩
      omega
    · have := fun hlt => h4 ⟨hc, hlt⟩
      omega

theorem heap_ordered_of_down_inv_end {α : Type} [Inhabited α] (n : Nat)
    (l : List (heap_elem α)) (index : Nat) (hinv : down_inv n l index) (hi : ¬ index < n) :
    heap_ordered n l := by
  intro i
  by_cases hii : i = index
  · subst hii
    exact ⟨fun h => by omega, fun h => by omega⟩
  · exact hinv.1 i hii

theorem swap_heap_elems_key {α : Type} [Inhabited α] (l : List (heap_elem α))
    (index s : Nat) (hi : index < l.length) (hs : s < l.length) (k : Nat) :
    ((swap_heap_elems l index s).getD k default).key
      = if k = s then (l.getD index default).key
        else if k = index then (l.getD s default).key else (l.getD k default).key := by
  rw [swap_heap_elems_getD l index s k hi hs]
  split_ifs <;> rfl

theorem swap_keys_distinct {α : Type} [Inhabited α] (n : Nat) (l : List (heap_elem α))
    (index s : Nat) (hn : n ≤ l.length) (hi : index < n) (hsn : s < n)
    (hd : keys_distinct n l) : keys_distinct n (swap_heap_elems l index s) := by
  have hg := swap_heap_elems_key l index s (by omega) (by omega)
  intro a b ha hb hkey
  rw [hg a, hg b] at hkey
  by_cases a1 : a = s
  · by_cases b1 : b = s
    · omega
    · rw [if_pos a1, if_neg b1] at hkey
      by_cases b2 : b = index
      · rw [if_pos b2] at hkey
        have := hd index s hi hsn hkey
        omega
      · rw [if_neg b2] at hkey
        have := hd index b hi hb hkey
        omega
  · rw [if_neg a1] at hkey
    by_cases a2 : a = index
    · rw [if_pos a2] at hkey
      by_cases b1 : b = s
      · rw [if_pos b1] at hkey
        have := hd s index hsn hi hkey
        omega
      · rw [if_neg b1] at hkey
        by_cases b2 : b = index
        · omega
        · rw [if_neg b2] at hkey
          have := hd s b hsn hb hkey
          omega
    · rw [if_neg a2] at hkey
      by_cases b1 : b = s
      · rw [if_pos b1] at hkey
        have := hd a index ha hi hkey
        omega
      · rw [if_neg b1] at hkey
        by_cases b2 : b = index
        · rw [if_pos b2] at hkey
          have := hd a s ha hsn hkey
          omega
        · rw [if_neg b2] at hkey
          exact hd a b ha hb hkey

theorem swap_down_inv {α : Type} [Inhabited α] (n : Nat) (l : List (heap_elem α))
    (index s : Nat) (hn : n ≤ l.length) (hi : index < n) (hsn : s < n)
    (hinv : down_inv n l index) (hchild : s = 2 * index + 1 ∨ s = 2 * (index + 1))
    (hlt : (l.getD s default).key < (l.getD index default).key)
    (hlt1 : 2 * index + 1 < n → 2 * index + 1 ≠ s →
      (l.getD s default).key < (l.getD (2 * index + 1) default).key)
    (hlt2 : 2 * (index + 1) < n → 2 * (index + 1) ≠ s →
      (l.getD s default).key < (l.getD (2 * (index + 1)) default).key) :
    down_inv n (swap_heap_elems l index s) s := by
  have hg := swap_heap_elems_key l index s (by omega) (by omega)
  have hne : s ≠ index := by omega
  refine ⟨?_, ?_⟩
  · intro i his
    by_cases hii : i = index
    · subst hii
      refine ⟨fun hc => ?_, fun hc => ?_⟩
      · rw [hg i, hg (2 * i + 1), if_neg his, if_pos rfl]
        by_cases c1 : 2 * i + 1 = s
        · rw [if_pos c1]; exact hlt
        · rw [if_neg c1, if_neg (by omega)]; exact hlt1 hc c1
      · rw [hg i, hg (2 * (i + 1)), if_neg his, if_pos rfl]
        by_cases c1 : 2 * (i + 1) = s
        · rw [if_pos c1]; exact hlt
        · rw [if_neg c1, if_neg (by omega)]; exact hlt2 hc c1
    · refine ⟨fun hc => ?_, fun hc => ?_⟩
      · rw [hg i, hg (2 * i + 1), if_neg his, if_neg hii, if_neg (by omega)]
        by_cases c2 : 2 * i + 1 = index
        · rw [if_pos c2]
          exact hinv.2 i s (Or.inl c2.symm) hchild hsn
        · rw [if_neg c2]
          exact (hinv.1 i hii).1 hc
      · rw [hg i, hg (2 * (i + 1)), if_neg his, if_neg hii, if_neg (by omega)]
        by_cases c2 : 2 * (i + 1) = index
        · rw [if_pos c2]
          exact hinv.2 i s (Or.inr c2.symm) hchild hsn
        · rw [if_neg c2]
          exact (hinv.1 i hii).2 hc
  · intro i c hpar hch hcn
    have hii : i = index := by omega
    subst hii
    rw [hg i, hg c, if_neg (by omega), if_pos rfl, if_neg (by omega), if_neg (by omega)]
    rcases hch with hch | hch
    · subst hch; exact (hinv.1 s hne).1 hcn
    · subst hch; exact (hinv.1 s hne).2 hcn

theorem heapify_down_loop_ordered {α : Type} [Inhabited α] (fuel n : Nat)
    (l : List (heap_elem α)) (index : Nat) (hn : n ≤ l.length) (hd : keys_distinct n l)
    (hinv : down_inv n l index) (hfuel : n - index ≤ fuel) :
    heap_ordered n (heapify_down_loop fuel n l index) := by
  induction fuel generalizing l index with
  | zero => exact heap_ordered_of_down_inv_end n l index hinv (by omega)
  | succ f ih =>
    simp only [heapify_down_loop]
    by_cases hi : index < n
    swap
    · rw [if_neg hi]; exact heap_ordered_of_down_inv_end n l index hinv hi
    rw [if_pos hi]
    obtain ⟨spec0, specp⟩ := heapify_down_swap_index_spec n l index
    by_cases hs : heapify_down_swap_index n l index > 0
    swap
    · rw [if_neg hs]
      have hz : heapify_down_swap_index n l index = 0 := by omega
      obtain ⟨z1, z2⟩ := spec0 hz
      intro i
      by_cases hii : i = index
      · subst hii
        refine ⟨fun hc => ?_, fun hc => ?_⟩
        · have h1 := z1 hc
          have h2 := hd i (2 * i + 1) hi hc
          by_contra hcon
          have : (l.getD i default).key = (l.getD (2 * i + 1) default).key := by omega
          have := h2 this
          omega
        · have h1 := z2 hc
          have h2 := hd i (2 * (i + 1)) hi hc
          by_contra hcon
          have : (l.getD i default).key = (l.getD (2 * (i + 1)) default).key := by omega
          have := h2 this
          omega
      · exact hinv.1 i hii
    rw [if_pos hs]
    obtain ⟨hchild, hsn, hlt, hle1, hle2⟩ := specp hs
    generalize heapify_down_swap_index n l index = s at hs hchild hsn hlt hle1 hle2 ⊢
    have hlt1 : 2 * index + 1 < n → 2 * index + 1 ≠ s →
        (l.getD s default).key < (l.getD (2 * index + 1) default).key := by
      intro hc hcs
      have h1 := hle1 hc
      have h2 := hd s (2 * index + 1) hsn hc
      by_contra hcon
      have : (l.getD s default).key = (l.getD (2 * index + 1) default).key := by omega
      exact hcs (h2 this).symm
    have hlt2 : 2 * (index + 1) < n → 2 * (index + 1) ≠ s →
        (l.getD s default).key < (l.getD (2 * (index + 1)) default).key := by
      intro hc hcs
      have h1 := hle2 hc
      have h2 := hd s (2 * (index + 1)) hsn hc
      by_contra hcon
      have : (l.getD s default).key = (l.getD (2 * (index + 1)) default).key := by omega
      exact hcs (h2 this).symm
    exact ih (swap_heap_elems l index s) s (by rw [swap_heap_elems_length]; exact hn)
      (swap_keys_distinct n l index s hn hi hsn hd)
      (swap_down_inv n l index s hn hi hsn hinv hchild hlt hlt1 hlt2) (by omega)

theorem heap_ordered_min {α : Type} [Inhabited α] (n : Nat) (l : List (heap_elem α))
    (ho : heap_ordered n l) (i : Nat) (hi : i < n) :
    (l.getD 0 default).key ≤ (l.getD i default).key := by
  induction i using Nat.strong_induction_on with
  | _ i ih =>
    by_cases h0 : i = 0
    · subst h0; exact le_refl _
    · have hp := ih ((i - 1) / 2) (by omega) (by omega)
      have hc := ho ((i - 1) / 2)
      rcases Nat.even_or_odd' (i - 1) with ⟨m, hm | hm⟩
      · have e1 : (i - 1) / 2 = m := by omega
        rw [e1] at hp hc
        have e2 : i = 2 * m + 1 := by omega
        have := hc.1 (by omega)
        rw [← e2] at this
        omega
      · have e1 : (i - 1) / 2 = m := by omega
        rw [e1] at hp hc
        have e2 : i = 2 * (m + 1) := by omega
        have := hc.2 (by omega)
        rw [← e2] at this
        omega

theorem keys_distinct_of_nodup {α : Type} [Inhabited α] (n : Nat) (l : List (heap_elem α))
    (hn : n ≤ l.length) (h : ((l.take n).map (fun e => e.key)).Nodup) :
    keys_distinct n l := by
  intro i j hi hj hk
  have hli : i < ((l.take n).map (fun e => e.key)).length := by simp; omega
  have hlj : j < ((l.take n).map (fun e => e.key)).length := by simp; omega
  have e1 : ((l.take n).map (fun e => e.key))[i] = (l.getD i default).key := by
    simp [List.getD_eq_getElem?_getD, List.getElem?_eq_getElem (show i < l.length by omega)]
  have e2 : ((l.take n).map (fun e => e.key))[j] = (l.getD j default).key := by
    simp [List.getD_eq_getElem?_getD, List.getElem?_eq_getElem (show j < l.length by omega)]
  exact (List.Nodup.getElem_inj_iff h).1 (by rw [e1, e2]; exact hk)

theorem set_zero_key {α : Type} [Inhabited α] (l : List (heap_elem α)) (x : heap_elem α)
    (hl : 0 < l.length) (k : Nat) :
    ((l.set 0 x).getD k default).key
      = if k = 0 then x.key else (l.getD k default).key := by
  simp only [List.getD_eq_getElem?_getD, List.getElem?_set]
  by_cases hk : k = 0
  · subst hk; simp [hl]
  · simp [hk, Ne.symm hk]

/-- C23: for a non-empty heap (its array of `max_size` cells) with pairwise distinct keys
that passes `verify_heap`: `heap_delmin` returns the value stored at index 0, whose key is the
smallest of the stored keys, and the heap it leaves passes `verify_heap`. -/
theorem heap_delmin_keeps_order {α : Type} [Inhabited α] (h : heap α) (hw : heap_wf h)
    (hpos : 0 < heap_size h) (hv : verify_heap h = true)
    (hd : ((heap_contents h).map (fun e => e.key)).Nodup) :
    verify_heap (heap_delmin h).2 = true ∧
    (heap_delmin h).1 = (h.elems.getD 0 default).value ∧
    (∀ e ∈ heap_contents h, (h.elems.getD 0 default).key ≤ e.key) := by
  obtain ⟨hl, hc⟩ := hw
  have hpos1 : 0 < h.current_size := hpos
  have ho := (verify_heap_iff h).1 hv
  have hkd := keys_distinct_of_nodup h.current_size h.elems (by omega) hd
  refine ⟨?_, rfl, ?_⟩
  · rw [verify_heap_iff]
    show heap_ordered (h.current_size - 1)
      (heapify_down_loop (h.current_size - 1) (h.current_size - 1)
        (h.elems.set 0 (h.elems.getD (h.current_size - 1) default)) 0)
    have hg := set_zero_key h.elems (h.elems.getD (h.current_size - 1) default) (by omega)
    apply heapify_down_loop_ordered
    · rw [List.length_set]; omega
    · intro a b ha hb hkey
      rw [hg a, hg b] at hkey
      by_cases a0 : a = 0
      · by_cases b0 : b = 0
        · omega
        · rw [if_pos a0, if_neg b0] at hkey
          have := hkd (h.current_size - 1) b (by omega) (by omega) hkey
          omega
      · rw [if_neg a0] at hkey
        by_cases b0 : b = 0
        · rw [if_pos b0] at hkey
          have := hkd a (h.current_size - 1) (by omega) (by omega) hkey
          omega
        · rw [if_neg b0] at hkey
          exact hkd a b (by omega) (by omega) hkey
    · refine ⟨?_, fun i c hpar => by omega⟩
      intro i hi0
      refine ⟨fun hc1 => ?_, fun hc1 => ?_⟩
      · rw [hg i, hg (2 * i + 1), if_neg hi0, if_neg (by omega)]
        exact (ho i).1 (by omega)
      · rw [hg i, hg (2 * (i + 1)), if_neg hi0, if_neg (by omega)]
        exact (ho i).2 (by omega)
    · omega
  · intro e he
    unfold heap_contents at he
    obtain ⟨i, hi, rfl⟩ := List.getElem_of_mem he
    have hi1 : i < h.current_size := by
      rw [List.length_take] at hi
      omega
    have := heap_ordered_min h.current_size h.elems ho i hi1
    have e1 : (h.elems.take h.current_size)[i] = h.elems.getD i default := by
      simp [List.getD_eq_getElem?_getD, List.getElem?_eq_getElem (show i < h.elems.length by omega)]
    rw [e1]
    exact this

theorem heap_delmin_keeps_order_witness :
    ((verify_heap ordered_heap_example = true) ∧
      (heap_contents (heap_delmin ordered_heap_example).2).map (fun e => e.key) = [2, 5, 6]) ∧
    (verify_heap (heap_delmin ordered_heap_example).2 = true ∧
    (heap_delmin ordered_heap_example).1
      = (ordered_heap_example.elems.getD 0 default).value ∧
    (∀ e ∈ heap_contents ordered_heap_example,
      (ordered_heap_example.elems.getD 0 default).key ≤ e.key)) :=
  ⟨by decide,
   heap_delmin_keeps_order ordered_heap_example ⟨rfl, by decide⟩ (by decide) (by decide)
    (by decide)⟩

/-! ### The logical order of the records of an inode -/

theorem logical_chain_append (start : Nat) (l : List block_list) (b : block_list) :
    logical_chain start (l ++ [b]) ↔
      logical_chain start l ∧
        b.logical_block = start + (l.map (fun x => x.num_blocks)).sum := by
  induction l generalizing start with
  | nil => simp [logical_chain]
  | cons a t ih =>
    show (a.logical_block = start ∧ logical_chain (start + a.num_blocks) (t ++ [b])) ↔
      (a.logical_block = start ∧ logical_chain (start + a.num_blocks) t) ∧ _
    rw [ih, List.map_cons, List.sum_cons, Nat.add_assoc]
    exact and_assoc.symm

theorem foldl_range'_inv_bounded {β : Type} (P : Nat → β → Prop) (f : β → Nat → β)
    (n start : Nat)
    (hf : ∀ j acc, start ≤ j → j < start + n → P j acc → P (j + 1) (f acc j)) (init : β)
    (h : P start init) : P (start + n) ((List.range' start n).foldl f init) := by
  induction n generalizing start init with
  | zero => exact h
  | succ k ih =>
    rw [List.range'_succ, List.foldl_cons]
    have := ih (start + 1) (fun j acc h1 h2 => hf j acc (by omega) (by omega)) (f init start)
      (hf _ _ (le_refl _) (by omega) h)
    rw [show start + (k + 1) = start + 1 + k by omega]
    exact this

theorem scan_block_rec_hole (fuel bs i : Nat) (si : scan_blocks_info)
    (hs : si.inode_info.blocks_scanned = i) (hlen : i * bs < si.inode_info.len)
    (h : scan_chain si) :
    (scan_block_rec (fuel + 1) bs 0 i si).inode_info.blocks_scanned = i + 1 ∧
    (scan_block_rec (fuel + 1) bs 0 i si).inode_info.len = si.inode_info.len ∧
    scan_chain (scan_block_rec (fuel + 1) bs 0 i si) := by
  obtain ⟨c1, c2, c3⟩ := h
  simp only [scan_block_rec]
  rw [if_neg (by omega)]
  have hext : (match si.blocks.getLast? with
      | some blocks_end => decide (blocks_end.physical_block + blocks_end.num_blocks = 0)
      | none => false) = false := by
    cases hlast : si.blocks.getLast? with
    | none => rfl
    | some last =>
      have := c3 last (List.mem_of_mem_getLast? hlast)
      simp only [decide_eq_false_iff_not]
      omega
  rw [hext]
  simp only [Bool.false_eq_true, if_false]
  rw [hs, Nat.sub_self]
  simp only [List.range'_zero, List.foldl_nil]
  refine ⟨trivial, trivial, ?_, ?_, ?_⟩
  · rw [logical_chain_append]
    exact ⟨c1, by simp [scan_block_extend, ← c2, hs]⟩
  · simp only [List.map_append, List.sum_append, List.map_cons, List.map_nil, List.sum_cons,
      List.sum_nil]
    rw [← c2, hs]
    simp [scan_block_extend]
  · intro b hb
    rcases List.mem_append.1 hb with hb | hb
    · exact c3 b hb
    · simp only [List.mem_singleton] at hb
      subst hb
      simp [scan_block_extend]

theorem scan_block_rec_chain (fuel bs phys logical : Nat) (si : scan_blocks_info)
    (hfuel : logical < fuel) (hle : si.inode_info.blocks_scanned ≤ logical)
    (h : scan_chain si) :
    (scan_block_rec fuel bs phys logical si).inode_info.blocks_scanned ≤ logical + 1 ∧
    scan_chain (scan_block_rec fuel bs phys logical si) := by
  cases fuel with
  | zero => omega
  | succ f =>
    obtain ⟨c1, c2, c3⟩ := h
    simp only [scan_block_rec]
    by_cases h1 : logical * bs ≥ si.inode_info.len ∨ si.inode_info.len = 0
    · rw [if_pos h1]; exact ⟨by omega, c1, c2, c3⟩
    rw [if_neg h1]
    split_ifs with h2
    · cases hlast : si.blocks.getLast? with
      | none => rw [hlast] at h2; simp at h2
      | some last =>
        have hne : si.blocks ≠ [] := by
          intro hn; rw [hn] at hlast; simp at hlast
        have hl : si.blocks = si.blocks.dropLast ++ [last] := by
          have e1 := List.dropLast_append_getLast hne
          have e2 : si.blocks.getLast hne = last := by
            rw [List.getLast?_eq_getLast _ hne] at hlast
            exact Option.some.inj hlast
          rw [e2] at e1
          exact e1.symm
        refine ⟨?_, ?_, ?_, ?_⟩
        · show si.inode_info.blocks_scanned + 1 ≤ logical + 1
          omega
        · simp only [Option.getD_some]
          rw [hl] at c1
          rw [logical_chain_append] at c1 ⊢
          exact ⟨c1.1, c1.2⟩
        · show si.inode_info.blocks_scanned + 1 = _
          rw [sum_dropLast_concat si.blocks last _ hlast (by simp [scan_block_extend]), c2]
        · intro b hb
          rcases List.mem_append.1 hb with hb | hb
          · exact c3 b (List.dropLast_subset _ hb)
          · simp only [List.mem_singleton] at hb
            subst hb
            simp [scan_block_extend]
    · have hlt : logical * bs < si.inode_info.len := by omega
      obtain ⟨g, hg⟩ : ∃ g, f = g + 1 ∨ si.inode_info.blocks_scanned = logical := by
        by_cases hz : f = 0
        · exact ⟨0, Or.inr (by omega)⟩
        · exact ⟨f - 1, Or.inl (by omega)⟩
      have h3 := foldl_range'_inv_bounded
        (fun j (acc : scan_blocks_info) => acc.inode_info.blocks_scanned = j ∧
          acc.inode_info.len = si.inode_info.len ∧ scan_chain acc)
        (fun acc i => scan_block_rec f bs 0 i acc)
        (logical - si.inode_info.blocks_scanned) si.inode_info.blocks_scanned
        (by
          intro j acc hj1 hj2 hacc
          rcases hg with hg | hg
          · subst hg
            have hjl : j * bs < acc.inode_info.len := by
              rw [hacc.2.1]
              exact lt_of_le_of_lt (Nat.mul_le_mul_right _ (by omega)) hlt
            obtain ⟨r1, r2, r3⟩ := scan_block_rec_hole g bs j acc hacc.1 hjl hacc.2.2
            exact ⟨r1, r2.trans hacc.2.1, r3⟩
          · omega)
        { si with inode_info := { si.inode_info with
            references := si.inode_info.references + 1 } }
        ⟨rfl, rfl, c1, c2, c3⟩
      rw [show si.inode_info.blocks_scanned + (logical - si.inode_info.blocks_scanned)
        = logical by omega] at h3
      generalize (List.range' si.inode_info.blocks_scanned
        (logical - si.inode_info.blocks_scanned)).foldl
          (fun acc i => scan_block_rec f bs 0 i acc)
          { si with inode_info := { si.inode_info with
              references := si.inode_info.references + 1 } } = si2 at h3 ⊢
      obtain ⟨d1, _, d2, d3, d4⟩ := h3
      refine ⟨?_, ?_, ?_, ?_⟩
      · show si2.inode_info.blocks_scanned + 1 ≤ logical + 1
        omega
      · rw [logical_chain_append]
        exact ⟨d2, by simp [scan_block_extend, ← d3, d1]⟩
      · simp only [List.map_append, List.sum_append, List.map_cons, List.map_nil,
          List.sum_cons, List.sum_nil]
        rw [← d3]
        simp [scan_block_extend]
      · intro b hb
        rcases List.mem_append.1 hb with hb | hb
        · exact d4 b hb
        · simp only [List.mem_singleton] at hb
          subst hb
          simp [scan_block_extend]

theorem scan_callbacks_chain (bs : Nat) (cbs : List (Nat × Nat))
    (hinc : (cbs.map (fun cb => cb.2)).Pairwise (fun x y => x < y)) (m : Nat)
    (hm : ∀ cb ∈ cbs, m ≤ cb.2) (si : scan_blocks_info)
    (hle : si.inode_info.blocks_scanned ≤ m) (h : scan_chain si) :
    scan_chain (cbs.foldl (fun acc cb => scan_block bs cb.1 cb.2 acc) si) := by
  induction cbs generalizing m si with
  | nil => exact h
  | cons cb rest ih =>
    rw [List.map_cons, List.pairwise_cons] at hinc
    rw [List.foldl_cons]
    obtain ⟨r1, r2⟩ := scan_block_rec_chain (cb.2 + 1) bs cb.1 cb.2 si (by omega)
      (le_trans hle (hm cb (List.mem_cons_self _ _))) h
    refine ih hinc.2 (cb.2 + 1) ?_ _ r1 r2
    intro cb1 hcb1
    exact hinc.1 cb1.2 (List.mem_map_of_mem _ hcb1)

theorem scan_inode_chain (fs : ext2_filsys) (e : inode_list) (id : Nat)
    (he : e.blocks = []) (hinc : callbacks_increasing fs e.index) :
    scan_chain (scan_inode fs e id) := by
  unfold scan_inode
  apply scan_callbacks_chain fs.blocksize (fs.block_iterate e.index) hinc 0
    (fun _ _ => Nat.zero_le _)
  · exact le_refl _
  · rw [he]
    exact ⟨trivial, rfl, by simp⟩

/-! ### Delivery in list order -/

theorem logical_chain_getElem (start : Nat) (L : List block_list)
    (h : logical_chain start L) (j : Nat) (hj : j < L.length) :
    (L.get ⟨j, hj⟩).logical_block = start + ((L.take j).map (fun b => b.num_blocks)).sum := by
  induction L generalizing start j with
  | nil => simp at hj
  | cons a t ih =>
    cases j with
    | zero => simpa using h.1
    | succ i =>
      have := ih (start + a.num_blocks) h.2 i (by simpa using hj)
      simp only [List.get_eq_getElem, List.getElem_cons_succ, List.take_succ_cons,
        List.map_cons, List.sum_cons] at this ⊢
      omega

theorem take_sum_lt (L : List block_list) (hpos : ∀ b ∈ L, 0 < b.num_blocks) (j k : Nat)
    (hjk : j < k) (hk : k ≤ L.length) :
    ((L.take j).map (fun b => b.num_blocks)).sum
      < ((L.take k).map (fun b => b.num_blocks)).sum := by
  induction L generalizing j k with
  | nil => simp at hk; omega
  | cons a t ih =>
    cases k with
    | zero => omega
    | succ k1 =>
      have ha := hpos a (List.mem_cons_self _ _)
      cases j with
      | zero => simp; omega
      | succ j1 =>
        have := ih (fun b hb => hpos b (List.mem_cons_of_mem _ hb)) j1 k1 (by omega)
          (by simpa using hk)
        simp only [List.take_succ_cons, List.map_cons, List.sum_cons]
        omega

theorem chain_next_record (L : List block_list) (hchain : logical_chain 0 L)
    (hpos : ∀ b ∈ L, 0 < b.num_blocks) (k : Nat) (hk : k ≤ L.length) (e : block_list)
    (he : ∃ b0 ∈ L, same_extent e b0)
    (hlog : e.logical_block = ((L.take k).map (fun b => b.num_blocks)).sum) :
    ∃ hlt : k < L.length, same_extent e (L.get ⟨k, hlt⟩) := by
  obtain ⟨b0, hb0, hs⟩ := he
  obtain ⟨⟨j, hj⟩, hget⟩ := List.mem_iff_get.1 hb0
  have h1 := logical_chain_getElem 0 L hchain j hj
  rw [hget, ← hs.1, hlog, Nat.zero_add] at h1
  have hjk : j = k := by
    rcases Nat.lt_trichotomy j k with h | h | h
    · have := take_sum_lt L hpos j k h hk; omega
    · exact h
    · have := take_sum_lt L hpos k j h (by omega); omega
  subst hjk
  exact ⟨hj, by rw [hget]; exact hs⟩

theorem order_inv_frame (k0 bs : Nat) (L : List block_list) (id : Nat) (s s1 : dj_state)
    (h : order_inv k0 bs L id s) (hi : s1.infos[id]? = s.infos[id]?)
    (hc : ∃ extra, s1.calls = s.calls ++ extra ∧ ∀ c ∈ extra, c.cb_private ≠ id) :
    order_inv k0 bs L id s1 := by
  obtain ⟨info, k, h1, h2, h3, h4, h5, h6⟩ := h
  obtain ⟨extra, he, hne⟩ := hc
  refine ⟨info, k, by rw [hi, h1], by rw [he]; simp; omega, h3, h4, h5, ?_⟩
  have : calls_of id (s1.calls.drop k0) = calls_of id (s.calls.drop k0) := by
    rw [he, List.drop_append_of_le_length h2]
    simp only [calls_of, List.filter_append]
    have : extra.filter (fun c => decide (c.cb_private = id)) = [] := by
      simp only [List.filter_eq_nil_iff, decide_eq_true_eq]
      exact hne
    rw [this, List.append_nil]
  rw [this]; exact h6

theorem flush_deliver_order_inv (k0 bs : Nat) (L : List block_list) (id id1 : Nat)
    (hchain : logical_chain 0 L) (hpos : ∀ b ∈ L, 0 < b.num_blocks) (s : dj_state)
    (info : inode_cb_info) (cache : heap block_list) (sid : Nat) (st : stripe)
    (h : order_inv k0 bs L id s) (h1 : s.infos[id1]? = some info)
    (h2 : info.block_cache = some cache) (h3 : 0 < cache.current_size)
    (h4 : (heap_min cache).logical_block = info.blocks_read) :
    order_inv k0 bs L id (flush_deliver bs id1 s info cache sid st).1 := by
  by_cases hid : id1 = id
  · subst hid
    obtain ⟨info0, k, g1, g2, g3, g4, g5, g6⟩ := h
    rw [h1] at g1
    cases g1
    obtain ⟨hw, hall⟩ := g5 cache h2
    have hmin := heap_min_mem cache hw h3
    have hdel := heap_delmin_spec cache hw h3
    have hnext : ∃ b0 ∈ L, same_extent (heap_min cache) b0 := by
      rw [hmin.2]; exact hall _ hmin.1
    obtain ⟨hlt, hsame⟩ := chain_next_record L hchain hpos k g3 (heap_min cache) hnext
      (by rw [h4, g4])
    have htake : L.take (k + 1) = L.take k ++ [L.get ⟨k, hlt⟩] := by
      rw [List.take_succ, List.getElem?_eq_getElem hlt]
      rfl
    have hcalls : ∀ c : cb_call, c.cb_private = id1 →
        c.pos = (heap_min cache).logical_block * bs →
        c.data_len = (heap_min cache).stripe_ptr.len →
        (calls_of id1 ((s.calls ++ [c]).drop k0)).map (fun c => (c.pos, c.data_len))
          = (L.take (k + 1)).map (fun b => (b.logical_block * bs, b.stripe_ptr.len)) := by
      intro c e1 e2 e3
      rw [calls_of_drop_append_self k0 id1 s.calls _ g2 e1, List.map_append, g6, htake,
        List.map_append]
      simp only [List.map_cons, List.map_nil]
      rw [e2, e3, hsame.1, hsame.2.2]
    have hread : info.blocks_read + (heap_min cache).num_blocks
        = ((L.take (k + 1)).map (fun b => b.num_blocks)).sum := by
      rw [htake, List.map_append, List.sum_append, ← g4, hsame.2.1]
      simp
    unfold flush_deliver
    dsimp only
    by_cases hz : info.references - 1 = 0
    · rw [if_pos hz]
      refine ⟨_, k + 1, getElem?_set_self_of_some _ _ _ _ h1, ?_, hlt, hread, ?_,
        hcalls _ rfl rfl rfl⟩
      · simp; omega
      · intro c hc; cases hc
    · rw [if_neg hz]
      refine ⟨_, k + 1, getElem?_set_self_of_some _ _ _ _ h1, ?_, hlt, hread, ?_,
        hcalls _ rfl rfl rfl⟩
      · simp; omega
      · intro c hc
        simp only [Option.some.injEq] at hc
        subst hc
        refine ⟨hdel.1, ?_⟩
        intro e he
        exact hall e (hdel.2.2.2.2.symm.subset (List.mem_cons_of_mem _ he))
  · unfold flush_deliver
    dsimp only
    by_cases hz : info.references - 1 = 0
    · rw [if_pos hz]
      refine order_inv_frame k0 bs L id s _ h ?_ ⟨_, rfl, ?_⟩
      · exact List.getElem?_set_ne hid
      · intro c hc; simp at hc; subst hc; exact hid
    · rw [if_neg hz]
      refine order_inv_frame k0 bs L id s _ h ?_ ⟨_, rfl, ?_⟩
      · exact List.getElem?_set_ne hid
      · intro c hc; simp at hc; subst hc; exact hid

theorem flush_iteration_order_inv (k0 bs : Nat) (L : List block_list) (id id1 : Nat)
    (hchain : logical_chain 0 L) (hpos : ∀ b ∈ L, 0 < b.num_blocks) (s : dj_state)
    (h : order_inv k0 bs L id s) : order_inv k0 bs L id (flush_iteration bs id1 s).1 := by
  rcases flush_iteration_cases bs id1 s with ⟨w, hw⟩ | hs | ⟨info, cache, h1, h2, h3, he⟩ |
    ⟨info, cache, sid, st, h1, _, h2, h3, h4, _, _, _, _, he⟩
  · rw [hw]; exact h
  · rw [hs]; exact h
  · rw [he]
    by_cases hid : id1 = id
    · subst hid
      obtain ⟨info0, k, g1, g2, g3, g4, g5, g6⟩ := h
      rw [h1] at g1
      cases g1
      obtain ⟨hw, hall⟩ := g5 cache h2
      have hdel := heap_delmin_spec cache hw h3
      refine ⟨_, k, getElem?_set_self_of_some _ _ _ _ h1, g2, g3, g4, ?_, g6⟩
      intro c hc
      simp only [Option.some.injEq] at hc
      subst hc
      exact ⟨hdel.1, fun e he =>
        hall e (hdel.2.2.2.2.symm.subset (List.mem_cons_of_mem _ he))⟩
    · exact order_inv_frame k0 bs L id s _ h (List.getElem?_set_ne hid)
        ⟨[], by simp [dj_state.stop], by simp⟩
  · rw [he]
    exact flush_deliver_order_inv k0 bs L id id1 hchain hpos s info cache sid st h h1 h2 h3 h4

theorem flush_loop_order_inv (k0 bs : Nat) (L : List block_list) (id id1 : Nat)
    (hchain : logical_chain 0 L) (hpos : ∀ b ∈ L, 0 < b.num_blocks) (fuel : Nat)
    (s : dj_state) (h : order_inv k0 bs L id s) :
    order_inv k0 bs L id (flush_loop fuel bs id1 s) := by
  induction fuel generalizing s with
  | zero => exact h
  | succ f ih =>
    simp only [flush_loop]
    have h1 := flush_iteration_order_inv k0 bs L id id1 hchain hpos s h
    split_ifs
    · exact ih _ h1
    · exact h1

theorem flush_inode_blocks_order_inv (k0 bs : Nat) (L : List block_list) (id id1 : Nat)
    (hchain : logical_chain 0 L) (hpos : ∀ b ∈ L, 0 < b.num_blocks)
    (s : dj_state) (h : order_inv k0 bs L id s) :
    order_inv k0 bs L id (flush_inode_blocks bs id1 s) := by
  unfold flush_inode_blocks
  split
  · exact h
  · split
    · exact h
    · exact flush_loop_order_inv k0 bs L id id1 hchain hpos _ s h

theorem heapify_block_order_inv (k0 : Nat) (L : List block_list) (id : Nat)
    (fs : ext2_filsys) (hchain : logical_chain 0 L) (hpos : ∀ b ∈ L, 0 < b.num_blocks)
    (b : block_list) (s : dj_state)
    (hb : b.inode_info = id → ∃ b0 ∈ L, same_extent b b0)
    (h : order_inv k0 fs.blocksize L id s) :
    order_inv k0 fs.blocksize L id (heapify_block fs b s) := by
  unfold heapify_block
  cases h1 : s.infos[b.inode_info]? with
  | none => exact h
  | some info =>
    dsimp only
    by_cases hf : info.freed = true
    · rw [if_pos hf]; exact h
    rw [if_neg hf]
    by_cases hneg : info.block_cache.isNone = true
        ∧ heap_create_size info.len fs.blocksize < 0
    · rw [if_pos hneg]; exact h
    rw [if_neg hneg]
    cases h2 : heap_insert (match info.block_cache with
        | none => heap_create (heap_create_size info.len fs.blocksize).toNat
        | some cache => cache) b.logical_block b with
    | none => exact h
    | some cache1 =>
      dsimp only
      apply flush_inode_blocks_order_inv k0 _ L id _ hchain hpos
      by_cases hid : b.inode_info = id
      · obtain ⟨info0, k, g1, g2, g3, g4, g5, g6⟩ := h
        rw [← hid, h1] at g1
        cases g1
        have hwf : heap_wf (match info.block_cache with
            | none => heap_create (heap_create_size info.len fs.blocksize).toNat
            | some cache => cache) ∧ ∀ e ∈ heap_contents (match info.block_cache with
            | none => heap_create (heap_create_size info.len fs.blocksize).toNat
            | some cache => cache), ∃ b0 ∈ L, same_extent e.value b0 := by
          cases hc : info.block_cache with
          | none => exact ⟨heap_create_wf _, by simp [heap_contents, heap_create]⟩
          | some c => exact g5 c hc
        have hins := heap_insert_some _ _ _ _ hwf.1 h2
        refine ⟨{ info with block_cache := some cache1 }, k, ?_, g2, g3, g4, ?_, g6⟩
        · rw [← hid]; exact getElem?_set_self_of_some _ _ _ _ h1
        · intro c hc
          simp only [Option.some.injEq] at hc
          subst hc
          refine ⟨hins.1, ?_⟩
          intro e he
          rcases List.mem_cons.1 (hins.2.2.2.subset he) with he1 | he1
          · subst he1; exact hb hid
          · exact hwf.2 e he1
      · exact order_inv_frame k0 _ L id s _ h (List.getElem?_set_ne hid)
          ⟨[], by simp, by simp⟩

theorem heapify_stripe_loop_order_inv (k0 : Nat) (L : List block_list) (id : Nat)
    (fs : ext2_filsys) (hchain : logical_chain 0 L) (hpos : ∀ b ∈ L, 0 < b.num_blocks)
    (cb : Nat) (l : List block_list)
    (hl : ∀ b ∈ l, b.inode_info = id → ∃ b0 ∈ L, same_extent b b0) (rb : Nat)
    (s : dj_state) (h : order_inv k0 fs.blocksize L id s) :
    order_inv k0 fs.blocksize L id (heapify_stripe_loop fs cb rb l s).2 := by
  induction l generalizing rb s with
  | nil =>
    simp only [heapify_stripe_loop]
    split_ifs
    · exact h
    · exact h
  | cons b rest ih =>
    simp only [heapify_stripe_loop]
    have h1 := heapify_block_order_inv k0 L id fs hchain hpos b s
      (hl b (List.mem_cons_self _ _)) h
    split_ifs
    · exact ih (fun x hx => hl x (List.mem_cons_of_mem _ hx)) _ _ h1
    · exact h1
    · exact h

theorem logical_chain_head (start : Nat) (L : List block_list) (h : logical_chain start L) :
    ∀ b, L.head? = some b → b.logical_block = start := by
  intro b hb
  cases L with
  | nil => cases hb
  | cons a t =>
    simp only [List.head?_cons, Option.some.injEq] at hb
    subst hb
    exact h.1

theorem logical_chain_chain (start : Nat) (L : List block_list) (h : logical_chain start L) :
    L.Chain' (fun a b => b.logical_block = a.logical_block + a.num_blocks) := by
  induction L generalizing start with
  | nil => exact List.chain'_nil
  | cons a t ih =>
    cases t with
    | nil => exact List.chain'_singleton _
    | cons c u =>
      refine List.chain'_cons.2 ⟨?_, ih _ h.2⟩
      rw [h.2.1, h.1]

theorem logical_chain_ge (start : Nat) (L : List block_list) (h : logical_chain start L) :
    ∀ b ∈ L, start ≤ b.logical_block := by
  induction L generalizing start with
  | nil => simp
  | cons a t ih =>
    intro b hb
    rcases List.mem_cons.1 hb with hb | hb
    · subst hb; exact le_of_eq h.1.symm
    · exact le_trans (Nat.le_add_right _ _) (ih _ h.2 b hb)

theorem logical_chain_increasing (start : Nat) (L : List block_list)
    (h : logical_chain start L) (hpos : ∀ b ∈ L, 0 < b.num_blocks) :
    (L.map (fun b => b.logical_block)).Pairwise (fun x y => x < y) := by
  induction L generalizing start with
  | nil => simp
  | cons a t ih =>
    rw [List.map_cons, List.pairwise_cons]
    refine ⟨?_, ih _ h.2 (fun b hb => hpos b (List.mem_cons_of_mem _ hb))⟩
    intro x hx
    obtain ⟨b, hb, rfl⟩ := List.mem_map.1 hx
    have := logical_chain_ge _ t h.2 b hb
    have := hpos a (List.mem_cons_self _ _)
    have := h.1
    omega

/-- The part of the order of delivery that holds on every input: the records of a file are
those `scan_block` attached (`entry` scanned in state
`s0`, the callbacks of `ext2fs_block_iterate3` coming with strictly increasing logical block
numbers). In list order, the first record has `logical_block` 0 and each next record starts
at the previous record's `logical_block + num_blocks`, so the logical starts are strictly
increasing along the list (no two heap keys are equal). When `heapify_stripe` then inserts
records in any order `order` (records of other files among them), starting in any state
`s1` in which the file's `inode_cb_info` is as the scan left it, the invocations that
`flush_inode_blocks` makes for the file are, in this order, those of the first `k` records
of the list, and `blocks_read` is the number of blocks of these `k` records. -/
theorem flush_delivers_in_list_order (fs : ext2_filsys) (entry : inode_list)
    (s0 s1 : dj_state) (order : List block_list) (consecutive_blocks : Nat)
    (hentry : entry.blocks = []) (hinc : callbacks_increasing fs entry.index)
    (hinfo : s1.infos[s0.infos.length]?
      = (scan_blocks_inode fs entry s0).2.infos[s0.infos.length]?)
    (horder : ∀ b ∈ order, b.inode_info = s0.infos.length →
      ∃ b0 ∈ (scan_blocks_inode fs entry s0).1.blocks, same_extent b b0) :
    (∀ b, (scan_blocks_inode fs entry s0).1.blocks.head? = some b → b.logical_block = 0) ∧
    (scan_blocks_inode fs entry s0).1.blocks.Chain'
      (fun a b => b.logical_block = a.logical_block + a.num_blocks) ∧
    ((scan_blocks_inode fs entry s0).1.blocks.map (fun b => b.logical_block)).Pairwise
      (fun x y => x < y) ∧
    ∃ info k, (heapify_stripe_loop fs consecutive_blocks 0 order s1).2.infos[s0.infos.length]?
        = some info ∧
      k ≤ (scan_blocks_inode fs entry s0).1.blocks.length ∧
      info.blocks_read
        = (((scan_blocks_inode fs entry s0).1.blocks.take k).map (fun b => b.num_blocks)).sum ∧
      (calls_of s0.infos.length
          ((heapify_stripe_loop fs consecutive_blocks 0 order s1).2.calls.drop
            s1.calls.length)).map (fun c => (c.pos, c.data_len))
        = ((scan_blocks_inode fs entry s0).1.blocks.take k).map
            (fun b => (b.logical_block * fs.blocksize, b.stripe_ptr.len)) := by
  obtain ⟨info, hi1, hi2, hi3, hi4⟩ := scan_blocks_inode_info fs entry s0
  obtain ⟨c1, _, c3⟩ := scan_inode_chain fs entry s0.infos.length hentry hinc
  rw [scan_blocks_inode_blocks] at horder ⊢
  have hinit : order_inv s1.calls.length fs.blocksize
      (scan_inode fs entry s0.infos.length).blocks s0.infos.length s1 := by
    refine ⟨info, 0, by rw [hinfo, hi1], le_refl _, Nat.zero_le _, by simpa using hi3, ?_, ?_⟩
    · intro c hc; rw [hi4] at hc; cases hc
    · rw [List.drop_length]; rfl
  obtain ⟨info1, k, r1, _, r3, r4, _, r6⟩ := heapify_stripe_loop_order_inv s1.calls.length
    (scan_inode fs entry s0.infos.length).blocks s0.infos.length fs c1 c3
    consecutive_blocks order horder 0 s1 hinit
  exact ⟨logical_chain_head 0 _ c1, logical_chain_chain 0 _ c1,
    logical_chain_increasing 0 _ c1 c3, info1, k, r1, r3, r4, r6⟩

theorem flush_delivers_in_list_order_witness :
    ((scan_blocks_inode three_block_fs ⟨12, 3, []⟩ dj_state.init).1.blocks.map
        (fun b => (b.physical_block, b.logical_block, b.num_blocks))
      = [(50, 0, 1), (30, 1, 1), (40, 2, 1)]) ∧
    ((heapify_stripe_loop three_block_fs 3 0 three_block_order three_block_state).2.calls.map
        (fun c => (c.pos, c.data_len)) = [(0, 1), (1, 1), (2, 1)]) ∧
    ((∀ b, (scan_blocks_inode three_block_fs ⟨12, 3, []⟩ dj_state.init).1.blocks.head? = some b →
        b.logical_block = 0) ∧
    (scan_blocks_inode three_block_fs ⟨12, 3, []⟩ dj_state.init).1.blocks.Chain'
      (fun a b => b.logical_block = a.logical_block + a.num_blocks) ∧
    ((scan_blocks_inode three_block_fs ⟨12, 3, []⟩ dj_state.init).1.blocks.map
      (fun b => b.logical_block)).Pairwise (fun x y => x < y) ∧
    ∃ info k, (heapify_stripe_loop three_block_fs 3 0 three_block_order
          three_block_state).2.infos[dj_state.init.infos.length]? = some info ∧
      k ≤ (scan_blocks_inode three_block_fs ⟨12, 3, []⟩ dj_state.init).1.blocks.length ∧
      info.blocks_read
        = (((scan_blocks_inode three_block_fs ⟨12, 3, []⟩ dj_state.init).1.blocks.take k).map
            (fun b => b.num_blocks)).sum ∧
      (calls_of dj_state.init.infos.length
          ((heapify_stripe_loop three_block_fs 3 0 three_block_order
            three_block_state).2.calls.drop three_block_state.calls.length)).map
              (fun c => (c.pos, c.data_len))
        = ((scan_blocks_inode three_block_fs ⟨12, 3, []⟩ dj_state.init).1.blocks.take k).map
            (fun b => (b.logical_block * three_block_fs.blocksize, b.stripe_ptr.len))) :=
  ⟨by decide, by decide,
   flush_delivers_in_list_order three_block_fs ⟨12, 3, []⟩ dj_state.init three_block_state
    three_block_order 3 rfl (by decide) (by decide) (by decide)⟩

/-- C25: for the file of ten one-byte blocks `ten_block_fs`, scanned from callbacks with
strictly increasing logical block numbers, the records are in list order those of the
logical blocks 0 to 9, one block each (the first has `logical_block` 0, each next one starts
where the one before it ends, no two heap keys are equal). `iterate_dir` reads the whole
list and reaches the end of its loop with the process running, but `flush_inode_blocks` has
delivered the first four records only, in list order: `blocks_read` is 4, `references` is 6,
and the records of the logical blocks 5, 6, 4, 8, 7, 9 are left in the heap, whose root is
not the record of logical block 4. -/
theorem ten_block_file_partly_delivered :
    callbacks_increasing ten_block_fs 12 ∧
    (scan_blocks_inode ten_block_fs ⟨12, 10, []⟩ dj_state.init).1.blocks.map
        (fun b => (b.logical_block, b.num_blocks, b.stripe_ptr.len))
      = [(0, 1, 1), (1, 1, 1), (2, 1, 1), (3, 1, 1), (4, 1, 1), (5, 1, 1), (6, 1, 1),
         (7, 1, 1), (8, 1, 1), (9, 1, 1)] ∧
    logical_chain 0 (scan_blocks_inode ten_block_fs ⟨12, 10, []⟩ dj_state.init).1.blocks ∧
    (iterate_dir ten_block_fs default_params 1 [⟨12, 10, []⟩]).finished = true ∧
    (iterate_dir ten_block_fs default_params 1 [⟨12, 10, []⟩]).block_list_start = [] ∧
    (iterate_dir ten_block_fs default_params 1 [⟨12, 10, []⟩]).state.status
      = run_status.running ∧
    (iterate_dir ten_block_fs default_params 1 [⟨12, 10, []⟩]).state.calls.map
        (fun c => (c.cb_private, c.pos, c.data_len))
      = [(0, 0, 1), (0, 1, 1), (0, 2, 1), (0, 3, 1)] ∧
    (iterate_dir ten_block_fs default_params 1 [⟨12, 10, []⟩]).state.infos.map
        (fun info => (info.blocks_read, info.references, info.freed,
          (heap_records info).map (fun b => b.logical_block)))
      = [(4, 6, false, [5, 6, 4, 8, 7, 9])] := by
  decide

/-! ### Records that arrive in logical order are delivered at once -/

theorem logical_chain_congr (l1 l2 : List block_list)
    (h : l1.map (fun b => (b.inode_info, b.logical_block, b.num_blocks))
      = l2.map (fun b => (b.inode_info, b.logical_block, b.num_blocks)))
    (id start : Nat) :
    logical_chain start (l1.filter (fun x => decide (x.inode_info = id))) ↔
      logical_chain start (l2.filter (fun x => decide (x.inode_info = id))) := by
  induction l1 generalizing l2 start with
  | nil =>
    cases l2 with
    | nil => exact Iff.rfl
    | cons a t => simp at h
  | cons a t ih =>
    cases l2 with
    | nil => simp at h
    | cons c u =>
      simp only [List.map_cons, List.cons.injEq, Prod.mk.injEq] at h
      obtain ⟨⟨e1, e2, e3⟩, ht⟩ := h
      by_cases hid : a.inode_info = id
      · rw [List.filter_cons_of_pos (by simpa using hid),
          List.filter_cons_of_pos (by simpa using (e1 ▸ hid : c.inode_info = id))]
        simp only [logical_chain]
        rw [e2, e3, ih u ht]
      · rw [List.filter_cons_of_neg (by simpa using hid),
          List.filter_cons_of_neg (by simpa using (e1 ▸ hid : ¬ c.inode_info = id))]
        exact ih u ht _

theorem immediate_ready_congr (s s1 : dj_state) (l1 l2 : List block_list)
    (h : l1.map (fun b => (b.inode_info, b.logical_block, b.num_blocks))
      = l2.map (fun b => (b.inode_info, b.logical_block, b.num_blocks)))
    (hs : s1.infos = s.infos) (hr : immediate_ready s l1) : immediate_ready s1 l2 := by
  intro b hb
  have hmem : (b.inode_info, b.logical_block, b.num_blocks)
      ∈ l1.map (fun b => (b.inode_info, b.logical_block, b.num_blocks)) := by
    rw [h]; exact List.mem_map_of_mem _ hb
  obtain ⟨b0, hb0, he⟩ := List.mem_map.1 hmem
  simp only [Prod.mk.injEq] at he
  obtain ⟨info, h1, h2⟩ := hr b0 hb0
  rw [he.1] at h1 h2
  exact ⟨info, by rw [hs]; exact h1, (logical_chain_congr l1 l2 h _ _).1 h2⟩

theorem heapify_block_insert (fs : ext2_filsys) (b : block_list) (M : List block_list)
    (s : dj_state) (sid : Nat) (h : safe fs.blocksize (b :: M) s)
    (hb : b.stripe_ptr.stripe = some sid) :
    ∃ info cache1, s.infos[b.inode_info]? = some info ∧ info.freed = false ∧
      heap_wf cache1 ∧
      (heap_records { info with block_cache := some cache1 }).Perm (b :: heap_records info) ∧
      safe fs.blocksize M
        { s with infos := (s.infos.set b.inode_info
            { info with block_cache := some cache1 }) } ∧
      heapify_block fs b s = flush_inode_blocks fs.blocksize b.inode_info
        { s with infos := (s.infos.set b.inode_info
            { info with block_cache := some cache1 }) } := by
  have hlt := h.pending_inode b (List.mem_cons_self _ _)
  have hi : s.infos[b.inode_info]? = some s.infos[b.inode_info] := List.getElem?_eq_getElem hlt
  generalize s.infos[b.inode_info] = info at hi
  have hio := h.info_all _ info hi
  have hrefs := hio.refs
  rw [count_inode_cons, if_pos rfl] at hrefs
  have hfr : info.freed = false := by
    by_contra hcon
    have := (hio.freed_refs (by simpa using hcon)).1
    omega
  have hopen := hio.open_refs hfr
  have hsz := heap_create_size_eq info.len fs.blocksize hio.cap
  unfold heapify_block
  rw [hi]
  dsimp only
  rw [if_neg (by simp [hfr]), if_neg (fun hh => heap_create_size_not_neg _ _ hio.cap hh.2), hsz, Int.toNat_ofNat]
  cases h2 : heap_insert (match info.block_cache with
      | none => heap_create (info.len / fs.blocksize + 1)
      | some cache => cache) b.logical_block b with
  | none =>
    exfalso
    unfold heap_insert at h2
    split_ifs at h2 with hfull
    cases hc : info.block_cache with
    | none =>
      rw [hc] at hfull
      simp [heap_create] at hfull
    | some c =>
      rw [hc] at hfull
      dsimp only at hfull
      obtain ⟨hw, hmax⟩ := hio.cache_wf c hc
      have hlen := heap_records_length info c hc hw
      omega
  | some cache1 =>
    dsimp only
    obtain ⟨hperm, hw1, hmax1⟩ := heap_records_insert info _ b cache1
      (fun c hc => (hio.cache_wf c hc).1) h2
    have hmax : cache1.max_size = info.len / fs.blocksize + 1 := by
      rw [hmax1]
      cases hc : info.block_cache with
      | none => rfl
      | some c => exact (hio.cache_wf c hc).2
    have hlen := hperm.length_eq
    simp only [List.length_cons] at hlen
    refine ⟨info, cache1, rfl, hfr, hw1, hperm, ?_, rfl⟩
    refine safe_insert fs.blocksize M s b sid info _ h hi hb hperm ?_
    refine ⟨?_, fun hf => (by rw [hfr] at hf; cases hf), fun _ => hopen, ?_, ?_, hio.cap⟩
    · show info.references = _
      omega
    · intro c hc
      simp only [Option.some.injEq] at hc
      subst hc
      exact ⟨hw1, hmax⟩
    · intro x hx
      rcases List.mem_cons.1 (hperm.subset hx) with hx1 | hx1
      · subst hx1; exact ⟨sid, hb⟩
      · exact hio.ptrs x hx1

theorem flush_loop_one (bs id : Nat) (s : dj_state) :
    flush_loop 1 bs id s = (flush_iteration bs id s).1 := by
  simp only [flush_loop]
  split_ifs <;> rfl

theorem heap_records_singleton (info : inode_cb_info) (cache : heap block_list)
    (b : block_list) (hc : info.block_cache = some cache) (hw : heap_wf cache)
    (h : heap_records info = [b]) :
    cache.current_size = 1 ∧ heap_min cache = b ∧
      heap_contents (heap_delmin cache).2 = [] := by
  have hlen := heap_records_length info cache hc hw
  rw [h] at hlen
  simp only [List.length_singleton] at hlen
  have hpos : 0 < cache.current_size := by omega
  have hmem := heap_min_mem_records info cache hc hw hpos
  rw [h, List.mem_singleton] at hmem
  have hdel := heap_delmin_spec cache hw hpos
  have hl := heap_contents_length _ hdel.1
  refine ⟨hlen.symm, hmem, ?_⟩
  apply List.eq_nil_of_length_eq_zero
  omega

theorem flush_deliver_immediate (bs id : Nat) (s : dj_state) (info : inode_cb_info)
    (cache : heap block_list) (sid : Nat) (st : stripe) (b : block_list)
    (hmin : heap_min cache = b)
    (hdel : heap_contents (heap_delmin cache).2 = []) :
    ∃ info1 c, (flush_deliver bs id s info cache sid st).1.infos = s.infos.set id info1 ∧
      heap_records info1 = [] ∧ info1.blocks_read = info.blocks_read + b.num_blocks ∧
      (flush_deliver bs id s info cache sid st).1.calls = s.calls ++ [c] ∧
      c.cb_private = id ∧ c.pos = b.logical_block * bs ∧ c.data_len = b.stripe_ptr.len := by
  unfold flush_deliver
  dsimp only
  rw [hmin]
  by_cases hz : info.references - 1 = 0
  · rw [if_pos hz]
    exact ⟨_, _, rfl, rfl, rfl, rfl, rfl, rfl, rfl⟩
  · rw [if_neg hz]
    refine ⟨_, _, rfl, ?_, rfl, rfl, rfl, rfl, rfl⟩
    simp [heap_records, hdel]

theorem heapify_block_immediate (fs : ext2_filsys) (b : block_list) (M N : List block_list)
    (s : dj_state) (sid : Nat) (ids : List Nat) (h : safe fs.blocksize (b :: M) s)
    (hb : b.stripe_ptr.stripe = some sid) (hid : b.inode_info ∈ ids)
    (hempty : all_empty s ids) (hr : immediate_ready s (b :: N)) :
    all_empty (heapify_block fs b s) ids ∧ immediate_ready (heapify_block fs b s) N ∧
    ∃ c, (heapify_block fs b s).calls = s.calls ++ [c] ∧ c.cb_private = b.inode_info ∧
      c.pos = b.logical_block * fs.blocksize ∧ c.data_len = b.stripe_ptr.len := by
  obtain ⟨info, cache1, hi, hfr, hw1, hperm, hs1, heq⟩ :=
    heapify_block_insert fs b M s sid h hb
  have he : heap_records info = [] := hempty _ hid info hi
  rw [he] at hperm
  have hrec := List.perm_singleton.1 hperm
  obtain ⟨q1, q2, q3⟩ := heap_records_singleton { info with block_cache := some cache1 }
    cache1 b rfl hw1 hrec
  obtain ⟨info0, hi0, hch⟩ := hr b (List.mem_cons_self _ _)
  rw [hi] at hi0
  cases hi0
  rw [List.filter_cons_of_pos (by simp)] at hch
  have hget := getElem?_set_self_of_some s.infos b.inode_info info
    { info with block_cache := some cache1 } hi
  obtain ⟨_, sid1, st, _, _, _, hfl⟩ := flush_iteration_delivers fs.blocksize fs.blocksize M
    _ b.inode_info _ cache1 hs1 hget hfr rfl (by show 0 < cache1.current_size; omega)
    (by rw [q2]; exact hch.1)
  have hflush : heapify_block fs b s = (flush_deliver fs.blocksize b.inode_info
      { s with infos := (s.infos.set b.inode_info { info with block_cache := some cache1 }) }
      { info with block_cache := some cache1 } cache1 sid1 st).1 := by
    rw [heq]
    unfold flush_inode_blocks
    dsimp only
    rw [hget]
    dsimp only
    rw [show heap_size cache1 = 1 from q1, flush_loop_one, hfl]
  obtain ⟨info1, c, d1, d2, d3, d4, d5, d6, d7⟩ := flush_deliver_immediate fs.blocksize
    b.inode_info
    { s with infos := (s.infos.set b.inode_info { info with block_cache := some cache1 }) }
    { info with block_cache := some cache1 } cache1 sid1 st b q2 q3
  rw [hflush]
  generalize (flush_deliver fs.blocksize b.inode_info
      { s with infos := (s.infos.set b.inode_info { info with block_cache := some cache1 }) }
      { info with block_cache := some cache1 } cache1 sid1 st).1 = S at d1 d4 ⊢
  have hinfos : S.infos = s.infos.set b.inode_info info1 := by
    rw [d1]
    exact List.set_set _ _ _ _
  refine ⟨?_, ?_, c, d4, d5, d6, d7⟩
  · intro i hi0 x hx
    rw [hinfos] at hx
    by_cases hib : i = b.inode_info
    · have hx1 : (s.infos.set b.inode_info info1)[i]? = some x := hx
      rw [hib, getElem?_set_self_of_some _ _ _ _ hi] at hx1
      cases hx1
      exact d2
    · have hx1 : (s.infos.set b.inode_info info1)[i]? = some x := hx
      rw [List.getElem?_set_ne (fun h => hib h.symm)] at hx1
      exact hempty i hi0 x hx1
  · intro x hx
    by_cases hid : x.inode_info = b.inode_info
    · refine ⟨info1, ?_, ?_⟩
      · rw [hinfos, hid]
        exact getElem?_set_self_of_some _ _ _ _ hi
      · rw [d3, hid]
        exact hch.2
    · obtain ⟨infox, hx1, hx2⟩ := hr x (List.mem_cons_of_mem _ hx)
      rw [List.filter_cons_of_neg (by simpa using fun h => hid h.symm)] at hx2
      refine ⟨infox, ?_, hx2⟩
      rw [hinfos, List.getElem?_set_ne (fun h => hid h.symm)]
      exact hx1

theorem heapify_stripe_loop_immediate (fs : ext2_filsys) (sid : Nat)
    (A R X : List block_list) (rb cb : Nat) (s : dj_state) (ids : List Nat)
    (hA : ∀ b ∈ A, b.stripe_ptr.stripe = some sid ∧ 0 < b.num_blocks)
    (hcb : rb + (A.map (fun b => b.num_blocks)).sum = cb)
    (h : safe fs.blocksize (A ++ (R ++ X)) s) (hids : ∀ b ∈ A, b.inode_info ∈ ids)
    (hempty : all_empty s ids) (hr : immediate_ready s (A ++ R)) :
    all_empty (heapify_stripe_loop fs cb rb (A ++ R) s).2 ids ∧
    immediate_ready (heapify_stripe_loop fs cb rb (A ++ R) s).2 R ∧
    ∃ extra, (heapify_stripe_loop fs cb rb (A ++ R) s).2.calls = s.calls ++ extra ∧
      extra.map (fun c => (c.cb_private, c.pos, c.data_len))
        = A.map (fun b => (b.inode_info, b.logical_block * fs.blocksize, b.stripe_ptr.len)) := by
  induction A generalizing rb s with
  | nil =>
    simp only [List.map_nil, List.sum_nil, Nat.add_zero] at hcb
    simp only [List.nil_append] at h hr ⊢
    cases R with
    | nil =>
      simp only [heapify_stripe_loop]; rw [if_neg (by omega)]
      exact ⟨hempty, hr, [], by simp, rfl⟩
    | cons b rest =>
      simp only [heapify_stripe_loop]; rw [if_neg (by omega)]
      exact ⟨hempty, hr, [], by simp, rfl⟩
  | cons a A1 ih =>
    have ha := hA a (List.mem_cons_self _ _)
    simp only [List.map_cons, List.sum_cons] at hcb
    simp only [List.cons_append] at h hr
    simp only [List.cons_append, heapify_stripe_loop]
    rw [if_pos (by omega)]
    have h1 := heapify_block_safe fs a (A1 ++ (R ++ X)) s sid h ha.1
    obtain ⟨e1, e2, c, e3, e4, e5, e6⟩ :=
      heapify_block_immediate fs a (A1 ++ (R ++ X)) (A1 ++ R) s sid ids h ha.1
        (hids a (List.mem_cons_self _ _)) hempty hr
    rw [if_pos h1.running]
    obtain ⟨r1, r2, extra, r3, r4⟩ := ih (rb + a.num_blocks) _
      (fun b hb => hA b (List.mem_cons_of_mem _ hb)) (by omega) h1
      (fun b hb => hids b (List.mem_cons_of_mem _ hb)) e1 e2
    refine ⟨r1, r2, c :: extra, ?_, ?_⟩
    · refine r3.trans ?_
      rw [e3, List.append_assoc]
      rfl
    · rw [List.map_cons, List.map_cons, r4, e4, e5, e6]

theorem drain_step_immediate (fs : ext2_filsys) (p : dj_params) (mib : Int)
    (hbs : 0 < fs.blocksize) (hcd : 0 ≤ p.coalesce_distance) (fuel : Nat)
    (head : block_list) (rest X : List block_list) (s : dj_state) (ids : List Nat)
    (hfirst : ∀ b ∈ rest, head.physical_block ≤ b.physical_block)
    (hrange : ∀ b ∈ head :: rest, block_in_range fs.blocksize b)
    (h : safe fs.blocksize ((head :: rest) ++ X) s)
    (hun : ∀ b ∈ (head :: rest) ++ X, unabsorbed b)
    (hids : ∀ b ∈ head :: rest, b.inode_info ∈ ids)
    (hempty : all_empty s ids) (hr : immediate_ready s (head :: rest)) :
    ∃ k S, k ≤ rest.length ∧
      drain_loop fs p mib (fuel + 1) (head :: rest) [] s
        = drain_loop fs p mib fuel (rest.drop k) [] S ∧
      safe fs.blocksize (rest.drop k ++ X) S ∧ all_empty S ids ∧
      immediate_ready S (rest.drop k) ∧
      ∃ extra, S.calls = s.calls ++ extra ∧
        extra.map (fun c => (c.cb_private, c.pos, c.data_len))
          = (head :: rest.take k).map
              (fun b => (b.inode_info, b.logical_block * fs.blocksize, b.stripe_ptr.len)) := by
  obtain ⟨i1, i2, i3, _⟩ := drain_iteration_safe fs p mib hcd head rest X s h hun
  have hhead := hun head (by simp)
  obtain ⟨k, k0, k1, k2, k3, k4, k5, k6⟩ :=
    drain_stripe_shape fs p mib s.stripes.length head rest hcd hhead.2
  have hpos := next_stripe_len_pos_sorted fs.blocksize s.stripes.length
    p.coalesce_distance mib head rest hbs hcd hrange hfirst
  rw [← k6] at hpos
  have hsplit : (head :: rest.take k) ++ (rest.drop k ++ X) = (head :: rest) ++ X := by
    simp [← List.append_assoc, List.take_append_drop]
  have hs1 := safe_new_stripe fs.blocksize fs.blocksize head.physical_block
    (head :: rest.take k) (rest.drop k) X s
    (drain_stripe fs p mib s.stripes.length head rest).1
    (by rw [hsplit]; exact h)
    (by rw [hsplit]; exact fun b hb => (hun b hb).1) k3 k5
  have hA : ∀ b ∈ (head :: rest.take k).map (absorb fs.blocksize s.stripes.length
      head.physical_block), b.stripe_ptr.stripe = some s.stripes.length ∧ 0 < b.num_blocks := by
    intro b hb
    obtain ⟨b0, hb0, rfl⟩ := List.mem_map.1 hb
    refine ⟨rfl, ?_⟩
    have : b0 ∈ (head :: rest) ++ X := by
      rw [← hsplit]; exact List.mem_append_left _ hb0
    exact (hun b0 this).2
  have hidsA : ∀ b ∈ (head :: rest.take k).map (absorb fs.blocksize s.stripes.length
      head.physical_block), b.inode_info ∈ ids := by
    intro b hb
    obtain ⟨b0, hb0, rfl⟩ := List.mem_map.1 hb
    have hm : b0 ∈ head :: rest := by
      rcases List.mem_cons.1 hb0 with hb1 | hb1
      · rw [hb1]; exact List.mem_cons_self _ _
      · exact List.mem_cons_of_mem _ (List.mem_of_mem_take hb1)
    exact hids b0 hm
  have hkeys : (head :: rest).map (fun b => (b.inode_info, b.logical_block, b.num_blocks))
      = ((head :: rest.take k).map (absorb fs.blocksize s.stripes.length head.physical_block)
          ++ rest.drop k).map (fun b => (b.inode_info, b.logical_block, b.num_blocks)) := by
    conv_lhs => rw [← List.take_append_drop k rest]
    simp [absorb, Function.comp_def]
  have hr1 : immediate_ready
      { s with stripes := s.stripes ++ [(drain_stripe fs p mib s.stripes.length head rest).1] }
      ((head :: rest.take k).map (absorb fs.blocksize s.stripes.length head.physical_block)
        ++ rest.drop k) :=
    immediate_ready_congr s _ _ _ hkeys rfl hr
  obtain ⟨r1, r2, extra, r3, r4⟩ := heapify_stripe_loop_immediate fs s.stripes.length
    ((head :: rest.take k).map (absorb fs.blocksize s.stripes.length head.physical_block))
    (rest.drop k) X 0
    (drain_stripe fs p mib s.stripes.length head rest).1.consecutive_blocks
    { s with stripes := s.stripes ++ [(drain_stripe fs p mib s.stripes.length head rest).1] }
    ids hA (by rw [k4]; simp) hs1 hidsA hempty hr1
  have hh : heapify_stripe fs
      ((drain_stripe fs p mib s.stripes.length head rest).2.1
        ++ (drain_stripe fs p mib s.stripes.length head rest).2.2) s.stripes.length mib
      { s with stripes := s.stripes
          ++ [(drain_stripe fs p mib s.stripes.length head rest).1] }
      = heapify_stripe_loop fs
          (drain_stripe fs p mib s.stripes.length head rest).1.consecutive_blocks 0
          ((head :: rest.take k).map (absorb fs.blocksize s.stripes.length head.physical_block)
            ++ rest.drop k)
          { s with stripes := s.stripes
              ++ [(drain_stripe fs p mib s.stripes.length head rest).1] } := by
    unfold heapify_stripe
    dsimp only
    rw [List.getElem?_concat_length]
    dsimp only
    rw [if_neg (by simp [k5]), k1, k2]
  simp only [drain_loop]
  rw [if_neg (by simp [i1]), if_pos i3.running, i2, drain_requeue_pos _ hpos]
  rw [hh] at i3 ⊢
  generalize (heapify_stripe_loop fs
      (drain_stripe fs p mib s.stripes.length head rest).1.consecutive_blocks 0
      ((head :: rest.take k).map (absorb fs.blocksize s.stripes.length head.physical_block)
        ++ rest.drop k)
      { s with stripes := s.stripes
          ++ [(drain_stripe fs p mib s.stripes.length head rest).1] }).2 = S
    at i3 r1 r2 r3 ⊢
  rw [k2] at i3 ⊢
  refine ⟨k, S, k0, rfl, i3, r1, r2, extra, r3, ?_⟩
  rw [r4]
  simp [absorb, Function.comp_def]

theorem drain_loop_immediate (fs : ext2_filsys) (p : dj_params) (mib : Int)
    (hbs : 0 < fs.blocksize) (hcd : 0 ≤ p.coalesce_distance) (fuel : Nat)
    (l X : List block_list) (s : dj_state) (ids : List Nat)
    (hsorted : l.Pairwise (fun a b => a.physical_block ≤ b.physical_block))
    (hrange : ∀ b ∈ l, block_in_range fs.blocksize b)
    (h : safe fs.blocksize (l ++ X) s) (hun : ∀ b ∈ l ++ X, unabsorbed b)
    (hids : ∀ b ∈ l, b.inode_info ∈ ids)
    (hempty : all_empty s ids) (hr : immediate_ready s l) :
    ∃ m extra, m ≤ l.length ∧
      (l.length ≤ fuel → m = l.length ∧ (drain_loop fs p mib fuel l [] s).1 = [] ∧
        (drain_loop fs p mib fuel l [] s).2.status = run_status.running) ∧
      all_empty (drain_loop fs p mib fuel l [] s).2 ids ∧
      immediate_ready (drain_loop fs p mib fuel l [] s).2 (l.drop m) ∧
      (drain_loop fs p mib fuel l [] s).2.calls = s.calls ++ extra ∧
      extra.map (fun c => (c.cb_private, c.pos, c.data_len))
        = (l.take m).map
            (fun b => (b.inode_info, b.logical_block * fs.blocksize, b.stripe_ptr.len)) := by
  induction fuel generalizing l s with
  | zero =>
    refine ⟨0, [], Nat.zero_le _, ?_, hempty, hr, by simp [drain_loop], by simp⟩
    intro hl
    have : l = [] := List.length_eq_zero.1 (by omega)
    subst this
    exact ⟨rfl, rfl, h.running⟩
  | succ f ih =>
    cases l with
    | nil =>
      exact ⟨0, [], Nat.zero_le _, fun _ => ⟨rfl, rfl, h.running⟩, hempty, hr,
        by simp [drain_loop], by simp⟩
    | cons head rest =>
      have hps := List.pairwise_cons.1 hsorted
      obtain ⟨k, S, k0, hstep, hS, hE, hR, extra1, c1, c2⟩ :=
        drain_step_immediate fs p mib hbs hcd f head rest X s ids hps.1 hrange h hun hids
          hempty hr
      have hsub : ∀ x ∈ rest.drop k, x ∈ rest := fun x hx => List.mem_of_mem_drop hx
      obtain ⟨m, extra2, m0, m1, m2, m3, m4, m5⟩ := ih (rest.drop k) S
        (hps.2.sublist (List.drop_sublist k rest))
        (fun x hx => hrange x (List.mem_cons_of_mem _ (hsub x hx))) hS
        (by
          intro x hx
          apply hun
          rcases List.mem_append.1 hx with hx1 | hx1
          · exact List.mem_append_left _ (List.mem_cons_of_mem _ (hsub x hx1))
          · exact List.mem_append_right _ hx1)
        (fun x hx => hids x (List.mem_cons_of_mem _ (hsub x hx)))
        hE hR
      rw [hstep]
      rw [List.length_drop] at m0 m1
      refine ⟨k + m + 1, extra1 ++ extra2, ?_, ?_, m2, ?_, ?_, ?_⟩
      · simp only [List.length_cons]; omega
      · intro hl
        simp only [List.length_cons] at hl ⊢
        obtain ⟨a1, a2, a3⟩ := m1 (by omega)
        exact ⟨by omega, a2, a3⟩
      · rw [List.drop_succ_cons, ← List.drop_drop]
        exact m3
      · rw [m4, c1, List.append_assoc]
      · rw [List.map_append, c2, m5, List.take_succ_cons, List.take_add, List.map_cons,
          List.map_cons, List.map_append]
        rfl

theorem admit_loop_split (max : Int) (il : List inode_list) (bls : List block_list)
    (s : dj_state) :
    ∃ taken, il = taken ++ (admit_loop max il bls s).1 ∧
      (admit_loop max il bls s).2.1 = bls ++ pending_blocks taken ∧
      (admit_loop max il bls s).2.2.infos = s.infos := by
  induction il generalizing bls s with
  | nil => exact ⟨[], rfl, by simp [admit_loop, pending_blocks], rfl⟩
  | cons e rest ih =>
    simp only [admit_loop]
    by_cases h1 : s.open_inodes_count < max
    · rw [if_pos h1]
      by_cases h2 : e.blocks ≠ []
      · rw [if_pos h2]
        obtain ⟨taken, t1, t2, t3⟩ := ih (bls ++ e.blocks)
          { s with open_inodes_count := s.open_inodes_count + 1,
                   open_inodes_hist := s.open_inodes_hist ++ [s.open_inodes_count + 1] }
        refine ⟨e :: taken, ?_, ?_, t3⟩
        · rw [List.cons_append, ← t1]
        · rw [t2, pending_blocks, List.append_assoc]
      · rw [if_neg h2]
        have h4 : e.blocks = [] := by simpa using h2
        obtain ⟨taken, t1, t2, t3⟩ := ih bls s
        refine ⟨e :: taken, ?_, ?_, t3⟩
        · rw [List.cons_append, ← t1]
        · rw [t2, pending_blocks, h4, List.nil_append]
    · rw [if_neg h1]
      exact ⟨[], rfl, by simp [pending_blocks], rfl⟩

theorem mem_pending_blocks (il : List inode_list) (b : block_list) :
    b ∈ pending_blocks il ↔ ∃ e ∈ il, b ∈ e.blocks := by
  induction il with
  | nil => simp [pending_blocks]
  | cons e rest ih => simp [pending_blocks, ih]

theorem read_loop_suffix (fs : ext2_filsys) (p : dj_params) (fuel : Nat)
    (il : List inode_list) (bls : List block_list) (s : dj_state) :
    ∃ taken, il = taken ++ (read_loop fs p fuel il bls s).inode_list := by
  induction fuel generalizing il bls s with
  | zero => exact ⟨[], rfl⟩
  | succ f ih =>
    simp only [read_loop]
    by_cases h1 : il = []
    · rw [if_pos h1]; exact ⟨[], rfl⟩
    rw [if_neg h1]
    obtain ⟨t1, e1, _, _⟩ := admit_loop_split p.max_inodes il bls s
    split_ifs
    · obtain ⟨t2, e2⟩ := ih (admit_loop p.max_inodes il bls s).1
        (drain_loop fs p (max_inode_blocks p.max_blocks
          (admit_loop p.max_inodes il bls s).2.2.open_inodes_count)
          (block_list_sort (admit_loop p.max_inodes il bls s).2.1).length
          (block_list_sort (admit_loop p.max_inodes il bls s).2.1) []
          (admit_loop p.max_inodes il bls s).2.2).1
        (drain_loop fs p (max_inode_blocks p.max_blocks
          (admit_loop p.max_inodes il bls s).2.2.open_inodes_count)
          (block_list_sort (admit_loop p.max_inodes il bls s).2.1).length
          (block_list_sort (admit_loop p.max_inodes il bls s).2.1) []
          (admit_loop p.max_inodes il bls s).2.2).2
      refine ⟨t1 ++ t2, ?_⟩
      rw [List.append_assoc, ← e2]
      exact e1
    · exact ⟨t1, e1⟩

theorem heapify_block_fresh (fs : ext2_filsys) (b b2 : block_list) (s : dj_state)
    (hne : b.inode_info ≠ b2.inode_info) (h : fresh_inode s b2) :
    fresh_inode (heapify_block fs b s) b2 := by
  have hu := heapify_block_untouched b2.inode_info (s.infos[b2.inode_info]?)
    (calls_of b2.inode_info s.calls) fs b s hne ⟨rfl, rfl⟩
  intro info hi
  have hi1 : (heapify_block fs b s).infos[b2.inode_info]? = some info := hi
  rw [hu.1] at hi1
  exact h info hi1

theorem read_loop_fresh (fs : ext2_filsys) (p : dj_params) (fuel : Nat)
    (il : List inode_list) (bls : List block_list) (s : dj_state)
    (hsep : separate_inodes il)
    (hbls : ∀ b ∈ bls, ∀ e ∈ il, ∀ b2 ∈ e.blocks, b.inode_info ≠ b2.inode_info)
    (hf : ∀ e ∈ il, ∀ b ∈ e.blocks, fresh_inode s b) :
    ∀ e ∈ (read_loop fs p fuel il bls s).inode_list, ∀ b ∈ e.blocks,
      fresh_inode (read_loop fs p fuel il bls s).state b := by
  induction fuel generalizing il bls s with
  | zero => exact hf
  | succ f ih =>
    simp only [read_loop]
    by_cases h1 : il = []
    · rw [if_pos h1]; exact hf
    rw [if_neg h1]
    obtain ⟨taken, t1, t2, t3⟩ := admit_loop_split p.max_inodes il bls s
    generalize admit_loop p.max_inodes il bls s = a at t1 t2 t3
    have hsep0 : separate_inodes (taken ++ a.1) := by rw [← t1]; exact hsep
    have hsepa : separate_inodes a.1 := (List.pairwise_append.1 hsep0).2.1
    have hmem : ∀ e ∈ a.1, e ∈ il := fun e he => by rw [t1]; exact List.mem_append_right _ he
    have hQ : ∀ b ∈ block_list_sort a.2.1,
        ∀ e ∈ a.1, ∀ b2 ∈ e.blocks, b.inode_info ≠ b2.inode_info := by
      intro b hb e he b2 hb2
      have hb1 := (block_list_sort_mem _ b).1 hb
      rw [t2] at hb1
      rcases List.mem_append.1 hb1 with hb3 | hb3
      · exact hbls b hb3 e (hmem e he) b2 hb2
      · obtain ⟨e0, he0, hb0⟩ := (mem_pending_blocks taken b).1 hb3
        exact (List.pairwise_append.1 hsep0).2.2 e0 he0 e he b hb0 b2 hb2
    have hfa : ∀ e ∈ a.1, ∀ b ∈ e.blocks, fresh_inode a.2.2 b := by
      intro e he b hb info hi
      have hi1 : a.2.2.infos[b.inode_info]? = some info := hi
      rw [t3] at hi1
      exact hf e (hmem e he) b hb info hi1
    have hd := drain_loop_preserves
      (fun s1 => ∀ e ∈ a.1, ∀ b ∈ e.blocks, fresh_inode s1 b)
      (fun b => ∀ e ∈ a.1, ∀ b2 ∈ e.blocks, b.inode_info ≠ b2.inode_info)
      fs p (max_inode_blocks p.max_blocks a.2.2.open_inodes_count)
      (fun _ _ h => h) (fun _ _ h => h)
      (fun b s1 hb h e he b2 hb2 => heapify_block_fresh fs b b2 s1 (hb e he b2 hb2)
        (h e he b2 hb2))
      (fun _ _ _ h => h)
      (block_list_sort a.2.1).length (block_list_sort a.2.1) [] a.2.2 hQ (by simp) hfa
    split_ifs
    · exact ih _ _ _ hsepa hd.2 hd.1
    · exact hd.1

theorem scan_blocks_inode_unread (fs : ext2_filsys) (e : inode_list) (s : dj_state)
    (h : ∀ info ∈ s.infos, info.blocks_read = 0 ∧ info.block_cache = none) :
    ∀ info ∈ (scan_blocks_inode fs e s).2.infos,
      info.blocks_read = 0 ∧ info.block_cache = none := by
  obtain ⟨_, _, f3, f4, _⟩ := scan_inode_frame fs e s.infos.length
  unfold scan_blocks_inode
  dsimp only
  split_ifs
  · intro info hi
    rcases List.mem_append.1 hi with hi | hi
    · exact h info hi
    · simp only [List.mem_singleton] at hi
      subst hi
      exact ⟨f3, f4⟩
  · intro info hi
    rcases List.mem_append.1 hi with hi | hi
    · exact h info hi
    · simp only [List.mem_singleton] at hi
      subst hi
      exact ⟨f3, f4⟩

theorem scan_blocks_unread (fs : ext2_filsys) (l : List inode_list) (s : dj_state)
    (h : ∀ info ∈ s.infos, info.blocks_read = 0 ∧ info.block_cache = none) :
    ∀ info ∈ (scan_blocks fs l s).2.infos,
      info.blocks_read = 0 ∧ info.block_cache = none := by
  induction l generalizing s with
  | nil => exact h
  | cons e rest ih =>
    simp only [scan_blocks]
    exact ih _ (scan_blocks_inode_unread fs e s h)

theorem scan_blocks_separate (fs : ext2_filsys) (l : List inode_list) (s : dj_state)
    (hl : ∀ e ∈ l, e.blocks = []) : separate_inodes (scan_blocks fs l s).1 := by
  have hp := scan_blocks_positions fs l s hl
  unfold separate_inodes
  rw [List.pairwise_iff_getElem]
  intro i j hi hj hij b1 hb1 b2 hb2
  have h1 := (hp i _ (List.getElem?_eq_getElem hi)).2 b1 hb1
  have h2 := (hp j _ (List.getElem?_eq_getElem hj)).2 b2 hb2
  omega

theorem iterate_dir_batch_ready (fs : ext2_filsys) (p : dj_params) (hbs : 0 < fs.blocksize)
    (hcd : 0 ≤ p.coalesce_distance) (fuel : Nat) (inodes : List inode_list)
    (hl : ∀ e ∈ inodes, e.blocks = [])
    (hinc : ∀ e ∈ inodes, callbacks_increasing fs e.index)
    (hr : ∀ e ∈ inodes, callbacks_in_range fs e.index)
    (hcap : ∀ e ∈ inodes, e.len / fs.blocksize + 1 < 2147483648)
    (a : List inode_list × List block_list × dj_state)
    (ha : a = admit_loop p.max_inodes (iterate_dir fs p fuel inodes).inode_list
      (iterate_dir fs p fuel inodes).block_list_start (iterate_dir fs p fuel inodes).state) :
    (block_list_sort a.2.1).Pairwise (fun x y => x.physical_block ≤ y.physical_block) ∧
    (∀ b ∈ block_list_sort a.2.1, block_in_range fs.blocksize b) ∧
    safe fs.blocksize (block_list_sort a.2.1 ++ pending_blocks a.1) a.2.2 ∧
    (∀ b ∈ block_list_sort a.2.1 ++ pending_blocks a.1, unabsorbed b) ∧
    ∀ b ∈ block_list_sort a.2.1, fresh_inode a.2.2 b := by
  have hl1 : ∀ e ∈ inode_list_sort inodes, e.blocks = [] :=
    fun e he => hl e ((inode_list_sort_mem inodes e).1 he)
  obtain ⟨_, h2⟩ := scan_blocks_safe fs hbs (inode_list_sort inodes) hl1
    (fun e he => hinc e ((inode_list_sort_mem inodes e).1 he))
    (fun e he => hcap e ((inode_list_sort_mem inodes e).1 he)) [] dj_state.init
    (safe_init fs.blocksize)
  have h3 := scan_blocks_in_range fs (inode_list_sort inodes) dj_state.init hl1
    (fun e he => hr e ((inode_list_sort_mem inodes e).1 he))
  have hsafe := iterate_dir_safe fs p hbs hcd fuel inodes hl hinc hcap
  obtain ⟨hnil, _⟩ := iterate_dir_no_requeue fs p hbs hcd fuel inodes hl hinc hr hcap
  have hfresh : ∀ e ∈ (iterate_dir fs p fuel inodes).inode_list, ∀ b ∈ e.blocks,
      fresh_inode (iterate_dir fs p fuel inodes).state b := by
    unfold iterate_dir
    refine read_loop_fresh fs p fuel _ [] _
      (scan_blocks_separate fs (inode_list_sort inodes) dj_state.init hl1) (by simp) ?_
    intro e _ b _ info hi
    have hu := scan_blocks_unread fs (inode_list_sort inodes) dj_state.init
      (by simp [dj_state.init]) info (List.getElem?_mem hi)
    exact ⟨hu.1, by simp [heap_records, hu.2]⟩
  have hsub : ∀ b ∈ pending_blocks (iterate_dir fs p fuel inodes).inode_list,
      b ∈ pending_blocks (scan_blocks fs (inode_list_sort inodes) dj_state.init).1 := by
    intro b hb
    obtain ⟨e, he, hbe⟩ := (mem_pending_blocks _ b).1 hb
    obtain ⟨taken, ht⟩ := read_loop_suffix fs p fuel
      (scan_blocks fs (inode_list_sort inodes) dj_state.init).1 []
      (scan_blocks fs (inode_list_sort inodes) dj_state.init).2
    refine (mem_pending_blocks _ b).2 ⟨e, ?_, hbe⟩
    rw [ht]
    exact List.mem_append_right _ he
  generalize iterate_dir fs p fuel inodes = r at ha hsafe hnil hfresh hsub
  rw [hnil] at ha hsafe
  rw [List.nil_append] at hsafe
  obtain ⟨a1, a2⟩ := admit_loop_safe fs.blocksize p.max_inodes r.inode_list [] r.state
    (by rw [List.nil_append]; exact hsafe)
  obtain ⟨taken, t1, t2, t3⟩ := admit_loop_split p.max_inodes r.inode_list [] r.state
  rw [← ha] at a1 a2 t1 t2 t3
  rw [List.nil_append] at a1 a2 t2
  have hperm : (pending_blocks r.inode_list).Perm
      (block_list_sort a.2.1 ++ pending_blocks a.1) := by
    rw [← a1]
    exact (block_list_sort_perm _).symm.append_right _
  have hin : ∀ b ∈ block_list_sort a.2.1, b ∈ pending_blocks r.inode_list :=
    fun b hb => hperm.symm.subset (List.mem_append_left _ hb)
  refine ⟨block_list_sort_sorted _, fun b hb => h3 b (hsub b (hin b hb)),
    safe_perm _ _ _ _ hperm a2, fun b hb => h2 b (hsub b (hperm.symm.subset hb)), ?_⟩
  intro b hb info hi
  obtain ⟨e, he, hbe⟩ := (mem_pending_blocks _ b).1 (hin b hb)
  have hi1 : a.2.2.infos[b.inode_info]? = some info := hi
  rw [t3] at hi1
  exact hfresh e he b hbe info hi1

/-- C21: the drain loop runs on a scheduled list `L` sorted by physical block whose inodes
are untouched (`fresh_inode`: no block delivered, no record in the heap), and the records of
each inode appear in `L` in logical order: the first at logical block 0, each next one where
the one before it ends. Then (first part) the iteration of `heapify_stripe` for a record, in
a state in which the heaps of the inodes `ids` hold no record and the list is ready, makes
exactly one invocation, the one for this record, and leaves those heaps without records and
the rest of the list ready: the heap held this one record only. And (second part) after any
number `fuel` of stripes the heaps of the inodes of `L` are without records, the rest
`L.drop m` of the list is ready, and the invocations made so far are those of the first `m`
records of `L`, in the order of `L`; with `fuel` for the whole list, `m` is the length of
`L`, so the invocations are made in the physical order of the list. And (third part) in
`iterate_dir` the list and the state of every drain loop, the first as well as the later
ones, meet the other conditions: the list is sorted and in range, the reference counts are
exact, the records are not absorbed, and the inodes of the list are untouched. -/
theorem sorted_list_delivered_at_once (fs : ext2_filsys) (p : dj_params) (mib : Int)
    (hbs : 0 < fs.blocksize) (hcd : 0 ≤ p.coalesce_distance)
    (L X : List block_list) (s : dj_state)
    (hsorted : L.Pairwise (fun a b => a.physical_block ≤ b.physical_block))
    (hrange : ∀ b ∈ L, block_in_range fs.blocksize b)
    (hsafe : safe fs.blocksize (L ++ X) s) (hun : ∀ b ∈ L ++ X, unabsorbed b)
    (hfresh : ∀ b ∈ L, fresh_inode s b)
    (horder : ∀ b ∈ L,
      logical_chain 0 (L.filter (fun x => decide (x.inode_info = b.inode_info)))) :
    (∀ (b : block_list) (M N : List block_list) (s1 : dj_state) (sid : Nat) (ids : List Nat),
      safe fs.blocksize (b :: M) s1 → b.stripe_ptr.stripe = some sid →
      b.inode_info ∈ ids → all_empty s1 ids → immediate_ready s1 (b :: N) →
        all_empty (heapify_block fs b s1) ids ∧ immediate_ready (heapify_block fs b s1) N ∧
        ∃ c, (heapify_block fs b s1).calls = s1.calls ++ [c] ∧
          c.cb_private = b.inode_info ∧ c.pos = b.logical_block * fs.blocksize ∧
          c.data_len = b.stripe_ptr.len) ∧
    (∀ fuel, ∃ m extra, m ≤ L.length ∧
      (L.length ≤ fuel → m = L.length ∧ (drain_loop fs p mib fuel L [] s).1 = [] ∧
        (drain_loop fs p mib fuel L [] s).2.status = run_status.running) ∧
      all_empty (drain_loop fs p mib fuel L [] s).2 (L.map (fun b => b.inode_info)) ∧
      immediate_ready (drain_loop fs p mib fuel L [] s).2 (L.drop m) ∧
      (drain_loop fs p mib fuel L [] s).2.calls = s.calls ++ extra ∧
      extra.map (fun c => (c.cb_private, c.pos, c.data_len))
        = (L.take m).map
            (fun b => (b.inode_info, b.logical_block * fs.blocksize, b.stripe_ptr.len))) ∧
    ∀ (inodes : List inode_list) (n : Nat) (a : List inode_list × List block_list × dj_state),
      (∀ e ∈ inodes, e.blocks = []) → (∀ e ∈ inodes, callbacks_increasing fs e.index) →
      (∀ e ∈ inodes, callbacks_in_range fs e.index) →
      (∀ e ∈ inodes, e.len / fs.blocksize + 1 < 2147483648) →
      a = admit_loop p.max_inodes (iterate_dir fs p n inodes).inode_list
        (iterate_dir fs p n inodes).block_list_start (iterate_dir fs p n inodes).state →
      (block_list_sort a.2.1).Pairwise (fun x y => x.physical_block ≤ y.physical_block) ∧
      (∀ b ∈ block_list_sort a.2.1, block_in_range fs.blocksize b) ∧
      safe fs.blocksize (block_list_sort a.2.1 ++ pending_blocks a.1) a.2.2 ∧
      (∀ b ∈ block_list_sort a.2.1 ++ pending_blocks a.1, unabsorbed b) ∧
      ∀ b ∈ block_list_sort a.2.1, fresh_inode a.2.2 b := by
  have hr : immediate_ready s L := by
    intro b hb
    have hlt := hsafe.pending_inode b (List.mem_append_left _ hb)
    refine ⟨s.infos[b.inode_info], List.getElem?_eq_getElem hlt, ?_⟩
    rw [(hfresh b hb _ (List.getElem?_eq_getElem hlt)).1]
    exact horder b hb
  have hempty : all_empty s (L.map (fun b => b.inode_info)) := by
    intro i hi info hinfo
    obtain ⟨b, hb, rfl⟩ := List.mem_map.1 hi
    exact (hfresh b hb info hinfo).2
  refine ⟨fun b M N s1 sid ids h1 h2 h3 h4 h5 =>
      heapify_block_immediate fs b M N s1 sid ids h1 h2 h3 h4 h5,
    fun fuel => drain_loop_immediate fs p mib hbs hcd fuel L X s _ hsorted hrange hsafe hun
      (fun b hb => List.mem_map_of_mem _ hb) hempty hr,
    fun inodes n a hl hinc hrg hcap ha =>
      iterate_dir_batch_ready fs p hbs hcd n inodes hl hinc hrg hcap a ha⟩

theorem sorted_list_delivered_at_once_witness :
    ((iterate_dir interleaved_fs default_params 1 interleaved_inodes).state.calls.map
        (fun c => (c.inode, c.pos, c.data_len))
      = [(11, 0, 4096), (12, 0, 4096), (11, 4096, 4096), (12, 4096, 4096)] ∧
     block_list_sort (pending_blocks
        (scan_blocks interleaved_fs interleaved_inodes dj_state.init).1) = interleaved_list ∧
     (drain_loop interleaved_fs default_params 128000 4 interleaved_list []
        interleaved_state).2.calls.map (fun c => (c.cb_private, c.pos, c.data_len))
      = [(0, 0, 4096), (1, 0, 4096), (0, 4096, 4096), (1, 4096, 4096)] ∧
     (interleaved_second_state.infos.map (fun info => (info.blocks_read, info.freed))
      = [(2, true), (0, false)]) ∧
     (drain_loop interleaved_fs one_inode_params 128000 2 interleaved_second_list []
        interleaved_second_state).2.calls.map (fun c => (c.cb_private, c.pos, c.data_len))
      = [(0, 0, 4096), (0, 4096, 4096), (1, 0, 4096), (1, 4096, 4096)]) ∧
    ∀ fuel, ∃ m extra, m ≤ interleaved_second_list.length ∧
      (interleaved_second_list.length ≤ fuel → m = interleaved_second_list.length ∧
        (drain_loop interleaved_fs one_inode_params 128000 fuel interleaved_second_list []
          interleaved_second_state).1 = [] ∧
        (drain_loop interleaved_fs one_inode_params 128000 fuel interleaved_second_list []
          interleaved_second_state).2.status = run_status.running) ∧
      all_empty (drain_loop interleaved_fs one_inode_params 128000 fuel
        interleaved_second_list [] interleaved_second_state).2
        (interleaved_second_list.map (fun b => b.inode_info)) ∧
      immediate_ready (drain_loop interleaved_fs one_inode_params 128000 fuel
        interleaved_second_list [] interleaved_second_state).2
        (interleaved_second_list.drop m) ∧
      (drain_loop interleaved_fs one_inode_params 128000 fuel interleaved_second_list []
        interleaved_second_state).2.calls = interleaved_second_state.calls ++ extra ∧
      extra.map (fun c => (c.cb_private, c.pos, c.data_len))
        = (interleaved_second_list.take m).map
            (fun b => (b.inode_info, b.logical_block * interleaved_fs.blocksize,
              b.stripe_ptr.len)) :=
  ⟨by decide,
   (sorted_list_delivered_at_once interleaved_fs one_inode_params 128000 (by decide)
    (by decide) interleaved_second_list [] interleaved_second_state (by decide) (by decide)
    (safe_perm 4096 _ _ _ (by decide)
      (iterate_dir_batch_ready interleaved_fs one_inode_params (by decide) (by decide) 1
        interleaved_inodes (by decide) (by decide) (by decide) (by decide) _ rfl).2.2.1)
    (by decide) (by decide) (by decide)).2.1⟩

end Dj
